import Mathlib

/-!
# ReplicatedPG: the replicated placement-group write path

A shallow embedding of `osd/ReplicatedPG.cc`.  The C++ object `ReplicatedPG`
becomes the record `ReplicatedPG`; every method becomes a function that takes
the record and returns the updated one.  A failed `assert` aborts the process
and is rendered as `none`.

Types that the translation unit only uses (they are declared in headers) are
rendered as plain records: `std::set<int>` is a list read through membership,
`std::map<K,V>` is an association list, `eversion_t` is a pair of naturals in
lexicographic order whose version component is an unsigned 64-bit counter
(`assign_version` increments it modulo `2 ^ 64`), `bufferlist` is a list of bytes.
-/

namespace Ceph

/-! ## Basic types -/

/-- Version of a mutation inside a PG: `(epoch, version)`. -/
structure eversion_t where
  epoch : Nat
  version : Nat
deriving DecidableEq, Repr

/-- Modelled from the spec: the comparison operators of `eversion_t` are declared
outside this translation unit; the data model orders the pair lexicographically,
epoch first. -/
def eversion_t.lt (l r : eversion_t) : Bool :=
  if l.epoch = r.epoch then decide (l.version < r.version) else decide (l.epoch < r.epoch)

/-- The order that the comparison operators of `eversion_t` give. -/
instance : LinearOrder eversion_t where
  le l r := eversion_t.lt r l = false
  lt l r := eversion_t.lt l r = true
  le_refl a := by
    show eversion_t.lt a a = false
    unfold eversion_t.lt; simp
  le_trans a b c := by
    show eversion_t.lt b a = false → eversion_t.lt c b = false → eversion_t.lt c a = false
    unfold eversion_t.lt
    intro h1 h2
    split at h1 <;> split at h2 <;> split <;> simp at * <;> omega
  lt_iff_le_not_le a b := by
    show eversion_t.lt a b = true ↔ eversion_t.lt b a = false ∧ ¬ eversion_t.lt a b = false
    unfold eversion_t.lt
    split <;> split <;> simp at * <;> omega
  le_antisymm a b := by
    show eversion_t.lt b a = false → eversion_t.lt a b = false → a = b
    unfold eversion_t.lt
    intro h1 h2
    cases a; cases b
    split at h1 <;> split at h2 <;> simp at * <;> omega
  le_total a b := by
    show eversion_t.lt b a = false ∨ eversion_t.lt a b = false
    unfold eversion_t.lt
    split <;> split <;> simp at * <;> omega
  decidableLE l r := inferInstanceAs (Decidable (eversion_t.lt r l = false))
  decidableLT l r := inferInstanceAs (Decidable (eversion_t.lt l r = true))
  decidableEq := inferInstance

instance eversion_t.decidableLe (l r : eversion_t) : Decidable (l ≤ r) :=
  inferInstanceAs (Decidable (eversion_t.lt r l = false))

instance eversion_t.decidableLt (l r : eversion_t) : Decidable (l < r) :=
  inferInstanceAs (Decidable (eversion_t.lt l r = true))

/-- The default-constructed `eversion_t()`. -/
def eversion_t.zero : eversion_t := { epoch := 0, version := 0 }

/-- Object name with revision; `rev = 0` means no historical clone. -/
structure object_t where
  ino : Nat
  rev : Nat
deriving DecidableEq, Repr

/-- Opcodes carried by an `MOSDOp`. -/
inductive osd_op_t where
  | OSD_OP_READ
  | OSD_OP_STAT
  | OSD_OP_WRNOOP
  | OSD_OP_WRITE
  | OSD_OP_ZERO
  | OSD_OP_DELETE
  | OSD_OP_TRUNCATE
  | OSD_OP_WRLOCK
  | OSD_OP_WRUNLOCK
  | OSD_OP_PULL
  | OSD_OP_PUSH
deriving DecidableEq, Repr

export osd_op_t (OSD_OP_READ OSD_OP_STAT OSD_OP_WRNOOP OSD_OP_WRITE OSD_OP_ZERO OSD_OP_DELETE
  OSD_OP_TRUNCATE OSD_OP_WRLOCK OSD_OP_WRUNLOCK OSD_OP_PULL OSD_OP_PUSH)

/-- Replication mode `g_conf.osd_rep`. -/
inductive osd_rep_t where
  | OSD_REP_PRIMARY
  | OSD_REP_CHAIN
  | OSD_REP_SPLAY
deriving DecidableEq, Repr

export osd_rep_t (OSD_REP_PRIMARY OSD_REP_CHAIN OSD_REP_SPLAY)

/-- Request identifier `(client, tid)`. -/
structure reqid_t where
  client : Nat
  tid : Nat
deriving DecidableEq, Repr

/-- The request message `MOSDOp`, with the fields this file reads or writes. -/
structure MOSDOp where
  client : Nat
  client_inst : Nat
  client_inc : Nat
  reqid : reqid_t
  oid : object_t
  pg : Nat
  map_epoch : Nat
  op : osd_op_t
  offset : Nat
  length : Nat
  data : List Nat
  version : eversion_t
  rev : Nat
  rep_tid : Nat
  pg_trim_to : eversion_t
  wants_ack : Bool
  wants_commit : Bool
  source : Int
  attrset : List (String × List Nat)
deriving DecidableEq, Repr

/-- The reply message `MOSDOpReply(op, result, epoch, commit)`. -/
structure MOSDOpReply where
  reqid : reqid_t
  rep_tid : Nat
  result : Int
  epoch : Nat
  commit : Bool
  pg_complete_thru : eversion_t
  source : Int
deriving DecidableEq, Repr

/-- `new MOSDOpReply(op, result, epoch, commit)` as built by node `src`. -/
def MOSDOpReply.mk_reply (op : MOSDOp) (result : Int) (epoch : Nat) (commit : Bool) (src : Int) :
    MOSDOpReply :=
  { reqid := op.reqid, rep_tid := op.rep_tid, result := result, epoch := epoch, commit := commit,
    pg_complete_thru := eversion_t.zero, source := src }

/-! ## PG info, log, missing set -/

structure History where
  same_since : Nat
  same_primary_since : Nat
  same_acker_since : Nat
deriving DecidableEq, Repr

structure PGInfo where
  pgid : Nat
  history : History
  last_update : eversion_t
  last_complete : eversion_t
deriving DecidableEq, Repr

inductive entry_op_t where
  | MODIFY
  | DELETE
  | CLONE
deriving DecidableEq, Repr

/-- The log entry `PG::Log::Entry(op, oid, version, reqid)`. -/
structure Entry where
  op : entry_op_t
  oid : object_t
  version : eversion_t
  reqid : reqid_t
deriving DecidableEq, Repr

/-- The PG log; `complete_to` is the iterator into `log`, kept as an index
(`log.length` is `log.end()`). -/
structure Log where
  log : List Entry
  top : eversion_t
  complete_to : Nat
deriving DecidableEq, Repr

/-- Modelled from the spec: `Log::add` is declared outside this translation unit;
the data model says the log is the ordered list of entries and `log.top` is the
version of the last entry, so `add` appends the entry and moves `top` to it. -/
def Log.add (l : Log) (e : Entry) : Log :=
  { l with log := l.log ++ [e], top := e.version }

/-- Modelled from the spec: `is_dup` is declared outside this translation unit;
it scans the log for an entry with the given reqid. -/
def Log.is_dup (l : Log) (r : reqid_t) : Bool :=
  l.log.any (fun e => decide (e.reqid = r))

/-- The missing set: `missing : oid -> version needed`, `loc : oid -> source`. -/
structure Missing where
  missing : List (object_t × eversion_t)
  loc : List (object_t × Int)
deriving DecidableEq, Repr

/-- Association-list reading of `std::map::find`: the value stored under `k`, if any. -/
def map_find {κ ν : Type} [DecidableEq κ] (m : List (κ × ν)) (k : κ) : Option ν :=
  (m.find? (fun p => decide (p.1 = k))).map Prod.snd

/-- Association-list reading of `std::map::count`. -/
def map_count {κ ν : Type} [DecidableEq κ] (m : List (κ × ν)) (k : κ) : Bool :=
  (map_find m k).isSome

/-- Association-list reading of `std::map::erase`. -/
def map_erase {κ ν : Type} [DecidableEq κ] (m : List (κ × ν)) (k : κ) : List (κ × ν) :=
  m.filter (fun p => !decide (p.1 = k))

/-- Association-list reading of `m[k] = v`. -/
def map_set {κ ν : Type} [DecidableEq κ] (m : List (κ × ν)) (k : κ) (v : ν) : List (κ × ν) :=
  (k, v) :: map_erase m k

/-- Association-list reading of the value of `m[k]`, with the default-constructed
value for an absent key. -/
def map_get {κ ν : Type} [DecidableEq κ] (m : List (κ × ν)) (k : κ) (dflt : ν) : ν :=
  (map_find m k).getD dflt

/-- Association-list reading of the side effect of `m[k]`: an absent key is inserted with
the default-constructed value. -/
def map_touch {κ ν : Type} [DecidableEq κ] (m : List (κ × ν)) (k : κ) (dflt : ν) : List (κ × ν) :=
  if map_count m k then m else m ++ [(k, dflt)]

/-- Association-list reading of `if (m.count(k)) m.erase(k);`. -/
def map_erase_if_present {κ ν : Type} [DecidableEq κ] (m : List (κ × ν)) (k : κ) : List (κ × ν) :=
  if map_count m k then map_erase m k else m

/-- Reading of `std::set<int>::erase`. -/
def set_erase (s : List Int) (x : Int) : List Int :=
  s.filter (fun y => !decide (y = x))

/-- Reading of `std::set<int>::insert`. -/
def set_insert (s : List Int) (x : Int) : List Int :=
  if x ∈ s then s else s ++ [x]

def Missing.is_missing (m : Missing) (oid : object_t) : Bool :=
  map_count m.missing oid

/-- Modelled from the spec: `Missing::got` is declared outside this translation
unit; after it the object is no longer listed as missing. -/
def Missing.got (m : Missing) (oid : object_t) : Missing :=
  { missing := map_erase m.missing oid, loc := map_erase m.loc oid }

/-! ## Store transactions -/

/-- Values written through `setattr` / `collection_setattr`. -/
inductive attr_val where
  | version (v : eversion_t)
  | crev (rev : Nat)
  | wrlock (client : Nat)
  | info (i : PGInfo)
deriving DecidableEq, Repr

/-- One primitive queued in an `ObjectStore::Transaction`. -/
inductive tx_op where
  | write (oid : object_t) (off len : Nat) (data : List Nat)
  | truncate (oid : object_t) (len : Nat)
  | remove (oid : object_t)
  | clone (oid noid : object_t)
  | setattr (oid : object_t) (name : String) (val : attr_val)
  | rmattr (oid : object_t) (name : String)
  | setattrs (oid : object_t) (attrs : List (String × List Nat))
  | collection_add (pgid : Nat) (oid : object_t)
  | collection_remove (pgid : Nat) (oid : object_t)
  | collection_setattr (pgid : Nat) (name : String) (val : attr_val)
  | append_log (e : Entry) (trim_to : eversion_t)
  | read (oid : object_t) (off len : Nat)
  | getattr (oid : object_t) (name : String)
  | getattrs (oid : object_t)
deriving DecidableEq, Repr

abbrev Transaction := List tx_op

/-! ## The object store and the messenger, as seen from the PG -/

/-- The commit callback `C_OSD_WriteCommit(osd, pgid, rep_tid, lc)`. -/
structure C_OSD_WriteCommit where
  rep_tid : Nat
  pg_last_complete : eversion_t
deriving DecidableEq, Repr

/-- What the store holds for one object. -/
structure StoredObject where
  data : List Nat
  version : eversion_t
  crev : Nat
  attrs : List (String × List Nat)
deriving DecidableEq, Repr

/-- The object store is a black box.  The record keeps what the PG can observe:
the objects it reports, the transactions handed to `apply_transaction` in order, the
commit callbacks it holds and has not fired yet, and the results it is going to return
(0 once the list is used up). -/
structure ObjectStore where
  objects : List (object_t × StoredObject)
  applied : List Transaction
  oncommit : List C_OSD_WriteCommit
  results : List Nat
deriving DecidableEq, Repr

/-- The call `store->getattr(oid, "crev", &crev, sizeof(crev))` on `crev = 0`: an object
without the attribute leaves the 0 in place. -/
def ObjectStore.getattr_crev (st : ObjectStore) (oid : object_t) : Nat :=
  match map_find st.objects oid with
  | some o => o.crev
  | none => 0

/-- The call `store->apply_transaction(t, oncommit)`: the store takes the transaction and
the callback and returns its result code. -/
def ObjectStore.apply_transaction (st : ObjectStore) (t : Transaction)
    (cb : Option C_OSD_WriteCommit) : ObjectStore × Nat :=
  ({ st with applied := st.applied ++ [t],
             oncommit := st.oncommit ++ cb.toList,
             results := st.results.tail },
   st.results.headD 0)

inductive Message where
  | reply (r : MOSDOpReply)
  | op (o : MOSDOp)
deriving DecidableEq, Repr

inductive Dest where
  | client (inst : Nat)
  | osd (n : Int)
deriving DecidableEq, Repr

/-! ## RepGather -/

/-- In-flight replication record for one mutation on the acker. -/
structure RepGather where
  op : MOSDOp
  rep_tid : Nat
  t : Transaction
  applied : Bool
  waitfor_ack : List Int
  waitfor_commit : List Int
  sent_ack : Bool
  sent_commit : Bool
  osds : List Int
  new_version : eversion_t
  pg_local_last_complete : eversion_t
  pg_complete_thru : List (Int × eversion_t)
deriving DecidableEq, Repr

/-- The constructor `RepGather(op, rep_tid, nv, lc)`. -/
def RepGather.new (op : MOSDOp) (rt : Nat) (nv lc : eversion_t) : RepGather :=
  { op := op, rep_tid := rt, t := [], applied := false, waitfor_ack := [], waitfor_commit := [],
    sent_ack := false, sent_commit := false, osds := [], new_version := nv,
    pg_local_last_complete := lc, pg_complete_thru := [] }

/-- Modelled from the spec: `RepGather::can_send_commit` is declared outside this
translation unit; re-evaluation step 1 sends the commit when `waitfor_commit` is empty
and the commit has not been sent. -/
def RepGather.can_send_commit (g : RepGather) : Bool :=
  g.waitfor_commit.isEmpty && !g.sent_commit

/-- Modelled from the spec: `RepGather::can_send_ack` is declared outside this
translation unit; re-evaluation step 2 sends the ack when `waitfor_ack` is empty and the
ack has not been sent. -/
def RepGather.can_send_ack (g : RepGather) : Bool :=
  g.waitfor_ack.isEmpty && !g.sent_ack

/-- Modelled from the spec: `RepGather::can_delete` is declared outside this
translation unit; re-evaluation step 3 gives `sent_commit ∧ applied`, and for ack-only
ops `sent_ack ∧ waitfor_commit = ∅ ∧ applied`. -/
def RepGather.can_delete (g : RepGather) : Bool :=
  if g.op.wants_commit then g.sent_commit && g.applied
  else g.sent_ack && g.waitfor_commit.isEmpty && g.applied

/-! ## The PG -/

/-- State of one `ReplicatedPG` together with the parts of its OSD it talks to. -/
structure ReplicatedPG where
  whoami : Int
  osd_rep : osd_rep_t
  epoch : Nat
  store : ObjectStore
  sent : List (Message × Dest)
  finished : List Message
  last_tid : Nat
  info : PGInfo
  log : Log
  missing : Missing
  acting : List Int
  peer_missing : List (Int × Missing)
  peers_complete_thru : eversion_t
  objects_pulling : List (object_t × eversion_t)
  num_pulling : Int
  rep_gather : List (Nat × RepGather)
  waiting_for_repop : List (Nat × List MOSDOpReply)
  waiting_for_missing_object : List (object_t × List MOSDOp)
deriving DecidableEq, Repr

/-- The call `osd->messenger->send_message(m, dest)`. -/
def ReplicatedPG.send_message (pg : ReplicatedPG) (m : Message) (d : Dest) : ReplicatedPG :=
  { pg with sent := pg.sent ++ [(m, d)] }

/-- The call `osd->take_waiters(ls)`: the parked messages go to the finished queue. -/
def ReplicatedPG.take_waiters (pg : ReplicatedPG) (ls : List Message) : ReplicatedPG :=
  { pg with finished := pg.finished ++ ls }

/-- Modelled from the spec: `calc_pg_rank` belongs to the OSD map, outside this
translation unit; it is the rank (index) of the node in `acting`, or -1. -/
def calc_pg_rank (osd : Int) (acting : List Int) : Int :=
  if osd ∈ acting then (acting.indexOf osd : Int) else -1

/-- Modelled from the spec: `is_primary` is declared outside this translation unit; the
primary is `acting[0]`. -/
def ReplicatedPG.is_primary (pg : ReplicatedPG) : Bool :=
  decide (pg.acting.head? = some pg.whoami)

/-! ## Epoch guard -/

def same_for_read_since (pg : ReplicatedPG) (e : Nat) : Bool :=
  decide (e ≥ pg.info.history.same_acker_since)

def same_for_modify_since (pg : ReplicatedPG) (e : Nat) : Bool :=
  decide (e ≥ pg.info.history.same_primary_since)

def same_for_rep_modify_since (pg : ReplicatedPG) (e : Nat) : Bool :=
  if pg.osd_rep = OSD_REP_CHAIN then
    decide (e ≥ pg.info.history.same_since)
  else
    decide (e ≥ pg.info.history.same_primary_since) && decide (e ≥ pg.info.history.same_acker_since)

/-! ## Modify: log and store transaction -/

/-- The test `crev && rev && rev > crev` that decides whether a clone is made. -/
def will_clone (crev rev : Nat) : Bool :=
  decide (crev ≠ 0) && decide (rev ≠ 0) && decide (rev > crev)

/-- `cv.version--` on the unsigned version counter. At 0 the counter wraps to its largest
value; the only decrement on a possibly-zero counter is followed by
`assert(version > log.top)` with `log.top = cv`, which then fails either way, so the
result of the function is the same with the truncated difference used here. -/
def eversion_t.dec (v : eversion_t) : eversion_t :=
  { v with version := v.version - 1 }

def prepare_log_transaction (pg : ReplicatedPG) (t : Transaction) (op : MOSDOp)
    (version : eversion_t) (crev rev : Nat) (trim_to : eversion_t) :
    Option (ReplicatedPG × Transaction) :=
  let oid := op.oid
  -- clone entry?
  let log1 :=
    if will_clone crev rev then
      let cv := version.dec
      pg.log.add { op := entry_op_t.CLONE, oid := oid, version := cv, reqid := op.reqid }
    else pg.log
  -- actual op
  let opcode := if op.op = OSD_OP_DELETE then entry_op_t.DELETE else entry_op_t.MODIFY
  let logentry : Entry := { op := opcode, oid := oid, version := version, reqid := op.reqid }
  -- append to log
  if version > log1.top then
    let log2 := log1.add logentry
    if log2.top = version then
      -- write to pg log on disk
      some ({ pg with log := log2 }, t ++ [tx_op.append_log logentry trim_to])
    else none
  else none

/-- The `switch (op->get_op())` of `prepare_op_transaction`: the primitives added for the
opcode, and the op after the builder took its data. `OSD_OP_ZERO` starts with `assert(0)`,
and so does the `default` case. On `OSD_OP_WRUNLOCK` the ops parked on the lock are handed
back to the OSD (`waiting_for_wr_unlock` is the OSD's, not the PG's) and are left out. -/
def apply_the_op (t : Transaction) (op : MOSDOp) : Option (Transaction × MOSDOp) :=
  let oid := op.oid
  match op.op with
  | OSD_OP_WRLOCK => some (t ++ [tx_op.setattr oid "wrlock" (attr_val.wrlock op.client)], op)
  | OSD_OP_WRUNLOCK => some (t ++ [tx_op.rmattr oid "wrlock"], op)
  | OSD_OP_WRITE =>
    if op.data.length = op.length then
      some (t ++ [tx_op.write oid op.offset op.length op.data], { op with data := [] })
    else none
  | OSD_OP_ZERO => none
  | OSD_OP_TRUNCATE => some (t ++ [tx_op.truncate oid op.length], op)
  | OSD_OP_DELETE => some (t ++ [tx_op.remove oid], op)
  | _ => none

def prepare_op_transaction (pg : ReplicatedPG) (t : Transaction) (op : MOSDOp)
    (version : eversion_t) (crev rev : Nat) : Option (ReplicatedPG × Transaction × MOSDOp) :=
  let oid := op.oid
  let pgid := op.pg
  -- WRNOOP does nothing.
  if op.op = OSD_OP_WRNOOP then some (pg, t, op)
  else
    -- raise last_complete?
    let info1 :=
      if pg.info.last_complete = pg.info.last_update then
        { pg.info with last_complete := version }
      else pg.info
    -- raise last_update.
    if version > info1.last_update then
      let info2 := { info1 with last_update := version }
      -- write pg info
      let t1 := t ++ [tx_op.collection_setattr pgid "info" (attr_val.info info2)]
      -- clone?
      let did_clone := will_clone crev rev
      let t2 := if did_clone then t1 ++ [tx_op.clone oid { oid with rev := rev }] else t1
      -- apply the op
      match apply_the_op t2 op with
      | none => none
      | some (t3, op1) =>
        -- object collection, version
        let t4 :=
          if op.op = OSD_OP_DELETE then
            t3 ++ [tx_op.collection_remove pgid oid]
          else
            let t5 := t3 ++ [tx_op.collection_add pgid oid,
                             tx_op.setattr oid "version" (attr_val.version version)]
            if crev = 0 ∨ did_clone = true then
              t5 ++ [tx_op.setattr oid "crev" (attr_val.crev rev)]
            else t5
        some ({ pg with info := info2 }, t4, op1)
    else none

/-! ## Rep op gather -/

def apply_repop (pg : ReplicatedPG) (repop : RepGather) : Option (ReplicatedPG × RepGather) :=
  if repop.applied then none
  else
    let oncommit : C_OSD_WriteCommit :=
      { rep_tid := repop.rep_tid, pg_last_complete := repop.pg_local_last_complete }
    let (store1, _r) := pg.store.apply_transaction repop.t (some oncommit)
    -- discard my reference to the buffer
    let op1 := { repop.op with data := [] }
    some ({ pg with store := store1 }, { repop with op := op1, applied := true })

/-- The loop of `put_rep_gather` over `acting` that lowers `min` to the smallest recorded
`pg_complete_thru`; an absent entry reads as the zero version. -/
def min_pg_complete_thru (pct : List (Int × eversion_t)) (acting : List Int)
    (min : eversion_t) : eversion_t :=
  acting.foldl
    (fun m a => if map_get pct a eversion_t.zero < m then map_get pct a eversion_t.zero else m) min

/-- The first half of `put_rep_gather`: the `commit?` branch, else the `ack?` branch. -/
def put_rep_gather_reply (pg : ReplicatedPG) (repop : RepGather) :
    Option (ReplicatedPG × RepGather) :=
  -- commit?
  if repop.can_send_commit && repop.op.wants_commit then
    -- send commit.
    let reply := MOSDOpReply.mk_reply repop.op 0 pg.epoch true pg.whoami
    some (pg.send_message (Message.reply reply) (Dest.client repop.op.client_inst),
          { repop with sent_commit := true })
  -- ack?
  else if repop.can_send_ack && repop.op.wants_ack then
    -- apply
    match apply_repop pg repop with
    | none => none
    | some (pg1, repop1) =>
      -- send ack
      let reply := MOSDOpReply.mk_reply repop1.op 0 pg1.epoch false pg1.whoami
      some (pg1.send_message (Message.reply reply) (Dest.client repop1.op.client_inst),
            { repop1 with sent_ack := true })
  else some (pg, repop)

/-- The second half of `put_rep_gather`, from `// done.` on. The gather lives in the table
`rep_gather` under its `rep_tid`; what C++ wrote through the pointer is written back to the
table when the gather stays. -/
def put_rep_gather_done (pg : ReplicatedPG) (repop : RepGather) : Option ReplicatedPG :=
  if repop.can_delete then
    -- adjust peers_complete_thru
    let pg1 :=
      if !repop.pg_complete_thru.isEmpty then
        let min := min_pg_complete_thru repop.pg_complete_thru pg.acting pg.info.last_complete
        if min > pg.peers_complete_thru then { pg with peers_complete_thru := min } else pg
      else pg
    if map_count pg1.rep_gather repop.rep_tid then
      some { pg1 with rep_gather := map_erase pg1.rep_gather repop.rep_tid }
    else none
  else
    some { pg with rep_gather := map_set pg.rep_gather repop.rep_tid repop }

/-- The method `put_rep_gather(repop)`. -/
def put_rep_gather (pg : ReplicatedPG) (repop : RepGather) : Option ReplicatedPG :=
  match put_rep_gather_reply pg repop with
  | none => none
  | some (pg1, repop1) => put_rep_gather_done pg1 repop1

/-- The method `issue_repop`: the op is forwarded to `dest` in a fresh `MOSDOp` that takes
client, reqid, oid and opcode from `op`, the pgid and the map epoch from the PG, then data,
length, offset, version and `rep_tid` from `op`, and `pg_trim_to` from `peers_complete_thru`;
the fields the constructor and the setters leave alone stand at their defaults. -/
def issue_repop (pg : ReplicatedPG) (op : MOSDOp) (dest : Int) : ReplicatedPG :=
  let wr : MOSDOp :=
    { op with pg := pg.info.pgid, map_epoch := pg.epoch, rev := 0, attrset := [],
              wants_ack := true, wants_commit := true, source := pg.whoami,
              pg_trim_to := pg.peers_complete_thru }
  pg.send_message (Message.op wr) (Dest.osd dest)

/-- The body of the first loop of `new_rep_gather`:
`repop->osds.insert(osd); repop->waitfor_commit.insert(osd);`. -/
def add_commit_osd (r : RepGather) (osd : Int) : RepGather :=
  { r with osds := set_insert r.osds osd, waitfor_commit := set_insert r.waitfor_commit osd }

/-- The body of the ack loop of `new_rep_gather` in primary and splay mode:
`repop->waitfor_ack.insert(osd);`. -/
def add_ack_osd (r : RepGather) (osd : Int) : RepGather :=
  { r with waitfor_ack := set_insert r.waitfor_ack osd }

/-- The three inserts `new_rep_gather` makes for an osd in chain mode:
`osds.insert(osd); waitfor_ack.insert(osd); waitfor_commit.insert(osd);`. -/
def add_chain_osd (r : RepGather) (osd : Int) : RepGather :=
  { r with osds := set_insert r.osds osd, waitfor_ack := set_insert r.waitfor_ack osd,
           waitfor_commit := set_insert r.waitfor_commit osd }

/-- The wait sets computed by `new_rep_gather` for the gather under construction. -/
def new_rep_gather_sets (pg : ReplicatedPG) (repop : RepGather) : RepGather :=
  -- osds. commits all come to me.
  let repop1 := pg.acting.foldl add_commit_osd repop
  -- acks vary:
  if pg.osd_rep = OSD_REP_CHAIN then
    -- chain rep. there's my local ack...
    let repop2 := add_chain_osd repop1 pg.whoami
    -- also, the previous guy will ack to me
    let myrank := calc_pg_rank pg.whoami pg.acting
    if myrank > 0 then
      add_chain_osd repop2 (pg.acting.getD (myrank - 1).toNat 0)
    else repop2
  else
    -- primary, splay.  all osds ack to me.
    pg.acting.foldl add_ack_osd repop1

def new_rep_gather (pg : ReplicatedPG) (op : MOSDOp) : ReplicatedPG × RepGather :=
  let repop := new_rep_gather_sets pg (RepGather.new op op.rep_tid op.version pg.info.last_complete)
  let pg1 := { pg with rep_gather := map_set pg.rep_gather repop.rep_tid repop }
  -- anyone waiting?  (acks that got here before the op did)
  let pg2 :=
    if map_count pg1.waiting_for_repop repop.rep_tid then
      let pg3 := pg1.take_waiters ((map_get pg1.waiting_for_repop repop.rep_tid []).map Message.reply)
      { pg3 with waiting_for_repop := map_erase pg3.waiting_for_repop repop.rep_tid }
    else pg1
  (pg2, repop)

/-- The block of `repop_ack` between `get_rep_gather` and `put_rep_gather`. -/
def repop_ack_update (repop : RepGather) (commit : Bool) (fromosd : Int)
    (pg_complete_thru : eversion_t) : Option RepGather :=
  if commit then
    -- commit
    if fromosd ∈ repop.waitfor_commit then
      some { repop with waitfor_commit := set_erase repop.waitfor_commit fromosd,
                        waitfor_ack := set_erase repop.waitfor_ack fromosd,
                        pg_complete_thru := map_set repop.pg_complete_thru fromosd pg_complete_thru }
    else none
  else
    -- ack
    some { repop with waitfor_ack := set_erase repop.waitfor_ack fromosd }

def repop_ack (pg : ReplicatedPG) (repop : RepGather) (result : Int) (commit : Bool)
    (fromosd : Int) (pg_complete_thru : eversion_t) : Option ReplicatedPG :=
  let _ := result
  match repop_ack_update repop commit fromosd pg_complete_thru with
  | none => none
  | some repop1 => put_rep_gather pg repop1

/-- The method `op_modify_commit`: transaction commit on the acker. -/
def op_modify_commit (pg : ReplicatedPG) (rep_tid : Nat) (pg_complete_thru : eversion_t) :
    Option ReplicatedPG :=
  match map_find pg.rep_gather rep_tid with
  | some repop =>
    if pg.whoami ∈ repop.waitfor_commit then
      put_rep_gather pg
        { repop with waitfor_commit := set_erase repop.waitfor_commit pg.whoami,
                     pg_complete_thru := map_set repop.pg_complete_thru pg.whoami pg_complete_thru }
    else none
  | none => some pg

/-- The method `op_reply`: a reply from a peer, routed to its gather or parked. -/
def op_reply (pg : ReplicatedPG) (r : MOSDOpReply) : Option ReplicatedPG :=
  match map_find pg.rep_gather r.rep_tid with
  | some repop => repop_ack pg repop r.result r.commit r.source r.pg_complete_thru
  | none =>
    -- early ack.
    let waiters := map_get pg.waiting_for_repop r.rep_tid [] ++ [r]
    some { pg with waiting_for_repop := map_set pg.waiting_for_repop r.rep_tid waiters }

/-- The logical local ack of `op_modify` and `op_rep_modify`:
`assert(repop->waitfor_ack.count(whoami)); repop->waitfor_ack.erase(whoami); put_rep_gather(repop)`. -/
def local_ack (pg : ReplicatedPG) (repop : RepGather) : Option ReplicatedPG :=
  if pg.whoami ∈ repop.waitfor_ack then
    put_rep_gather pg { repop with waitfor_ack := set_erase repop.waitfor_ack pg.whoami }
  else none

/-- The callback `C_OSD_WriteCommit::finish`: the store fires a commit callback it holds. -/
def write_commit_finish (pg : ReplicatedPG) (cb : C_OSD_WriteCommit) : Option ReplicatedPG :=
  if cb ∈ pg.store.oncommit then
    op_modify_commit { pg with store := { pg.store with oncommit := pg.store.oncommit.erase cb } }
      cb.rep_tid cb.pg_last_complete
  else none

/-! ## Versioner -/

/-- The method `assign_version`: returns the stamped op and the local `clone_version`. The
version component of `eversion_t` is an unsigned 64-bit counter, so `nv.version++` wraps at
`2 ^ 64`. The decrement of the backstep clone acts on a counter that was just set to a
replay hint above `nv.version`, which is not 0. -/
def assign_version (pg : ReplicatedPG) (op : MOSDOp) : Option (MOSDOp × eversion_t) :=
  -- check crev
  let crev := pg.store.getattr_crev op.oid
  -- assign version
  let clone_version := eversion_t.zero
  let nv := pg.log.top
  if op.op ≠ OSD_OP_WRNOOP then
    let nv1 : eversion_t := { epoch := pg.epoch, version := (nv.version + 1) % 2 ^ 64 }
    if nv1 > pg.info.last_update ∧ nv1 > pg.log.top then
      -- will clone?
      let (clone_version1, nv2) :=
        if will_clone crev op.rev then (nv1, { nv1 with version := (nv1.version + 1) % 2 ^ 64 })
        else (clone_version, nv1)
      let (clone_version2, nv3) :=
        if op.version.version ≠ 0 then
          -- replay!
          if nv2.version < op.version.version then
            let nv4 := { nv2 with version := op.version.version }
            -- clone?
            if will_clone crev op.rev then (nv4.dec, nv4) else (clone_version1, nv4)
          else (clone_version1, nv2)
        else (clone_version1, nv2)
      -- set version in op, for benefit of client and our eventual reply
      some ({ op with version := nv3 }, clone_version2)
    else none
  else
    some ({ op with version := nv }, clone_version)

/-! ## Events on one gather -/

/-- What can happen to the gather `rep_tid` once it exists: the logical local ack, a reply
from a peer, the store firing the acker's commit callback. -/
inductive RepEvent where
  | local_ack
  | reply (r : MOSDOpReply)
  | op_modify_commit (pg_complete_thru : eversion_t)
deriving DecidableEq, Repr

/-- One event delivered to the PG for the gather `rep_tid`. -/
def rep_step (rep_tid : Nat) (pg : ReplicatedPG) : RepEvent → Option ReplicatedPG
  | RepEvent.local_ack =>
    match map_find pg.rep_gather rep_tid with
    | some repop => local_ack pg repop
    | none => none
  | RepEvent.reply r => op_reply pg { r with rep_tid := rep_tid }
  | RepEvent.op_modify_commit lc =>
    write_commit_finish pg { rep_tid := rep_tid, pg_last_complete := lc }

/-- A sequence of events delivered in order. -/
def rep_run (rep_tid : Nat) (pg : ReplicatedPG) : List RepEvent → Option ReplicatedPG
  | [] => some pg
  | e :: es =>
    match rep_step rep_tid pg e with
    | some pg1 => rep_run rep_tid pg1 es
    | none => none

/-- The commit flags of the replies sent to clients, in sending order
(`false` is an ack, `true` a commit). -/
def client_replies (sent : List (Message × Dest)) : List Bool :=
  sent.filterMap fun
    | (Message.reply r, Dest.client _) => some r.commit
    | _ => none

/-! ## Recovery -/

def is_missing_object (pg : ReplicatedPG) (oid : object_t) : Bool :=
  map_count pg.missing.missing oid

/-- The method `pull`: request an object from a peer. -/
def pull (pg : ReplicatedPG) (oid : object_t) : Option ReplicatedPG :=
  if map_count pg.missing.loc oid then
    let v := map_get pg.missing.missing oid eversion_t.zero
    let missing1 := { pg.missing with missing := map_touch pg.missing.missing oid eversion_t.zero }
    let osd := map_get pg.missing.loc oid 0
    -- send op
    let tid := pg.last_tid + 1
    let op : MOSDOp :=
      { client := 0, client_inst := 0, client_inc := 0, reqid := { client := 0, tid := tid },
        oid := oid, pg := pg.info.pgid, map_epoch := pg.epoch, op := OSD_OP_PULL,
        offset := 0, length := 0, data := [], version := v, rev := 0, rep_tid := 0,
        pg_trim_to := eversion_t.zero, wants_ack := true, wants_commit := true,
        source := pg.whoami, attrset := [] }
    let pg0 : ReplicatedPG := { pg with missing := missing1, last_tid := tid }
    let pg1 := pg0.send_message (Message.op op) (Dest.osd osd)
    -- take note
    if map_count pg1.objects_pulling oid = false then
      some { pg1 with num_pulling := pg1.num_pulling + 1,
                      objects_pulling := map_set pg1.objects_pulling oid v }
    else none
  else none

/-- The method `push`: send an object to a peer. -/
def push (pg : ReplicatedPG) (oid : object_t) (dest : Int) : Option ReplicatedPG :=
  -- read data+attrs
  let t : Transaction := [tx_op.read oid 0 0, tx_op.getattr oid "version", tx_op.getattrs oid]
  let (store1, tr) := pg.store.apply_transaction t none
  if tr = 0 then
    let o : StoredObject :=
      (map_find pg.store.objects oid).getD
        { data := [], version := eversion_t.zero, crev := 0, attrs := [] }
    -- send
    let tid := pg.last_tid + 1
    let op : MOSDOp :=
      { client := 0, client_inst := 0, client_inc := 0, reqid := { client := 0, tid := tid },
        oid := oid, pg := pg.info.pgid, map_epoch := pg.epoch, op := OSD_OP_PUSH,
        offset := 0, length := o.data.length, data := o.data, version := o.version, rev := 0,
        rep_tid := 0, pg_trim_to := eversion_t.zero, wants_ack := true, wants_commit := true,
        source := pg.whoami, attrset := o.attrs }
    let pg0 : ReplicatedPG := { pg with store := store1, last_tid := tid }
    some (pg0.send_message (Message.op op) (Dest.osd dest))
  else none

def wait_for_missing_object (pg : ReplicatedPG) (oid : object_t) (op : MOSDOp) :
    Option ReplicatedPG :=
  if is_missing_object pg oid then
    -- we don't have it (yet).
    let pulled := if map_count pg.objects_pulling oid then some pg else pull pg oid
    match pulled with
    | none => none
    | some pg1 =>
      let waiters := map_get pg1.waiting_for_missing_object oid [] ++ [op]
      some { pg1 with waiting_for_missing_object := map_set pg1.waiting_for_missing_object oid waiters }
  else none

/-- The loop of `op_push` that moves `log.complete_to` forward over `entries` (the log from
`complete_to` on) and raises `last_complete`, stopping at the first entry still missing. -/
def raise_last_complete (missing : List (object_t × eversion_t)) :
    List Entry → eversion_t → Nat → eversion_t × Nat
  | [], lc, ct => (lc, ct)
  | e :: rest, lc, ct =>
    if map_count missing e.oid then (lc, ct)
    else raise_last_complete missing rest (if lc < e.version then e.version else lc) (ct + 1)

/-- The loop of `op_push` over `acting[1..]` on the primary: a peer that is also missing the
object is marked as having it and is pushed the object. -/
def push_to_peers (oid : object_t) : List Int → ReplicatedPG → Option ReplicatedPG
  | [], pg => some pg
  | peer :: rest, pg =>
    match map_find pg.peer_missing peer with
    | none => none
    | some pm =>
      if pm.is_missing oid then
        -- ok, push it, and they (will) have it now.
        match push { pg with peer_missing := map_set pg.peer_missing peer (pm.got oid) } oid peer with
        | none => none
        | some pg1 => push_to_peers oid rest pg1
      else push_to_peers oid rest pg

/-- The method `op_push` for an object that is missing, up to the call of `do_recovery`. -/
def op_push_body (pg : ReplicatedPG) (op : MOSDOp) : Option ReplicatedPG :=
  let oid := op.oid
  if op.data.length = op.length then
    -- write object and add it to the PG
    let t : Transaction :=
      [tx_op.remove oid, tx_op.write oid 0 op.length op.data, tx_op.setattrs oid op.attrset,
       tx_op.collection_add pg.info.pgid oid]
    -- close out pull op?
    let num_pulling1 := pg.num_pulling - 1
    let objects_pulling1 := map_erase_if_present pg.objects_pulling oid
    let missing1 := pg.missing.got oid
    -- raise last_complete?
    if pg.log.complete_to ≠ pg.log.log.length then
      let (lc, ct) := raise_last_complete missing1.missing (pg.log.log.drop pg.log.complete_to)
        pg.info.last_complete pg.log.complete_to
      let info1 := { pg.info with last_complete := lc }
      let log1 := { pg.log with complete_to := ct }
      -- apply to disk!
      let t1 := t ++ [tx_op.collection_setattr info1.pgid "info" (attr_val.info info1)]
      let (store1, r) := pg.store.apply_transaction t1 none
      if r = 0 then
        let pg1 := { pg with num_pulling := num_pulling1, objects_pulling := objects_pulling1,
                             missing := missing1, info := info1, log := log1, store := store1 }
        -- am i primary?  are others missing this too?
        if pg1.is_primary then push_to_peers oid pg1.acting.tail pg1 else some pg1
      else none
    else none
  else none

/-- The method `op_push`. `do_recovery` is declared outside this translation unit and is
taken as a parameter. -/
def op_push (do_recovery : ReplicatedPG → Option ReplicatedPG) (pg : ReplicatedPG)
    (op : MOSDOp) : Option ReplicatedPG :=
  let oid := op.oid
  if !is_missing_object pg oid then some pg
  else
    match op_push_body pg op with
    | none => none
    | some pg1 =>
      -- continue recovery
      match do_recovery pg1 with
      | none => none
      | some pg2 =>
        -- kick waiters
        if map_count pg2.waiting_for_missing_object oid then
          let pg3 := pg2.take_waiters ((map_get pg2.waiting_for_missing_object oid []).map Message.op)
          some { pg3 with waiting_for_missing_object := map_erase pg3.waiting_for_missing_object oid }
        else some pg2

/-! ## Client modify -/

/-- The commit callback `C_OSD_RepModifyCommit(osd, op, destosd, lc)` of a node that is not
the acker; `acked` is set by its `ack()`. -/
structure C_OSD_RepModifyCommit where
  op : MOSDOp
  destosd : Int
  pg_last_complete : eversion_t
  acked : Bool
deriving DecidableEq, Repr

/-- The loop of `op_modify` over `acting[1..]`: a peer known to miss the object is marked as
having it and is pushed the object before the update. -/
def push_before_update (oid : object_t) : List Int → ReplicatedPG → Option ReplicatedPG
  | [], pg => some pg
  | peer :: rest, pg =>
    match map_find pg.peer_missing peer with
    | none => push_before_update oid rest pg
    | some pm =>
      if pm.is_missing oid then
        -- push it before this update.
        match push { pg with peer_missing := map_set pg.peer_missing peer (pm.got oid) } oid peer with
        | none => none
        | some pg1 => push_before_update oid rest pg1
      else push_before_update oid rest pg

/-- The loop `for (i = 1; i < acting.size(); i++) issue_repop(op, acting[i])`. -/
def issue_repop_rest (pg : ReplicatedPG) (op : MOSDOp) : ReplicatedPG :=
  pg.acting.tail.foldl (fun p dest => issue_repop p op dest) pg

/-- The branch `if (repop)` of `op_modify`: we are acker. The op is logged and built into the
transaction of the gather unless it is a WRNOOP, then comes the logical local ack. The op and
`repop->op` are one object in C++, so what the builder does to the op shows in the gather. -/
def op_modify_acker (pg : ReplicatedPG) (repop : RepGather) (op : MOSDOp) (nv : eversion_t)
    (crev : Nat) : Option ReplicatedPG :=
  if op.op ≠ OSD_OP_WRNOOP then
    -- log and update later.
    match prepare_log_transaction pg repop.t op nv crev op.rev pg.peers_complete_thru with
    | none => none
    | some (pg1, t1) =>
      match prepare_op_transaction pg1 t1 op nv crev op.rev with
      | none => none
      | some (pg2, t2, op1) =>
        -- (logical) local ack.
        local_ack pg2 { repop with t := t2, op := op1 }
  else
    -- (logical) local ack.
    local_ack pg repop

/-- The branch `else` of `op_modify`: chain or splay, apply. The callback goes to the store
and is returned here, after its `ack()`. -/
def op_modify_apply (acker : Int) (pg : ReplicatedPG) (op : MOSDOp) (nv : eversion_t)
    (crev : Nat) : Option (ReplicatedPG × C_OSD_RepModifyCommit) :=
  match prepare_log_transaction pg [] op nv crev op.rev pg.peers_complete_thru with
  | none => none
  | some (pg1, t1) =>
    match prepare_op_transaction pg1 t1 op nv crev op.rev with
    | none => none
    | some (pg2, t2, op1) =>
      let (store1, r) := pg2.store.apply_transaction t2 none
      if r ≠ 0 ∧ r ≠ 2 then none
      else
        some ({ pg2 with store := store1 },
              { op := { op1 with data := [] }, destosd := acker,
                pg_last_complete := pg2.info.last_complete, acked := true })

/-- The method `op_modify`. In the source at hand `nv` and `crev` are used without a
declaration; they are read as the version `assign_version` stamped on the op and the stored
`crev` it read. `get_acker` is declared outside this translation unit and its value is taken
as the parameter `acker`. The result carries the callback of the non-acker path, if any. -/
def op_modify (acker : Int) (pg : ReplicatedPG) (op : MOSDOp) :
    Option (ReplicatedPG × Option C_OSD_RepModifyCommit) :=
  let oid := op.oid
  -- dup op?
  let op1 := if pg.log.is_dup op.reqid then { op with op := OSD_OP_WRNOOP } else op
  -- assign the op a version
  match assign_version pg op1 with
  | none => none
  | some (op2, _) =>
    let nv := op2.version
    let crev := pg.store.getattr_crev oid
    -- are any peers missing this?
    match push_before_update oid pg.acting.tail pg with
    | none => none
    | some pg1 =>
      -- issue replica writes
      let alone := decide (pg1.acting.length = 1)
      let rep_tid := pg1.last_tid + 1
      let pg2 : ReplicatedPG := { pg1 with last_tid := rep_tid }
      let op3 : MOSDOp := { op2 with rep_tid := rep_tid }
      if pg2.osd_rep = OSD_REP_CHAIN ∧ alone = false then
        -- chain rep.  send to #2 only.
        match pg2.acting[1]? with
        | none => none
        | some next1 =>
          let next := if pg2.acting.length > 2 then pg2.acting.getD 2 next1 else next1
          (op_modify_apply acker (issue_repop pg2 op3 next) op3 nv crev).map
            (fun r => (r.1, some r.2))
      else if pg2.osd_rep = OSD_REP_SPLAY ∧ alone = false then
        -- splay rep.  send to rest.
        (op_modify_apply acker (issue_repop_rest pg2 op3) op3 nv crev).map
          (fun r => (r.1, some r.2))
      else
        -- primary rep, or alone.
        let (pg3, repop) := new_rep_gather pg2 op3
        -- send to rest.
        let pg4 := if alone then pg3 else issue_repop_rest pg3 op3
        (op_modify_acker pg4 repop op3 nv crev).map (fun p => (p, none))

/-! ## Replicated modify -/

/-- The block `if (pg->is_acker())` of `op_rep_modify`: i am tail acker. The gather of the
op's `rep_tid` is found or made, the ack of the sender is inferred from the source of the
message, and the gather is re-evaluated. The flag tells whether the gather was made here. -/
def op_rep_modify_gather (pg : ReplicatedPG) (op : MOSDOp) : Option (ReplicatedPG × Bool) :=
  let found := map_find pg.rep_gather op.rep_tid
  let (pg1, repop) :=
    match found with
    | some g => (pg, g)
    | none => new_rep_gather pg op
  -- infer ack from source
  let fromosd := op.source
  (put_rep_gather pg1 { repop with waitfor_ack := set_erase repop.waitfor_ack fromosd }).map
    (fun p => (p, found.isNone))

/-- The block `// chain?  forward?` of `op_rep_modify`: chain rep, not at the tail yet. The op
goes to the next rank, wrapping from the last rank to rank 1. -/
def chain_forward (pg : ReplicatedPG) (op : MOSDOp) : Option ReplicatedPG :=
  let myrank := calc_pg_rank pg.whoami pg.acting
  let next := myrank + 1
  let next1 := if next = (pg.acting.length : Int) then 1 else next
  match pg.acting[next1.toNat]? with
  | none => none
  | some dest => some (issue_repop pg op dest)

/-- The acker's part of `op_rep_modify` from `// do op?` on. The gather is the one the table
holds after the re-evaluation; if that deleted it, C++ goes on with a dangling pointer and
the model stops. We'll apply later: the op is logged and built into the transaction of the
gather unless it is a WRNOOP, then comes the logical local ack. When the gather was made for
this very message, the op and `repop->op` are one object. -/
def op_rep_modify_acker (pg : ReplicatedPG) (op : MOSDOp) (made_here : Bool) (nv : eversion_t)
    (crev : Nat) : Option ReplicatedPG :=
  match map_find pg.rep_gather op.rep_tid with
  | none => none
  | some repop =>
    if op.op ≠ OSD_OP_WRNOOP then
      match prepare_log_transaction pg repop.t op nv crev op.rev op.pg_trim_to with
      | none => none
      | some (pg1, t1) =>
        match prepare_op_transaction pg1 t1 op nv crev op.rev with
        | none => none
        | some (pg2, t2, op1) =>
          -- (logical) local ack.  this may induce the actual update.
          local_ack pg2 { repop with t := t2, op := if made_here then op1 else repop.op }
    else
      -- (logical) local ack.  this may induce the actual update.
      local_ack pg repop

/-- The part of `op_rep_modify` from `// do op?` on for a node without a gather: middle or
replica. The transaction is applied at once; outside chain mode an ack goes to the acker;
the commit callback is returned after its `ack()`. -/
def op_rep_modify_apply (ackerosd : Int) (pg : ReplicatedPG) (op : MOSDOp) (nv : eversion_t)
    (crev : Nat) : Option (ReplicatedPG × C_OSD_RepModifyCommit) :=
  let prepared : Option (ReplicatedPG × Transaction × MOSDOp) :=
    if op.op ≠ OSD_OP_WRNOOP then
      match prepare_log_transaction pg [] op nv crev op.rev op.pg_trim_to with
      | none => none
      | some (pg1, t1) => prepare_op_transaction pg1 t1 op nv crev op.rev
    else some (pg, [], op)
  match prepared with
  | none => none
  | some (pg2, t2, op1) =>
    -- apply log update. and possibly update itself.
    let (store1, tr) := pg2.store.apply_transaction t2 none
    if tr ≠ 0 ∧ tr ≠ 2 then none
    else
      let pg3 : ReplicatedPG := { pg2 with store := store1 }
      -- send ack to acker?
      let pg4 :=
        if pg3.osd_rep ≠ OSD_REP_CHAIN then
          pg3.send_message (Message.reply (MOSDOpReply.mk_reply op1 0 pg3.epoch false pg3.whoami))
            (Dest.osd ackerosd)
        else pg3
      -- ack myself.
      some (pg4, { op := { op1 with data := [] }, destosd := ackerosd,
                   pg_last_complete := pg2.info.last_complete, acked := true })

/-- The method `op_rep_modify`. `get_acker` and `is_acker` are declared outside this
translation unit; their values are taken as the parameters `acker` and `is_acker`. The
result carries the commit callback of a node that is not the acker. -/
def op_rep_modify (acker : Int) (is_acker : Bool) (pg : ReplicatedPG) (op : MOSDOp) :
    Option (ReplicatedPG × Option C_OSD_RepModifyCommit) :=
  let oid := op.oid
  let nv := op.version
  -- check crev
  let crev := pg.store.getattr_crev oid
  -- we better not be missing this.
  if pg.missing.is_missing oid then none
  else
    match pg.acting[0]? with
    | none => none
    | some primary =>
      if pg.osd_rep = OSD_REP_CHAIN ∨ pg.osd_rep = OSD_REP_SPLAY then
        let ackerosd := acker
        if is_acker then
          -- i am tail acker.
          match op_rep_modify_gather pg op with
          | none => none
          | some (pg1, made_here) =>
            (op_rep_modify_acker pg1 op made_here nv crev).map (fun p => (p, none))
        else if pg.osd_rep = OSD_REP_CHAIN then
          -- chain rep, not at the tail yet.
          match chain_forward pg op with
          | none => none
          | some pg1 => (op_rep_modify_apply ackerosd pg1 op nv crev).map (fun r => (r.1, some r.2))
        else
          (op_rep_modify_apply ackerosd pg op nv crev).map (fun r => (r.1, some r.2))
      else
        (op_rep_modify_apply primary pg op nv crev).map (fun r => (r.1, some r.2))

/-! # Specification-side definitions and sample states -/

/-- The version `assign_version` is specified to stamp: the current epoch, and the larger of
`log.top.version + 1 + c` and the replay hint, where `c` is 1 when a clone is implied. -/
def spec_assign_version (top : eversion_t) (epoch crev rev hint : Nat) : eversion_t :=
  { epoch := epoch,
    version := max (top.version + 1 + (if 0 < crev ∧ crev < rev then 1 else 0)) hint }

/-- A client write of two bytes to object 10, wanting ack and commit. -/
def sample_op : MOSDOp :=
  { client := 7, client_inst := 7, client_inc := 0, reqid := { client := 7, tid := 1 },
    oid := { ino := 10, rev := 0 }, pg := 1, map_epoch := 5, op := OSD_OP_WRITE,
    offset := 0, length := 2, data := [1, 2], version := eversion_t.zero, rev := 0, rep_tid := 1,
    pg_trim_to := eversion_t.zero, wants_ack := true, wants_commit := true,
    source := 100, attrset := [] }

/-- The same write at revision 5. -/
def sample_op_rev5 : MOSDOp := { sample_op with rev := 5 }

/-- A PG on osd 0 with acting set `[0, 1]`, map epoch 5, whose log holds one entry at (5, 1);
the store reports object 10 with `crev = 3`. -/
def sample_pg : ReplicatedPG :=
  { whoami := 0, osd_rep := OSD_REP_PRIMARY, epoch := 5,
    store := { objects := [({ ino := 10, rev := 0 },
                 { data := [], version := { epoch := 5, version := 1 }, crev := 3, attrs := [] })],
               applied := [], oncommit := [], results := [] },
    sent := [], finished := [], last_tid := 0,
    info := { pgid := 1,
              history := { same_since := 1, same_primary_since := 1, same_acker_since := 1 },
              last_update := { epoch := 5, version := 1 },
              last_complete := { epoch := 5, version := 1 } },
    log := { log := [{ op := entry_op_t.MODIFY, oid := { ino := 10, rev := 0 },
                       version := { epoch := 5, version := 1 },
                       reqid := { client := 7, tid := 0 } }],
             top := { epoch := 5, version := 1 }, complete_to := 1 },
    missing := { missing := [], loc := [] },
    acting := [0, 1],
    peer_missing := [], peers_complete_thru := eversion_t.zero,
    objects_pulling := [], num_pulling := 0, rep_gather := [],
    waiting_for_repop := [], waiting_for_missing_object := [] }

/-- The state `sample_pg` after the sample write was stamped (5, 2) and built into a store
transaction. -/
def sample_pg_written : ReplicatedPG :=
  { sample_pg with info := { sample_pg.info with last_update := { epoch := 5, version := 2 },
                                                 last_complete := { epoch := 5, version := 2 } } }

/-- The store transaction `prepare_op_transaction` builds for the sample write at (5, 2). -/
def sample_tx_written : Transaction :=
  [tx_op.collection_setattr 1 "info" (attr_val.info sample_pg_written.info),
   tx_op.write { ino := 10, rev := 0 } 0 2 [1, 2],
   tx_op.collection_add 1 { ino := 10, rev := 0 },
   tx_op.setattr { ino := 10, rev := 0 } "version" (attr_val.version { epoch := 5, version := 2 })]

/-- The CLONE entry of the revision-clone scenario: stored crev 3, write at rev 5. -/
def sample_clone_entry : Entry :=
  { op := entry_op_t.CLONE, oid := { ino := 10, rev := 0 },
    version := { epoch := 5, version := 2 }, reqid := { client := 7, tid := 1 } }

/-- The MODIFY entry of the revision-clone scenario. -/
def sample_modify_entry : Entry :=
  { op := entry_op_t.MODIFY, oid := { ino := 10, rev := 0 },
    version := { epoch := 5, version := 3 }, reqid := { client := 7, tid := 1 } }

/-- The state `sample_pg` after `prepare_log_transaction` in the revision-clone scenario. -/
def sample_pg_cloned : ReplicatedPG :=
  { sample_pg with log := { log := sample_pg.log.log ++ [sample_clone_entry, sample_modify_entry],
                            top := { epoch := 5, version := 3 }, complete_to := 1 } }

/-- The sample PG seen from osd 1 in chain mode. -/
def sample_pg_chain : ReplicatedPG :=
  { sample_pg with whoami := 1, osd_rep := OSD_REP_CHAIN }

/-- A gather for the sample write that still waits for osd 0 and osd 1. -/
def sample_gather : RepGather :=
  { RepGather.new sample_op 1 { epoch := 5, version := 2 } { epoch := 5, version := 1 } with
    waitfor_ack := [0, 1], waitfor_commit := [0, 1], osds := [0, 1] }

/-- The entries of the log have strictly increasing versions. -/
def Log.increasing (l : Log) : Prop :=
  l.log.Pairwise (fun a b => a.version < b.version)

/-- The data-model reading of `log.top`: no entry of the log is above it. -/
def Log.below_top (l : Log) : Prop :=
  ∀ e ∈ l.log, e.version ≤ l.top

/-- The completeness floor `last_complete ≤ last_update ≤ log.top`. -/
abbrev completeness_floor (pg : ReplicatedPG) : Prop :=
  pg.info.last_complete ≤ pg.info.last_update ∧ pg.info.last_update ≤ pg.log.top

/-- A recovering primary: the log holds objects 11, 12, 13 at (1, 1), (1, 2), (1, 3); object 12
is missing and being pulled from osd 1; `last_complete = (1, 1)`, `last_update = (1, 2)`,
`log.top = (1, 3)`, `log.complete_to` points at the entry of object 12. -/
def recovering_pg : ReplicatedPG :=
  { sample_pg with
    info := { sample_pg.info with last_update := { epoch := 1, version := 2 },
                                  last_complete := { epoch := 1, version := 1 } },
    log := { log := [{ op := entry_op_t.MODIFY, oid := { ino := 11, rev := 0 },
                       version := { epoch := 1, version := 1 }, reqid := { client := 7, tid := 1 } },
                     { op := entry_op_t.MODIFY, oid := { ino := 12, rev := 0 },
                       version := { epoch := 1, version := 2 }, reqid := { client := 7, tid := 2 } },
                     { op := entry_op_t.MODIFY, oid := { ino := 13, rev := 0 },
                       version := { epoch := 1, version := 3 }, reqid := { client := 7, tid := 3 } }],
             top := { epoch := 1, version := 3 }, complete_to := 1 },
    missing := { missing := [({ ino := 12, rev := 0 }, { epoch := 1, version := 2 })],
                 loc := [({ ino := 12, rev := 0 }, 1)] },
    peer_missing := [(1, { missing := [], loc := [] })],
    objects_pulling := [({ ino := 12, rev := 0 }, { epoch := 1, version := 2 })],
    num_pulling := 1 }

/-- The push of object 12 at version (1, 2) that answers the pull. -/
def push_op_12 : MOSDOp :=
  { sample_op with oid := { ino := 12, rev := 0 }, op := OSD_OP_PUSH,
                   version := { epoch := 1, version := 2 }, source := 1 }

/-- The same recovering primary with `last_update = log.top = (1, 3)`. -/
def recovering_pg_caught_up : ReplicatedPG :=
  { recovering_pg with info := { recovering_pg.info with last_update := { epoch := 1, version := 3 } } }

/-- A recovering primary after the push of object 12 was taken in: `last_complete` went
over the entries of objects 12 and 13 and stands at (1, 3). -/
def after_push_12 (pg : ReplicatedPG) : ReplicatedPG :=
  { pg with
    info := { pg.info with last_complete := { epoch := 1, version := 3 } },
    log := { pg.log with complete_to := 3 },
    missing := { missing := [], loc := [] },
    objects_pulling := [],
    num_pulling := 0,
    store := { pg.store with applied :=
      [[tx_op.remove { ino := 12, rev := 0 },
        tx_op.write { ino := 12, rev := 0 } 0 2 [1, 2],
        tx_op.setattrs { ino := 12, rev := 0 } [],
        tx_op.collection_add 1 { ino := 12, rev := 0 },
        tx_op.collection_setattr 1 "info" (attr_val.info
          { pg.info with last_complete := { epoch := 1, version := 3 } })]] } }

/-- The MODIFY entry of the sample write stamped (5, 2). -/
def sample_write_entry : Entry :=
  { op := entry_op_t.MODIFY, oid := { ino := 10, rev := 0 },
    version := { epoch := 5, version := 2 }, reqid := { client := 7, tid := 1 } }

/-- The state `sample_pg` after `prepare_log_transaction` for the sample write at (5, 2). -/
def sample_pg_logged : ReplicatedPG :=
  { sample_pg with log := { log := sample_pg.log.log ++ [sample_write_entry],
                            top := { epoch := 5, version := 2 }, complete_to := 1 } }

/-- The state `sample_pg_logged` after `prepare_op_transaction` for the same write. -/
def sample_pg_logged_written : ReplicatedPG :=
  { sample_pg_logged with info := sample_pg_written.info }

/-- The minimum, over the members of `acting`, of the gather's recorded `pg_complete_thru`,
a member with no recorded value counting as zero; there is none when `acting` is empty. -/
def spec_min_complete_thru (pct : List (Int × eversion_t)) : List Int → Option eversion_t
  | [] => none
  | a :: rest =>
    match spec_min_complete_thru pct rest with
    | none => some (map_get pct a eversion_t.zero)
    | some m => some (min (map_get pct a eversion_t.zero) m)

/-- A gather for the sample write that was applied and acked and waits for nobody; osd 0 and
osd 1 both reported `pg_complete_thru = (5, 3)`. -/
def trim_gather : RepGather :=
  { RepGather.new sample_op 1 { epoch := 5, version := 2 } { epoch := 5, version := 1 } with
    applied := true, sent_ack := true, osds := [0, 1],
    pg_complete_thru := [(0, { epoch := 5, version := 3 }), (1, { epoch := 5, version := 3 })] }

/-- The sample PG holding `trim_gather`, with `info.last_complete = (5, 2)` and
`peers_complete_thru = (5, 1)`. -/
def trim_pg : ReplicatedPG :=
  { sample_pg with
    info := { sample_pg.info with last_update := { epoch := 5, version := 2 },
                                  last_complete := { epoch := 5, version := 2 } },
    peers_complete_thru := { epoch := 5, version := 1 },
    rep_gather := [(1, trim_gather)] }

/-- The state `trim_pg` after `put_rep_gather` sent the commit and deleted `trim_gather`. -/
def trim_pg_after : ReplicatedPG :=
  { trim_pg with
    sent := [(Message.reply (MOSDOpReply.mk_reply sample_op 0 5 true 0), Dest.client 7)],
    peers_complete_thru := { epoch := 5, version := 2 },
    rep_gather := [] }

/-! # Invariants of the run of one gather -/

/-- The replies a gather with these flags has sent to its client, in order. -/
def reply_flags (g : RepGather) : List Bool :=
  (if g.sent_ack then [false] else []) ++ (if g.sent_commit then [true] else [])

/-- The state of a live gather `g` of the PG `pg`, of which `replies` went to the client:
the flags tell the replies; the transaction was applied exactly when the ack was sent, and
before the commit was; and as long as it is not applied the local node is awaited for commit
and the store holds no commit callback for the gather. -/
def gather_inv (pg : ReplicatedPG) (rep_tid : Nat) (g : RepGather) (replies : List Bool) : Prop :=
  g.rep_tid = rep_tid ∧ replies = reply_flags g ∧ g.applied = g.sent_ack ∧
  (g.sent_commit = true → g.applied = true) ∧
  (g.applied = false →
    pg.whoami ∈ g.waitfor_commit ∧ ∀ cb ∈ pg.store.oncommit, cb.rep_tid ≠ rep_tid)

/-- The state of the PG `pg` reached from `pg0` by events on the gather `rep_tid`: the
messages sent since are the client replies the gather accounts for. -/
def reply_order_inv (pg0 : ReplicatedPG) (rep_tid : Nat) (pg : ReplicatedPG) : Prop :=
  pg.whoami = pg0.whoami ∧
  ∃ new, pg.sent = pg0.sent ++ new ∧
    ((map_find pg.rep_gather rep_tid = none ∧
        client_replies new ∈ [[], [false], [true], [false, true]]) ∨
      ∃ g, map_find pg.rep_gather rep_tid = some g ∧ gather_inv pg rep_tid g (client_replies new))

/-- The events are replies of peers: none claims the local node as its source. -/
def from_peers (whoami : Int) (evs : List RepEvent) : Prop :=
  ∀ r, RepEvent.reply r ∈ evs → r.source ≠ whoami

/-- Among the events, osd `m` was taken out of `waitfor_ack`: by the local ack when it is
the local node, or by a reply (ack or commit) it sent. -/
def acked_by (whoami : Int) (evs : List RepEvent) (m : Int) : Prop :=
  (m = whoami ∧ RepEvent.local_ack ∈ evs) ∨ ∃ r, RepEvent.reply r ∈ evs ∧ r.source = m

/-- Among the events, osd `m` reported its commit: by the store's commit callback when it is
the local node, or by a commit reply it sent. -/
def committed_by (whoami : Int) (evs : List RepEvent) (m : Int) : Prop :=
  (m = whoami ∧ ∃ lc, RepEvent.op_modify_commit lc ∈ evs) ∨
    ∃ r, RepEvent.reply r ∈ evs ∧ r.source = m ∧ r.commit = true

/-- The state of the PG `pg` reached from `pg0` by the events `evs` on the gather `rep_tid`:
an ack went to the client only after every member of `acting` was taken out of `waitfor_ack`,
a commit only after every member reported its commit, and a member still to do so is in the
wait set of the live gather. -/
def fanout_inv (pg0 : ReplicatedPG) (rep_tid : Nat) (evs : List RepEvent) (pg : ReplicatedPG) :
    Prop :=
  pg.whoami = pg0.whoami ∧
  ∃ new, pg.sent = pg0.sent ++ new ∧
    (false ∈ client_replies new → ∀ m ∈ pg0.acting, acked_by pg0.whoami evs m) ∧
    (true ∈ client_replies new → ∀ m ∈ pg0.acting, committed_by pg0.whoami evs m) ∧
    ∀ g, map_find pg.rep_gather rep_tid = some g →
      g.rep_tid = rep_tid ∧
      (∀ m ∈ pg0.acting, m ∈ g.waitfor_ack ∨ acked_by pg0.whoami evs m) ∧
      (∀ m ∈ pg0.acting, m ∈ g.waitfor_commit ∨ committed_by pg0.whoami evs m)

/-- An ack (`commit = false`) or commit reply of osd 1 for the sample write, reporting
`pg_complete_thru = (5, 1)`. -/
def sample_reply (commit : Bool) : MOSDOpReply :=
  { reqid := { client := 7, tid := 1 }, rep_tid := 1, result := 0, epoch := 5, commit := commit,
    pg_complete_thru := { epoch := 5, version := 1 }, source := 1 }

/-- The events of a primary-fanout write on two osds: the local ack, the ack of osd 1, the
commit of osd 1, the commit of the local store. -/
def sample_events : List RepEvent :=
  [RepEvent.local_ack, RepEvent.reply (sample_reply false), RepEvent.reply (sample_reply true),
   RepEvent.op_modify_commit { epoch := 5, version := 1 }]

/-- The state `sample_pg` after the sample write went through its gather under
`sample_events`: the (empty) transaction was applied, the client got the ack and then the
commit, the gather is gone and `peers_complete_thru` stands at (5, 1). -/
def sample_pg_replied : ReplicatedPG :=
  { sample_pg with
    store := { sample_pg.store with applied := [[]] },
    sent := [(Message.reply (MOSDOpReply.mk_reply sample_op 0 5 false 0), Dest.client 7),
             (Message.reply (MOSDOpReply.mk_reply sample_op 0 5 true 0), Dest.client 7)],
    peers_complete_thru := { epoch := 5, version := 1 } }

/-! # Specification-side definitions for the transaction builder -/

/-- The mutation primitive the specification lists for an opcode: `setattr(oid, "wrlock",
client)` for WRLOCK, `rmattr(oid, "wrlock")` for WRUNLOCK, `write(oid, offset, length, data)`
for WRITE, `truncate(oid, length)` for TRUNCATE, `remove(oid)` for DELETE; none for any
other opcode. -/
def spec_mutation (op : MOSDOp) : Option tx_op :=
  match op.op with
  | OSD_OP_WRLOCK => some (tx_op.setattr op.oid "wrlock" (attr_val.wrlock op.client))
  | OSD_OP_WRUNLOCK => some (tx_op.rmattr op.oid "wrlock")
  | OSD_OP_WRITE => some (tx_op.write op.oid op.offset op.length op.data)
  | OSD_OP_TRUNCATE => some (tx_op.truncate op.oid op.length)
  | OSD_OP_DELETE => some (tx_op.remove op.oid)
  | _ => none

/-- The collection membership operation the specification lists: `collection_remove(pgid,
oid)` on DELETE, `collection_add(pgid, oid)` otherwise. -/
def spec_membership (op : MOSDOp) : tx_op :=
  if op.op = OSD_OP_DELETE then tx_op.collection_remove op.pg op.oid
  else tx_op.collection_add op.pg op.oid

/-- The per-object attribute writes the specification lists: `setattr(oid, "version", nv)`,
and `setattr(oid, "crev", rev)` if `crev == 0` or a clone was performed. -/
def spec_attrs (op : MOSDOp) (nv : eversion_t) (crev rev : Nat) : Transaction :=
  [tx_op.setattr op.oid "version" (attr_val.version nv)] ++
    (if crev = 0 ∨ will_clone crev rev = true then
      [tx_op.setattr op.oid "crev" (attr_val.crev rev)]
     else [])

/-- The log entry `prepare_log_transaction` appends for the op itself. -/
def op_log_entry (op : MOSDOp) (nv : eversion_t) : Entry :=
  { op := (if op.op = OSD_OP_DELETE then entry_op_t.DELETE else entry_op_t.MODIFY),
    oid := op.oid, version := nv, reqid := op.reqid }

/-- The sample write at revision 5, turned into a delete. -/
def sample_delete_rev5 : MOSDOp := { sample_op_rev5 with op := OSD_OP_DELETE }

/-- The store transaction the two builders make for the sample write at revision 5, stamped
(5, 3), over a stored `crev` of 3. -/
def sample_tx_cloned : Transaction :=
  [tx_op.append_log sample_modify_entry eversion_t.zero,
   tx_op.collection_setattr 1 "info"
     (attr_val.info { sample_pg.info with last_update := { epoch := 5, version := 3 },
                                          last_complete := { epoch := 5, version := 3 } }),
   tx_op.clone { ino := 10, rev := 0 } { ino := 10, rev := 5 },
   tx_op.write { ino := 10, rev := 0 } 0 2 [1, 2],
   tx_op.collection_add 1 { ino := 10, rev := 0 },
   tx_op.setattr { ino := 10, rev := 0 } "version" (attr_val.version { epoch := 5, version := 3 }),
   tx_op.setattr { ino := 10, rev := 0 } "crev" (attr_val.crev 5)]

/-- The state `sample_pg` after both builders ran in the revision-clone scenario. -/
def sample_pg_cloned_written : ReplicatedPG :=
  { sample_pg_cloned with
    info := { sample_pg.info with last_update := { epoch := 5, version := 3 },
                                  last_complete := { epoch := 5, version := 3 } } }

/-- The two builders in the order `op_modify` calls them, on one transaction. -/
def prepare_transaction (pg : ReplicatedPG) (t : Transaction) (op : MOSDOp) (nv : eversion_t)
    (crev rev : Nat) (trim_to : eversion_t) : Option (ReplicatedPG × Transaction × MOSDOp) :=
  match prepare_log_transaction pg t op nv crev rev trim_to with
  | none => none
  | some (pg1, t1) => prepare_op_transaction pg1 t1 op nv crev rev

/-- The store transaction `prepare_op_transaction` builds for the sample delete at revision 5,
stamped (5, 2), over a stored `crev` of 3. -/
def sample_tx_deleted : Transaction :=
  [tx_op.collection_setattr 1 "info" (attr_val.info sample_pg_written.info),
   tx_op.clone { ino := 10, rev := 0 } { ino := 10, rev := 5 },
   tx_op.remove { ino := 10, rev := 0 },
   tx_op.collection_remove 1 { ino := 10, rev := 0 }]

/-- A PG alone on osd 0 at map epoch 5: acting set `[0]`, an empty log, nothing stored. -/
def single_peer_pg : ReplicatedPG :=
  { whoami := 0, osd_rep := OSD_REP_PRIMARY, epoch := 5,
    store := { objects := [], applied := [], oncommit := [], results := [] },
    sent := [], finished := [], last_tid := 0,
    info := { pgid := 1,
              history := { same_since := 1, same_primary_since := 1, same_acker_since := 1 },
              last_update := eversion_t.zero, last_complete := eversion_t.zero },
    log := { log := [], top := eversion_t.zero, complete_to := 0 },
    missing := { missing := [], loc := [] },
    acting := [0],
    peer_missing := [], peers_complete_thru := eversion_t.zero,
    objects_pulling := [], num_pulling := 0, rep_gather := [],
    waiting_for_repop := [], waiting_for_missing_object := [] }

/-- A client write of 1024 bytes to object 10 at revision 0, wanting ack and commit. -/
def write_1024 : MOSDOp :=
  { sample_op with length := 1024, data := List.replicate 1024 0 }

/-- The store transaction of a first write to an object: log append, PG info, the write,
`collection_add`, and the attributes `version` and `crev`. -/
def first_write_tx (pg : ReplicatedPG) (op : MOSDOp) (nv : eversion_t) : Transaction :=
  [tx_op.append_log { op := entry_op_t.MODIFY, oid := op.oid, version := nv, reqid := op.reqid }
     pg.peers_complete_thru,
   tx_op.collection_setattr op.pg "info"
     (attr_val.info { pg.info with last_update := nv, last_complete := nv }),
   tx_op.write op.oid op.offset op.length op.data,
   tx_op.collection_add op.pg op.oid,
   tx_op.setattr op.oid "version" (attr_val.version nv),
   tx_op.setattr op.oid "crev" (attr_val.crev 0)]

/-- The reply to the client of `op` that node `pg.whoami` sends for the gather it opened
next: result 0, the map epoch, the commit flag. -/
def client_reply (pg : ReplicatedPG) (op : MOSDOp) (commit : Bool) : Message × Dest :=
  (Message.reply { reqid := op.reqid, rep_tid := pg.last_tid + 1, result := 0, epoch := pg.epoch,
                   commit := commit, pg_complete_thru := eversion_t.zero, source := pg.whoami },
   Dest.client op.client_inst)

/-- The sample write sent again under the reqid (7, 0), which the log of `sample_pg` holds. -/
def dup_op : MOSDOp := { sample_op with reqid := { client := 7, tid := 0 } }

/-- The duplicate at revision 5, above the stored `crev` of 3. -/
def dup_op_rev5 : MOSDOp := { dup_op with rev := 5 }

/-- The sample PG on its primary, osd 0, in chain mode. -/
def chain_primary_pg : ReplicatedPG := { sample_pg with osd_rep := OSD_REP_CHAIN }

/-- The sample PG on its primary, osd 0, in splay mode. -/
def splay_primary_pg : ReplicatedPG := { sample_pg with osd_rep := OSD_REP_SPLAY }

/-- The entries the log of `chain_primary_pg` gains from the duplicate at revision 5. -/
def dup_entries : List Entry :=
  [{ op := entry_op_t.CLONE, oid := { ino := 10, rev := 0 },
     version := { epoch := 5, version := 0 }, reqid := { client := 7, tid := 0 } },
   { op := entry_op_t.MODIFY, oid := { ino := 10, rev := 0 },
     version := { epoch := 5, version := 1 }, reqid := { client := 7, tid := 0 } }]

/-- The state of `op_push` for a missing object after its local part, before the push loop:
the pull is closed out, the object is got, `last_complete` is raised, the object and the PG
info are written to the store. -/
def op_push_local (pg : ReplicatedPG) (op : MOSDOp) : ReplicatedPG :=
  let missing1 := pg.missing.got op.oid
  let r := raise_last_complete missing1.missing (pg.log.log.drop pg.log.complete_to)
    pg.info.last_complete pg.log.complete_to
  let info1 := { pg.info with last_complete := r.1 }
  let t1 : Transaction :=
    [tx_op.remove op.oid, tx_op.write op.oid 0 op.length op.data, tx_op.setattrs op.oid op.attrset,
     tx_op.collection_add pg.info.pgid op.oid,
     tx_op.collection_setattr info1.pgid "info" (attr_val.info info1)]
  { pg with num_pulling := pg.num_pulling - 1,
            objects_pulling := map_erase_if_present pg.objects_pulling op.oid,
            missing := missing1, info := info1, log := { pg.log with complete_to := r.2 },
            store := (pg.store.apply_transaction t1 none).1 }

/-- What `op_push` relies on from `do_recovery`, which continues recovery by pulling further
missing objects: it leaves `missing` and `peer_missing` alone, only adds to the messages
sent, and starts no pull for an object that is not missing. -/
def recovery_pulls_missing (do_recovery : ReplicatedPG → Option ReplicatedPG) : Prop :=
  ∀ p q, do_recovery p = some q →
    q.missing = p.missing ∧ q.peer_missing = p.peer_missing ∧
    (∃ more, q.sent = p.sent ++ more) ∧
    (∀ o, map_count p.missing.missing o = false →
      map_count q.objects_pulling o = map_count p.objects_pulling o)

/-- What `op_push` relies on from `do_recovery` for the log: it leaves `info` and the log
alone. -/
def recovery_keeps_log (do_recovery : ReplicatedPG → Option ReplicatedPG) : Prop :=
  ∀ p q, do_recovery p = some q → q.info = p.info ∧ q.log = p.log

/-- The recovering primary with a third osd in the acting set; osd 2 misses object 12 too. -/
def recovering_pg3 : ReplicatedPG :=
  { recovering_pg with
    acting := [0, 1, 2],
    peer_missing := [(1, { missing := [], loc := [] }),
                     (2, { missing := [({ ino := 12, rev := 0 }, { epoch := 1, version := 2 })],
                           loc := [] })] }

/-- The PUSH of object 12 that the primary sends on to osd 2. -/
def push_12_to_2 : Message × Dest :=
  (Message.op
     { client := 0, client_inst := 0, client_inc := 0, reqid := { client := 0, tid := 1 },
       oid := { ino := 12, rev := 0 }, pg := 1, map_epoch := 5, op := OSD_OP_PUSH, offset := 0,
       length := 0, data := [], version := eversion_t.zero, rev := 0, rep_tid := 0,
       pg_trim_to := eversion_t.zero, wants_ack := true, wants_commit := true, source := 0,
       attrset := [] },
   Dest.osd 2)

/-- The state `recovering_pg3` after the push of object 12 was taken in and passed on. -/
def recovering_pg3_pushed : ReplicatedPG :=
  { after_push_12 recovering_pg3 with
    store := { (after_push_12 recovering_pg3).store with
      applied := (after_push_12 recovering_pg3).store.applied ++
        [[tx_op.read { ino := 12, rev := 0 } 0 0, tx_op.getattr { ino := 12, rev := 0 } "version",
          tx_op.getattrs { ino := 12, rev := 0 }]] },
    sent := [push_12_to_2],
    last_tid := 1,
    peer_missing := [(2, { missing := [], loc := [] }), (1, { missing := [], loc := [] })] }

/-- The recovering primary missing object 13 as well as object 12. -/
def recovering_pg_two : ReplicatedPG :=
  { recovering_pg with
    missing := { missing := [({ ino := 12, rev := 0 }, { epoch := 1, version := 2 }),
                             ({ ino := 13, rev := 0 }, { epoch := 1, version := 3 })],
                 loc := [({ ino := 12, rev := 0 }, 1), ({ ino := 13, rev := 0 }, 1)] } }

/-- The state `recovering_pg_two` after the push of object 12: `log.complete_to` stands at
the entry of object 13, which is still missing, and `last_complete` at (1, 2). -/
def recovering_pg_two_pushed : ReplicatedPG :=
  { recovering_pg_two with
    info := { recovering_pg_two.info with last_complete := { epoch := 1, version := 2 } },
    log := { recovering_pg_two.log with complete_to := 2 },
    missing := { missing := [({ ino := 13, rev := 0 }, { epoch := 1, version := 3 })],
                 loc := [({ ino := 13, rev := 0 }, 1)] },
    objects_pulling := [],
    num_pulling := 0,
    store := { recovering_pg_two.store with applied :=
      [[tx_op.remove { ino := 12, rev := 0 },
        tx_op.write { ino := 12, rev := 0 } 0 2 [1, 2],
        tx_op.setattrs { ino := 12, rev := 0 } [],
        tx_op.collection_add 1 { ino := 12, rev := 0 },
        tx_op.collection_setattr 1 "info" (attr_val.info
          { recovering_pg_two.info with last_complete := { epoch := 1, version := 2 } })]] } }

/-- The invariant read off the data model: `num_pulling` is the number of entries of
`objects_pulling`. -/
def pulling_counted (pg : ReplicatedPG) : Prop :=
  pg.num_pulling = (pg.objects_pulling.length : Int)

instance (pg : ReplicatedPG) : Decidable (pulling_counted pg) :=
  inferInstanceAs (Decidable (pg.num_pulling = (pg.objects_pulling.length : Int)))

/-- The PULL message `pull` sends for an object. -/
def pull_message (pg : ReplicatedPG) (oid : object_t) : Message × Dest :=
  (Message.op
     { client := 0, client_inst := 0, client_inc := 0,
       reqid := { client := 0, tid := pg.last_tid + 1 },
       oid := oid, pg := pg.info.pgid, map_epoch := pg.epoch, op := OSD_OP_PULL,
       offset := 0, length := 0, data := [],
       version := map_get pg.missing.missing oid eversion_t.zero, rev := 0, rep_tid := 0,
       pg_trim_to := eversion_t.zero, wants_ack := true, wants_commit := true,
       source := pg.whoami, attrset := [] },
   Dest.osd (map_get pg.missing.loc oid 0))

/-- The recovering PG seen from the replica osd 1, which misses object 12 and pulls nothing:
the primary is about to push the object to it. -/
def replica_pg_12 : ReplicatedPG :=
  { recovering_pg with whoami := 1, objects_pulling := [], num_pulling := 0,
                       missing := { missing := [({ ino := 12, rev := 0 }, { epoch := 1, version := 2 })],
                                    loc := [({ ino := 12, rev := 0 }, 0)] } }

/-- The invariant behind `objects_pulling`: every recorded pull carries the version `missing`
holds for the object. -/
def pulling_consistent (pg : ReplicatedPG) : Prop :=
  ∀ o v, map_find pg.objects_pulling o = some v → map_find pg.missing.missing o = some v

/-- The PG with a store that is going to return `r` from its next `apply_transaction`. -/
def with_store_result (r : Nat) (pg : ReplicatedPG) : ReplicatedPG :=
  { pg with store := { pg.store with results := [r] } }

/-- The sample write as the primary forwards it: stamped (5, 2), sent by osd 0. -/
def rep_write : MOSDOp := { sample_op with version := { epoch := 5, version := 2 }, source := 0 }

/-- The sample PG seen from the replica osd 1. -/
def replica_pg : ReplicatedPG := { sample_pg with whoami := 1 }

/-- The sample PG in chain mode on three osds, `acting = [0, 1, 2]`, seen from osd `w`. -/
def chain3_pg (w : Int) : ReplicatedPG :=
  { sample_pg with osd_rep := OSD_REP_CHAIN, acting := [0, 1, 2], whoami := w }

/-- The sample PG in chain mode on two osds, `acting = [0, 1]`, seen from osd `w`. -/
def chain2_pg (w : Int) : ReplicatedPG :=
  { sample_pg with osd_rep := OSD_REP_CHAIN, acting := [0, 1], whoami := w }

/-- The ops a node has sent to osds, with their destinations, in sending order. -/
def ops_sent (pg : ReplicatedPG) : List (MOSDOp × Int) :=
  pg.sent.filterMap fun
    | (Message.op o, Dest.osd d) => some (o, d)
    | _ => none

/-- The op the node sent first, as the receiver sees it, and the osd it went to. -/
def forwarded (r : Option (ReplicatedPG × Option C_OSD_RepModifyCommit)) : Option (MOSDOp × Int) :=
  r.bind (fun x => (ops_sent x.1).head?)

/-- The sample write after the primary of `chain3_pg` stamped it (5, 2) and forwarded it. -/
def chain3_hop1 : MOSDOp :=
  { sample_op with version := { epoch := 5, version := 2 }, source := 0 }

/-- The same op as osd 2 forwards it. -/
def chain3_hop2 : MOSDOp := { chain3_hop1 with source := 2 }

/-- The wait sets of the gather of `rep_tid` 1, and whether it has been applied. -/
def gather_waits (r : Option (ReplicatedPG × Option C_OSD_RepModifyCommit)) :
    Option (List Int × List Int × Bool) :=
  r.bind (fun x => (map_find x.1.rep_gather 1).map
    (fun g => (g.waitfor_ack, g.waitfor_commit, g.applied)))

/-- The state of a live gather `g` of the PG `pg`: the transaction was applied exactly when
the ack was sent; every osd awaited for ack is awaited for commit; once the transaction is
applied nobody is awaited for ack; and as long as it is not applied the store holds no
commit callback for the gather. -/
def gather_wf (pg : ReplicatedPG) (rep_tid : Nat) (g : RepGather) : Prop :=
  g.rep_tid = rep_tid ∧ g.applied = g.sent_ack ∧
  (∀ x ∈ g.waitfor_ack, x ∈ g.waitfor_commit) ∧
  (g.applied = true → g.waitfor_ack = []) ∧
  (g.applied = false → ∀ cb ∈ pg.store.oncommit, cb.rep_tid ≠ rep_tid)

/-- The state of the PG `pg` reached from `pg0` by events on the gather `rep_tid`: at most
one transaction has been handed to the store since, the one of the gather; a live gather is
well-formed, and its transaction has been handed to the store exactly if it is marked
applied. -/
def apply_inv (pg0 : ReplicatedPG) (rep_tid : Nat) (pg : ReplicatedPG) : Prop :=
  (∃ l, l.length ≤ 1 ∧ pg.store.applied = pg0.store.applied ++ l) ∧
  ∀ g, map_find pg.rep_gather rep_tid = some g →
    gather_wf pg rep_tid g ∧
    pg.store.applied = pg0.store.applied ++ (if g.applied then [g.t] else [])

/-- The state `sample_pg` after the gather of the sample write got the local ack and the ack
of osd 1: the transaction was applied with its commit callback, the client got the ack, and
the gather still awaits both commits. -/
def sample_pg_acked : ReplicatedPG :=
  { sample_pg with
    store := { sample_pg.store with
               applied := [[]],
               oncommit := [{ rep_tid := 1, pg_last_complete := { epoch := 5, version := 1 } }] },
    sent := [(Message.reply (MOSDOpReply.mk_reply sample_op 0 5 false 0), Dest.client 7)],
    rep_gather :=
      [(1, { RepGather.new sample_op 1 eversion_t.zero { epoch := 5, version := 1 } with
             op := { sample_op with data := [] }, applied := true, sent_ack := true,
             waitfor_commit := [0, 1], osds := [0, 1] })] }

/-- The state `sample_pg` after the gather of the sample write got the local ack only: osd 1
is awaited for ack, both osds for commit, nothing was applied. -/
def sample_pg_local_acked : ReplicatedPG :=
  { sample_pg with
    rep_gather :=
      [(1, { RepGather.new sample_op 1 eversion_t.zero { epoch := 5, version := 1 } with
             waitfor_ack := [1], waitfor_commit := [0, 1], osds := [0, 1] })] }

/-- The sample PG on osd 0 (primary fan-out, `acting = [0, 1]`) when osd 1 is known to miss
object 10. -/
def missing_peer_pg : ReplicatedPG :=
  { sample_pg with
    peer_missing := [(1, { missing := [({ ino := 10, rev := 0 }, { epoch := 5, version := 1 })],
                           loc := [] })] }

/-- The PUSH of object 10 that `push` sends from `missing_peer_pg`: the stored object (no
data, version (5, 1)) under the fresh tid 1. -/
def missing_peer_push : MOSDOp :=
  { client := 0, client_inst := 0, client_inc := 0, reqid := { client := 0, tid := 1 },
    oid := { ino := 10, rev := 0 }, pg := 1, map_epoch := 5, op := OSD_OP_PUSH,
    offset := 0, length := 0, data := [], version := { epoch := 5, version := 1 }, rev := 0,
    rep_tid := 0, pg_trim_to := eversion_t.zero, wants_ack := true, wants_commit := true,
    source := 0, attrset := [] }

/-- The sample write as `op_modify` stamped it on `missing_peer_pg`: version (5, 2),
`rep_tid` 2. -/
def missing_peer_write : MOSDOp :=
  { sample_op with version := { epoch := 5, version := 2 }, rep_tid := 2 }

/-- The state `missing_peer_pg` after `op_modify` of the sample write: the push read went to
the store, osd 1 no longer misses the object, the PUSH and then the replicated write went to
osd 1, the op is logged, and the gather awaits the ack of osd 1. -/
def missing_peer_pg_after : ReplicatedPG :=
  { missing_peer_pg with
    store := { sample_pg.store with
               applied := [[tx_op.read { ino := 10, rev := 0 } 0 0,
                            tx_op.getattr { ino := 10, rev := 0 } "version",
                            tx_op.getattrs { ino := 10, rev := 0 }]] },
    sent := [(Message.op missing_peer_push, Dest.osd 1),
             (Message.op { missing_peer_write with source := 0 }, Dest.osd 1)],
    last_tid := 2,
    info := sample_pg_written.info,
    log := { log := sample_pg.log.log ++
               [sample_write_entry],
             top := { epoch := 5, version := 2 }, complete_to := 1 },
    peer_missing := [(1, { missing := [], loc := [] })],
    rep_gather :=
      [(2, { RepGather.new { missing_peer_write with data := [] } 2 { epoch := 5, version := 2 }
               { epoch := 5, version := 1 } with
             t := tx_op.append_log sample_write_entry eversion_t.zero :: sample_tx_written,
             waitfor_ack := [1], waitfor_commit := [0, 1], osds := [0, 1] })] }

/-- The version `assign_version` stamps when the width of the version counter is taken into
account: the current epoch, and the larger of `log.top.version + 1 + c` reduced modulo
`2 ^ 64` and the replay hint, where `c` is 1 when a clone is implied. -/
def spec_assign_version_64 (top : eversion_t) (epoch crev rev hint : Nat) : eversion_t :=
  { epoch := epoch,
    version := max ((top.version + 1 + (if 0 < crev ∧ crev < rev then 1 else 0)) % 2 ^ 64) hint }

/-- The sample write carrying the replay hint `2 ^ 64 - 1`, the largest value of the version
counter. -/
def top_hint_op : MOSDOp :=
  { sample_op with version := { epoch := 5, version := 2 ^ 64 - 1 } }

/-- The sample PG after `op_modify` took in `top_hint_op`, logged at (5, 2 ^ 64 - 1), and the
map epoch went on to 6. -/
def top_pg : ReplicatedPG :=
  { sample_pg with
    epoch := 6,
    info := { sample_pg.info with last_update := { epoch := 5, version := 2 ^ 64 - 1 },
                                  last_complete := { epoch := 5, version := 2 ^ 64 - 1 } },
    log := { log := sample_pg.log.log ++
               [{ op := entry_op_t.MODIFY, oid := { ino := 10, rev := 0 },
                  version := { epoch := 5, version := 2 ^ 64 - 1 },
                  reqid := { client := 7, tid := 1 } }],
             top := { epoch := 5, version := 2 ^ 64 - 1 }, complete_to := 1 } }

/-- The next write of the same client, without a replay hint. -/
def next_op : MOSDOp := { sample_op with reqid := { client := 7, tid := 2 } }

/-- The sample write carrying the replay hint `2 ^ 64 - 2`. -/
def near_top_hint_op : MOSDOp :=
  { sample_op with version := { epoch := 5, version := 2 ^ 64 - 2 } }

/-- The sample PG after `op_modify` took in `near_top_hint_op`, logged at (5, 2 ^ 64 - 2);
the map epoch is still 5. -/
def near_top_pg : ReplicatedPG :=
  { sample_pg with
    info := { sample_pg.info with last_update := { epoch := 5, version := 2 ^ 64 - 2 },
                                  last_complete := { epoch := 5, version := 2 ^ 64 - 2 } },
    log := { log := sample_pg.log.log ++
               [{ op := entry_op_t.MODIFY, oid := { ino := 10, rev := 0 },
                  version := { epoch := 5, version := 2 ^ 64 - 2 },
                  reqid := { client := 7, tid := 1 } }],
             top := { epoch := 5, version := 2 ^ 64 - 2 }, complete_to := 1 } }

/-- The next write of the same client at revision 5 (a clone is implied over the stored
`crev = 3`), carrying the replay hint 7. -/
def next_op_rev5_hint7 : MOSDOp :=
  { sample_op with reqid := { client := 7, tid := 2 }, rev := 5,
                   version := { epoch := 5, version := 7 } }

/-- The state `near_top_pg` after `prepare_log_transaction` for `next_op_rev5_hint7` stamped
(5, 7): the CLONE entry at (5, 6) and the MODIFY entry at (5, 7) follow the entry at
(5, 2 ^ 64 - 2). -/
def near_top_pg_logged : ReplicatedPG :=
  { near_top_pg with
    log := { log := near_top_pg.log.log ++
               [{ op := entry_op_t.CLONE, oid := { ino := 10, rev := 0 },
                  version := { epoch := 5, version := 6 }, reqid := { client := 7, tid := 2 } },
                { op := entry_op_t.MODIFY, oid := { ino := 10, rev := 0 },
                  version := { epoch := 5, version := 7 }, reqid := { client := 7, tid := 2 } }],
             top := { epoch := 5, version := 7 }, complete_to := 1 } }

/-- No entry of the log is above `info.last_update`: every append to the log comes with the
assignment of the entry's version to `info.last_update`, and the recovery path appends
nothing, so the states the code produces from an empty log keep this. -/
def log_below_last_update (pg : ReplicatedPG) : Prop :=
  ∀ e ∈ pg.log.log, e.version ≤ pg.info.last_update

/-- The values of `pg_complete_thru` a gather holds when an event hands it to
`put_rep_gather`: a commit reply records the value of its sender (`repop_ack`), the commit
callback of the local store records the value of the local node (`op_modify_commit`), an ack
records nothing. -/
def recorded_after (whoami : Int) (pct : List (Int × eversion_t)) :
    RepEvent → List (Int × eversion_t)
  | RepEvent.local_ack => pct
  | RepEvent.reply r => if r.commit then map_set pct r.source r.pg_complete_thru else pct
  | RepEvent.op_modify_commit lc => map_set pct whoami lc

/-- The state of the PG `pg` reached from `pg0` by events on the gather `rep_tid`: the local
node, the acting set and `info` are as in `pg0`; a commit callback the store holds for the
gather carries a `last_complete` at most `info.last_complete`; and so do the snapshot the
live gather took and the value it recorded for the local node (zero when none). -/
def local_bound_inv (pg0 : ReplicatedPG) (rep_tid : Nat) (pg : ReplicatedPG) : Prop :=
  pg.whoami = pg0.whoami ∧ pg.acting = pg0.acting ∧ pg.info = pg0.info ∧
  (∀ cb ∈ pg.store.oncommit, cb.rep_tid = rep_tid →
    cb.pg_last_complete ≤ pg0.info.last_complete) ∧
  ∀ g, map_find pg.rep_gather rep_tid = some g →
    g.rep_tid = rep_tid ∧ g.pg_local_last_complete ≤ pg0.info.last_complete ∧
    map_get g.pg_complete_thru pg0.whoami eversion_t.zero ≤ pg0.info.last_complete

/-- The state `sample_pg` after the local ack, the ack and the commit of osd 1: the gather
awaits the commit of the local store and has recorded (5, 1) for osd 1. -/
def sample_pg_peer_committed : ReplicatedPG :=
  { sample_pg with
    store := { sample_pg.store with
               applied := [[]],
               oncommit := [{ rep_tid := 1, pg_last_complete := { epoch := 5, version := 1 } }] },
    sent := [(Message.reply (MOSDOpReply.mk_reply sample_op 0 5 false 0), Dest.client 7)],
    rep_gather :=
      [(1, { RepGather.new sample_op 1 eversion_t.zero { epoch := 5, version := 1 } with
             op := { sample_op with data := [] }, applied := true, sent_ack := true,
             waitfor_commit := [0], osds := [0, 1],
             pg_complete_thru := [(1, { epoch := 5, version := 1 })] })] }

/-! # Theorems -/

/-! ## Facts about the order on versions -/

theorem eversion_t.lt_iff (l r : eversion_t) :
    l < r ↔ l.epoch < r.epoch ∨ (l.epoch = r.epoch ∧ l.version < r.version) := by
  show eversion_t.lt l r = true ↔ _
  unfold eversion_t.lt
  split <;> simp <;> omega

theorem eversion_t.le_iff (l r : eversion_t) :
    l ≤ r ↔ l.epoch < r.epoch ∨ (l.epoch = r.epoch ∧ l.version ≤ r.version) := by
  show eversion_t.lt r l = false ↔ _
  unfold eversion_t.lt
  split <;> simp <;> omega

theorem eversion_t.eq_iff (l r : eversion_t) :
    l = r ↔ l.epoch = r.epoch ∧ l.version = r.version := by
  cases l; cases r; simp

/-! ## Sets and maps -/

theorem map_find_set_same {κ ν : Type} [DecidableEq κ] (m : List (κ × ν)) (k : κ) (v : ν) :
    map_find (map_set m k v) k = some v := by
  simp [map_find, map_set]

theorem map_find_erase_ne {κ ν : Type} [DecidableEq κ] (m : List (κ × ν)) (k j : κ)
    (h : j ≠ k) : map_find (map_erase m k) j = map_find m j := by
  unfold map_find map_erase
  induction m with
  | nil => rfl
  | cons p m ih =>
    obtain ⟨a, b⟩ := p
    by_cases hp : a = k
    · subst hp
      have hj : ¬ a = j := fun hh => h hh.symm
      simp only [List.filter_cons, decide_True, Bool.not_true, List.find?_cons, hj,
        decide_False, Bool.false_eq_true, if_false]
      exact ih
    · by_cases hj : a = j
      · subst hj
        simp [List.filter_cons, hp, List.find?_cons]
      · simp only [List.filter_cons, hp, decide_False, Bool.not_false, if_true,
          List.find?_cons, hj]
        exact ih

theorem map_find_erase_same {κ ν : Type} [DecidableEq κ] (m : List (κ × ν)) (k : κ) :
    map_find (map_erase m k) k = none := by
  unfold map_find map_erase
  simp [List.find?_eq_none, List.mem_filter]

theorem map_find_set_ne {κ ν : Type} [DecidableEq κ] (m : List (κ × ν)) (k j : κ) (v : ν)
    (h : j ≠ k) : map_find (map_set m k v) j = map_find m j := by
  have hk : ¬ k = j := fun hh => h hh.symm
  have := map_find_erase_ne m k j h
  unfold map_find at this ⊢
  simp [map_set, List.find?_cons, hk]
  simpa using this

theorem mem_set_insert (s : List Int) (x y : Int) : x ∈ set_insert s y ↔ x ∈ s ∨ x = y := by
  unfold set_insert
  split
  · constructor
    · intro h; exact Or.inl h
    · rintro (h | h)
      · exact h
      · subst h; assumption
  · simp

theorem mem_set_erase (s : List Int) (x y : Int) : x ∈ set_erase s y ↔ x ∈ s ∧ x ≠ y := by
  unfold set_erase
  simp [List.mem_filter]

/-! ## Versioner -/

/-- The clone test of the code says `0 < crev < rev`. -/
theorem will_clone_iff (crev rev : Nat) : will_clone crev rev = true ↔ 0 < crev ∧ crev < rev := by
  unfold will_clone
  simp
  omega

/-- The value of `assign_version` for an op other than WRNOOP: it returns when the two
assertions on the incremented version hold, and then stamps the larger of the incremented
counter (twice incremented when a clone is implied, each increment wrapping at `2 ^ 64`) and
the replay hint; the version kept for an implied clone is one below the stamped one on the
same counter. -/
theorem assign_version_eq (pg : ReplicatedPG) (op : MOSDOp) (hop : op.op ≠ OSD_OP_WRNOOP) :
    assign_version pg op =
      if ({ epoch := pg.epoch, version := (pg.log.top.version + 1) % 2 ^ 64 } : eversion_t) >
            pg.info.last_update ∧
          ({ epoch := pg.epoch, version := (pg.log.top.version + 1) % 2 ^ 64 } : eversion_t) >
            pg.log.top then
        some ({ op with version :=
                { epoch := pg.epoch,
                  version := max ((pg.log.top.version + 1 +
                    (if will_clone (pg.store.getattr_crev op.oid) op.rev then 1 else 0)) % 2 ^ 64)
                    op.version.version } },
              if will_clone (pg.store.getattr_crev op.oid) op.rev then
                { epoch := pg.epoch,
                  version :=
                    if max ((pg.log.top.version + 1 + 1) % 2 ^ 64) op.version.version = 0 then
                      2 ^ 64 - 1
                    else max ((pg.log.top.version + 1 + 1) % 2 ^ 64) op.version.version - 1 }
              else eversion_t.zero)
      else none := by
  have hW : (2 : Nat) ^ 64 = 18446744073709551616 := by norm_num
  unfold assign_version
  simp only [hop, ne_eq, not_false_eq_true, if_true]
  split
  · by_cases hc : will_clone (pg.store.getattr_crev op.oid) op.rev = true
    · simp only [hc, if_true]
      by_cases hv : op.version.version = 0
      · simp only [hv, ne_eq, not_true_eq_false, if_false, Option.some.injEq, Prod.mk.injEq,
          eversion_t.mk.injEq, true_and, hW]
        refine ⟨?_, ?_⟩
        · congr 1
          simp only [eversion_t.mk.injEq, true_and]
          omega
        · split <;> omega
      · by_cases hlt : (((pg.log.top.version + 1) % 2 ^ 64 + 1) % 2 ^ 64) < op.version.version
        · simp only [hv, ne_eq, not_false_eq_true, if_true, hlt, hc, eversion_t.dec,
            Option.some.injEq, Prod.mk.injEq, eversion_t.mk.injEq, true_and]
          rw [hW] at hlt ⊢
          refine ⟨?_, ?_⟩
          · congr 1
            simp only [eversion_t.mk.injEq, true_and]
            omega
          · split <;> omega
        · simp only [hv, ne_eq, not_false_eq_true, if_true, hlt, if_false,
            Option.some.injEq, Prod.mk.injEq, eversion_t.mk.injEq, true_and]
          rw [hW] at hlt ⊢
          refine ⟨?_, ?_⟩
          · congr 1
            simp only [eversion_t.mk.injEq, true_and]
            omega
          · split <;> omega
    · have hcf : will_clone (pg.store.getattr_crev op.oid) op.rev = false := by simpa using hc
      simp only [hcf, Bool.false_eq_true, if_false, Nat.add_zero]
      by_cases hv : op.version.version = 0
      · simp only [hv, ne_eq, not_true_eq_false, if_false, Option.some.injEq, Prod.mk.injEq,
          and_true]
        congr 1
        simp only [eversion_t.mk.injEq, true_and]
        omega
      · by_cases hlt : ((pg.log.top.version + 1) % 2 ^ 64) < op.version.version
        · simp only [hv, ne_eq, not_false_eq_true, if_true, hlt, hcf, Bool.false_eq_true,
            if_false, Option.some.injEq, Prod.mk.injEq, and_true]
          congr 1
          simp only [eversion_t.mk.injEq, true_and]
          omega
        · simp only [hv, ne_eq, not_false_eq_true, if_true, hlt, if_false,
            Option.some.injEq, Prod.mk.injEq, and_true]
          congr 1
          simp only [eversion_t.mk.injEq, true_and]
          omega
  · rfl

/-- C3, as amended: for an op other than WRNOOP, `assign_version` returns exactly when its
two assertions hold for the incremented version, and then the op carries the version with
the current map epoch and version component `max ((log.top.version + 1 + c) mod 2 ^ 64) h`,
`c` being 1 when a clone is implied (`0 < crev < rev`) and `h` the replay hint; when a clone
is implied the version kept for the clone is one below the stamped version on the 64-bit
counter (`2 ^ 64 - 1` below 0). When `log.top.version + 1 + c < 2 ^ 64` the version
component is `max (log.top.version + 1 + c) h` and the clone gets the version below it. -/
theorem assign_version_stamps (pg : ReplicatedPG) (op : MOSDOp) (hop : op.op ≠ OSD_OP_WRNOOP) :
    ((assign_version pg op).isSome ↔
      (pg.info.last_update <
          { epoch := pg.epoch, version := (pg.log.top.version + 1) % 2 ^ 64 } ∧
        pg.log.top < { epoch := pg.epoch, version := (pg.log.top.version + 1) % 2 ^ 64 })) ∧
    ∀ op1 cv, assign_version pg op = some (op1, cv) →
      op1 = { op with version := (spec_assign_version_64 pg.log.top pg.epoch
                (pg.store.getattr_crev op.oid) op.rev op.version.version) } ∧
      op1.version.epoch = pg.epoch ∧
      ((0 < pg.store.getattr_crev op.oid ∧ pg.store.getattr_crev op.oid < op.rev) →
        cv = { epoch := pg.epoch,
               version := if op1.version.version = 0 then 2 ^ 64 - 1
                 else op1.version.version - 1 }) ∧
      (pg.log.top.version + 1 +
          (if 0 < pg.store.getattr_crev op.oid ∧ pg.store.getattr_crev op.oid < op.rev
            then 1 else 0) < 2 ^ 64 →
        op1 = { op with version := (spec_assign_version pg.log.top pg.epoch
                  (pg.store.getattr_crev op.oid) op.rev op.version.version) } ∧
        ((0 < pg.store.getattr_crev op.oid ∧ pg.store.getattr_crev op.oid < op.rev) →
          cv = { epoch := pg.epoch, version := op1.version.version - 1 })) := by
  have heq := assign_version_eq pg op hop
  have hw := will_clone_iff (pg.store.getattr_crev op.oid) op.rev
  constructor
  · rw [heq]
    split
    · rename_i h
      simp only [Option.isSome_some, true_iff]
      exact h
    · rename_i h
      simp only [Option.isSome_none, Bool.false_eq_true, false_iff]
      exact h
  · intro op1 cv h
    rw [heq] at h
    split at h
    · simp only [Option.some.injEq, Prod.mk.injEq] at h
      obtain ⟨h1, h2⟩ := h
      by_cases hc : will_clone (pg.store.getattr_crev op.oid) op.rev = true
      · have hc' := hw.1 hc
        simp only [hc, if_true] at h1 h2
        subst h1 h2
        refine ⟨?_, rfl, ?_, ?_⟩
        · simp only [spec_assign_version_64, hc', and_self, if_true]
        · intro _
          rfl
        · intro hroom
          simp only [hc', and_self, if_true] at hroom
          have hmod : (pg.log.top.version + 1 + 1) % 2 ^ 64 = pg.log.top.version + 1 + 1 :=
            Nat.mod_eq_of_lt hroom
          refine ⟨?_, ?_⟩
          · simp only [spec_assign_version, hc', and_self, if_true, hmod]
          · intro _
            simp only [hmod]
            have hne : max (pg.log.top.version + 1 + 1) op.version.version ≠ 0 := by omega
            rw [if_neg hne]
      · have hc' : ¬ (0 < pg.store.getattr_crev op.oid ∧ pg.store.getattr_crev op.oid < op.rev) :=
          fun hh => hc (hw.2 hh)
        have hcf : will_clone (pg.store.getattr_crev op.oid) op.rev = false := by simpa using hc
        simp only [hcf, Bool.false_eq_true, if_false] at h1 h2
        subst h1 h2
        refine ⟨?_, rfl, ?_, ?_⟩
        · simp only [spec_assign_version_64, hc', if_false]
        · intro hh
          exact absurd hh hc'
        · intro hroom
          simp only [hc', if_false] at hroom
          have hmod : (pg.log.top.version + 1 + 0) % 2 ^ 64 = pg.log.top.version + 1 + 0 :=
            Nat.mod_eq_of_lt hroom
          refine ⟨?_, ?_⟩
          · simp only [spec_assign_version, hc', if_false, hmod]
          · intro hh
            exact absurd hh hc'
    · simp at h

/-- C3 as stated fails where the counter wraps. One write with the replay hint `2 ^ 64 - 1`
takes `log.top` of the sample PG to (5, 2 ^ 64 - 1); in map epoch 6 the next write passes both
assertions and is stamped (6, 0), where `max (log.top.version + 1 + c) h` is `2 ^ 64`. -/
theorem assign_version_stamps_counterexample :
    (op_modify 0 sample_pg top_hint_op).map (fun r => (r.1.log, r.1.info)) =
      some (top_pg.log, top_pg.info) ∧
    (op_modify 0 sample_pg top_hint_op).bind
        (fun r => assign_version { r.1 with epoch := 6 } next_op) =
      some ({ next_op with version := { epoch := 6, version := 0 } }, eversion_t.zero) ∧
    next_op.op ≠ OSD_OP_WRNOOP ∧
    assign_version top_pg next_op =
      some ({ next_op with version := { epoch := 6, version := 0 } }, eversion_t.zero) ∧
    spec_assign_version top_pg.log.top top_pg.epoch (top_pg.store.getattr_crev next_op.oid)
      next_op.rev next_op.version.version = { epoch := 6, version := 2 ^ 64 } ∧
    ({ epoch := 6, version := 0 } : eversion_t) ≠ { epoch := 6, version := 2 ^ 64 } := by
  refine ⟨by decide, by decide, by decide, by decide, by decide, by decide⟩

/-- C3 as amended at a sample state: crev = 3, rev = 5, log.top = (5, 1): the clone gets
(5, 2), the write (5, 3). -/
theorem assign_version_stamps_witness :
    sample_op_rev5.op ≠ OSD_OP_WRNOOP ∧
    assign_version sample_pg sample_op_rev5 =
      some ({ sample_op_rev5 with version := { epoch := 5, version := 3 } },
            { epoch := 5, version := 2 }) ∧
    (({ sample_op_rev5 with version := { epoch := 5, version := 3 } } : MOSDOp) =
        { sample_op_rev5 with version := (spec_assign_version_64 sample_pg.log.top sample_pg.epoch
            (sample_pg.store.getattr_crev sample_op_rev5.oid) sample_op_rev5.rev
            sample_op_rev5.version.version) } ∧
      ({ sample_op_rev5 with version := { epoch := 5, version := 3 } } : MOSDOp).version.epoch =
        sample_pg.epoch ∧
      ((0 < sample_pg.store.getattr_crev sample_op_rev5.oid ∧
          sample_pg.store.getattr_crev sample_op_rev5.oid < sample_op_rev5.rev) →
        ({ epoch := 5, version := 2 } : eversion_t) =
          { epoch := sample_pg.epoch,
            version :=
              if ({ sample_op_rev5 with version := { epoch := 5, version := 3 } } :
                  MOSDOp).version.version = 0 then 2 ^ 64 - 1
              else ({ sample_op_rev5 with version := { epoch := 5, version := 3 } } :
                  MOSDOp).version.version - 1 }) ∧
      (sample_pg.log.top.version + 1 +
          (if 0 < sample_pg.store.getattr_crev sample_op_rev5.oid ∧
              sample_pg.store.getattr_crev sample_op_rev5.oid < sample_op_rev5.rev
            then 1 else 0) < 2 ^ 64 →
        ({ sample_op_rev5 with version := { epoch := 5, version := 3 } } : MOSDOp) =
          { sample_op_rev5 with version := (spec_assign_version sample_pg.log.top sample_pg.epoch
              (sample_pg.store.getattr_crev sample_op_rev5.oid) sample_op_rev5.rev
              sample_op_rev5.version.version) } ∧
        ((0 < sample_pg.store.getattr_crev sample_op_rev5.oid ∧
            sample_pg.store.getattr_crev sample_op_rev5.oid < sample_op_rev5.rev) →
          ({ epoch := 5, version := 2 } : eversion_t) =
            { epoch := sample_pg.epoch,
              version := ({ sample_op_rev5 with version := { epoch := 5, version := 3 } } :
                MOSDOp).version.version - 1 }))) :=
  ⟨by decide, by decide,
   (assign_version_stamps sample_pg sample_op_rev5 (by decide)).2 _ _ (by decide)⟩

/-- What `assign_version` returned, in the terms of the code. -/
theorem assign_version_some (pg : ReplicatedPG) (op op1 : MOSDOp) (cv : eversion_t)
    (hop : op.op ≠ OSD_OP_WRNOOP) (h : assign_version pg op = some (op1, cv)) :
    pg.info.last_update < { epoch := pg.epoch, version := (pg.log.top.version + 1) % 2 ^ 64 } ∧
    pg.log.top < { epoch := pg.epoch, version := (pg.log.top.version + 1) % 2 ^ 64 } ∧
    op1 = { op with version := op1.version } ∧
    op1.version.epoch = pg.epoch ∧
    op1.version.version =
      max ((pg.log.top.version + 1 +
        (if will_clone (pg.store.getattr_crev op.oid) op.rev then 1 else 0)) % 2 ^ 64)
        op.version.version := by
  rw [assign_version_eq pg op hop] at h
  split at h
  · rename_i ha
    simp only [Option.some.injEq, Prod.mk.injEq] at h
    obtain ⟨h1, -⟩ := h
    subst h1
    exact ⟨ha.1, ha.2, rfl, rfl, rfl⟩
  · simp at h

/-- What `assign_version` returned when the version counter has room for its increments. -/
theorem assign_version_some_room (pg : ReplicatedPG) (op op1 : MOSDOp) (cv : eversion_t)
    (hop : op.op ≠ OSD_OP_WRNOOP)
    (hroom : pg.log.top.version + 1 +
      (if will_clone (pg.store.getattr_crev op.oid) op.rev then 1 else 0) < 2 ^ 64)
    (h : assign_version pg op = some (op1, cv)) :
    pg.info.last_update < { epoch := pg.epoch, version := pg.log.top.version + 1 } ∧
    pg.log.top.epoch ≤ pg.epoch ∧
    op1 = { op with version := op1.version } ∧
    op1.version.epoch = pg.epoch ∧
    pg.log.top.version + 1 + (if will_clone (pg.store.getattr_crev op.oid) op.rev then 1 else 0)
      ≤ op1.version.version := by
  obtain ⟨h1, h2, h3, h4, h5⟩ := assign_version_some pg op op1 cv hop h
  have hm1 : (pg.log.top.version + 1) % 2 ^ 64 = pg.log.top.version + 1 :=
    Nat.mod_eq_of_lt (by split at hroom <;> omega)
  rw [hm1] at h1 h2
  rw [Nat.mod_eq_of_lt hroom] at h5
  refine ⟨h1, ?_, h3, h4, ?_⟩
  · rw [eversion_t.lt_iff] at h2
    simp only at h2
    omega
  · rw [h5]
    exact le_max_left _ _

/-- When `assign_version` returns for an op other than WRNOOP: the counter has room for the
increment and the assertions hold. -/
theorem assign_version_isSome (pg : ReplicatedPG) (op : MOSDOp) (hop : op.op ≠ OSD_OP_WRNOOP)
    (hroom : pg.log.top.version + 1 < 2 ^ 64)
    (hlu : pg.info.last_update < { epoch := pg.epoch, version := pg.log.top.version + 1 })
    (hep : pg.log.top.epoch ≤ pg.epoch) : (assign_version pg op).isSome = true := by
  have ha : ({ epoch := pg.epoch, version := (pg.log.top.version + 1) % 2 ^ 64 } : eversion_t) >
      pg.info.last_update ∧
      ({ epoch := pg.epoch, version := (pg.log.top.version + 1) % 2 ^ 64 } : eversion_t) >
      pg.log.top := by
    rw [Nat.mod_eq_of_lt hroom]
    refine ⟨hlu, ?_⟩
    rw [gt_iff_lt, eversion_t.lt_iff]
    simp only
    omega
  rw [assign_version_eq pg op hop, if_pos ha]
  rfl

/-! ## Log and store transaction -/

/-- C5: for an op other than WRNOOP stamped with a version above `info.last_update`,
`prepare_op_transaction` returns for the five implemented opcodes (a WRITE carrying as many
bytes as its length), and whenever it returns `info.last_update` is the new version, and
`info.last_complete` is the new version when it was equal to `info.last_update` before and
is unchanged otherwise. -/
theorem prepare_op_transaction_raises_info (pg : ReplicatedPG) (t : Transaction) (op : MOSDOp)
    (nv : eversion_t) (crev rev : Nat) (hop : op.op ≠ OSD_OP_WRNOOP)
    (hnv : pg.info.last_update < nv) :
    ((prepare_op_transaction pg t op nv crev rev).isSome ↔
      (op.op ∈ [OSD_OP_WRLOCK, OSD_OP_WRUNLOCK, OSD_OP_WRITE, OSD_OP_TRUNCATE, OSD_OP_DELETE] ∧
        (op.op = OSD_OP_WRITE → op.data.length = op.length))) ∧
    ∀ pg1 t1 op1, prepare_op_transaction pg t op nv crev rev = some (pg1, t1, op1) →
      pg1.info.last_update = nv ∧
      (pg.info.last_complete = pg.info.last_update → pg1.info.last_complete = nv) ∧
      (pg.info.last_complete ≠ pg.info.last_update →
        pg1.info.last_complete = pg.info.last_complete) := by
  have hlu : ∀ c : Bool, nv >
      (if pg.info.last_complete = pg.info.last_update then
        { pg.info with last_complete := nv } else pg.info).last_update := by
    intro _
    split <;> exact hnv
  constructor
  · unfold prepare_op_transaction
    simp only [hop, if_false]
    rw [if_pos (hlu true)]
    unfold apply_the_op
    cases hk : op.op <;> simp [hk] at hop ⊢
    · by_cases hd : op.data.length = op.length <;> simp [hd]
  · intro pg1 t1 op1 h
    unfold prepare_op_transaction at h
    simp only [hop, if_false] at h
    rw [if_pos (hlu true)] at h
    split at h
    · simp at h
    · simp only [Option.some.injEq, Prod.mk.injEq] at h
      obtain ⟨h1, -, -⟩ := h
      subst h1
      refine ⟨rfl, ?_, ?_⟩
      · intro he; simp [he]
      · intro he; simp [he]

/-- C5 at the sample state: last_update = last_complete = (5, 1), a write stamped (5, 2). -/
theorem prepare_op_transaction_raises_info_witness :
    sample_op.op ≠ OSD_OP_WRNOOP ∧
    sample_pg.info.last_update < { epoch := 5, version := 2 } ∧
    prepare_op_transaction sample_pg [] sample_op { epoch := 5, version := 2 } 3 0 =
      some (sample_pg_written, sample_tx_written, { sample_op with data := [] }) ∧
    sample_pg_written.info.last_update = { epoch := 5, version := 2 } ∧
    (sample_pg.info.last_complete = sample_pg.info.last_update →
      sample_pg_written.info.last_complete = { epoch := 5, version := 2 }) ∧
    (sample_pg.info.last_complete ≠ sample_pg.info.last_update →
      sample_pg_written.info.last_complete = sample_pg.info.last_complete) :=
  ⟨by decide, by decide, by decide,
   (prepare_op_transaction_raises_info sample_pg [] sample_op { epoch := 5, version := 2 } 3 0
      (by decide) (by decide)).2 sample_pg_written sample_tx_written
      { sample_op with data := [] } (by decide)⟩

/-- What `prepare_op_transaction` did to `info` and `log` when it returned. -/
theorem prepare_op_transaction_some (pg pg1 : ReplicatedPG) (t t1 : Transaction)
    (op op1 : MOSDOp) (nv : eversion_t) (crev rev : Nat)
    (h : prepare_op_transaction pg t op nv crev rev = some (pg1, t1, op1)) :
    pg1.log = pg.log ∧
    (op.op = OSD_OP_WRNOOP → pg1.info = pg.info) ∧
    (op.op ≠ OSD_OP_WRNOOP →
      pg.info.last_update < nv ∧ pg1.info.last_update = nv ∧
      pg1.info.last_complete =
        (if pg.info.last_complete = pg.info.last_update then nv else pg.info.last_complete)) := by
  unfold prepare_op_transaction at h
  by_cases hop : op.op = OSD_OP_WRNOOP
  · simp only [hop, if_true, Option.some.injEq, Prod.mk.injEq] at h
    obtain ⟨h1, -, -⟩ := h
    subst h1
    exact ⟨rfl, fun _ => rfl, fun hn => absurd hop hn⟩
  · simp only [hop, if_false] at h
    have hlu : (if pg.info.last_complete = pg.info.last_update then
        { pg.info with last_complete := nv } else pg.info).last_update = pg.info.last_update := by
      split <;> rfl
    rw [hlu] at h
    by_cases hv : nv > pg.info.last_update
    · rw [if_pos hv] at h
      split at h
      · simp at h
      · simp only [Option.some.injEq, Prod.mk.injEq] at h
        obtain ⟨h1, -, -⟩ := h
        subst h1
        refine ⟨rfl, fun hh => absurd hh hop, fun _ => ⟨hv, rfl, ?_⟩⟩
        simp only
        split <;> rfl
    · rw [if_neg hv] at h
      simp at h

/-- C7: `prepare_log_transaction` returns exactly when its assertion holds (with a clone,
when the version component is not 0; without, when the version is above `log.top`), and
then the log has gained, when `0 < crev < rev`, a CLONE entry one version below the op's
directly followed by the op's MODIFY entry (DELETE for a delete), and otherwise that
MODIFY or DELETE entry alone; the entries carry the op's oid and reqid. -/
theorem prepare_log_transaction_clone_at_bump (pg : ReplicatedPG) (t : Transaction)
    (op : MOSDOp) (nv : eversion_t) (crev rev : Nat) (trim_to : eversion_t) :
    ((prepare_log_transaction pg t op nv crev rev trim_to).isSome ↔
      (if 0 < crev ∧ crev < rev then 0 < nv.version else pg.log.top < nv)) ∧
    ∀ pg1 t1, prepare_log_transaction pg t op nv crev rev trim_to = some (pg1, t1) →
      pg1.log.log =
        pg.log.log ++
          (if 0 < crev ∧ crev < rev then
            [{ op := entry_op_t.CLONE, oid := op.oid,
               version := { epoch := nv.epoch, version := nv.version - 1 },
               reqid := op.reqid }]
           else []) ++
          [{ op := (if op.op = OSD_OP_DELETE then entry_op_t.DELETE else entry_op_t.MODIFY),
             oid := op.oid, version := nv, reqid := op.reqid }] := by
  have hw := will_clone_iff crev rev
  have hdec : nv > nv.dec ↔ 0 < nv.version := by
    rw [gt_iff_lt, eversion_t.lt_iff]; simp [eversion_t.dec]
  by_cases hc : will_clone crev rev = true
  · have hc' := hw.1 hc
    constructor
    · unfold prepare_log_transaction
      simp only [hc, if_true, hc', and_self, Log.add]
      by_cases hv : 0 < nv.version
      · simp [hdec.2 hv, hv]
      · have : ¬ nv > nv.dec := fun hh => hv (hdec.1 hh)
        simp [this, hv]
    · intro pg1 t1 h
      unfold prepare_log_transaction at h
      simp only [hc, if_true, Log.add] at h
      by_cases hv : nv > nv.dec
      · simp only [hv, if_true, Option.some.injEq, Prod.mk.injEq] at h
        obtain ⟨h1, -⟩ := h
        subst h1
        simp [hc', eversion_t.dec]
      · simp [hv] at h
  · have hc' : ¬ (0 < crev ∧ crev < rev) := fun hh => hc (hw.2 hh)
    have hcf : will_clone crev rev = false := by simpa using hc
    constructor
    · unfold prepare_log_transaction
      simp only [hcf, hc', if_false, Log.add, Bool.false_eq_true]
      by_cases hv : pg.log.top < nv
      · simp [hv]
      · simp [hv]
    · intro pg1 t1 h
      unfold prepare_log_transaction at h
      simp only [hcf, Log.add, Bool.false_eq_true, if_false] at h
      by_cases hv : nv > pg.log.top
      · simp only [hv, if_true, Option.some.injEq, Prod.mk.injEq] at h
        obtain ⟨h1, -⟩ := h
        subst h1
        simp [hc']
      · simp [hv] at h

/-- C7 at the revision-clone scenario: stored crev 3, a write at rev 5 stamped (5, 3): the log
gains CLONE at (5, 2), then MODIFY at (5, 3). -/
theorem prepare_log_transaction_clone_at_bump_witness :
    prepare_log_transaction sample_pg [] sample_op_rev5 { epoch := 5, version := 3 } 3 5
        eversion_t.zero =
      some (sample_pg_cloned, [tx_op.append_log sample_modify_entry eversion_t.zero]) ∧
    sample_pg_cloned.log.log =
      sample_pg.log.log ++
          (if 0 < 3 ∧ 3 < 5 then
            [{ op := entry_op_t.CLONE, oid := sample_op_rev5.oid,
               version := { epoch := 5, version := 3 - 1 },
               reqid := sample_op_rev5.reqid }]
           else []) ++
          [{ op := (if sample_op_rev5.op = OSD_OP_DELETE then entry_op_t.DELETE
                    else entry_op_t.MODIFY),
             oid := sample_op_rev5.oid, version := { epoch := 5, version := 3 },
             reqid := sample_op_rev5.reqid }] :=
  ⟨by decide,
   (prepare_log_transaction_clone_at_bump sample_pg [] sample_op_rev5 { epoch := 5, version := 3 }
      3 5 eversion_t.zero).2 sample_pg_cloned
      [tx_op.append_log sample_modify_entry eversion_t.zero] (by decide)⟩

/-- What `prepare_log_transaction` returned, in the terms of the code. -/
theorem prepare_log_transaction_some (pg pg1 : ReplicatedPG) (t t1 : Transaction) (op : MOSDOp)
    (nv : eversion_t) (crev rev : Nat) (trim_to : eversion_t)
    (h : prepare_log_transaction pg t op nv crev rev trim_to = some (pg1, t1)) :
    pg1 = { pg with log :=
      { log := pg.log.log ++
          (if will_clone crev rev then
            [{ op := entry_op_t.CLONE, oid := op.oid, version := nv.dec, reqid := op.reqid }]
           else []) ++
          [{ op := (if op.op = OSD_OP_DELETE then entry_op_t.DELETE else entry_op_t.MODIFY),
             oid := op.oid, version := nv, reqid := op.reqid }],
        top := nv, complete_to := pg.log.complete_to } } ∧
    (if will_clone crev rev then nv.dec < nv else pg.log.top < nv) := by
  unfold prepare_log_transaction at h
  by_cases hc : will_clone crev rev = true
  · simp only [hc, if_true, Log.add] at h ⊢
    by_cases hv : nv > nv.dec
    · simp only [hv, if_true, Option.some.injEq, Prod.mk.injEq] at h
      obtain ⟨h1, -⟩ := h
      subst h1
      exact ⟨by simp, hv⟩
    · simp [hv] at h
  · have hcf : will_clone crev rev = false := by simpa using hc
    simp only [hcf, Log.add, Bool.false_eq_true, if_false] at h ⊢
    by_cases hv : nv > pg.log.top
    · simp only [hv, if_true, Option.some.injEq, Prod.mk.injEq] at h
      obtain ⟨h1, -⟩ := h
      subst h1
      exact ⟨by simp, hv⟩
    · simp [hv] at h

/-- When `prepare_log_transaction` returns. -/
theorem prepare_log_transaction_isSome (pg : ReplicatedPG) (t : Transaction) (op : MOSDOp)
    (nv : eversion_t) (crev rev : Nat) (trim_to : eversion_t)
    (h : if will_clone crev rev then nv.dec < nv else pg.log.top < nv) :
    (prepare_log_transaction pg t op nv crev rev trim_to).isSome = true := by
  unfold prepare_log_transaction
  by_cases hc : will_clone crev rev = true
  · simp only [hc, if_true, Log.add] at h ⊢
    simp [h]
  · have hcf : will_clone crev rev = false := by simpa using hc
    simp only [hcf, Log.add, Bool.false_eq_true, if_false] at h ⊢
    simp [h]

/-! ## Monotonic versions -/

/-- C4, as amended: monotonic versions. On a PG whose log has strictly increasing versions,
none above `log.top`, for a client op other than WRNOOP for which the version counter does
not wrap (`log.top.version + 1 + c < 2 ^ 64`, `c` being 1 when a clone is implied):
`assign_version` returns when `last_update ≤ log.top` and the map epoch is not older than
`log.top`; and whenever it returns, `prepare_log_transaction` run with the stamped version, as `op_modify` runs it,
returns as well (its assertion `version > log.top` holds, with or without a CLONE entry,
with or without a replay hint), the stamped version is above the old `log.top`, the new
`log.top` is the stamped version, and the entries of the new log are still strictly
increasing and none is above `log.top`. -/
theorem monotonic_versions (pg : ReplicatedPG) (t : Transaction) (op : MOSDOp)
    (hop : op.op ≠ OSD_OP_WRNOOP) (hinc : pg.log.increasing) (htop : pg.log.below_top)
    (hroom : pg.log.top.version + 1 +
      (if 0 < pg.store.getattr_crev op.oid ∧ pg.store.getattr_crev op.oid < op.rev
        then 1 else 0) < 2 ^ 64) :
    (pg.info.last_update ≤ pg.log.top → pg.log.top.epoch ≤ pg.epoch →
      (assign_version pg op).isSome = true) ∧
    ∀ op1 cv, assign_version pg op = some (op1, cv) →
      ∃ pg1 t1,
        prepare_log_transaction pg t op1 op1.version (pg.store.getattr_crev op1.oid) op1.rev
          pg.peers_complete_thru = some (pg1, t1) ∧
        pg.log.top < op1.version ∧
        pg1.log.top = op1.version ∧
        pg1.log.increasing ∧ pg1.log.below_top := by
  have hroomw : pg.log.top.version + 1 +
      (if will_clone (pg.store.getattr_crev op.oid) op.rev then 1 else 0) < 2 ^ 64 := by
    have hw := will_clone_iff (pg.store.getattr_crev op.oid) op.rev
    by_cases hc : will_clone (pg.store.getattr_crev op.oid) op.rev = true
    · simp only [hw.1 hc, and_self, if_true] at hroom
      simp only [hc, if_true]
      exact hroom
    · simp only [hc, Bool.false_eq_true, if_false]
      split at hroom <;> omega
  constructor
  · intro hlu hep
    apply assign_version_isSome pg op hop (by split at hroomw <;> omega) _ hep
    rw [eversion_t.lt_iff]
    rw [eversion_t.le_iff] at hlu
    simp
    omega
  · intro op1 cv h
    obtain ⟨-, hep, hop1, he, hv⟩ := assign_version_some_room pg op op1 cv hop hroomw h
    have hoid : op1.oid = op.oid := by rw [hop1]
    have hrev : op1.rev = op.rev := by rw [hop1]
    rw [hoid, hrev]
    have htoplt : pg.log.top < op1.version := by
      rw [eversion_t.lt_iff]
      split at hv <;> omega
    have hpre : if will_clone (pg.store.getattr_crev op.oid) op.rev then
        op1.version.dec < op1.version else pg.log.top < op1.version := by
      split
      · rw [eversion_t.lt_iff]; simp [eversion_t.dec]; omega
      · exact htoplt
    have hsome := prepare_log_transaction_isSome pg t op1 op1.version
      (pg.store.getattr_crev op.oid) op.rev pg.peers_complete_thru hpre
    obtain ⟨⟨pg1, t1⟩, hr⟩ := Option.isSome_iff_exists.1 hsome
    obtain ⟨hpg1, -⟩ := prepare_log_transaction_some pg pg1 t t1 op1 op1.version
      (pg.store.getattr_crev op.oid) op.rev pg.peers_complete_thru hr
    refine ⟨pg1, t1, hr, htoplt, by rw [hpg1], ?_, ?_⟩
    · rw [hpg1]
      unfold Log.increasing at hinc ⊢
      simp only
      rw [List.append_assoc, List.pairwise_append]
      refine ⟨hinc, ?_, ?_⟩
      · split
        · rename_i hc
          simp only [List.singleton_append, List.pairwise_cons, List.mem_singleton, forall_eq,
            List.Pairwise.nil, and_true]
          simpa [hc] using hpre
        · simp
      · intro a ha b hb
        have hat : a.version ≤ pg.log.top := htop a ha
        have : pg.log.top < b.version := by
          split at hb
          · rename_i hc
            simp only [List.singleton_append, List.mem_cons, List.mem_singleton,
              List.not_mem_nil, or_false] at hb
            rcases hb with hb | hb
            · subst hb
              simp only [hc, if_true] at hv
              rw [eversion_t.lt_iff]
              simp [eversion_t.dec]
              omega
            · subst hb
              exact htoplt
          · simp only [List.nil_append, List.mem_singleton] at hb
            subst hb
            exact htoplt
        exact lt_of_le_of_lt hat this
    · rw [hpg1]
      unfold Log.below_top at htop ⊢
      simp only
      intro e he'
      rw [List.append_assoc, List.mem_append] at he'
      rcases he' with he' | he'
      · exact le_of_lt (lt_of_le_of_lt (htop e he') htoplt)
      · split at he'
        · rename_i hc
          simp only [List.singleton_append, List.mem_cons, List.mem_singleton,
            List.not_mem_nil, or_false] at he'
          rcases he' with he' | he'
          · subst he'
            simp only [hc, if_true] at hpre
            exact le_of_lt hpre
          · subst he'
            exact le_refl _
        · simp only [List.nil_append, List.mem_singleton] at he'
          subst he'
          exact le_refl _

/-- C4 as stated fails where the counter wraps. One write with the replay hint `2 ^ 64 - 2`
takes `log.top` of the sample PG to (5, 2 ^ 64 - 2), the log still increasing. For the next
write at revision 5 with the replay hint 7, in the same epoch, the assertions of
`assign_version` hold for (5, 2 ^ 64 - 1); the increment for the clone wraps to 0, the hint
7 is taken, and `prepare_log_transaction` passes its assertion against the CLONE entry at
(5, 6): both return, the stamped version (5, 7) is below the old `log.top`, and the log is
no longer increasing. In the same epoch at `log.top = (5, 2 ^ 64 - 1)` the first assertion
of `assign_version` fails. -/
theorem monotonic_versions_counterexample :
    (op_modify 0 sample_pg near_top_hint_op).map (fun r => (r.1.log, r.1.info, r.1.epoch)) =
      some (near_top_pg.log, near_top_pg.info, near_top_pg.epoch) ∧
    (op_modify 0 sample_pg near_top_hint_op).bind
        (fun r => assign_version r.1 next_op_rev5_hint7) =
      some ({ next_op_rev5_hint7 with version := { epoch := 5, version := 7 } },
            { epoch := 5, version := 6 }) ∧
    next_op_rev5_hint7.op ≠ OSD_OP_WRNOOP ∧
    near_top_pg.log.increasing ∧ near_top_pg.log.below_top ∧
    assign_version near_top_pg next_op_rev5_hint7 =
      some ({ next_op_rev5_hint7 with version := { epoch := 5, version := 7 } },
            { epoch := 5, version := 6 }) ∧
    prepare_log_transaction near_top_pg []
        { next_op_rev5_hint7 with version := { epoch := 5, version := 7 } }
        { epoch := 5, version := 7 }
        (near_top_pg.store.getattr_crev next_op_rev5_hint7.oid) next_op_rev5_hint7.rev
        near_top_pg.peers_complete_thru =
      some (near_top_pg_logged,
            [tx_op.append_log
              { op := entry_op_t.MODIFY, oid := { ino := 10, rev := 0 },
                version := { epoch := 5, version := 7 }, reqid := { client := 7, tid := 2 } }
              eversion_t.zero]) ∧
    ¬ near_top_pg.log.top < { epoch := 5, version := 7 } ∧
    ¬ near_top_pg_logged.log.increasing ∧
    assign_version { top_pg with epoch := 5 } next_op = none := by
  refine ⟨by decide, by decide, by decide, by unfold Log.increasing; decide,
    by simp [Log.below_top, near_top_pg, sample_pg, eversion_t.le_iff], by decide, by decide,
    by decide, by unfold Log.increasing; decide, by decide⟩

/-- C4 as amended at the revision-clone scenario: log = [(5, 1)], a write at rev 5 over crev 3 is stamped
(5, 3) and the log becomes [(5, 1), CLONE (5, 2), MODIFY (5, 3)]. -/
theorem monotonic_versions_witness :
    sample_op_rev5.op ≠ OSD_OP_WRNOOP ∧ sample_pg.log.increasing ∧ sample_pg.log.below_top ∧
    sample_pg.log.top.version + 1 +
      (if 0 < sample_pg.store.getattr_crev sample_op_rev5.oid ∧
          sample_pg.store.getattr_crev sample_op_rev5.oid < sample_op_rev5.rev
        then 1 else 0) < 2 ^ 64 ∧
    assign_version sample_pg sample_op_rev5 =
      some ({ sample_op_rev5 with version := { epoch := 5, version := 3 } },
            { epoch := 5, version := 2 }) ∧
    ∃ pg1 t1,
      prepare_log_transaction sample_pg [] { sample_op_rev5 with version := { epoch := 5, version := 3 } }
        { epoch := 5, version := 3 }
        (sample_pg.store.getattr_crev sample_op_rev5.oid) 5
        sample_pg.peers_complete_thru = some (pg1, t1) ∧
      sample_pg.log.top < { epoch := 5, version := 3 } ∧
      pg1.log.top = { epoch := 5, version := 3 } ∧
      pg1.log.increasing ∧ pg1.log.below_top :=
  ⟨by decide, by unfold Log.increasing; decide, by simp [Log.below_top, sample_pg], by decide,
   by decide,
   (monotonic_versions sample_pg [] sample_op_rev5 (by decide)
      (by unfold Log.increasing; decide) (by simp [Log.below_top, sample_pg]) (by decide)).2
      { sample_op_rev5 with version := { epoch := 5, version := 3 } }
      { epoch := 5, version := 2 } (by decide)⟩

/-! ## Completeness floor -/

/-- The loop of `op_push` never lowers `last_complete`, and keeps it below any bound that
holds for the old value and for the entries it may pass. -/
theorem raise_last_complete_bounds (missing : List (object_t × eversion_t)) (entries : List Entry)
    (lc : eversion_t) (ct : Nat) :
    lc ≤ (raise_last_complete missing entries lc ct).1 ∧
    ∀ b, lc ≤ b → (∀ e ∈ entries, e.version ≤ b) →
      (raise_last_complete missing entries lc ct).1 ≤ b := by
  induction entries generalizing lc ct with
  | nil => exact ⟨le_refl _, fun b hb _ => hb⟩
  | cons e rest ih =>
    unfold raise_last_complete
    by_cases hm : map_count missing e.oid = true
    · simp only [hm, if_true]
      exact ⟨le_refl _, fun b hb _ => hb⟩
    · simp only [hm, Bool.false_eq_true, if_false]
      obtain ⟨h1, h2⟩ := ih (if lc < e.version then e.version else lc) (ct + 1)
      constructor
      · refine le_trans ?_ h1
        split
        · rename_i hlt; exact le_of_lt hlt
        · exact le_refl _
      · intro b hb hall
        apply h2 b
        · split
          · exact hall e (List.mem_cons_self _ _)
          · exact hb
        · intro e' he'
          exact hall e' (List.mem_cons_of_mem _ he')

/-- The method `push` leaves `info` and `log` alone. -/
theorem push_info_log (pg pg1 : ReplicatedPG) (oid : object_t) (dest : Int)
    (h : push pg oid dest = some pg1) : pg1.info = pg.info ∧ pg1.log = pg.log := by
  unfold push at h
  simp only at h
  split at h
  · simp only [Option.some.injEq] at h
    subst h
    exact ⟨rfl, rfl⟩
  · simp at h

/-- The push loop of `op_push` leaves `info` and `log` alone. -/
theorem push_to_peers_info_log (oid : object_t) (peers : List Int) (pg pg1 : ReplicatedPG)
    (h : push_to_peers oid peers pg = some pg1) : pg1.info = pg.info ∧ pg1.log = pg.log := by
  induction peers generalizing pg with
  | nil =>
    simp only [push_to_peers, Option.some.injEq] at h
    subst h
    exact ⟨rfl, rfl⟩
  | cons peer rest ih =>
    unfold push_to_peers at h
    split at h
    · simp at h
    · split at h
      · split at h
        · simp at h
        · rename_i pg2 hp
          obtain ⟨h1, h2⟩ := push_info_log _ _ _ _ hp
          obtain ⟨h3, h4⟩ := ih pg2 h
          exact ⟨h3.trans h1, h4.trans h2⟩
      · exact ih pg h

/-- What `op_push_body` did to `info` and `log` when it returned. -/
theorem op_push_body_info_log (pg pg1 : ReplicatedPG) (op : MOSDOp)
    (h : op_push_body pg op = some pg1) :
    pg1.info.last_update = pg.info.last_update ∧ pg1.log.top = pg.log.top ∧
    pg1.log.log = pg.log.log ∧
    pg1.info.last_complete =
      (raise_last_complete (pg.missing.got op.oid).missing (pg.log.log.drop pg.log.complete_to)
        pg.info.last_complete pg.log.complete_to).1 := by
  unfold op_push_body at h
  simp only at h
  by_cases h1 : op.data.length = op.length
  · rw [if_pos h1] at h
    by_cases h2 : pg.log.complete_to ≠ pg.log.log.length
    · rw [if_pos h2] at h
      split at h
      · split at h
        · obtain ⟨h3, h4⟩ := push_to_peers_info_log _ _ _ _ h
          rw [h3, h4]
          exact ⟨rfl, rfl, rfl, rfl⟩
        · simp only [Option.some.injEq] at h
          subst h
          exact ⟨rfl, rfl, rfl, rfl⟩
      · simp at h
    · rw [if_neg h2] at h
      simp at h
  · rw [if_neg h1] at h
    simp at h

/-- C6: the completeness floor `last_complete ≤ last_update ≤ log.top` is kept by the write
step (`prepare_log_transaction`, then `prepare_op_transaction`, with a version above
`log.top`) and by `op_push`, on the states in which no log entry is above
`info.last_update`. These are the states the code produces: the write step of an op other
than WRNOOP (the guarded calls) keeps that property, since it sets `last_update` to the
version it appends, and `op_push` keeps it, since it appends nothing and leaves
`last_update` alone. The recovery continuation, which is not part of this module, is taken
to keep both. -/
theorem completeness_floor_preserved :
    (∀ (pg pg1 pg2 : ReplicatedPG) (t t1 t2 : Transaction) (op op2 : MOSDOp) (nv : eversion_t)
        (crev rev : Nat) (trim_to : eversion_t),
      completeness_floor pg → pg.log.top < nv →
      prepare_log_transaction pg t op nv crev rev trim_to = some (pg1, t1) →
      prepare_op_transaction pg1 t1 op nv crev rev = some (pg2, t2, op2) →
      completeness_floor pg2 ∧
      (op.op ≠ OSD_OP_WRNOOP → log_below_last_update pg → log_below_last_update pg2)) ∧
    (∀ (do_recovery : ReplicatedPG → Option ReplicatedPG) (pg pg1 : ReplicatedPG) (op : MOSDOp),
      (∀ p q, completeness_floor p → log_below_last_update p → do_recovery p = some q →
        completeness_floor q ∧ log_below_last_update q) →
      completeness_floor pg → log_below_last_update pg →
      op_push do_recovery pg op = some pg1 →
      completeness_floor pg1 ∧ log_below_last_update pg1) := by
  constructor
  · intro pg pg1 pg2 t t1 t2 op op2 nv crev rev trim_to hfl hnv hlog hop
    obtain ⟨hpg1, hcl⟩ := prepare_log_transaction_some pg pg1 t t1 op nv crev rev trim_to hlog
    obtain ⟨hl, hw, hn⟩ := prepare_op_transaction_some pg1 pg2 t1 t2 op op2 nv crev rev hop
    have htop : pg2.log.top = nv := by rw [hl, hpg1]
    have hinfo : pg1.info = pg.info := by rw [hpg1]
    refine ⟨?_, ?_⟩
    · unfold completeness_floor at hfl ⊢
      rw [htop]
      by_cases hk : op.op = OSD_OP_WRNOOP
      · rw [hw hk, hinfo]
        exact ⟨hfl.1, le_of_lt (lt_of_le_of_lt hfl.2 hnv)⟩
      · obtain ⟨hlt, hlu, hlc⟩ := hn hk
        rw [hlu, hlc, hinfo]
        refine ⟨?_, le_refl _⟩
        split
        · exact le_refl _
        · exact le_of_lt (lt_of_le_of_lt hfl.1 (hinfo ▸ hlt))
    · intro hk hbelow
      obtain ⟨hlt, hlu, -⟩ := hn hk
      rw [hinfo] at hlt
      unfold log_below_last_update at hbelow ⊢
      rw [hlu, hl, hpg1]
      simp only
      intro e he
      rw [List.append_assoc, List.mem_append] at he
      rcases he with he | he
      · exact le_of_lt (lt_of_le_of_lt (hbelow e he) hlt)
      · rw [List.mem_append] at he
        rcases he with he | he
        · split at he
          · simp only [List.mem_singleton] at he
            subst he
            rw [eversion_t.le_iff]
            right
            exact ⟨rfl, Nat.sub_le _ _⟩
          · simp at he
        · simp only [List.mem_singleton] at he
          subst he
          exact le_refl _
  · intro do_recovery pg pg1 op hrec hfl hbelow h
    unfold op_push at h
    simp only at h
    by_cases hm : is_missing_object pg op.oid = true
    · simp only [hm, Bool.not_true, Bool.false_eq_true, if_false] at h
      split at h
      · simp at h
      · rename_i pga hbody
        obtain ⟨h1, h2, h3, h4⟩ := op_push_body_info_log pg pga op hbody
        have hfa : completeness_floor pga := by
          unfold completeness_floor at hfl ⊢
          rw [h1, h2, h4]
          refine ⟨(raise_last_complete_bounds _ _ _ _).2 _ hfl.1 ?_, hfl.2⟩
          intro e he
          exact hbelow e (List.mem_of_mem_drop he)
        have hba : log_below_last_update pga := by
          unfold log_below_last_update at hbelow ⊢
          rw [h1, h3]
          exact hbelow
        split at h
        · simp at h
        · rename_i pgb hr
          have hfb := hrec pga pgb hfa hba hr
          split at h
          · simp only [Option.some.injEq] at h
            subst h
            exact hfb
          · simp only [Option.some.injEq] at h
            subst h
            exact hfb
    · have hmf : is_missing_object pg op.oid = false := by simpa using hm
      simp only [hmf, Bool.not_false, if_true, Option.some.injEq] at h
      subst h
      exact ⟨hfl, hbelow⟩

/-- C6 at the sample write (stamped (5, 2) over `log.top = (5, 1)`) and at the push of
object 12 into a recovering primary whose `last_update` is `log.top = (1, 3)`. -/
theorem completeness_floor_preserved_witness :
    (completeness_floor sample_pg ∧ sample_pg.log.top < { epoch := 5, version := 2 } ∧
      prepare_log_transaction sample_pg [] sample_op { epoch := 5, version := 2 } 3 0
        eversion_t.zero =
        some (sample_pg_logged, [tx_op.append_log sample_write_entry eversion_t.zero]) ∧
      prepare_op_transaction sample_pg_logged
        [tx_op.append_log sample_write_entry eversion_t.zero] sample_op
        { epoch := 5, version := 2 } 3 0 =
        some (sample_pg_logged_written,
              [tx_op.append_log sample_write_entry eversion_t.zero] ++ sample_tx_written,
              { sample_op with data := [] }) ∧
      sample_op.op ≠ OSD_OP_WRNOOP ∧ log_below_last_update sample_pg ∧
      completeness_floor sample_pg_logged_written ∧
      log_below_last_update sample_pg_logged_written) ∧
    (completeness_floor recovering_pg_caught_up ∧
      log_below_last_update recovering_pg_caught_up ∧
      op_push (fun pg => some pg) recovering_pg_caught_up push_op_12 =
        some (after_push_12 recovering_pg_caught_up) ∧
      completeness_floor (after_push_12 recovering_pg_caught_up) ∧
      log_below_last_update (after_push_12 recovering_pg_caught_up)) :=
  have hs : log_below_last_update sample_pg := by
    simp [log_below_last_update, sample_pg]
  have hr : log_below_last_update recovering_pg_caught_up := by
    simp [log_below_last_update, recovering_pg_caught_up, recovering_pg, sample_pg,
      eversion_t.le_iff]
  have h1 := completeness_floor_preserved.1 sample_pg sample_pg_logged sample_pg_logged_written
      [] [tx_op.append_log sample_write_entry eversion_t.zero]
      ([tx_op.append_log sample_write_entry eversion_t.zero] ++ sample_tx_written)
      sample_op { sample_op with data := [] } { epoch := 5, version := 2 } 3 0 eversion_t.zero
      (by decide) (by decide) (by decide) (by decide)
  have h2 := completeness_floor_preserved.2 (fun pg => some pg) recovering_pg_caught_up
      (after_push_12 recovering_pg_caught_up) push_op_12
      (fun p q hp hb hq => by
        simp only [Option.some.injEq] at hq
        subst hq
        exact ⟨hp, hb⟩)
      (by decide) hr (by decide)
  ⟨⟨by decide, by decide, by decide, by decide, by decide, hs, h1.1, h1.2 (by decide) hs⟩,
   ⟨by decide, hr, by decide, h2.1, h2.2⟩⟩

/-! ## New gathers -/

/-- The first loop of `new_rep_gather`: `waitfor_commit` gains the listed osds, `waitfor_ack`
is left alone. -/
theorem new_rep_gather_commit_loop (l : List Int) (r : RepGather) :
    (∀ x, x ∈ (l.foldl add_commit_osd r).waitfor_commit ↔
      x ∈ r.waitfor_commit ∨ x ∈ l) ∧
    (l.foldl add_commit_osd r).waitfor_ack = r.waitfor_ack := by
  induction l generalizing r with
  | nil => simp
  | cons a l ih =>
    simp only [List.foldl_cons]
    obtain ⟨h1, h2⟩ := ih (add_commit_osd r a)
    refine ⟨?_, h2⟩
    intro x
    rw [h1 x]
    simp only [add_commit_osd, mem_set_insert, List.mem_cons]
    tauto

/-- The ack loop of `new_rep_gather` in primary and splay mode: `waitfor_ack` gains the
listed osds, `waitfor_commit` is left alone. -/
theorem new_rep_gather_ack_loop (l : List Int) (r : RepGather) :
    (∀ x, x ∈ (l.foldl add_ack_osd r).waitfor_ack ↔ x ∈ r.waitfor_ack ∨ x ∈ l) ∧
    (l.foldl add_ack_osd r).waitfor_commit = r.waitfor_commit := by
  induction l generalizing r with
  | nil => simp
  | cons a l ih =>
    simp only [List.foldl_cons]
    obtain ⟨h1, h2⟩ := ih (add_ack_osd r a)
    refine ⟨?_, h2⟩
    intro x
    rw [h1 x]
    simp only [add_ack_osd, mem_set_insert, List.mem_cons]
    tauto

/-- C8: the wait sets of a new gather. In primary-fanout and splay mode `waitfor_commit` and
`waitfor_ack` hold exactly the members of `acting`; in chain mode `waitfor_commit` holds the
members of `acting` and the local node, and `waitfor_ack` holds the local node and, when the
local rank is above 0, `acting[rank - 1]`. -/
theorem new_rep_gather_wait_sets (pg : ReplicatedPG) (op : MOSDOp) (x : Int) :
    (pg.osd_rep ≠ OSD_REP_CHAIN →
      (x ∈ (new_rep_gather pg op).2.waitfor_commit ↔ x ∈ pg.acting) ∧
      (x ∈ (new_rep_gather pg op).2.waitfor_ack ↔ x ∈ pg.acting)) ∧
    (pg.osd_rep = OSD_REP_CHAIN →
      (x ∈ (new_rep_gather pg op).2.waitfor_commit ↔ x ∈ pg.acting ∨ x = pg.whoami) ∧
      (x ∈ (new_rep_gather pg op).2.waitfor_ack ↔
        x = pg.whoami ∨
          (0 < calc_pg_rank pg.whoami pg.acting ∧
            pg.acting[(calc_pg_rank pg.whoami pg.acting - 1).toNat]? = some x))) := by
  have hc := new_rep_gather_commit_loop pg.acting
    (RepGather.new op op.rep_tid op.version pg.info.last_complete)
  constructor
  · intro hm
    have ha := new_rep_gather_ack_loop pg.acting (pg.acting.foldl add_commit_osd
      (RepGather.new op op.rep_tid op.version pg.info.last_complete))
    simp only [new_rep_gather, new_rep_gather_sets, hm, if_false]
    constructor
    · rw [ha.2, hc.1 x]; simp [RepGather.new]
    · rw [ha.1 x, hc.2]; simp [RepGather.new]
  · intro hm
    simp only [new_rep_gather, new_rep_gather_sets, hm, if_true]
    by_cases hr : 0 < calc_pg_rank pg.whoami pg.acting
    · have hmem : pg.whoami ∈ pg.acting := by
        by_contra hn
        simp [calc_pg_rank, hn] at hr
      have hidx : calc_pg_rank pg.whoami pg.acting = (pg.acting.indexOf pg.whoami : Int) := by
        simp [calc_pg_rank, hmem]
      have hlt : pg.acting.indexOf pg.whoami < pg.acting.length := List.indexOf_lt_length.2 hmem
      have hpos : 0 < pg.acting.indexOf pg.whoami := by
        rw [hidx] at hr; exact_mod_cast hr
      have hi : (calc_pg_rank pg.whoami pg.acting - 1).toNat = pg.acting.indexOf pg.whoami - 1 := by
        rw [hidx]; omega
      have hlt2 : pg.acting.indexOf pg.whoami - 1 < pg.acting.length := by omega
      have hget : pg.acting.getD (pg.acting.indexOf pg.whoami - 1) 0 ∈ pg.acting := by
        rw [List.getD_eq_getElem _ _ hlt2]
        exact List.getElem_mem _
      simp only [gt_iff_lt, hr, if_true, add_chain_osd, mem_set_insert, hc.1 x, hc.2, hi]
      rw [List.getElem?_eq_getElem hlt2, List.getD_eq_getElem _ _ hlt2]
      simp only [RepGather.new, List.not_mem_nil, false_or, Option.some.injEq, true_and]
      rw [List.getD_eq_getElem _ _ hlt2] at hget
      constructor
      · constructor
        · rintro ((h | h) | h)
          · exact Or.inl h
          · exact Or.inr h
          · exact Or.inl (h ▸ hget)
        · rintro (h | h)
          · exact Or.inl (Or.inl h)
          · exact Or.inl (Or.inr h)
      · constructor
        · rintro (h | h)
          · exact Or.inl h
          · exact Or.inr h.symm
        · rintro (h | h)
          · exact Or.inl h
          · exact Or.inr h.symm
    · simp only [gt_iff_lt, hr, if_false, add_chain_osd, mem_set_insert, hc.1 x, hc.2]
      simp [RepGather.new]

/-- C8 at the sample PG: in primary-fanout mode osd 1 is waited for, for commit and for ack; in
chain mode on osd 1 (rank 1) the ack is awaited from osd 0, its predecessor. -/
theorem new_rep_gather_wait_sets_witness :
    ((1 ∈ (new_rep_gather sample_pg sample_op).2.waitfor_commit ↔ 1 ∈ sample_pg.acting) ∧
      (1 ∈ (new_rep_gather sample_pg sample_op).2.waitfor_ack ↔ 1 ∈ sample_pg.acting)) ∧
    ((0 ∈ (new_rep_gather sample_pg_chain sample_op).2.waitfor_commit ↔
        0 ∈ sample_pg_chain.acting ∨ 0 = sample_pg_chain.whoami) ∧
      (0 ∈ (new_rep_gather sample_pg_chain sample_op).2.waitfor_ack ↔
        0 = sample_pg_chain.whoami ∨
          (0 < calc_pg_rank sample_pg_chain.whoami sample_pg_chain.acting ∧
            sample_pg_chain.acting[(calc_pg_rank sample_pg_chain.whoami
              sample_pg_chain.acting - 1).toNat]? = some 0))) :=
  ⟨(new_rep_gather_wait_sets sample_pg sample_op 1).1 (by decide),
   (new_rep_gather_wait_sets sample_pg_chain sample_op 0).2 (by decide)⟩

/-- The loops of `new_rep_gather` touch the wait sets only. -/
theorem foldl_add_commit_osd_flags (l : List Int) (r : RepGather) :
    (l.foldl add_commit_osd r).rep_tid = r.rep_tid ∧
    (l.foldl add_commit_osd r).applied = r.applied ∧
    (l.foldl add_commit_osd r).sent_ack = r.sent_ack ∧
    (l.foldl add_commit_osd r).sent_commit = r.sent_commit := by
  induction l generalizing r with
  | nil => simp
  | cons a l ih =>
    simp only [List.foldl_cons]
    obtain ⟨h1, h2, h3, h4⟩ := ih (add_commit_osd r a)
    exact ⟨h1, h2, h3, h4⟩

theorem foldl_add_ack_osd_flags (l : List Int) (r : RepGather) :
    (l.foldl add_ack_osd r).rep_tid = r.rep_tid ∧
    (l.foldl add_ack_osd r).applied = r.applied ∧
    (l.foldl add_ack_osd r).sent_ack = r.sent_ack ∧
    (l.foldl add_ack_osd r).sent_commit = r.sent_commit := by
  induction l generalizing r with
  | nil => simp
  | cons a l ih =>
    simp only [List.foldl_cons]
    obtain ⟨h1, h2, h3, h4⟩ := ih (add_ack_osd r a)
    exact ⟨h1, h2, h3, h4⟩

/-- The gather `new_rep_gather` builds: its flags are those of the constructor, every member
of `acting` is awaited for commit, in chain mode so is the local node, and outside chain mode
every member of `acting` is awaited for ack. -/
theorem new_rep_gather_sets_facts (pg : ReplicatedPG) (r : RepGather) :
    (new_rep_gather_sets pg r).rep_tid = r.rep_tid ∧
    (new_rep_gather_sets pg r).applied = r.applied ∧
    (new_rep_gather_sets pg r).sent_ack = r.sent_ack ∧
    (new_rep_gather_sets pg r).sent_commit = r.sent_commit ∧
    (∀ m ∈ pg.acting, m ∈ (new_rep_gather_sets pg r).waitfor_commit) ∧
    (pg.osd_rep = OSD_REP_CHAIN → pg.whoami ∈ (new_rep_gather_sets pg r).waitfor_commit) ∧
    (pg.osd_rep ≠ OSD_REP_CHAIN → ∀ m ∈ pg.acting, m ∈ (new_rep_gather_sets pg r).waitfor_ack) := by
  obtain ⟨c1, c2, c3, c4⟩ := foldl_add_commit_osd_flags pg.acting r
  have hc := new_rep_gather_commit_loop pg.acting r
  unfold new_rep_gather_sets
  by_cases hm : pg.osd_rep = OSD_REP_CHAIN
  · simp only [hm, if_true]
    by_cases hr : calc_pg_rank pg.whoami pg.acting > 0
    · simp only [hr, if_true, add_chain_osd, mem_set_insert]
      refine ⟨c1, c2, c3, c4, ?_, ?_, ?_⟩
      · intro m hmem
        exact Or.inl (Or.inl ((hc.1 m).2 (Or.inr hmem)))
      · intro _; simp
      · intro hn; exact absurd rfl hn
    · simp only [hr, if_false, add_chain_osd, mem_set_insert]
      refine ⟨c1, c2, c3, c4, ?_, ?_, ?_⟩
      · intro m hmem
        exact Or.inl ((hc.1 m).2 (Or.inr hmem))
      · intro _; simp
      · intro hn; exact absurd rfl hn
  · simp only [hm, if_false]
    obtain ⟨a1, a2, a3, a4⟩ := foldl_add_ack_osd_flags pg.acting (pg.acting.foldl add_commit_osd r)
    have ha := new_rep_gather_ack_loop pg.acting (pg.acting.foldl add_commit_osd r)
    refine ⟨a1.trans c1, a2.trans c2, a3.trans c3, a4.trans c4, ?_, ?_, ?_⟩
    · intro m hmem
      rw [ha.2]
      exact (hc.1 m).2 (Or.inr hmem)
    · intro hn; exact absurd hn (by simp)
    · intro _ m hmem
      exact (ha.1 m).2 (Or.inr hmem)

/-- What `new_rep_gather` does to the PG: the gather is in the table under its `rep_tid`;
nothing is sent, and the store is not touched. -/
theorem new_rep_gather_pg (pg : ReplicatedPG) (op : MOSDOp) :
    (new_rep_gather pg op).1.whoami = pg.whoami ∧
    (new_rep_gather pg op).1.sent = pg.sent ∧
    (new_rep_gather pg op).1.store = pg.store ∧
    (new_rep_gather pg op).2 =
      new_rep_gather_sets pg (RepGather.new op op.rep_tid op.version pg.info.last_complete) ∧
    map_find (new_rep_gather pg op).1.rep_gather op.rep_tid = some (new_rep_gather pg op).2 := by
  have htid : (new_rep_gather_sets pg
      (RepGather.new op op.rep_tid op.version pg.info.last_complete)).rep_tid = op.rep_tid :=
    (new_rep_gather_sets_facts pg
      (RepGather.new op op.rep_tid op.version pg.info.last_complete)).1
  simp only [new_rep_gather, htid]
  split_ifs <;> simp [ReplicatedPG.take_waiters, map_find_set_same]

/-! ## Replies from peers -/

/-- C9: the update `repop_ack` makes before the re-evaluation. A commit reply from an osd in
`waitfor_commit` removes that osd from `waitfor_commit` and from `waitfor_ack` and records
its `pg_complete_thru`, every other member, entry and field being unchanged; a commit reply
from an osd outside `waitfor_commit` fails the assertion; a non-commit reply removes the osd
from `waitfor_ack` only. `repop_ack` is this update followed by `put_rep_gather`. -/
theorem repop_ack_update_frame (pg : ReplicatedPG) (g : RepGather) (result : Int)
    (commit : Bool) (fromosd : Int) (v : eversion_t) :
    repop_ack pg g result commit fromosd v =
      (repop_ack_update g commit fromosd v).bind (put_rep_gather pg) ∧
    (commit = true → fromosd ∉ g.waitfor_commit → repop_ack_update g commit fromosd v = none) ∧
    (commit = true → fromosd ∈ g.waitfor_commit →
      ∃ g1, repop_ack_update g commit fromosd v = some g1 ∧
        (∀ x, x ∈ g1.waitfor_commit ↔ x ∈ g.waitfor_commit ∧ x ≠ fromosd) ∧
        (∀ x, x ∈ g1.waitfor_ack ↔ x ∈ g.waitfor_ack ∧ x ≠ fromosd) ∧
        map_find g1.pg_complete_thru fromosd = some v ∧
        (∀ k, k ≠ fromosd → map_find g1.pg_complete_thru k = map_find g.pg_complete_thru k) ∧
        g1 = { g with waitfor_commit := g1.waitfor_commit, waitfor_ack := g1.waitfor_ack,
                      pg_complete_thru := g1.pg_complete_thru }) ∧
    (commit = false →
      ∃ g1, repop_ack_update g commit fromosd v = some g1 ∧
        (∀ x, x ∈ g1.waitfor_ack ↔ x ∈ g.waitfor_ack ∧ x ≠ fromosd) ∧
        g1 = { g with waitfor_ack := g1.waitfor_ack }) := by
  refine ⟨?_, ?_, ?_, ?_⟩
  · unfold repop_ack
    cases repop_ack_update g commit fromosd v <;> rfl
  · intro hc hn
    simp [repop_ack_update, hc, hn]
  · intro hc hm
    refine ⟨_, by simp only [repop_ack_update, hc, hm, if_true]; rfl, ?_, ?_, ?_, ?_, rfl⟩
    · intro x; exact mem_set_erase _ _ _
    · intro x; exact mem_set_erase _ _ _
    · exact map_find_set_same _ _ _
    · intro k hk; exact map_find_set_ne _ _ _ _ hk
  · intro hc
    refine ⟨_, by simp only [repop_ack_update, hc]; rfl, ?_, rfl⟩
    intro x; exact mem_set_erase _ _ _

/-- C9 at the sample gather: a commit reply from osd 1 is recorded. -/
theorem repop_ack_update_frame_witness :
    (1 : Int) ∈ sample_gather.waitfor_commit ∧
    ∃ g1, repop_ack_update sample_gather true 1 { epoch := 5, version := 1 } = some g1 ∧
      (∀ x, x ∈ g1.waitfor_commit ↔ x ∈ sample_gather.waitfor_commit ∧ x ≠ 1) ∧
      (∀ x, x ∈ g1.waitfor_ack ↔ x ∈ sample_gather.waitfor_ack ∧ x ≠ 1) ∧
      map_find g1.pg_complete_thru 1 = some { epoch := 5, version := 1 } ∧
      (∀ k, k ≠ 1 → map_find g1.pg_complete_thru k = map_find sample_gather.pg_complete_thru k) ∧
      g1 = { sample_gather with waitfor_commit := g1.waitfor_commit,
                                waitfor_ack := g1.waitfor_ack,
                                pg_complete_thru := g1.pg_complete_thru } :=
  ⟨by decide,
   (repop_ack_update_frame sample_pg sample_gather 0 true 1 { epoch := 5, version := 1 }).2.2.1
     rfl (by decide)⟩

/-! ## Re-evaluation of a gather -/

/-- The loop over `acting` computes the minimum of its start value and the recorded values. -/
theorem min_pg_complete_thru_spec (pct : List (Int × eversion_t)) (acting : List Int)
    (m0 : eversion_t) :
    min_pg_complete_thru pct acting m0 ≤ m0 ∧
    (∀ a ∈ acting, min_pg_complete_thru pct acting m0 ≤ map_get pct a eversion_t.zero) ∧
    (min_pg_complete_thru pct acting m0 = m0 ∨
      ∃ a ∈ acting, min_pg_complete_thru pct acting m0 = map_get pct a eversion_t.zero) := by
  unfold min_pg_complete_thru
  induction acting generalizing m0 with
  | nil => simp
  | cons a rest ih =>
    simp only [List.foldl_cons]
    obtain ⟨h1, h2, h3⟩ :=
      ih (if map_get pct a eversion_t.zero < m0 then map_get pct a eversion_t.zero else m0)
    by_cases hlt : map_get pct a eversion_t.zero < m0
    · simp only [hlt, if_true] at h1 h2 h3 ⊢
      refine ⟨le_trans h1 (le_of_lt hlt), ?_, ?_⟩
      · intro b hb
        rcases List.mem_cons.1 hb with hb | hb
        · subst hb; exact h1
        · exact h2 b hb
      · rcases h3 with h3 | ⟨b, hb, h3⟩
        · exact Or.inr ⟨a, List.mem_cons_self _ _, h3⟩
        · exact Or.inr ⟨b, List.mem_cons_of_mem _ hb, h3⟩
    · simp only [hlt, if_false] at h1 h2 h3 ⊢
      refine ⟨h1, ?_, ?_⟩
      · intro b hb
        rcases List.mem_cons.1 hb with hb | hb
        · subst hb; exact le_trans h1 (not_lt.1 hlt)
        · exact h2 b hb
      · rcases h3 with h3 | ⟨b, hb, h3⟩
        · exact Or.inl h3
        · exact Or.inr ⟨b, List.mem_cons_of_mem _ hb, h3⟩

/-- What the first half of `put_rep_gather` leaves alone. -/
theorem put_rep_gather_reply_frame (pg pg1 : ReplicatedPG) (g g1 : RepGather)
    (h : put_rep_gather_reply pg g = some (pg1, g1)) :
    pg1.acting = pg.acting ∧ pg1.info = pg.info ∧
    pg1.peers_complete_thru = pg.peers_complete_thru ∧ pg1.rep_gather = pg.rep_gather ∧
    pg1.whoami = pg.whoami ∧
    g1.pg_complete_thru = g.pg_complete_thru ∧ g1.rep_tid = g.rep_tid ∧
    g1.waitfor_ack = g.waitfor_ack ∧ g1.waitfor_commit = g.waitfor_commit := by
  unfold put_rep_gather_reply at h
  split at h
  · simp only [Option.some.injEq, Prod.mk.injEq] at h
    obtain ⟨h1, h2⟩ := h
    subst h1 h2
    simp [ReplicatedPG.send_message]
  · split at h
    · unfold apply_repop at h
      by_cases ha : g.applied = true
      · simp [ha] at h
      · simp only [ha, Bool.false_eq_true, if_false, Option.some.injEq, Prod.mk.injEq] at h
        obtain ⟨h1, h2⟩ := h
        subst h1 h2
        simp [ReplicatedPG.send_message]
    · simp only [Option.some.injEq, Prod.mk.injEq] at h
      obtain ⟨h1, h2⟩ := h
      subst h1 h2
      simp

/-- The three ways the first half of `put_rep_gather` returns: the commit reply is sent, or
the transaction is applied and the ack reply is sent, or nothing happens. -/
theorem put_rep_gather_reply_cases (pg pg1 : ReplicatedPG) (g g1 : RepGather)
    (h : put_rep_gather_reply pg g = some (pg1, g1)) :
    (g.waitfor_commit = [] ∧ g.sent_commit = false ∧
      g1 = { g with sent_commit := true } ∧ pg1.store = pg.store ∧
      ∃ r c, r.commit = true ∧ pg1.sent = pg.sent ++ [(Message.reply r, Dest.client c)]) ∨
    (g.waitfor_ack = [] ∧ g.sent_ack = false ∧ g.applied = false ∧
      g1 = { g with op := { g.op with data := [] }, applied := true, sent_ack := true } ∧
      pg1.store.oncommit = pg.store.oncommit ++
        [{ rep_tid := g.rep_tid, pg_last_complete := g.pg_local_last_complete }] ∧
      ∃ r c, r.commit = false ∧ pg1.sent = pg.sent ++ [(Message.reply r, Dest.client c)]) ∨
    (g1 = g ∧ pg1 = pg) := by
  unfold put_rep_gather_reply at h
  by_cases hc : (g.can_send_commit && g.op.wants_commit) = true
  · rw [if_pos hc] at h
    simp only [Option.some.injEq, Prod.mk.injEq] at h
    obtain ⟨h1, h2⟩ := h
    subst h1 h2
    left
    simp only [RepGather.can_send_commit, Bool.and_eq_true, List.isEmpty_iff,
      Bool.not_eq_true'] at hc
    exact ⟨hc.1.1, hc.1.2, rfl, rfl, _, _, rfl, rfl⟩
  · rw [if_neg hc] at h
    by_cases ha : (g.can_send_ack && g.op.wants_ack) = true
    · rw [if_pos ha] at h
      unfold apply_repop at h
      by_cases hap : g.applied = true
      · simp [hap] at h
      · have hapf : g.applied = false := by simpa using hap
        simp only [hapf, Bool.false_eq_true, if_false, Option.some.injEq, Prod.mk.injEq] at h
        obtain ⟨h1, h2⟩ := h
        subst h1 h2
        right; left
        simp only [RepGather.can_send_ack, Bool.and_eq_true, List.isEmpty_iff,
          Bool.not_eq_true'] at ha
        refine ⟨ha.1.1, ha.1.2, hapf, rfl, ?_, _, _, rfl, rfl⟩
        simp [ReplicatedPG.send_message, ObjectStore.apply_transaction]
    · rw [if_neg ha] at h
      simp only [Option.some.injEq, Prod.mk.injEq] at h
      obtain ⟨h1, h2⟩ := h
      subst h1 h2
      right; right
      exact ⟨rfl, rfl⟩

/-- The second half of `put_rep_gather` sends nothing and either erases the gather from the
table or writes it back. -/
theorem put_rep_gather_done_cases (pg pg1 : ReplicatedPG) (g : RepGather)
    (h : put_rep_gather_done pg g = some pg1) :
    pg1.sent = pg.sent ∧ pg1.whoami = pg.whoami ∧ pg1.store = pg.store ∧
    pg1.acting = pg.acting ∧
    (pg1.rep_gather = map_erase pg.rep_gather g.rep_tid ∨
      pg1.rep_gather = map_set pg.rep_gather g.rep_tid g) := by
  unfold put_rep_gather_done at h
  by_cases hd : g.can_delete = true
  · simp only [hd, if_true] at h
    repeat' split at h
    all_goals first
      | (simp only [Option.some.injEq] at h; subst h; exact ⟨rfl, rfl, rfl, rfl, Or.inl rfl⟩)
      | (exact absurd h (by simp))
  · have hdf : g.can_delete = false := by simpa using hd
    simp only [hdf, Bool.false_eq_true, if_false, Option.some.injEq] at h
    subst h
    exact ⟨rfl, rfl, rfl, rfl, Or.inr rfl⟩

/-- What `put_rep_gather` does to `peers_complete_thru`, whatever the gather recorded: it
never lowers it; it changes it only when it deletes the gather (the gather is then gone
from the table); when the deleted gather recorded no `pg_complete_thru` at all the value is
unchanged, and otherwise it becomes `max old m`, where `m` is the minimum its loop computes
from the local `info.last_complete` over the recorded values of the members of `acting`
(zero for a member with none). -/
theorem put_rep_gather_pct_min (pg pg1 : ReplicatedPG) (g : RepGather)
    (h : put_rep_gather pg g = some pg1) :
    pg.peers_complete_thru ≤ pg1.peers_complete_thru ∧
    (map_find pg1.rep_gather g.rep_tid ≠ none →
      pg1.peers_complete_thru = pg.peers_complete_thru) ∧
    (map_find pg1.rep_gather g.rep_tid = none →
      (g.pg_complete_thru = [] → pg1.peers_complete_thru = pg.peers_complete_thru) ∧
      (g.pg_complete_thru ≠ [] →
        ∃ m, (m ≤ pg.info.last_complete ∧
            ∀ a ∈ pg.acting, m ≤ map_get g.pg_complete_thru a eversion_t.zero) ∧
          (m = pg.info.last_complete ∨
            ∃ a ∈ pg.acting, m = map_get g.pg_complete_thru a eversion_t.zero) ∧
          pg1.peers_complete_thru = max pg.peers_complete_thru m)) := by
  unfold put_rep_gather at h
  split at h
  · simp at h
  · rename_i pga ga hr
    obtain ⟨hact, hinfo, hpct, -, -, hgp, htid, -, -⟩ := put_rep_gather_reply_frame pg pga g ga hr
    unfold put_rep_gather_done at h
    by_cases hd : ga.can_delete = true
    · simp only [hd, if_true] at h
      have hms := min_pg_complete_thru_spec ga.pg_complete_thru pga.acting pga.info.last_complete
      rw [hgp, hact, hinfo] at hms
      rw [hgp, hact, hinfo, hpct, htid] at h
      by_cases he : g.pg_complete_thru = []
      · simp only [he, List.isEmpty_nil, Bool.not_true, Bool.false_eq_true, if_false] at h
        split at h
        · simp only [Option.some.injEq] at h
          subst h
          exact ⟨le_of_eq hpct.symm, fun _ => hpct, fun _ => ⟨fun _ => hpct, fun hn => absurd he hn⟩⟩
        · simp at h
      · have hne : g.pg_complete_thru.isEmpty = false := by
          cases hg : g.pg_complete_thru with
          | nil => exact absurd hg he
          | cons _ _ => rfl
        simp only [hne, Bool.not_false, if_true] at h
        by_cases hgt : min_pg_complete_thru g.pg_complete_thru pg.acting pg.info.last_complete >
            pg.peers_complete_thru
        · simp only [hgt, if_true] at h
          split at h
          · simp only [Option.some.injEq] at h
            subst h
            simp only
            refine ⟨le_of_lt hgt, ?_, fun _ => ⟨fun hh => absurd hh he, fun _ => ?_⟩⟩
            · intro hn
              exact absurd (map_find_erase_same _ _) hn
            · exact ⟨_, ⟨hms.1, hms.2.1⟩, hms.2.2, (max_eq_right (le_of_lt hgt)).symm⟩
          · simp at h
        · simp only [hgt, if_false] at h
          split at h
          · simp only [Option.some.injEq] at h
            subst h
            refine ⟨le_of_eq hpct.symm, fun _ => hpct, fun _ => ⟨fun _ => hpct, fun _ => ?_⟩⟩
            exact ⟨_, ⟨hms.1, hms.2.1⟩, hms.2.2, hpct.trans (max_eq_left (not_lt.1 hgt)).symm⟩
          · simp at h
    · have hdf : ga.can_delete = false := by simpa using hd
      simp only [hdf, Bool.false_eq_true, if_false, Option.some.injEq] at h
      subst h
      refine ⟨le_of_eq hpct.symm, fun _ => hpct, fun hn => ?_⟩
      rw [← htid, map_find_set_same] at hn
      simp at hn

/-! ## Client replies of one gather -/

theorem client_replies_append (l1 l2 : List (Message × Dest)) :
    client_replies (l1 ++ l2) = client_replies l1 ++ client_replies l2 := by
  simp [client_replies, List.filterMap_append]

theorem client_replies_reply (r : MOSDOpReply) (c : Nat) :
    client_replies [(Message.reply r, Dest.client c)] = [r.commit] := by
  simp [client_replies, List.filterMap_cons]

theorem reply_flags_mem (g : RepGather) :
    reply_flags g ∈ [[], [false], [true], [false, true]] := by
  unfold reply_flags
  cases g.sent_ack <;> cases g.sent_commit <;> simp

/-- Re-evaluating a live gather that satisfies `gather_inv` leads to a PG state that
satisfies `reply_order_inv`. -/
theorem put_rep_gather_reply_order (pg0 pg pg1 : ReplicatedPG) (rep_tid : Nat) (g : RepGather)
    (new : List (Message × Dest)) (hw : pg.whoami = pg0.whoami) (hs : pg.sent = pg0.sent ++ new)
    (hg : gather_inv pg rep_tid g (client_replies new)) (h : put_rep_gather pg g = some pg1) :
    reply_order_inv pg0 rep_tid pg1 := by
  unfold put_rep_gather at h
  split at h
  · simp at h
  · rename_i pga ga hr
    obtain ⟨-, -, -, -, hwa, -, htid, -, -⟩ := put_rep_gather_reply_frame pg pga g ga hr
    obtain ⟨hsent, hwho, hstore, -, htab⟩ := put_rep_gather_done_cases pga pg1 ga h
    obtain ⟨hgt, hgr, hgas, hgca, hgna⟩ := hg
    -- the state after the reply half
    have hmid : ∃ new1, pga.sent = pg0.sent ++ new1 ∧
        gather_inv pga rep_tid ga (client_replies new1) := by
      rcases put_rep_gather_reply_cases pg pga g ga hr with
        ⟨hwc, hsc, hg1, -, r, c, hrc, hps⟩ | ⟨-, hsa, hap, hg1, -, r, c, hrc, hps⟩ | ⟨hg1, hp1⟩
      · have happ : g.applied = true := by
          by_contra hn
          have hnf : g.applied = false := by simpa using hn
          have := (hgna hnf).1
          rw [hwc] at this
          simp at this
        have hsa : g.sent_ack = true := by rw [← hgas]; exact happ
        refine ⟨new ++ [(Message.reply r, Dest.client c)], by rw [hps, hs, List.append_assoc], ?_⟩
        refine ⟨by rw [htid]; exact hgt, ?_, ?_, ?_, ?_⟩
        · rw [client_replies_append, client_replies_reply, hgr, hrc, hg1]
          simp [reply_flags, hsa, hsc]
        · rw [hg1]; exact hgas
        · intro _; rw [hg1]; exact happ
        · intro hn; rw [hg1] at hn; simp only at hn; rw [happ] at hn; simp at hn
      · have hsc : g.sent_commit = false := by
          by_contra hn
          have := hgca (by simpa using hn)
          rw [hap] at this
          simp at this
        refine ⟨new ++ [(Message.reply r, Dest.client c)], by rw [hps, hs, List.append_assoc], ?_⟩
        refine ⟨by rw [htid]; exact hgt, ?_, ?_, ?_, ?_⟩
        · rw [client_replies_append, client_replies_reply, hgr, hrc, hg1]
          simp [reply_flags, hsa, hsc]
        · rw [hg1]
        · intro _; rw [hg1]
        · intro hn; rw [hg1] at hn; simp at hn
      · subst hg1 hp1
        exact ⟨new, hs, hgt, hgr, hgas, hgca, hgna⟩
    obtain ⟨new1, hs1, hg1⟩ := hmid
    refine ⟨by rw [hwho, hwa, hw], new1, by rw [hsent, hs1], ?_⟩
    rcases htab with htab | htab
    · left
      refine ⟨?_, ?_⟩
      · rw [htab, ← hg1.1]; exact map_find_erase_same _ _
      · rw [hg1.2.1]; exact reply_flags_mem ga
    · right
      refine ⟨ga, ?_, ?_⟩
      · rw [htab, ← hg1.1]; exact map_find_set_same _ _ _
      · obtain ⟨h1, h2, h3, h4, h5⟩ := hg1
        refine ⟨h1, h2, h3, h4, ?_⟩
        intro hn
        rw [hwho, hstore]
        exact h5 hn

/-- One event from a peer keeps `reply_order_inv`. -/
theorem rep_step_reply_order (pg0 pg pg1 : ReplicatedPG) (rep_tid : Nat) (e : RepEvent)
    (hinv : reply_order_inv pg0 rep_tid pg)
    (hpeer : ∀ r, e = RepEvent.reply r → r.source ≠ pg0.whoami)
    (h : rep_step rep_tid pg e = some pg1) : reply_order_inv pg0 rep_tid pg1 := by
  obtain ⟨hw, new, hs, hcase⟩ := hinv
  cases e with
  | local_ack =>
    simp only [rep_step] at h
    rcases hcase with ⟨hnone, -⟩ | ⟨g, hsome, hg⟩
    · rw [hnone] at h; simp at h
    · rw [hsome] at h
      simp only [local_ack] at h
      split at h
      · refine put_rep_gather_reply_order pg0 pg pg1 rep_tid _ new hw hs ?_ h
        obtain ⟨h1, h2, h3, h4, h5⟩ := hg
        exact ⟨h1, h2, h3, h4, h5⟩
      · simp at h
  | reply r =>
    simp only [rep_step, op_reply] at h
    rcases hcase with ⟨hnone, hmem⟩ | ⟨g, hsome, hg⟩
    · rw [hnone] at h
      simp only [Option.some.injEq] at h
      subst h
      exact ⟨hw, new, hs, Or.inl ⟨hnone, hmem⟩⟩
    · rw [hsome] at h
      simp only [repop_ack] at h
      split at h
      · simp at h
      · rename_i g1 hu
        refine put_rep_gather_reply_order pg0 pg pg1 rep_tid g1 new hw hs ?_ h
        obtain ⟨h1, h2, h3, h4, h5⟩ := hg
        unfold repop_ack_update at hu
        by_cases hc : r.commit = true
        · simp only [hc, if_true] at hu
          split at hu
          · simp only [Option.some.injEq] at hu
            subst hu
            refine ⟨h1, h2, h3, h4, ?_⟩
            intro hn
            refine ⟨?_, (h5 hn).2⟩
            rw [mem_set_erase]
            refine ⟨(h5 hn).1, ?_⟩
            rw [hw]
            exact fun hh => hpeer r rfl hh.symm
          · simp at hu
        · have hcf : r.commit = false := by simpa using hc
          simp only [hcf, Bool.false_eq_true, if_false, Option.some.injEq] at hu
          subst hu
          exact ⟨h1, h2, h3, h4, h5⟩
  | op_modify_commit lc =>
    simp only [rep_step, write_commit_finish] at h
    split at h
    · rename_i hcb
      simp only [op_modify_commit] at h
      rcases hcase with ⟨hnone, hmem⟩ | ⟨g, hsome, hg⟩
      · rw [hnone] at h
        simp only [Option.some.injEq] at h
        subst h
        exact ⟨hw, new, hs, Or.inl ⟨hnone, hmem⟩⟩
      · rw [hsome] at h
        simp only at h
        split at h
        · refine put_rep_gather_reply_order pg0 _ pg1 rep_tid _ new ?_ ?_ ?_ h
          · exact hw
          · exact hs
          obtain ⟨h1, h2, h3, h4, h5⟩ := hg
          have happ : g.applied = true := by
            by_contra hn
            exact (h5 (by simpa using hn)).2 _ hcb rfl
          refine ⟨h1, h2, h3, h4, ?_⟩
          intro hn
          simp only at hn
          rw [happ] at hn
          simp at hn
        · simp at h
    · simp at h

/-- A run of events from peers keeps `reply_order_inv`. -/
theorem rep_run_reply_order (pg0 : ReplicatedPG) (rep_tid : Nat) (evs : List RepEvent)
    (pg pg1 : ReplicatedPG) (hinv : reply_order_inv pg0 rep_tid pg)
    (hpeer : from_peers pg0.whoami evs) (h : rep_run rep_tid pg evs = some pg1) :
    reply_order_inv pg0 rep_tid pg1 := by
  induction evs generalizing pg with
  | nil =>
    simp only [rep_run, Option.some.injEq] at h
    subst h
    exact hinv
  | cons e es ih =>
    simp only [rep_run] at h
    split at h
    · rename_i pg2 hstep
      refine ih pg2 ?_ ?_ h
      · refine rep_step_reply_order pg0 pg pg2 rep_tid e hinv ?_ hstep
        intro r hr
        exact hpeer r (by rw [hr]; exact List.mem_cons_self _ _)
      · intro r hr
        exact hpeer r (List.mem_cons_of_mem _ hr)
    · simp at h

/-- C1: a gather is made by `new_rep_gather` on its acker (a member of `acting`, or any node
in chain mode, where the local node is always awaited) under a `rep_tid` for which the store
holds no commit callback yet. Whatever events then happen to it, each followed by the
`put_rep_gather` re-evaluation (the local ack, replies of peers with ack or commit, the
store's commit callback `op_modify_commit`), the messages sent are client replies with at
most one ack, at most one commit, and no ack after the commit. -/
theorem client_reply_order (pg : ReplicatedPG) (op : MOSDOp) (evs : List RepEvent)
    (pg1 : ReplicatedPG)
    (hacker : pg.osd_rep = OSD_REP_CHAIN ∨ pg.whoami ∈ pg.acting)
    (hfresh : ∀ cb ∈ pg.store.oncommit, cb.rep_tid ≠ op.rep_tid)
    (hpeer : from_peers pg.whoami evs)
    (hrun : rep_run op.rep_tid (new_rep_gather pg op).1 evs = some pg1) :
    ∃ new, pg1.sent = pg.sent ++ new ∧
      (client_replies new).count false ≤ 1 ∧ (client_replies new).count true ≤ 1 ∧
      ¬ List.Sublist [true, false] (client_replies new) := by
  obtain ⟨hw, hs, hst, hg, hfind⟩ := new_rep_gather_pg pg op
  obtain ⟨f1, f2, f3, f4, f5, f6, -⟩ := new_rep_gather_sets_facts pg
    (RepGather.new op op.rep_tid op.version pg.info.last_complete)
  rw [← hg] at f1 f2 f3 f4 f5 f6
  simp only [RepGather.new] at f1 f2 f3 f4
  have hinit : reply_order_inv pg op.rep_tid (new_rep_gather pg op).1 := by
    refine ⟨hw, [], by rw [hs]; simp, Or.inr ⟨_, hfind, f1, ?_, ?_, ?_, ?_⟩⟩
    · simp [client_replies, reply_flags, f3, f4]
    · rw [f2, f3]
    · intro hn; rw [f4] at hn; simp at hn
    · intro _
      refine ⟨?_, ?_⟩
      · rw [hw]
        rcases hacker with hch | hmem
        · exact f6 hch
        · exact f5 _ hmem
      · rw [hst]; exact hfresh
  obtain ⟨-, new, hnew, hcase⟩ :=
    rep_run_reply_order pg op.rep_tid evs (new_rep_gather pg op).1 pg1 hinit hpeer hrun
  have hmem : client_replies new ∈ [[], [false], [true], [false, true]] := by
    rcases hcase with ⟨-, hm⟩ | ⟨g, -, -, hr, -⟩
    · exact hm
    · rw [hr]; exact reply_flags_mem g
  refine ⟨new, hnew, ?_⟩
  simp only [List.mem_cons, List.mem_singleton, List.not_mem_nil, or_false] at hmem
  rcases hmem with h | h | h | h <;> rw [h] <;> decide

/-- The sample replies come from osd 1, not from the local osd 0. -/
theorem sample_events_from_peers : from_peers sample_pg.whoami sample_events := by
  intro r hr
  simp only [sample_events, List.mem_cons, List.mem_singleton, RepEvent.reply.injEq,
    List.not_mem_nil, or_false] at hr
  rcases hr with hr | hr | hr | hr
  · exact absurd hr (by simp)
  · rw [hr]; decide
  · rw [hr]; decide
  · exact absurd hr (by simp)

/-- C1 at the sample write on osds 0 and 1: local ack, ack of osd 1, commit of osd 1, commit
of the local store; the client gets the ack, then the commit. -/
theorem client_reply_order_witness :
    (sample_pg.osd_rep = OSD_REP_CHAIN ∨ sample_pg.whoami ∈ sample_pg.acting) ∧
    (∀ cb ∈ sample_pg.store.oncommit, cb.rep_tid ≠ sample_op.rep_tid) ∧
    from_peers sample_pg.whoami sample_events ∧
    rep_run sample_op.rep_tid (new_rep_gather sample_pg sample_op).1 sample_events =
      some sample_pg_replied ∧
    client_replies sample_pg_replied.sent = [false, true] ∧
    ∃ new, sample_pg_replied.sent = sample_pg.sent ++ new ∧
      (client_replies new).count false ≤ 1 ∧ (client_replies new).count true ≤ 1 ∧
      ¬ List.Sublist [true, false] (client_replies new) :=
  ⟨by decide, by decide, sample_events_from_peers, by decide, by decide,
   client_reply_order sample_pg sample_op sample_events sample_pg_replied (by decide)
     (by decide) sample_events_from_peers (by decide)⟩

/-! ## Primary-fanout: when the client is answered -/

theorem acked_by_append (whoami : Int) (evs more : List RepEvent) (m : Int)
    (h : acked_by whoami evs m) : acked_by whoami (evs ++ more) m := by
  rcases h with ⟨h1, h2⟩ | ⟨r, h1, h2⟩
  · exact Or.inl ⟨h1, List.mem_append_left _ h2⟩
  · exact Or.inr ⟨r, List.mem_append_left _ h1, h2⟩

theorem committed_by_append (whoami : Int) (evs more : List RepEvent) (m : Int)
    (h : committed_by whoami evs m) : committed_by whoami (evs ++ more) m := by
  rcases h with ⟨h1, lc, h2⟩ | ⟨r, h1, h2⟩
  · exact Or.inl ⟨h1, lc, List.mem_append_left _ h2⟩
  · exact Or.inr ⟨r, List.mem_append_left _ h1, h2⟩

/-- Re-evaluating a gather whose wait sets account for every member of `acting` leads to a
PG state that satisfies `fanout_inv`. -/
theorem put_rep_gather_fanout (pg0 pg pg1 : ReplicatedPG) (rep_tid : Nat) (evs : List RepEvent)
    (g : RepGather) (new : List (Message × Dest))
    (hw : pg.whoami = pg0.whoami) (hs : pg.sent = pg0.sent ++ new)
    (hack : false ∈ client_replies new → ∀ m ∈ pg0.acting, acked_by pg0.whoami evs m)
    (hcom : true ∈ client_replies new → ∀ m ∈ pg0.acting, committed_by pg0.whoami evs m)
    (htid : g.rep_tid = rep_tid)
    (hga : ∀ m ∈ pg0.acting, m ∈ g.waitfor_ack ∨ acked_by pg0.whoami evs m)
    (hgc : ∀ m ∈ pg0.acting, m ∈ g.waitfor_commit ∨ committed_by pg0.whoami evs m)
    (h : put_rep_gather pg g = some pg1) : fanout_inv pg0 rep_tid evs pg1 := by
  unfold put_rep_gather at h
  split at h
  · simp at h
  · rename_i pga ga hr
    obtain ⟨-, -, -, -, hwa, -, htid1, hwfa, hwfc⟩ := put_rep_gather_reply_frame pg pga g ga hr
    obtain ⟨hsent, hwho, -, -, htab⟩ := put_rep_gather_done_cases pga pg1 ga h
    have hall_a : g.waitfor_ack = [] → ∀ m ∈ pg0.acting, acked_by pg0.whoami evs m := by
      intro he m hm
      rcases hga m hm with h1 | h1
      · rw [he] at h1; simp at h1
      · exact h1
    have hall_c : g.waitfor_commit = [] → ∀ m ∈ pg0.acting, committed_by pg0.whoami evs m := by
      intro he m hm
      rcases hgc m hm with h1 | h1
      · rw [he] at h1; simp at h1
      · exact h1
    have hmid : ∃ new1, pga.sent = pg0.sent ++ new1 ∧
        (false ∈ client_replies new1 → ∀ m ∈ pg0.acting, acked_by pg0.whoami evs m) ∧
        (true ∈ client_replies new1 → ∀ m ∈ pg0.acting, committed_by pg0.whoami evs m) := by
      rcases put_rep_gather_reply_cases pg pga g ga hr with
        ⟨hwc, -, -, -, r, c, hrc, hps⟩ | ⟨hwak, -, -, -, -, r, c, hrc, hps⟩ | ⟨-, hp1⟩
      · refine ⟨new ++ [(Message.reply r, Dest.client c)], by rw [hps, hs, List.append_assoc], ?_, ?_⟩
        · rw [client_replies_append, client_replies_reply, hrc]
          intro hm
          simp only [List.mem_append, List.mem_singleton] at hm
          rcases hm with hm | hm
          · exact hack hm
          · simp at hm
        · intro _; exact hall_c hwc
      · refine ⟨new ++ [(Message.reply r, Dest.client c)], by rw [hps, hs, List.append_assoc], ?_, ?_⟩
        · intro _; exact hall_a hwak
        · rw [client_replies_append, client_replies_reply, hrc]
          intro hm
          simp only [List.mem_append, List.mem_singleton] at hm
          rcases hm with hm | hm
          · exact hcom hm
          · simp at hm
      · subst hp1
        exact ⟨new, hs, hack, hcom⟩
    obtain ⟨new1, hs1, ha1, hc1⟩ := hmid
    refine ⟨by rw [hwho, hwa, hw], new1, by rw [hsent, hs1], ha1, hc1, ?_⟩
    intro g2 hfind
    rcases htab with htab | htab
    · rw [htab, ← htid, ← htid1, map_find_erase_same] at hfind
      simp at hfind
    · rw [htab, ← htid, ← htid1, map_find_set_same] at hfind
      simp only [Option.some.injEq] at hfind
      subst hfind
      refine ⟨by rw [htid1, htid], ?_, ?_⟩
      · rw [hwfa]; exact hga
      · rw [hwfc]; exact hgc

/-- One event keeps `fanout_inv`, the event joining the history. -/
theorem rep_step_fanout (pg0 pg pg1 : ReplicatedPG) (rep_tid : Nat) (evs : List RepEvent)
    (e : RepEvent) (hinv : fanout_inv pg0 rep_tid evs pg)
    (h : rep_step rep_tid pg e = some pg1) : fanout_inv pg0 rep_tid (evs ++ [e]) pg1 := by
  obtain ⟨hw, new, hs, hack, hcom, hgather⟩ := hinv
  have hack1 : false ∈ client_replies new →
      ∀ m ∈ pg0.acting, acked_by pg0.whoami (evs ++ [e]) m :=
    fun hm m hmem => acked_by_append _ _ _ _ (hack hm m hmem)
  have hcom1 : true ∈ client_replies new →
      ∀ m ∈ pg0.acting, committed_by pg0.whoami (evs ++ [e]) m :=
    fun hm m hmem => committed_by_append _ _ _ _ (hcom hm m hmem)
  -- the PG state is left as it is, up to fields the invariant does not read
  have hsame : ∀ pg2 : ReplicatedPG, pg2.whoami = pg.whoami → pg2.sent = pg.sent →
      pg2.rep_gather = pg.rep_gather → fanout_inv pg0 rep_tid (evs ++ [e]) pg2 := by
    intro pg2 h1 h2 h3
    refine ⟨h1.trans hw, new, h2.trans hs, hack1, hcom1, ?_⟩
    intro g hfind
    rw [h3] at hfind
    obtain ⟨g1, g2, g3⟩ := hgather g hfind
    exact ⟨g1, fun m hm => (g2 m hm).imp id (acked_by_append _ _ _ _),
      fun m hm => (g3 m hm).imp id (committed_by_append _ _ _ _)⟩
  cases e with
  | local_ack =>
    simp only [rep_step] at h
    cases hfind : map_find pg.rep_gather rep_tid with
    | none => rw [hfind] at h; simp at h
    | some g =>
      rw [hfind] at h
      simp only [local_ack] at h
      obtain ⟨g1, g2, g3⟩ := hgather g hfind
      split at h
      · refine put_rep_gather_fanout pg0 pg pg1 rep_tid _ _ new hw hs hack1 hcom1 ?_ ?_ ?_ h
        · exact g1
        · intro m hm
          rcases g2 m hm with hmem | hacked
          · by_cases hmw : m = pg.whoami
            · exact Or.inr (Or.inl ⟨hmw.trans hw, by simp⟩)
            · exact Or.inl ((mem_set_erase _ _ _).2 ⟨hmem, hmw⟩)
          · exact Or.inr (acked_by_append _ _ _ _ hacked)
        · intro m hm
          exact (g3 m hm).imp id (committed_by_append _ _ _ _)
      · simp at h
  | reply r =>
    simp only [rep_step, op_reply] at h
    cases hfind : map_find pg.rep_gather rep_tid with
    | none =>
      rw [hfind] at h
      simp only [Option.some.injEq] at h
      subst h
      exact hsame _ rfl rfl rfl
    | some g =>
      rw [hfind] at h
      simp only [repop_ack] at h
      obtain ⟨g1, g2, g3⟩ := hgather g hfind
      split at h
      · simp at h
      · rename_i ga hu
        have hacked : acked_by pg0.whoami (evs ++ [RepEvent.reply r]) r.source :=
          Or.inr ⟨r, by simp, rfl⟩
        have hga : ∀ m ∈ pg0.acting, m ∈ set_erase g.waitfor_ack r.source ∨
            acked_by pg0.whoami (evs ++ [RepEvent.reply r]) m := by
          intro m hm
          rcases g2 m hm with hmem | hack2
          · by_cases hms : m = r.source
            · rw [hms]; exact Or.inr hacked
            · exact Or.inl ((mem_set_erase _ _ _).2 ⟨hmem, hms⟩)
          · exact Or.inr (acked_by_append _ _ _ _ hack2)
        unfold repop_ack_update at hu
        by_cases hc : r.commit = true
        · simp only [hc, if_true] at hu
          split at hu
          · simp only [Option.some.injEq] at hu
            subst hu
            refine put_rep_gather_fanout pg0 pg pg1 rep_tid _ _ new hw hs hack1 hcom1 ?_ ?_ ?_ h
            · exact g1
            · exact hga
            intro m hm
            rcases g3 m hm with hmem | hcom2
            · by_cases hms : m = r.source
              · exact Or.inr (Or.inr ⟨r, by simp, hms.symm, hc⟩)
              · exact Or.inl ((mem_set_erase _ _ _).2 ⟨hmem, hms⟩)
            · exact Or.inr (committed_by_append _ _ _ _ hcom2)
          · simp at hu
        · have hcf : r.commit = false := by simpa using hc
          simp only [hcf, Bool.false_eq_true, if_false, Option.some.injEq] at hu
          subst hu
          refine put_rep_gather_fanout pg0 pg pg1 rep_tid _ _ new hw hs hack1 hcom1 ?_ ?_ ?_ h
          · exact g1
          · exact hga
          intro m hm
          exact (g3 m hm).imp id (committed_by_append _ _ _ _)
  | op_modify_commit lc =>
    simp only [rep_step, write_commit_finish] at h
    split at h
    · simp only [op_modify_commit] at h
      cases hfind : map_find pg.rep_gather rep_tid with
      | none =>
        rw [hfind] at h
        simp only [Option.some.injEq] at h
        subst h
        exact hsame _ rfl rfl rfl
      | some g =>
        rw [hfind] at h
        simp only at h
        obtain ⟨g1, g2, g3⟩ := hgather g hfind
        split at h
        · refine put_rep_gather_fanout pg0 _ pg1 rep_tid _ _ new ?_ ?_ hack1 hcom1 ?_ ?_ ?_ h
          · exact hw
          · exact hs
          · exact g1
          · intro m hm
            exact (g2 m hm).imp id (acked_by_append _ _ _ _)
          · intro m hm
            rcases g3 m hm with hmem | hcom2
            · by_cases hmw : m = pg.whoami
              · exact Or.inr (Or.inl ⟨hmw.trans hw, lc, by simp⟩)
              · exact Or.inl ((mem_set_erase _ _ _).2 ⟨hmem, hmw⟩)
            · exact Or.inr (committed_by_append _ _ _ _ hcom2)
        · simp at h
    · simp at h

/-- A run of events keeps `fanout_inv`, the events joining the history. -/
theorem rep_run_fanout (pg0 : ReplicatedPG) (rep_tid : Nat) (evs : List RepEvent)
    (pre : List RepEvent) (pg pg1 : ReplicatedPG) (hinv : fanout_inv pg0 rep_tid pre pg)
    (h : rep_run rep_tid pg evs = some pg1) : fanout_inv pg0 rep_tid (pre ++ evs) pg1 := by
  induction evs generalizing pg pre with
  | nil =>
    simp only [rep_run, Option.some.injEq] at h
    subst h
    simpa using hinv
  | cons e es ih =>
    simp only [rep_run] at h
    split at h
    · rename_i pg2 hstep
      have := ih (pre ++ [e]) pg2 (rep_step_fanout pg0 pg pg2 rep_tid pre e hinv hstep) h
      simpa using this
    · simp at h

/-- C2: in primary-fanout mode, after any events on a gather made by `new_rep_gather`, an ack
reply has gone to the client only if every member of `acting` was taken out of `waitfor_ack`
by an event (the local ack for the primary, a reply of its own for a peer), and a commit
reply only if every member reported its commit (the store's commit callback for the primary,
a commit reply for a peer); when the replies come from peers, the primary's part was its
local ack, respectively its store's commit callback; and `put_rep_gather` sends the commit
only on a gather whose `waitfor_commit` is empty, the ack only on one whose `waitfor_ack`
is empty. -/
theorem primary_fanout_reply_conditions (pg : ReplicatedPG) (op : MOSDOp)
    (evs : List RepEvent) (pg1 : ReplicatedPG) (hmode : pg.osd_rep = OSD_REP_PRIMARY)
    (hrun : rep_run op.rep_tid (new_rep_gather pg op).1 evs = some pg1) :
    (∃ new, pg1.sent = pg.sent ++ new ∧
      (false ∈ client_replies new → ∀ m ∈ pg.acting, acked_by pg.whoami evs m) ∧
      (true ∈ client_replies new → ∀ m ∈ pg.acting, committed_by pg.whoami evs m) ∧
      (from_peers pg.whoami evs → pg.whoami ∈ pg.acting →
        (false ∈ client_replies new → RepEvent.local_ack ∈ evs) ∧
        (true ∈ client_replies new → ∃ lc, RepEvent.op_modify_commit lc ∈ evs))) ∧
    ∀ (pga pgb : ReplicatedPG) (g gb : RepGather),
      put_rep_gather_reply pga g = some (pgb, gb) →
      ∃ sent1, pgb.sent = pga.sent ++ sent1 ∧
        (false ∈ client_replies sent1 → g.waitfor_ack = []) ∧
        (true ∈ client_replies sent1 → g.waitfor_commit = []) := by
  constructor
  · obtain ⟨hw, hs, -, hg, hfind⟩ := new_rep_gather_pg pg op
    obtain ⟨f1, -, -, -, f5, -, f7⟩ := new_rep_gather_sets_facts pg
      (RepGather.new op op.rep_tid op.version pg.info.last_complete)
    rw [← hg] at f1 f5 f7
    have hne : pg.osd_rep ≠ OSD_REP_CHAIN := by rw [hmode]; decide
    have hinit : fanout_inv pg op.rep_tid [] (new_rep_gather pg op).1 := by
      refine ⟨hw, [], by rw [hs]; simp, by simp [client_replies], by simp [client_replies], ?_⟩
      intro g hgf
      rw [hfind] at hgf
      simp only [Option.some.injEq] at hgf
      subst hgf
      exact ⟨f1, fun m hm => Or.inl (f7 hne m hm), fun m hm => Or.inl (f5 m hm)⟩
    obtain ⟨-, new, hnew, hack, hcom, -⟩ :=
      rep_run_fanout pg op.rep_tid evs [] (new_rep_gather pg op).1 pg1 hinit hrun
    simp only [List.nil_append] at hack hcom
    refine ⟨new, hnew, hack, hcom, ?_⟩
    intro hpeer hmem
    constructor
    · intro hf
      rcases hack hf _ hmem with ⟨-, h1⟩ | ⟨r, h1, h2⟩
      · exact h1
      · exact absurd h2 (hpeer r h1)
    · intro ht
      rcases hcom ht _ hmem with ⟨-, h1⟩ | ⟨r, h1, h2, -⟩
      · exact h1
      · exact absurd h2 (hpeer r h1)
  · intro pga pgb g gb hr
    rcases put_rep_gather_reply_cases pga pgb g gb hr with
      ⟨hwc, -, -, -, r, c, hrc, hps⟩ | ⟨hwak, -, -, -, -, r, c, hrc, hps⟩ | ⟨-, hp1⟩
    · refine ⟨_, hps, ?_, fun _ => hwc⟩
      rw [client_replies_reply, hrc]
      intro hm
      simp at hm
    · refine ⟨_, hps, fun _ => hwak, ?_⟩
      rw [client_replies_reply, hrc]
      intro hm
      simp at hm
    · subst hp1
      exact ⟨[], by simp, by simp [client_replies], by simp [client_replies]⟩

/-- C2 at the sample write on osds 0 and 1 in primary-fanout mode. -/
theorem primary_fanout_reply_conditions_witness :
    sample_pg.osd_rep = OSD_REP_PRIMARY ∧
    rep_run sample_op.rep_tid (new_rep_gather sample_pg sample_op).1 sample_events =
      some sample_pg_replied ∧
    ∃ new, sample_pg_replied.sent = sample_pg.sent ++ new ∧
      (false ∈ client_replies new →
        ∀ m ∈ sample_pg.acting, acked_by sample_pg.whoami sample_events m) ∧
      (true ∈ client_replies new →
        ∀ m ∈ sample_pg.acting, committed_by sample_pg.whoami sample_events m) ∧
      (from_peers sample_pg.whoami sample_events → sample_pg.whoami ∈ sample_pg.acting →
        (false ∈ client_replies new → RepEvent.local_ack ∈ sample_events) ∧
        (true ∈ client_replies new → ∃ lc, RepEvent.op_modify_commit lc ∈ sample_events)) :=
  ⟨by decide, by decide,
   (primary_fanout_reply_conditions sample_pg sample_op sample_events sample_pg_replied
     (by decide) (by decide)).1⟩
/-! ## Epoch guard -/

/-- C11. Epoch guard. For every epoch `e` and every PG history, `same_for_read_since e` is
true iff `e ≥ same_acker_since`; `same_for_modify_since e` is true iff
`e ≥ same_primary_since`; `same_for_rep_modify_since e` is true iff `e ≥ same_since` in chain
mode, and iff `e ≥ same_primary_since` and `e ≥ same_acker_since` in primary-fanout and
splay modes. -/
theorem epoch_guard (pg : ReplicatedPG) (e : Nat) :
    (same_for_read_since pg e = true ↔ e ≥ pg.info.history.same_acker_since) ∧
    (same_for_modify_since pg e = true ↔ e ≥ pg.info.history.same_primary_since) ∧
    (pg.osd_rep = OSD_REP_CHAIN →
      (same_for_rep_modify_since pg e = true ↔ e ≥ pg.info.history.same_since)) ∧
    (pg.osd_rep = OSD_REP_PRIMARY ∨ pg.osd_rep = OSD_REP_SPLAY →
      (same_for_rep_modify_since pg e = true ↔
        e ≥ pg.info.history.same_primary_since ∧ e ≥ pg.info.history.same_acker_since)) := by
  refine ⟨?_, ?_, ?_, ?_⟩
  · simp [same_for_read_since]
  · simp [same_for_modify_since]
  · intro h
    simp [same_for_rep_modify_since, h]
  · intro h
    have hne : pg.osd_rep ≠ OSD_REP_CHAIN := by
      rcases h with h | h <;> rw [h] <;> decide
    simp [same_for_rep_modify_since, hne]

/-- Witness for C11 at the sample PGs: a chain PG and a primary-fanout PG, at epoch 3, with
all three epochs of the history equal to 1. -/
theorem epoch_guard_witness :
    sample_pg_chain.osd_rep = OSD_REP_CHAIN ∧
    (sample_pg.osd_rep = OSD_REP_PRIMARY ∨ sample_pg.osd_rep = OSD_REP_SPLAY) ∧
    (same_for_rep_modify_since sample_pg_chain 3 = true ↔
      3 ≥ sample_pg_chain.info.history.same_since) ∧
    (same_for_rep_modify_since sample_pg 3 = true ↔
      3 ≥ sample_pg.info.history.same_primary_since ∧
      3 ≥ sample_pg.info.history.same_acker_since) ∧
    same_for_rep_modify_since sample_pg 3 = true ∧
    same_for_rep_modify_since sample_pg 0 = false :=
  ⟨by decide, Or.inl (by decide),
   (epoch_guard sample_pg_chain 3).2.2.1 (by decide),
   (epoch_guard sample_pg 3).2.2.2 (Or.inl (by decide)),
   by decide, by decide⟩

/-! ## The store transaction of one op -/

/-- The `switch` of `prepare_op_transaction` returns for the five opcodes the specification
lists (a WRITE must carry as many bytes as its length says), and then it added the one
primitive listed for the opcode. -/
theorem apply_the_op_eq (t t3 : Transaction) (op op1 : MOSDOp) :
    apply_the_op t op = some (t3, op1) ↔
      ∃ m, spec_mutation op = some m ∧ (op.op = OSD_OP_WRITE → op.data.length = op.length) ∧
        t3 = t ++ [m] ∧ op1 = (if op.op = OSD_OP_WRITE then { op with data := [] } else op) := by
  unfold apply_the_op spec_mutation
  cases hop : op.op <;> simp [eq_comm]

/-- The exact transaction `prepare_op_transaction` returns for an op that is not a WRNOOP. -/
theorem prepare_op_transaction_tx (pg pg1 : ReplicatedPG) (t t1 : Transaction)
    (op op1 : MOSDOp) (nv : eversion_t) (crev rev : Nat) (hne : op.op ≠ OSD_OP_WRNOOP)
    (h : prepare_op_transaction pg t op nv crev rev = some (pg1, t1, op1)) :
    ∃ m, spec_mutation op = some m ∧
      t1 = t ++ [tx_op.collection_setattr op.pg "info" (attr_val.info pg1.info)] ++
        (if will_clone crev rev then [tx_op.clone op.oid { op.oid with rev := rev }] else []) ++
        [m, spec_membership op] ++
        (if op.op = OSD_OP_DELETE then [] else spec_attrs op nv crev rev) := by
  unfold prepare_op_transaction at h
  simp only [hne, if_false] at h
  have hlu : (if pg.info.last_complete = pg.info.last_update then
      { pg.info with last_complete := nv } else pg.info).last_update = pg.info.last_update := by
    split <;> rfl
  rw [hlu] at h
  by_cases hv : nv > pg.info.last_update
  · rw [if_pos hv] at h
    split at h
    · simp at h
    · rename_i t3 op2 happ
      obtain ⟨m, hm, -, ht3, -⟩ := (apply_the_op_eq _ _ _ _).1 happ
      simp only [Option.some.injEq, Prod.mk.injEq] at h
      obtain ⟨h1, h2, -⟩ := h
      subst h1 h2
      refine ⟨m, hm, ?_⟩
      rw [ht3]
      unfold spec_membership spec_attrs
      split_ifs <;> simp
  · rw [if_neg hv] at h
    simp at h

/-- When `prepare_op_transaction` returns for an op that is not a WRNOOP. -/
theorem prepare_op_transaction_isSome_iff (pg : ReplicatedPG) (t : Transaction) (op : MOSDOp)
    (nv : eversion_t) (crev rev : Nat) (hne : op.op ≠ OSD_OP_WRNOOP) :
    (prepare_op_transaction pg t op nv crev rev).isSome = true ↔
      pg.info.last_update < nv ∧ (spec_mutation op).isSome = true ∧
      (op.op = OSD_OP_WRITE → op.data.length = op.length) := by
  have hlu : (if pg.info.last_complete = pg.info.last_update then
      { pg.info with last_complete := nv } else pg.info).last_update = pg.info.last_update := by
    split <;> rfl
  unfold prepare_op_transaction
  simp only [hne, if_false, hlu]
  by_cases hv : nv > pg.info.last_update
  · simp only [hv, if_true]
    have hv2 : pg.info.last_update < nv := hv
    simp only [hv2, true_and]
    unfold apply_the_op spec_mutation
    cases hop : op.op <;> simp
    by_cases hl : op.data.length = op.length <;> simp [hl]
  · have hv2 : ¬ pg.info.last_update < nv := hv
    simp [hv, hv2]

/-- The transaction `prepare_log_transaction` returns: the one it was given, then the log
append of the op's own entry. The CLONE entry goes to the log in memory only. -/
theorem prepare_log_transaction_tx (pg pg1 : ReplicatedPG) (t t1 : Transaction) (op : MOSDOp)
    (nv : eversion_t) (crev rev : Nat) (trim_to : eversion_t)
    (h : prepare_log_transaction pg t op nv crev rev trim_to = some (pg1, t1)) :
    t1 = t ++ [tx_op.append_log (op_log_entry op nv) trim_to] ∧ pg1.info = pg.info := by
  unfold prepare_log_transaction at h
  by_cases hc : will_clone crev rev = true
  · simp only [hc, if_true, Log.add] at h
    by_cases hv : nv > nv.dec
    · simp only [hv, if_true, Option.some.injEq, Prod.mk.injEq] at h
      obtain ⟨h1, h2⟩ := h
      subst h1 h2
      exact ⟨rfl, rfl⟩
    · simp [hv] at h
  · have hcf : will_clone crev rev = false := by simpa using hc
    simp only [hcf, Log.add, Bool.false_eq_true, if_false] at h
    by_cases hv : nv > pg.log.top
    · simp only [hv, if_true, Option.some.injEq, Prod.mk.injEq] at h
      obtain ⟨h1, h2⟩ := h
      subst h1 h2
      exact ⟨rfl, rfl⟩
    · simp [hv] at h

/-- C13. For every op whose opcode is WRLOCK, WRUNLOCK, WRITE, TRUNCATE or DELETE,
`prepare_op_transaction` returns exactly when the version is above `last_update` (and, for a
WRITE, the data is as long as the op says), and then it has added to the transaction: the
write of the PG info, the clone if one is implied, exactly one mutation primitive, the one
listed for the opcode (`setattr(oid, "wrlock", client)`, `rmattr(oid, "wrlock")`,
`write(oid, offset, length, data)`, `truncate(oid, length)`, `remove(oid)`), directly
followed by `collection_remove(pgid, oid)` when the op is DELETE and by
`collection_add(pgid, oid)` otherwise, and last the attribute writes of an op that is not a
DELETE. -/
theorem prepare_op_transaction_mutation (pg : ReplicatedPG) (t : Transaction) (op : MOSDOp)
    (nv : eversion_t) (crev rev : Nat)
    (hop : op.op = OSD_OP_WRLOCK ∨ op.op = OSD_OP_WRUNLOCK ∨ op.op = OSD_OP_WRITE ∨
      op.op = OSD_OP_TRUNCATE ∨ op.op = OSD_OP_DELETE) :
    ((prepare_op_transaction pg t op nv crev rev).isSome = true ↔
      pg.info.last_update < nv ∧ (op.op = OSD_OP_WRITE → op.data.length = op.length)) ∧
    ∀ pg1 t1 op1, prepare_op_transaction pg t op nv crev rev = some (pg1, t1, op1) →
      ∃ m, spec_mutation op = some m ∧
        t1 = t ++ [tx_op.collection_setattr op.pg "info" (attr_val.info pg1.info)] ++
          (if will_clone crev rev then [tx_op.clone op.oid { op.oid with rev := rev }] else []) ++
          [m, (if op.op = OSD_OP_DELETE then tx_op.collection_remove op.pg op.oid
               else tx_op.collection_add op.pg op.oid)] ++
          (if op.op = OSD_OP_DELETE then [] else spec_attrs op nv crev rev) := by
  have hne : op.op ≠ OSD_OP_WRNOOP := by
    rcases hop with h | h | h | h | h <;> rw [h] <;> decide
  have hm : (spec_mutation op).isSome = true := by
    unfold spec_mutation
    rcases hop with h | h | h | h | h <;> rw [h] <;> rfl
  constructor
  · rw [prepare_op_transaction_isSome_iff pg t op nv crev rev hne]
    simp [hm]
  · intro pg1 t1 op1 h
    exact prepare_op_transaction_tx pg pg1 t t1 op op1 nv crev rev hne h

/-- C13 at the sample write, stamped (5, 2) over a stored `crev` of 3: the transaction gains
the PG info, one `write`, `collection_add` and the version attribute. -/
theorem prepare_op_transaction_mutation_witness :
    prepare_op_transaction sample_pg [] sample_op { epoch := 5, version := 2 } 3 0 =
      some (sample_pg_written, sample_tx_written, { sample_op with data := [] }) ∧
    ∃ m, spec_mutation sample_op = some m ∧
      sample_tx_written =
        [] ++ [tx_op.collection_setattr sample_op.pg "info" (attr_val.info sample_pg_written.info)] ++
          (if will_clone 3 0 then [tx_op.clone sample_op.oid { sample_op.oid with rev := 0 }]
           else []) ++
          [m, (if sample_op.op = OSD_OP_DELETE then tx_op.collection_remove sample_op.pg sample_op.oid
               else tx_op.collection_add sample_op.pg sample_op.oid)] ++
          (if sample_op.op = OSD_OP_DELETE then []
           else spec_attrs sample_op { epoch := 5, version := 2 } 3 0) :=
  ⟨by decide,
   (prepare_op_transaction_mutation sample_pg [] sample_op { epoch := 5, version := 2 } 3 0
      (Or.inr (Or.inr (Or.inl (by decide))))).2 sample_pg_written sample_tx_written
      { sample_op with data := [] } (by decide)⟩

/-- C12, as stated, fails. The sample write at revision 5 over a stored `crev` of 3 implies a
clone; the two builders return, and in the transaction they built the log append comes first
and the PG info second; the clone is third, after both. -/
theorem prepare_transaction_order_counterexample :
    sample_op_rev5.op ≠ OSD_OP_WRNOOP ∧ (0 < 3 ∧ 3 < sample_op_rev5.rev) ∧
    prepare_transaction sample_pg [] sample_op_rev5 { epoch := 5, version := 3 } 3 5
        eversion_t.zero =
      some (sample_pg_cloned_written, sample_tx_cloned, { sample_op_rev5 with data := [] }) ∧
    sample_tx_cloned.indexOf (tx_op.append_log sample_modify_entry eversion_t.zero) = 0 ∧
    sample_tx_cloned.indexOf (tx_op.clone { ino := 10, rev := 0 } { ino := 10, rev := 5 }) = 2 ∧
    ¬ List.Sublist
        [tx_op.clone { ino := 10, rev := 0 } { ino := 10, rev := 5 },
         tx_op.append_log sample_modify_entry eversion_t.zero]
        sample_tx_cloned := by
  refine ⟨by decide, by decide, by decide, by decide, by decide, by decide⟩

/-- C12, amended. For every op that is not a WRNOOP and for which a clone is implied
(`0 < crev < rev`), `prepare_log_transaction` followed by `prepare_op_transaction` returns
exactly when the version counter is not 0, the version is above `last_update`, the opcode is
one of the five mutating ones and a WRITE carries as many bytes as its length says; the
transaction then holds, after what it held before, in this order: the persistent log append
of the op's entry, `collection_setattr(pgid, "info", info)`, the `clone(oid, oid@rev)`, the
mutation itself, the collection membership operation, and, unless the op is a DELETE, the
attribute writes `version` and `crev`. -/
theorem prepare_transaction_order (pg : ReplicatedPG) (t : Transaction) (op : MOSDOp)
    (nv : eversion_t) (crev rev : Nat) (trim_to : eversion_t)
    (hne : op.op ≠ OSD_OP_WRNOOP) (hclone : 0 < crev ∧ crev < rev) :
    ((prepare_transaction pg t op nv crev rev trim_to).isSome = true ↔
      0 < nv.version ∧ pg.info.last_update < nv ∧ (spec_mutation op).isSome = true ∧
      (op.op = OSD_OP_WRITE → op.data.length = op.length)) ∧
    ∀ pg1 t1 op1, prepare_transaction pg t op nv crev rev trim_to = some (pg1, t1, op1) →
      ∃ m, spec_mutation op = some m ∧
        t1 = t ++
          [tx_op.append_log (op_log_entry op nv) trim_to,
           tx_op.collection_setattr op.pg "info" (attr_val.info pg1.info),
           tx_op.clone op.oid { op.oid with rev := rev },
           m,
           spec_membership op] ++
          (if op.op = OSD_OP_DELETE then []
           else [tx_op.setattr op.oid "version" (attr_val.version nv),
                 tx_op.setattr op.oid "crev" (attr_val.crev rev)]) := by
  have hc : will_clone crev rev = true := (will_clone_iff crev rev).2 hclone
  have hdec : nv.dec < nv ↔ 0 < nv.version := by
    rw [eversion_t.lt_iff]; simp [eversion_t.dec]
  constructor
  · unfold prepare_transaction
    cases hl : prepare_log_transaction pg t op nv crev rev trim_to with
    | none =>
      have hns : ¬ (nv.dec < nv) := by
        intro hh
        have := prepare_log_transaction_isSome pg t op nv crev rev trim_to (by simp only [hc, if_true]; exact hh)
        rw [hl] at this
        simp at this
      have : ¬ 0 < nv.version := fun hh => hns (hdec.2 hh)
      simp [this]
    | some r =>
      obtain ⟨pg1, t1⟩ := r
      have h1 := (prepare_log_transaction_some pg pg1 t t1 op nv crev rev trim_to hl).2
      simp only [hc, if_true] at h1
      have h2 := (prepare_log_transaction_tx pg pg1 t t1 op nv crev rev trim_to hl).2
      simp only
      rw [prepare_op_transaction_isSome_iff pg1 t1 op nv crev rev hne, h2]
      simp [hdec.1 h1]
  · intro pg2 t2 op2 h
    unfold prepare_transaction at h
    cases hl : prepare_log_transaction pg t op nv crev rev trim_to with
    | none => rw [hl] at h; simp at h
    | some r =>
      obtain ⟨pg1, t1⟩ := r
      rw [hl] at h
      simp only at h
      obtain ⟨m, hm, ht⟩ := prepare_op_transaction_tx pg1 pg2 t1 t2 op op2 nv crev rev hne h
      have h2 := (prepare_log_transaction_tx pg pg1 t t1 op nv crev rev trim_to hl).1
      refine ⟨m, hm, ?_⟩
      rw [ht, h2]
      unfold spec_attrs
      simp only [hc, if_true, or_true]
      split_ifs <;> simp

/-- C12, amended, at the revision-clone scenario: log append, PG info, clone, write,
`collection_add`, then the attributes `version` and `crev`. -/
theorem prepare_transaction_order_witness :
    sample_op_rev5.op ≠ OSD_OP_WRNOOP ∧ (0 < 3 ∧ 3 < 5) ∧
    ∃ m, spec_mutation sample_op_rev5 = some m ∧
      sample_tx_cloned = [] ++
        [tx_op.append_log (op_log_entry sample_op_rev5 { epoch := 5, version := 3 }) eversion_t.zero,
         tx_op.collection_setattr sample_op_rev5.pg "info"
           (attr_val.info sample_pg_cloned_written.info),
         tx_op.clone sample_op_rev5.oid { sample_op_rev5.oid with rev := 5 },
         m,
         spec_membership sample_op_rev5] ++
        (if sample_op_rev5.op = OSD_OP_DELETE then []
         else [tx_op.setattr sample_op_rev5.oid "version" (attr_val.version { epoch := 5, version := 3 }),
               tx_op.setattr sample_op_rev5.oid "crev" (attr_val.crev 5)]) :=
  ⟨by decide, by decide,
   (prepare_transaction_order sample_pg [] sample_op_rev5 { epoch := 5, version := 3 } 3 5
      eversion_t.zero (by decide) (by decide)).2 sample_pg_cloned_written sample_tx_cloned
      { sample_op_rev5 with data := [] } (by decide)⟩

/-- C14, as stated, fails for a DELETE. The sample delete at revision 5 over a stored `crev`
of 3 is not a WRNOOP and a clone is performed for it, yet the transaction
`prepare_op_transaction` returns holds neither `setattr(oid, "version", nv)` nor
`setattr(oid, "crev", rev)`. -/
theorem prepare_op_transaction_attrs_counterexample :
    sample_delete_rev5.op ≠ OSD_OP_WRNOOP ∧ will_clone 3 sample_delete_rev5.rev = true ∧
    prepare_op_transaction sample_pg [] sample_delete_rev5 { epoch := 5, version := 2 } 3 5 =
      some (sample_pg_written, sample_tx_deleted, sample_delete_rev5) ∧
    tx_op.setattr sample_delete_rev5.oid "version" (attr_val.version { epoch := 5, version := 2 }) ∉
      sample_tx_deleted ∧
    tx_op.setattr sample_delete_rev5.oid "crev" (attr_val.crev 5) ∉ sample_tx_deleted := by
  refine ⟨by decide, by decide, by decide, by decide, by decide⟩

/-- C14, amended. For every op with version `nv` that is neither a WRNOOP nor a DELETE,
`prepare_op_transaction` returns exactly when `nv` is above `last_update`, the opcode is a
mutating one and a WRITE carries as many bytes as its length says; what it then added to the
transaction contains `setattr(oid, "version", nv)`, and contains `setattr(oid, "crev", rev)`
if and only if the stored `crev` is 0 or a clone was performed (`0 < crev < rev`). For a
DELETE it adds no `setattr` at all. -/
theorem prepare_op_transaction_attrs (pg : ReplicatedPG) (t : Transaction) (op : MOSDOp)
    (nv : eversion_t) (crev rev : Nat) (hne : op.op ≠ OSD_OP_WRNOOP) :
    ((prepare_op_transaction pg t op nv crev rev).isSome = true ↔
      pg.info.last_update < nv ∧ (spec_mutation op).isSome = true ∧
      (op.op = OSD_OP_WRITE → op.data.length = op.length)) ∧
    ∀ pg1 t1 op1, prepare_op_transaction pg t op nv crev rev = some (pg1, t1, op1) →
      ∃ added, t1 = t ++ added ∧
        (op.op ≠ OSD_OP_DELETE →
          tx_op.setattr op.oid "version" (attr_val.version nv) ∈ added ∧
          (tx_op.setattr op.oid "crev" (attr_val.crev rev) ∈ added ↔
            crev = 0 ∨ (0 < crev ∧ crev < rev))) ∧
        (op.op = OSD_OP_DELETE → ∀ o name val, tx_op.setattr o name val ∉ added) := by
  refine ⟨prepare_op_transaction_isSome_iff pg t op nv crev rev hne, ?_⟩
  intro pg1 t1 op1 h
  obtain ⟨m, hm, ht⟩ := prepare_op_transaction_tx pg pg1 t t1 op op1 nv crev rev hne h
  have hw := will_clone_iff crev rev
  refine ⟨[tx_op.collection_setattr op.pg "info" (attr_val.info pg1.info)] ++
        (if will_clone crev rev then [tx_op.clone op.oid { op.oid with rev := rev }] else []) ++
        [m, spec_membership op] ++
        (if op.op = OSD_OP_DELETE then [] else spec_attrs op nv crev rev), ?_, ?_, ?_⟩
  · rw [ht]; simp
  · intro hd
    have hmne : m ≠ tx_op.setattr op.oid "crev" (attr_val.crev rev) := by
      intro he
      rw [he] at hm
      unfold spec_mutation at hm
      split at hm <;> simp at hm
    have hmne2 : tx_op.setattr op.oid "crev" (attr_val.crev rev) ≠ m := fun he => hmne he.symm
    constructor
    · simp [hd, spec_attrs]
    · rw [← hw]
      unfold spec_attrs spec_membership
      by_cases hc : will_clone crev rev = true
      · simp [hd, hc]
      · by_cases h0 : crev = 0
        · simp [hd, h0]
        · simp [hd, hc, h0, hmne2]
  · intro hd o name val
    have hmd : m = tx_op.remove op.oid := by
      unfold spec_mutation at hm
      rw [hd] at hm
      simpa using hm.symm
    unfold spec_membership
    by_cases hc : will_clone crev rev = true <;> simp [hd, hc, hmd]

/-- C14, amended, at the sample write at revision 5 over a stored `crev` of 3 (a clone is
performed): the transaction contains both attribute writes. -/
theorem prepare_op_transaction_attrs_witness :
    sample_op_rev5.op ≠ OSD_OP_WRNOOP ∧
    prepare_op_transaction sample_pg_cloned [tx_op.append_log sample_modify_entry eversion_t.zero]
        sample_op_rev5 { epoch := 5, version := 3 } 3 5 =
      some (sample_pg_cloned_written, sample_tx_cloned, { sample_op_rev5 with data := [] }) ∧
    ∃ added, sample_tx_cloned = [tx_op.append_log sample_modify_entry eversion_t.zero] ++ added ∧
      (sample_op_rev5.op ≠ OSD_OP_DELETE →
        tx_op.setattr sample_op_rev5.oid "version" (attr_val.version { epoch := 5, version := 3 }) ∈
          added ∧
        (tx_op.setattr sample_op_rev5.oid "crev" (attr_val.crev 5) ∈ added ↔
          3 = 0 ∨ (0 < 3 ∧ 3 < 5))) ∧
      (sample_op_rev5.op = OSD_OP_DELETE → ∀ o name val, tx_op.setattr o name val ∉ added) :=
  ⟨by decide, by decide,
   (prepare_op_transaction_attrs sample_pg_cloned
      [tx_op.append_log sample_modify_entry eversion_t.zero] sample_op_rev5
      { epoch := 5, version := 3 } 3 5 (by decide)).2 sample_pg_cloned_written sample_tx_cloned
      { sample_op_rev5 with data := [] } (by decide)⟩

/-! ## A write on a PG with a single peer -/

/-- C16. Single-peer write. Take a PG whose acting set is its own node alone, with an empty
log (`log.top = last_update = last_complete = (0, 0)`), no stored `crev` for the object, at
map epoch 5, and a client WRITE of 1024 bytes at revision 0 that carries no replay version
and wants ack and commit. Then `op_modify` returns, having sent the client an ack with
result 0 and left the gather in `rep_gather`; the commit callback the store holds then
returns, and afterwards `log.top = (5, 1)`, `last_update = last_complete = (5, 1)`, the one
transaction applied to the store appends the log entry, writes the PG info, writes the 1024
bytes, adds the object to the collection and sets `version = (5, 1)` and `crev = 0`, the
client has been sent the ack followed by a commit with result 0, and the gather is gone from
`rep_gather`. -/
theorem single_peer_write (acker : Int) (pg : ReplicatedPG) (op : MOSDOp)
    (hacting : pg.acting = [pg.whoami])
    (hlog : pg.log.log = []) (htop : pg.log.top = eversion_t.zero)
    (hlu : pg.info.last_update = eversion_t.zero) (hlc : pg.info.last_complete = eversion_t.zero)
    (hcrev : pg.store.getattr_crev op.oid = 0) (hepoch : pg.epoch = 5)
    (hop : op.op = OSD_OP_WRITE) (hlen : op.length = 1024) (hdata : op.data.length = 1024)
    (hrev : op.rev = 0) (hfresh : op.version.version = 0)
    (hack : op.wants_ack = true) (hcommit : op.wants_commit = true) :
    ∃ pg1 pg2, op_modify acker pg op = some (pg1, none) ∧
      pg1.sent = pg.sent ++ [client_reply pg op false] ∧
      (map_find pg1.rep_gather (pg.last_tid + 1)).isSome = true ∧
      write_commit_finish pg1 { rep_tid := pg.last_tid + 1, pg_last_complete := eversion_t.zero } =
        some pg2 ∧
      pg2.log.top = { epoch := 5, version := 1 } ∧
      pg2.info.last_update = { epoch := 5, version := 1 } ∧
      pg2.info.last_complete = { epoch := 5, version := 1 } ∧
      pg2.store.applied =
        pg.store.applied ++ [first_write_tx pg op { epoch := 5, version := 1 }] ∧
      op.length = 1024 ∧
      pg2.sent = pg.sent ++ [client_reply pg op false, client_reply pg op true] ∧
      (client_reply pg op false).1 =
        Message.reply { reqid := op.reqid, rep_tid := pg.last_tid + 1, result := 0, epoch := 5,
                        commit := false, pg_complete_thru := eversion_t.zero,
                        source := pg.whoami } ∧
      map_find pg2.rep_gather (pg.last_tid + 1) = none := by
  have hdup : pg.log.is_dup op.reqid = false := by simp [Log.is_dup, hlog]
  have h1 : ({ epoch := 0, version := 0 } : eversion_t) < { epoch := 5, version := 1 } := by
    decide
  have hav : assign_version pg op =
      some ({ op with version := { epoch := 5, version := 1 } }, eversion_t.zero) := by
    unfold assign_version
    simp [hop, htop, hlu, hcrev, hrev, hepoch, hfresh, will_clone, eversion_t.zero, h1]
  have hz : ∀ x : eversion_t, ¬ (x < { epoch := 0, version := 0 }) := by
    intro x; rw [eversion_t.lt_iff]; simp
  have hms : ∀ (w : Int) (v : eversion_t), map_set ([] : List (Int × eversion_t)) w v ≠ [] := by
    intro w v; simp [map_set]
  unfold op_modify
  simp only [hdup, Bool.false_eq_true, if_false, hav, hacting, List.tail_cons, push_before_update,
    List.length_singleton, decide_True, and_false, Bool.true_eq_false, if_false]
  simp only [if_true, hcrev]
  by_cases hw : map_count pg.waiting_for_repop (pg.last_tid + 1) = true <;>
  by_cases hm : pg.osd_rep = OSD_REP_CHAIN <;>
  (simp [new_rep_gather, new_rep_gather_sets, RepGather.new, hw, hm, add_commit_osd, add_ack_osd,
    add_chain_osd, set_insert, calc_pg_rank, ReplicatedPG.take_waiters, hacting,
    op_modify_acker, hop, prepare_log_transaction, will_clone, hrev, htop, Log.add,
    prepare_op_transaction, hlc, hlu, apply_the_op, hdata, hlen, local_ack, set_erase,
    put_rep_gather, put_rep_gather_reply, RepGather.can_send_commit, RepGather.can_send_ack,
    hack, hcommit, apply_repop, ObjectStore.apply_transaction, ReplicatedPG.send_message,
    put_rep_gather_done, RepGather.can_delete, eversion_t.zero, h1, client_reply,
    MOSDOpReply.mk_reply, map_find_set_same, first_write_tx, hepoch]
   simp [write_commit_finish, op_modify_commit, map_find_set_same, map_find_erase_same,
    min_pg_complete_thru, map_get, map_count, put_rep_gather, put_rep_gather_reply,
    RepGather.can_send_commit, RepGather.can_send_ack, set_erase, ReplicatedPG.send_message,
    put_rep_gather_done, RepGather.can_delete, hz, hms, h1, MOSDOpReply.mk_reply, hepoch,
    eversion_t.zero])

/-- C16 at a PG alone on osd 0 and a write of 1024 zero bytes to object 10. -/
theorem single_peer_write_witness :
    ∃ pg1 pg2, op_modify 0 single_peer_pg write_1024 = some (pg1, none) ∧
      pg1.sent = single_peer_pg.sent ++ [client_reply single_peer_pg write_1024 false] ∧
      (map_find pg1.rep_gather (single_peer_pg.last_tid + 1)).isSome = true ∧
      write_commit_finish pg1
          { rep_tid := single_peer_pg.last_tid + 1, pg_last_complete := eversion_t.zero } =
        some pg2 ∧
      pg2.log.top = { epoch := 5, version := 1 } ∧
      pg2.info.last_update = { epoch := 5, version := 1 } ∧
      pg2.info.last_complete = { epoch := 5, version := 1 } ∧
      pg2.store.applied =
        single_peer_pg.store.applied ++
          [first_write_tx single_peer_pg write_1024 { epoch := 5, version := 1 }] ∧
      write_1024.length = 1024 ∧
      pg2.sent = single_peer_pg.sent ++
        [client_reply single_peer_pg write_1024 false, client_reply single_peer_pg write_1024 true] ∧
      (client_reply single_peer_pg write_1024 false).1 =
        Message.reply { reqid := write_1024.reqid, rep_tid := single_peer_pg.last_tid + 1,
                        result := 0, epoch := 5, commit := false,
                        pg_complete_thru := eversion_t.zero, source := single_peer_pg.whoami } ∧
      map_find pg2.rep_gather (single_peer_pg.last_tid + 1) = none :=
  single_peer_write 0 single_peer_pg write_1024 (by decide) (by decide) (by decide) (by decide)
    (by decide) (by decide) (by decide) (by decide) (by decide) (List.length_replicate 1024 0)
    (by decide) (by decide) (by decide) (by decide)

/-! ## Duplicate requests -/

/-- C15. A duplicate on the primary of a chain or splay PG with two peers. The reqid (7, 0)
is in the log, so `op_modify` coerces the op to WRNOOP and stamps it with `log.top = (5, 1)`.
In primary-fanout mode the builders are skipped: the log, `info` and the store are as before
and the gather holds the WRNOOP with an empty transaction. In chain and in splay mode
`op_modify` calls `prepare_log_transaction` all the same: the assertion `version > log.top`
fails; and when the op implies a clone (revision 5 over a stored `crev` of 3) the call
returns, the log has gained a CLONE entry at (5, 0) and a second MODIFY entry at (5, 1), and
a log append has been applied to the store. -/
theorem op_modify_dup_chain_splay :
    sample_pg.log.is_dup dup_op.reqid = true ∧
    (op_modify 0 sample_pg dup_op).map (fun r => (r.1.log, r.1.info, r.1.store.applied)) =
      some (sample_pg.log, sample_pg.info, []) ∧
    (op_modify 0 sample_pg dup_op).map
        (fun r => r.1.rep_gather.map (fun g => (g.1, g.2.op.op, g.2.op.version, g.2.t))) =
      some [(1, OSD_OP_WRNOOP, { epoch := 5, version := 1 }, [])] ∧
    op_modify 1 chain_primary_pg dup_op = none ∧
    op_modify 1 splay_primary_pg dup_op = none ∧
    (op_modify 1 chain_primary_pg dup_op_rev5).map (fun r => (r.1.log.log, r.1.log.top)) =
      some (sample_pg.log.log ++ dup_entries, { epoch := 5, version := 1 }) ∧
    (op_modify 1 chain_primary_pg dup_op_rev5).map (fun r => (r.1.info, r.1.store.applied)) =
      some (sample_pg.info,
            [[tx_op.append_log
                { op := entry_op_t.MODIFY, oid := { ino := 10, rev := 0 },
                  version := { epoch := 5, version := 1 }, reqid := { client := 7, tid := 0 } }
                eversion_t.zero]]) ∧
    (op_modify 1 chain_primary_pg dup_op_rev5).map (fun r => r.1.rep_gather) = some [] ∧
    (op_modify 1 splay_primary_pg dup_op_rev5).map (fun r => r.1.log.log) =
      some (sample_pg.log.log ++ dup_entries) := by
  refine ⟨by decide, by decide, by decide, by decide, by decide, by decide, by decide, by decide,
    by decide⟩

/-! ## Recovery: pushes -/

/-- After `got` the object is not listed as missing. -/
theorem got_not_missing (m : Missing) (oid : object_t) : (m.got oid).is_missing oid = false := by
  simp [Missing.got, Missing.is_missing, map_count, map_find_erase_same]

/-- After `got` of one object the others are listed as before. -/
theorem got_other_missing (m : Missing) (oid o : object_t) (h : o ≠ oid) :
    (m.got oid).is_missing o = m.is_missing o := by
  simp [Missing.got, Missing.is_missing, map_count, map_find_erase_ne _ _ _ h]

/-- The method `push` returns when the store reports success on the read; it then has sent
one PUSH of the object to `dest` and changed nothing but the store, `last_tid` and the
messages sent. -/
theorem push_some (pg pg1 : ReplicatedPG) (oid : object_t) (dest : Int)
    (h : push pg oid dest = some pg1) :
    ∃ m, m.op = OSD_OP_PUSH ∧ m.oid = oid ∧
      pg1 = { pg with store := pg1.store, last_tid := pg1.last_tid,
                      sent := pg.sent ++ [(Message.op m, Dest.osd dest)] } ∧
      pg1.store.results = pg.store.results.tail := by
  unfold push at h
  simp only at h
  split at h
  · simp only [Option.some.injEq] at h
    subst h
    exact ⟨_, rfl, rfl, rfl, rfl⟩
  · simp at h

/-- The method `push` returns when the store reports success on the read. -/
theorem push_isSome (pg : ReplicatedPG) (oid : object_t) (dest : Int)
    (h : ∀ r ∈ pg.store.results, r = 0) : (push pg oid dest).isSome = true := by
  have h0 : pg.store.results.headD 0 = 0 := by
    cases hr : pg.store.results with
    | nil => rfl
    | cons a l => rw [hr] at h; exact h a (List.mem_cons_self _ _)
  unfold push
  simp only [ObjectStore.apply_transaction, h0]
  simp

/-- What the push loop of `op_push` does: it changes nothing but the store, `last_tid`,
the messages sent and `peer_missing`; it sends PUSH messages of the object only, to peers of
the list only; a peer that does not list the object keeps not listing it; and every
peer of the list that listed the object no longer lists it and has been sent a PUSH. -/
theorem push_to_peers_spec (oid : object_t) (peers : List Int) (pg pg1 : ReplicatedPG)
    (h : push_to_peers oid peers pg = some pg1) :
    ∃ more : List (Message × Dest),
      pg1 = { pg with store := pg1.store, last_tid := pg1.last_tid, sent := pg.sent ++ more,
                      peer_missing := pg1.peer_missing } ∧
      (∀ x ∈ more, ∃ m d, x = (Message.op m, Dest.osd d) ∧ m.op = OSD_OP_PUSH ∧ m.oid = oid ∧
        d ∈ peers) ∧
      (∀ p pm, map_find pg.peer_missing p = some pm → pm.is_missing oid = false →
        ∃ pm1, map_find pg1.peer_missing p = some pm1 ∧ pm1.is_missing oid = false) ∧
      (∀ p ∈ peers, ∀ pm, map_find pg.peer_missing p = some pm → pm.is_missing oid = true →
        (∃ pm1, map_find pg1.peer_missing p = some pm1 ∧ pm1.is_missing oid = false) ∧
        ∃ m, (Message.op m, Dest.osd p) ∈ more ∧ m.op = OSD_OP_PUSH ∧ m.oid = oid) := by
  induction peers generalizing pg with
  | nil =>
    simp only [push_to_peers, Option.some.injEq] at h
    subst h
    refine ⟨[], by simp, by simp, ?_, by simp⟩
    intro p pm h1 h2
    exact ⟨pm, h1, h2⟩
  | cons peer rest ih =>
    unfold push_to_peers at h
    split at h
    · simp at h
    · rename_i pm0 hpm0
      by_cases hmiss : pm0.is_missing oid = true
      · rw [if_pos hmiss] at h
        split at h
        · simp at h
        · rename_i pg2 hp
          obtain ⟨m, hm1, hm2, hpg2, -⟩ := push_some _ _ _ _ hp
          obtain ⟨more, hfr, hmore, hkeep, hdone⟩ := ih pg2 h
          have hpm2 : pg2.peer_missing = map_set pg.peer_missing peer (pm0.got oid) := by
            rw [hpg2]
          have hsent2 : pg2.sent = pg.sent ++ [(Message.op m, Dest.osd peer)] := by
            rw [hpg2]
          have hhead : ∃ pm1, map_find pg1.peer_missing peer = some pm1 ∧
              pm1.is_missing oid = false :=
            hkeep peer (pm0.got oid) (by rw [hpm2]; exact map_find_set_same _ _ _)
              (got_not_missing _ _)
          refine ⟨(Message.op m, Dest.osd peer) :: more, ?_, ?_, ?_, ?_⟩
          · rw [hfr, hpg2]
            simp
          · intro x hx
            rcases List.mem_cons.1 hx with hx | hx
            · exact ⟨m, peer, hx, hm1, hm2, List.mem_cons_self _ _⟩
            · obtain ⟨m', d, h1, h2, h3, h4⟩ := hmore x hx
              exact ⟨m', d, h1, h2, h3, List.mem_cons_of_mem _ h4⟩
          · intro p pm h1 h2
            by_cases hp : p = peer
            · subst hp
              exact hhead
            · exact hkeep p pm (by rw [hpm2, map_find_set_ne _ _ _ _ hp]; exact h1) h2
          · intro p hp pm h1 h2
            by_cases hpe : p = peer
            · subst hpe
              exact ⟨hhead, m, List.mem_cons_self _ _, hm1, hm2⟩
            · have hin : p ∈ rest := by
                rcases List.mem_cons.1 hp with hh | hh
                · exact absurd hh hpe
                · exact hh
              obtain ⟨ha, m', hb, hc, hd⟩ :=
                hdone p hin pm (by rw [hpm2, map_find_set_ne _ _ _ _ hpe]; exact h1) h2
              exact ⟨ha, m', List.mem_cons_of_mem _ hb, hc, hd⟩
      · rw [if_neg hmiss] at h
        have hmf : pm0.is_missing oid = false := by simpa using hmiss
        obtain ⟨more, hfr, hmore, hkeep, hdone⟩ := ih pg h
        refine ⟨more, hfr, ?_, hkeep, ?_⟩
        · intro x hx
          obtain ⟨m', d, h1, h2, h3, h4⟩ := hmore x hx
          exact ⟨m', d, h1, h2, h3, List.mem_cons_of_mem _ h4⟩
        · intro p hp pm h1 h2
          by_cases hpe : p = peer
          · subst hpe
            rw [hpm0] at h1
            simp only [Option.some.injEq] at h1
            subst h1
            rw [hmf] at h2
            simp at h2
          · have hin : p ∈ rest := by
              rcases List.mem_cons.1 hp with hh | hh
              · exact absurd hh hpe
              · exact hh
            exact hdone p hin pm h1 h2

/-- The method `op_push` for a missing object, up to `do_recovery`, in terms of the state
after its local part: it returns when the data is as long as the op says, `log.complete_to`
is not at the end of the log and the store reports success; the primary then runs the push
loop. -/
theorem op_push_body_eq (pg : ReplicatedPG) (op : MOSDOp) :
    op_push_body pg op =
      if op.data.length = op.length ∧ pg.log.complete_to ≠ pg.log.log.length ∧
          pg.store.results.headD 0 = 0 then
        (if (op_push_local pg op).is_primary then
          push_to_peers op.oid pg.acting.tail (op_push_local pg op)
         else some (op_push_local pg op))
      else none := by
  unfold op_push_body
  by_cases h1 : op.data.length = op.length
  · by_cases h2 : pg.log.complete_to ≠ pg.log.log.length
    · by_cases h3 : pg.store.results.headD 0 = 0
      · simp only [h1, h2, h3, if_true, and_self, ne_eq, not_false_eq_true,
          ObjectStore.apply_transaction]
        rfl
      · simp only [h1, h2, h3, if_true, if_false, and_false, and_true, ne_eq, not_false_eq_true,
          ObjectStore.apply_transaction]
    · simp only [h1, h2, if_true, if_false, and_false, false_and]
  · simp only [h1, if_false, false_and]

/-- The push loop returns when every peer of the list has an entry in `peer_missing` and the
store reports success on every read. -/
theorem push_to_peers_isSome (oid : object_t) (peers : List Int) (pg : ReplicatedPG)
    (hpm : ∀ p ∈ peers, map_count pg.peer_missing p = true)
    (hst : ∀ r ∈ pg.store.results, r = 0) :
    (push_to_peers oid peers pg).isSome = true := by
  induction peers generalizing pg with
  | nil => rfl
  | cons peer rest ih =>
    unfold push_to_peers
    have hc := hpm peer (List.mem_cons_self _ _)
    unfold map_count at hc
    cases hf : map_find pg.peer_missing peer with
    | none => rw [hf] at hc; simp at hc
    | some pm0 =>
      simp only
      have hrest : ∀ p ∈ rest, map_count pg.peer_missing p = true :=
        fun p hp => hpm p (List.mem_cons_of_mem _ hp)
      by_cases hmiss : pm0.is_missing oid = true
      · rw [if_pos hmiss]
        have hps := push_isSome { pg with peer_missing := map_set pg.peer_missing peer (pm0.got oid) }
          oid peer hst
        cases hp : push { pg with peer_missing := map_set pg.peer_missing peer (pm0.got oid) }
            oid peer with
        | none => rw [hp] at hps; simp at hps
        | some pg2 =>
          simp only
          obtain ⟨m, -, -, hpg2, hres⟩ := push_some _ _ _ _ hp
          apply ih pg2
          · intro p hp'
            have hpm2 : pg2.peer_missing = map_set pg.peer_missing peer (pm0.got oid) := by
              rw [hpg2]
            rw [hpm2]
            unfold map_count
            by_cases hpe : p = peer
            · subst hpe
              rw [map_find_set_same]; rfl
            · rw [map_find_set_ne _ _ _ _ hpe]
              exact hrest p hp'
          · intro r hr
            rw [hres] at hr
            exact hst r (List.mem_of_mem_tail hr)
      · rw [if_neg hmiss]
        exact ih pg hrest hst

/-- After `if (m.count(k)) m.erase(k)` the key is absent. -/
theorem map_count_erase_if_present {κ ν : Type} [DecidableEq κ] (m : List (κ × ν)) (k : κ) :
    map_count (map_erase_if_present m k) k = false := by
  unfold map_erase_if_present
  by_cases h : map_count m k = true
  · rw [if_pos h]
    simp [map_count, map_find_erase_same]
  · rw [if_neg h]
    simpa using h

/-- The last step of `op_push`, kicking the waiters, in terms of the state `do_recovery`
returned: only the finished queue and the waiting list change. -/
theorem op_push_eq (do_recovery : ReplicatedPG → Option ReplicatedPG) (pg pg1 : ReplicatedPG)
    (op : MOSDOp) (hm : is_missing_object pg op.oid = true)
    (h : op_push do_recovery pg op = some pg1) :
    ∃ pga pgb, op_push_body pg op = some pga ∧ do_recovery pga = some pgb ∧
      pg1 = { pgb with finished := pg1.finished,
                       waiting_for_missing_object := pg1.waiting_for_missing_object } := by
  unfold op_push at h
  simp only [hm, Bool.not_true, Bool.false_eq_true, if_false] at h
  cases hb : op_push_body pg op with
  | none => rw [hb] at h; simp at h
  | some pga =>
    rw [hb] at h
    simp only at h
    cases hr : do_recovery pga with
    | none => rw [hr] at h; simp at h
    | some pgb =>
      rw [hr] at h
      simp only at h
      refine ⟨pga, pgb, rfl, hr, ?_⟩
      split at h <;>
        (simp only [Option.some.injEq] at h
         subst h
         rfl)

/-- The method `op_push` returns for a missing object when the data is as long as the op says,
`log.complete_to` is not at the end of the log, the store reports success, every other acting
peer has an entry in `peer_missing`, and `do_recovery` returns. -/
theorem op_push_isSome (do_recovery : ReplicatedPG → Option ReplicatedPG) (pg : ReplicatedPG)
    (op : MOSDOp) (hm : is_missing_object pg op.oid = true) (hlen : op.data.length = op.length)
    (hct : pg.log.complete_to ≠ pg.log.log.length) (hst : ∀ r ∈ pg.store.results, r = 0)
    (hpm : ∀ p ∈ pg.acting.tail, map_count pg.peer_missing p = true)
    (hret : ∀ p, (do_recovery p).isSome = true) :
    (op_push do_recovery pg op).isSome = true := by
  have hbody : (op_push_body pg op).isSome = true := by
    rw [op_push_body_eq]
    have h0 : pg.store.results.headD 0 = 0 := by
      cases hr : pg.store.results with
      | nil => rfl
      | cons a l => rw [hr] at hst; exact hst a (List.mem_cons_self _ _)
    rw [if_pos ⟨hlen, hct, h0⟩]
    split
    · apply push_to_peers_isSome
      · exact hpm
      · intro r hr
        exact hst r (List.mem_of_mem_tail hr)
    · rfl
  unfold op_push
  simp only [hm, Bool.not_true, Bool.false_eq_true, if_false]
  cases hb : op_push_body pg op with
  | none => rw [hb] at hbody; simp at hbody
  | some pga =>
    simp only
    have := hret pga
    cases hr : do_recovery pga with
    | none => rw [hr] at this; simp at this
    | some pgb =>
      simp only
      split <;> rfl

/-- C17. `op_push` changes the PG only for a missing object. If the object is not in
`missing`, `op_push` returns the PG as it was (with `missing`, `objects_pulling`,
`num_pulling`, `info` and the store). If it is, then whenever `op_push` returns the object
is neither in `missing` nor in `objects_pulling`, and on the primary every other acting peer
whose `peer_missing` listed the object no longer lists it and has been sent a PUSH of it.
`op_push` returns when the data is as long as the op says, `log.complete_to` is not at the
end of the log, the store reports success, the primary knows the missing set of every other
acting peer, and `do_recovery` returns. `do_recovery` is declared outside this translation
unit; it is taken to leave `missing` and `peer_missing` alone and to pull missing objects
only. -/
theorem op_push_only_missing (do_recovery : ReplicatedPG → Option ReplicatedPG)
    (pg : ReplicatedPG) (op : MOSDOp) (hrec : recovery_pulls_missing do_recovery) :
    (is_missing_object pg op.oid = false → op_push do_recovery pg op = some pg) ∧
    (is_missing_object pg op.oid = true → ∀ pg1, op_push do_recovery pg op = some pg1 →
      is_missing_object pg1 op.oid = false ∧ map_count pg1.objects_pulling op.oid = false ∧
      (pg.is_primary = true → ∀ peer ∈ pg.acting.tail, ∀ pm,
        map_find pg.peer_missing peer = some pm → pm.is_missing op.oid = true →
        (∃ pm1, map_find pg1.peer_missing peer = some pm1 ∧ pm1.is_missing op.oid = false) ∧
        ∃ more m, pg1.sent = pg.sent ++ more ∧ (Message.op m, Dest.osd peer) ∈ more ∧
          m.op = OSD_OP_PUSH ∧ m.oid = op.oid)) ∧
    (is_missing_object pg op.oid = true → op.data.length = op.length →
      pg.log.complete_to ≠ pg.log.log.length → (∀ r ∈ pg.store.results, r = 0) →
      (∀ p ∈ pg.acting.tail, map_count pg.peer_missing p = true) →
      (∀ p, (do_recovery p).isSome = true) → (op_push do_recovery pg op).isSome = true) := by
  refine ⟨?_, ?_, ?_⟩
  · intro hm
    unfold op_push
    simp [hm]
  · intro hm pg1 h
    obtain ⟨pga, pgb, hbody, hr, hpg1⟩ := op_push_eq do_recovery pg pg1 op hm h
    obtain ⟨hrm, hrp, ⟨more2, hrs⟩, hrpull⟩ := hrec pga pgb hr
    have hlm : (op_push_local pg op).missing = pg.missing.got op.oid := rfl
    have hlo : (op_push_local pg op).objects_pulling =
        map_erase_if_present pg.objects_pulling op.oid := rfl
    have hlp : (op_push_local pg op).peer_missing = pg.peer_missing := rfl
    have hls : (op_push_local pg op).sent = pg.sent := rfl
    have hlprim : (op_push_local pg op).is_primary = pg.is_primary := rfl
    rw [op_push_body_eq] at hbody
    split at hbody
    · -- the fields of the state before `do_recovery`
      have hmid : pga.missing = pg.missing.got op.oid ∧
          pga.objects_pulling = map_erase_if_present pg.objects_pulling op.oid ∧
          (pg.is_primary = true → ∀ peer ∈ pg.acting.tail, ∀ pm,
            map_find pg.peer_missing peer = some pm → pm.is_missing op.oid = true →
            (∃ pm1, map_find pga.peer_missing peer = some pm1 ∧ pm1.is_missing op.oid = false) ∧
            ∃ more m, pga.sent = pg.sent ++ more ∧ (Message.op m, Dest.osd peer) ∈ more ∧
              m.op = OSD_OP_PUSH ∧ m.oid = op.oid) := by
        rw [hlprim] at hbody
        by_cases hprim : pg.is_primary = true
        · rw [if_pos hprim] at hbody
          obtain ⟨more, hfr, -, -, hdone⟩ := push_to_peers_spec _ _ _ _ hbody
          refine ⟨by rw [hfr]; exact hlm, by rw [hfr]; exact hlo, ?_⟩
          intro _ peer hpeer pm hpm hmiss
          obtain ⟨ha, m, hb, hc, hd⟩ := hdone peer hpeer pm (by rw [hlp]; exact hpm) hmiss
          exact ⟨ha, more, m, by rw [hfr]; rfl, hb, hc, hd⟩
        · rw [if_neg hprim] at hbody
          simp only [Option.some.injEq] at hbody
          subst hbody
          exact ⟨rfl, rfl, fun hh => absurd hh hprim⟩
      obtain ⟨hmm, hmo, hmp⟩ := hmid
      have hnm : map_count pga.missing.missing op.oid = false := by
        rw [hmm]; exact got_not_missing _ _
      have h1m : pg1.missing = pgb.missing := by rw [hpg1]
      have h1o : pg1.objects_pulling = pgb.objects_pulling := by rw [hpg1]
      have h1p : pg1.peer_missing = pgb.peer_missing := by rw [hpg1]
      have h1s : pg1.sent = pgb.sent := by rw [hpg1]
      refine ⟨?_, ?_, ?_⟩
      · unfold is_missing_object
        rw [h1m, hrm]
        exact hnm
      · rw [h1o, hrpull op.oid hnm, hmo]
        exact map_count_erase_if_present _ _
      · intro hprim peer hpeer pm hpm hmiss
        obtain ⟨ha, more, m, hb, hc, hd, he⟩ := hmp hprim peer hpeer pm hpm hmiss
        refine ⟨?_, more ++ more2, m, ?_, List.mem_append_left _ hc, hd, he⟩
        · rw [h1p, hrp]; exact ha
        · rw [h1s, hrs, hb, List.append_assoc]
    · simp at hbody
  · exact op_push_isSome do_recovery pg op

/-- A `do_recovery` that finds nothing to do meets what `op_push` relies on. -/
theorem recovery_idle :
    recovery_pulls_missing (fun pg => some pg) ∧ recovery_keeps_log (fun pg => some pg) := by
  constructor
  · intro p q h
    simp only [Option.some.injEq] at h
    subst h
    exact ⟨rfl, rfl, ⟨[], by simp⟩, fun _ _ => rfl⟩
  · intro p q h
    simp only [Option.some.injEq] at h
    subst h
    exact ⟨rfl, rfl⟩

/-- C17 at the recovering primary of three osds: the push of the missing object 12 returns,
object 12 is neither missing nor being pulled afterwards, and osd 2, which missed it too, no
longer does and has been sent a PUSH. -/
theorem op_push_only_missing_witness :
    recovery_pulls_missing (fun pg => some pg) ∧
    is_missing_object recovering_pg3 push_op_12.oid = true ∧
    op_push (fun pg => some pg) recovering_pg3 push_op_12 = some recovering_pg3_pushed ∧
    (is_missing_object recovering_pg3_pushed push_op_12.oid = false ∧
      map_count recovering_pg3_pushed.objects_pulling push_op_12.oid = false ∧
      (recovering_pg3.is_primary = true → ∀ peer ∈ recovering_pg3.acting.tail, ∀ pm,
        map_find recovering_pg3.peer_missing peer = some pm → pm.is_missing push_op_12.oid = true →
        (∃ pm1, map_find recovering_pg3_pushed.peer_missing peer = some pm1 ∧
          pm1.is_missing push_op_12.oid = false) ∧
        ∃ more m, recovering_pg3_pushed.sent = recovering_pg3.sent ++ more ∧
          (Message.op m, Dest.osd peer) ∈ more ∧ m.op = OSD_OP_PUSH ∧ m.oid = push_op_12.oid)) ∧
    recovering_pg3.is_primary = true ∧
    (map_find recovering_pg3.peer_missing 2).map (fun pm => pm.is_missing push_op_12.oid) =
      some true ∧
    push_12_to_2 ∈ recovering_pg3_pushed.sent :=
  ⟨recovery_idle.1, by decide, by decide,
   (op_push_only_missing (fun pg => some pg) recovering_pg3 push_op_12 recovery_idle.1).2.1
     (by decide) recovering_pg3_pushed (by decide),
   by decide, by decide, by decide⟩

/-! ## Recovery: the completeness pointer -/

/-- The loop of `op_push` over the log from `complete_to` on: it passes a prefix of entries
none of which is missing and stops in front of a missing entry or at the end; the counter
has moved by the number of entries passed; `last_complete` is not lowered, is at least the
version of every entry passed, and is its old value or the version of an entry passed. -/
theorem raise_last_complete_spec (missing : List (object_t × eversion_t)) (entries : List Entry)
    (lc : eversion_t) (ct : Nat) :
    ∃ passed rest, entries = passed ++ rest ∧
      (raise_last_complete missing entries lc ct).2 = ct + passed.length ∧
      (∀ e ∈ passed, map_count missing e.oid = false) ∧
      (∀ e, rest.head? = some e → map_count missing e.oid = true) ∧
      lc ≤ (raise_last_complete missing entries lc ct).1 ∧
      (∀ e ∈ passed, e.version ≤ (raise_last_complete missing entries lc ct).1) ∧
      ((raise_last_complete missing entries lc ct).1 = lc ∨
        ∃ e ∈ passed, (raise_last_complete missing entries lc ct).1 = e.version) := by
  induction entries generalizing lc ct with
  | nil =>
    exact ⟨[], [], rfl, rfl, by simp, by simp, le_refl _, by simp, Or.inl rfl⟩
  | cons e rest ih =>
    unfold raise_last_complete
    by_cases hm : map_count missing e.oid = true
    · rw [if_pos hm]
      refine ⟨[], e :: rest, rfl, rfl, by simp, ?_, le_refl _, by simp, Or.inl rfl⟩
      intro e' he'
      simp only [List.head?_cons, Option.some.injEq] at he'
      subst he'
      exact hm
    · rw [if_neg hm]
      have hmf : map_count missing e.oid = false := by simpa using hm
      obtain ⟨passed, rest', h1, h2, h3, h4, h5, h6, h7⟩ :=
        ih (if lc < e.version then e.version else lc) (ct + 1)
      have hle : lc ≤ (if lc < e.version then e.version else lc) := by
        split
        · rename_i hlt; exact le_of_lt hlt
        · exact le_refl _
      have hev : e.version ≤ (if lc < e.version then e.version else lc) := by
        split
        · exact le_refl _
        · rename_i hlt; exact not_lt.1 hlt
      refine ⟨e :: passed, rest', by rw [h1]; rfl, ?_, ?_, h4, le_trans hle h5, ?_, ?_⟩
      · rw [h2, List.length_cons]; omega
      · intro e' he'
        rcases List.mem_cons.1 he' with hh | hh
        · rw [hh]; exact hmf
        · exact h3 e' hh
      · intro e' he'
        rcases List.mem_cons.1 he' with hh | hh
        · rw [hh]; exact le_trans hev h5
        · exact h6 e' hh
      · rcases h7 with h7 | ⟨e', he', h7⟩
        · by_cases hlt : lc < e.version
          · rw [if_pos hlt] at h7
            exact Or.inr ⟨e, List.mem_cons_self _ _, by rw [if_pos hlt]; exact h7⟩
          · rw [if_neg hlt] at h7
            exact Or.inl (by rw [if_neg hlt]; exact h7)
        · exact Or.inr ⟨e', List.mem_cons_of_mem _ he', h7⟩

/-- The push loop of `op_push` leaves alone what the local part set, apart from the store,
`last_tid`, the messages sent and `peer_missing`. -/
theorem op_push_body_local (pg pga : ReplicatedPG) (op : MOSDOp)
    (h : op_push_body pg op = some pga) :
    pga = { op_push_local pg op with store := pga.store, last_tid := pga.last_tid,
                                     sent := pga.sent, peer_missing := pga.peer_missing } := by
  rw [op_push_body_eq] at h
  split at h
  · split at h
    · obtain ⟨more, hfr, -⟩ := push_to_peers_spec _ _ _ _ h
      rw [hfr]
    · simp only [Option.some.injEq] at h
      subst h
      rfl
  · simp at h

/-- C18. After `op_push` for a missing object (the loop is a structural recursion over the
log, so it ends), `log.complete_to` has moved forward over a run of entries `passed`, none
of them still missing, and stands in front of the first entry at or after its old position
whose object is still missing, or at the end of the log if there is none. The log itself is
unchanged. `info.last_complete` is not decreased, is at least the version of every entry
passed over, and is either its old value or the version of an entry passed over, so it is
not raised to the version of an entry at or beyond the first still-missing one (on a log
with increasing versions it stays strictly below them unless it is unchanged). `op_push`
returns under the conditions named in the last part. `do_recovery` is declared outside
this translation unit; it is taken to leave `info`, the log and `missing` alone. -/
theorem op_push_complete_to (do_recovery : ReplicatedPG → Option ReplicatedPG)
    (pg : ReplicatedPG) (op : MOSDOp) (hrec : recovery_pulls_missing do_recovery)
    (hlog : recovery_keeps_log do_recovery) (hm : is_missing_object pg op.oid = true) :
    (∀ pg1, op_push do_recovery pg op = some pg1 →
      ∃ passed rest, pg.log.log.drop pg.log.complete_to = passed ++ rest ∧
        pg1.log.log = pg.log.log ∧
        pg1.log.complete_to = pg.log.complete_to + passed.length ∧
        (∀ e ∈ passed, is_missing_object pg1 e.oid = false) ∧
        (∀ e, rest.head? = some e → is_missing_object pg1 e.oid = true) ∧
        (rest = [] → pg.log.complete_to ≤ pg.log.log.length →
          pg1.log.complete_to = pg.log.log.length) ∧
        pg.info.last_complete ≤ pg1.info.last_complete ∧
        (∀ e ∈ passed, e.version ≤ pg1.info.last_complete) ∧
        (pg1.info.last_complete = pg.info.last_complete ∨
          ∃ e ∈ passed, pg1.info.last_complete = e.version) ∧
        (Log.increasing pg.log → ∀ e ∈ rest,
          pg1.info.last_complete = pg.info.last_complete ∨ pg1.info.last_complete < e.version)) ∧
    (op.data.length = op.length → pg.log.complete_to ≠ pg.log.log.length →
      (∀ r ∈ pg.store.results, r = 0) →
      (∀ p ∈ pg.acting.tail, map_count pg.peer_missing p = true) →
      (∀ p, (do_recovery p).isSome = true) → (op_push do_recovery pg op).isSome = true) := by
  refine ⟨?_, op_push_isSome do_recovery pg op hm⟩
  intro pg1 h
  obtain ⟨pga, pgb, hbody, hr, hpg1⟩ := op_push_eq do_recovery pg pg1 op hm h
  obtain ⟨hrm, -, -, -⟩ := hrec pga pgb hr
  obtain ⟨hri, hrl⟩ := hlog pga pgb hr
  have hfr := op_push_body_local pg pga op hbody
  have hmiss : pg1.missing = pg.missing.got op.oid := by
    have h1 : pg1.missing = pgb.missing := by rw [hpg1]
    have h2 : pga.missing = (op_push_local pg op).missing := by rw [hfr]
    rw [h1, hrm, h2]; rfl
  have hinfo : pg1.info.last_complete =
      (raise_last_complete (pg.missing.got op.oid).missing (pg.log.log.drop pg.log.complete_to)
        pg.info.last_complete pg.log.complete_to).1 := by
    have h1 : pg1.info = pgb.info := by rw [hpg1]
    have h2 : pga.info = (op_push_local pg op).info := by rw [hfr]
    rw [h1, hri, h2]; rfl
  have hlg : pg1.log.log = pg.log.log ∧ pg1.log.complete_to =
      (raise_last_complete (pg.missing.got op.oid).missing (pg.log.log.drop pg.log.complete_to)
        pg.info.last_complete pg.log.complete_to).2 := by
    have h1 : pg1.log = pgb.log := by rw [hpg1]
    have h2 : pga.log = (op_push_local pg op).log := by rw [hfr]
    rw [h1, hrl, h2]; exact ⟨rfl, rfl⟩
  obtain ⟨passed, rest, h1, h2, h3, h4, h5, h6, h7⟩ :=
    raise_last_complete_spec (pg.missing.got op.oid).missing (pg.log.log.drop pg.log.complete_to)
      pg.info.last_complete pg.log.complete_to
  refine ⟨passed, rest, h1, hlg.1, by rw [hlg.2, h2], ?_, ?_, ?_, by rw [hinfo]; exact h5,
    by rw [hinfo]; exact h6, by rw [hinfo]; exact h7, ?_⟩
  · intro e he
    unfold is_missing_object
    rw [hmiss]
    exact h3 e he
  · intro e he
    unfold is_missing_object
    rw [hmiss]
    exact h4 e he
  · intro hrest hle
    rw [hlg.2, h2]
    have hlen := congrArg List.length h1
    rw [hrest, List.append_nil, List.length_drop] at hlen
    omega
  · intro hinc e he
    rw [hinfo]
    rcases h7 with h7 | ⟨e0, he0, h7⟩
    · exact Or.inl h7
    · right
      rw [h7]
      have hpw : (pg.log.log.drop pg.log.complete_to).Pairwise
          (fun a b => a.version < b.version) :=
        List.Pairwise.sublist (List.drop_sublist _ _) hinc
      rw [h1] at hpw
      exact (List.pairwise_append.1 hpw).2.2 e0 he0 e he

/-- C18 at the recovering primary that misses objects 12 and 13, with the log entries of
objects 11, 12, 13 and `complete_to` at the entry of object 12: the push of object 12 moves
`complete_to` to the entry of object 13 and `last_complete` from (1, 1) to (1, 2). -/
theorem op_push_complete_to_witness :
    recovery_pulls_missing (fun pg => some pg) ∧ recovery_keeps_log (fun pg => some pg) ∧
    is_missing_object recovering_pg_two push_op_12.oid = true ∧
    op_push (fun pg => some pg) recovering_pg_two push_op_12 = some recovering_pg_two_pushed ∧
    recovering_pg_two.log.complete_to = 1 ∧ recovering_pg_two_pushed.log.complete_to = 2 ∧
    recovering_pg_two.info.last_complete = { epoch := 1, version := 1 } ∧
    recovering_pg_two_pushed.info.last_complete = { epoch := 1, version := 2 } ∧
    (∃ passed rest,
        recovering_pg_two.log.log.drop recovering_pg_two.log.complete_to = passed ++ rest ∧
        recovering_pg_two_pushed.log.log = recovering_pg_two.log.log ∧
        recovering_pg_two_pushed.log.complete_to =
          recovering_pg_two.log.complete_to + passed.length ∧
        (∀ e ∈ passed, is_missing_object recovering_pg_two_pushed e.oid = false) ∧
        (∀ e, rest.head? = some e → is_missing_object recovering_pg_two_pushed e.oid = true) ∧
        (rest = [] → recovering_pg_two.log.complete_to ≤ recovering_pg_two.log.log.length →
          recovering_pg_two_pushed.log.complete_to = recovering_pg_two.log.log.length) ∧
        recovering_pg_two.info.last_complete ≤ recovering_pg_two_pushed.info.last_complete ∧
        (∀ e ∈ passed, e.version ≤ recovering_pg_two_pushed.info.last_complete) ∧
        (recovering_pg_two_pushed.info.last_complete = recovering_pg_two.info.last_complete ∨
          ∃ e ∈ passed, recovering_pg_two_pushed.info.last_complete = e.version) ∧
        (Log.increasing recovering_pg_two.log → ∀ e ∈ rest,
          recovering_pg_two_pushed.info.last_complete = recovering_pg_two.info.last_complete ∨
          recovering_pg_two_pushed.info.last_complete < e.version)) :=
  ⟨recovery_idle.1, recovery_idle.2, by decide, by decide, by decide, by decide, by decide,
   by decide,
   (op_push_complete_to (fun pg => some pg) recovering_pg_two push_op_12 recovery_idle.1
      recovery_idle.2 (by decide)).1 recovering_pg_two_pushed (by decide)⟩

/-! ## Recovery: pulls -/

/-- A key is absent from an association list when no entry carries it. -/
theorem map_count_false_iff {κ ν : Type} [DecidableEq κ] (m : List (κ × ν)) (k : κ) :
    map_count m k = false ↔ ∀ p ∈ m, p.1 ≠ k := by
  unfold map_count map_find
  cases hf : m.find? (fun p => decide (p.1 = k)) with
  | none =>
    simp only [Option.map_none', Option.isSome_none, true_iff]
    intro p hp
    simpa using (List.find?_eq_none.1 hf) p hp
  | some x =>
    simp only [Option.map_some', Option.isSome_some, Bool.true_eq_false, false_iff, not_forall]
    have h1 := List.find?_some hf
    have h2 := List.mem_of_find?_eq_some hf
    exact ⟨x, h2, by simpa using h1⟩

/-- Erasing an absent key leaves an association list as it is. -/
theorem map_erase_absent {κ ν : Type} [DecidableEq κ] (m : List (κ × ν)) (k : κ)
    (h : map_count m k = false) : map_erase m k = m := by
  unfold map_erase
  rw [List.filter_eq_self]
  intro p hp
  simpa using (map_count_false_iff m k).1 h p hp

/-- Erasing a present key from an association list with distinct keys removes one entry. -/
theorem map_erase_length {κ ν : Type} [DecidableEq κ] (m : List (κ × ν)) (k : κ)
    (hnd : (m.map Prod.fst).Nodup) (h : map_count m k = true) :
    (map_erase m k).length + 1 = m.length := by
  induction m with
  | nil => simp [map_count, map_find] at h
  | cons p m ih =>
    obtain ⟨a, b⟩ := p
    simp only [List.map_cons, List.nodup_cons] at hnd
    by_cases hak : a = k
    · subst hak
      have habs : map_count m a = false := by
        rw [map_count_false_iff]
        intro x hx hxa
        exact hnd.1 (List.mem_map.2 ⟨x, hx, hxa⟩)
      have := map_erase_absent m a habs
      unfold map_erase at this ⊢
      simp [List.filter_cons, this]
    · have hc : map_count m k = true := by
        unfold map_count map_find at h ⊢
        simpa [List.find?_cons, hak] using h
      have := ih hnd.2 hc
      unfold map_erase at this ⊢
      simp [List.filter_cons, hak]
      omega

/-- The method `pull` returns exactly when the object has a source in `missing.loc` and is
not being pulled yet; it then has sent one PULL to that source carrying the version
`missing` holds, recorded that version under the object in `objects_pulling`, and
incremented `num_pulling` by one. -/
theorem pull_some (pg : ReplicatedPG) (oid : object_t) :
    ((pull pg oid).isSome = true ↔
      map_count pg.missing.loc oid = true ∧ map_count pg.objects_pulling oid = false) ∧
    ∀ pg1, pull pg oid = some pg1 →
      pg1 = { pg with
        missing := { pg.missing with missing := map_touch pg.missing.missing oid eversion_t.zero },
        last_tid := pg.last_tid + 1,
        sent := pg.sent ++ [pull_message pg oid],
        num_pulling := pg.num_pulling + 1,
        objects_pulling :=
          map_set pg.objects_pulling oid (map_get pg.missing.missing oid eversion_t.zero) } := by
  unfold pull
  by_cases h1 : map_count pg.missing.loc oid = true
  · by_cases h2 : map_count pg.objects_pulling oid = true
    · simp [h1, h2, ReplicatedPG.send_message]
    · have h2f : map_count pg.objects_pulling oid = false := by simpa using h2
      simp only [h1, if_true, ReplicatedPG.send_message, h2f, Option.isSome_some, and_self,
        true_and, Option.some.injEq]
      intro pg1 h
      rw [← h]
      rfl
  · simp [h1]

/-- The method `pull` keeps `num_pulling` the number of entries of `objects_pulling`. -/
theorem pull_counted (pg pg1 : ReplicatedPG) (oid : object_t) (hinv : pulling_counted pg)
    (h : pull pg oid = some pg1) : pulling_counted pg1 := by
  have hs : (pull pg oid).isSome = true := by rw [h]; rfl
  obtain ⟨-, habs⟩ := (pull_some pg oid).1.1 hs
  rw [(pull_some pg oid).2 pg1 h]
  unfold pulling_counted at hinv ⊢
  simp only [map_set, List.length_cons, map_erase_absent _ _ habs]
  rw [hinv]
  push_cast
  rfl

/-- What `op_push` does to the pull bookkeeping of a missing object, up to `do_recovery`:
`num_pulling` is decremented in every case, the entry of `objects_pulling` is erased if
there is one. -/
theorem op_push_body_pulling (pg pga : ReplicatedPG) (op : MOSDOp)
    (h : op_push_body pg op = some pga) :
    pga.num_pulling = pg.num_pulling - 1 ∧
    pga.objects_pulling = map_erase_if_present pg.objects_pulling op.oid := by
  have hfr := op_push_body_local pg pga op h
  constructor
  · have : pga.num_pulling = (op_push_local pg op).num_pulling := by rw [hfr]
    rw [this]; rfl
  · have : pga.objects_pulling = (op_push_local pg op).objects_pulling := by rw [hfr]
    rw [this]; rfl

/-- The push of an object that was being pulled keeps `num_pulling` the number of entries of
`objects_pulling`, on a map with distinct keys. -/
theorem op_push_body_counted (pg pga : ReplicatedPG) (op : MOSDOp) (hinv : pulling_counted pg)
    (hnd : (pg.objects_pulling.map Prod.fst).Nodup)
    (hp : map_count pg.objects_pulling op.oid = true)
    (h : op_push_body pg op = some pga) : pulling_counted pga := by
  obtain ⟨h1, h2⟩ := op_push_body_pulling pg pga op h
  unfold pulling_counted at hinv ⊢
  rw [h1, h2, hinv]
  unfold map_erase_if_present
  rw [if_pos hp]
  have := map_erase_length pg.objects_pulling op.oid hnd hp
  omega

/-- The push of a missing object that was not being pulled leaves `num_pulling` one below
the number of entries of `objects_pulling`. -/
theorem op_push_body_miscounted (pg pga : ReplicatedPG) (op : MOSDOp)
    (hinv : pulling_counted pg) (hp : map_count pg.objects_pulling op.oid = false)
    (h : op_push_body pg op = some pga) :
    pga.num_pulling = (pga.objects_pulling.length : Int) - 1 ∧ ¬ pulling_counted pga := by
  obtain ⟨h1, h2⟩ := op_push_body_pulling pg pga op h
  unfold pulling_counted at hinv ⊢
  have h3 : map_erase_if_present pg.objects_pulling op.oid = pg.objects_pulling := by
    unfold map_erase_if_present
    simp [hp]
  rw [h1, h2, h3, hinv]
  constructor
  · rfl
  · omega

/-- C19. `num_pulling` against the number of entries of `objects_pulling`. A `pull` keeps the
two equal, and so does the push of an object that was being pulled. The push of a missing
object that was not being pulled does not: the replica osd 1 misses object 12 and pulls
nothing (`num_pulling = 0`, `objects_pulling` empty); the primary pushes the object to it;
`op_push` decrements `num_pulling` without looking at `objects_pulling`, and returns with
`num_pulling = -1` over an empty `objects_pulling`. -/
theorem op_push_num_pulling :
    (pulling_counted recovering_pg ∧
      (op_push (fun pg => some pg) recovering_pg push_op_12).map
          (fun p => (p.num_pulling, p.objects_pulling)) = some (0, [])) ∧
    (pulling_counted replica_pg_12 ∧
      (pull replica_pg_12 { ino := 12, rev := 0 }).map
          (fun p => (p.num_pulling, p.objects_pulling)) =
        some (1, [({ ino := 12, rev := 0 }, { epoch := 1, version := 2 })])) ∧
    (pulling_counted replica_pg_12 ∧
      is_missing_object replica_pg_12 push_op_12.oid = true ∧
      map_count replica_pg_12.objects_pulling push_op_12.oid = false ∧
      (op_push (fun pg => some pg) replica_pg_12 push_op_12).map
          (fun p => (p.num_pulling, p.objects_pulling)) = some (-1, []) ∧
      (op_push (fun pg => some pg) replica_pg_12 push_op_12).map
          (fun p => decide (pulling_counted p)) = some false) := by
  refine ⟨⟨by decide, by decide⟩, ⟨by decide, by decide⟩,
    ⟨by decide, by decide, by decide, by decide, by decide⟩⟩

/-- C20. For every object in `missing` with a known source in `missing.loc` and every op,
`wait_for_missing_object` returns (no assertion fails, that of `pull` on an object already
being pulled included), with the op appended to `waiting_for_missing_object[oid]`. It
issues a pull if and only if the object is not already in `objects_pulling`: then one PULL
goes to the source, `num_pulling` is incremented and the version `missing` holds is recorded;
otherwise nothing is sent and the pull bookkeeping is as before. Afterwards the object is in
`objects_pulling`, with the version `missing[oid]` (for a pull already recorded, given that
it recorded the version `missing` holds, as `pull` does). -/
theorem wait_for_missing_object_pulls (pg : ReplicatedPG) (oid : object_t) (op : MOSDOp)
    (hmiss : is_missing_object pg oid = true) (hloc : map_count pg.missing.loc oid = true)
    (hcons : ∀ v, map_find pg.objects_pulling oid = some v →
      map_find pg.missing.missing oid = some v) :
    ∃ pg1, wait_for_missing_object pg oid op = some pg1 ∧
      map_find pg1.waiting_for_missing_object oid =
        some (map_get pg.waiting_for_missing_object oid [] ++ [op]) ∧
      (pg1.sent = pg.sent ++ [pull_message pg oid] ↔ map_count pg.objects_pulling oid = false) ∧
      (map_count pg.objects_pulling oid = true →
        pg1.sent = pg.sent ∧ pg1.objects_pulling = pg.objects_pulling ∧
        pg1.num_pulling = pg.num_pulling) ∧
      (map_count pg.objects_pulling oid = false →
        (pull pg oid).isSome = true ∧ pg1.num_pulling = pg.num_pulling + 1 ∧
        pg1.objects_pulling =
          map_set pg.objects_pulling oid (map_get pg.missing.missing oid eversion_t.zero)) ∧
      pg1.missing = pg.missing ∧
      map_count pg1.objects_pulling oid = true ∧
      map_find pg1.objects_pulling oid = map_find pg1.missing.missing oid := by
  have hmm : map_count pg.missing.missing oid = true := hmiss
  obtain ⟨v, hv⟩ : ∃ v, map_find pg.missing.missing oid = some v := by
    unfold map_count at hmm
    exact Option.isSome_iff_exists.1 hmm
  unfold wait_for_missing_object
  rw [if_pos hmiss]
  by_cases hp : map_count pg.objects_pulling oid = true
  · rw [if_pos hp]
    refine ⟨_, rfl, map_find_set_same _ _ _, ?_, fun _ => ⟨rfl, rfl, rfl⟩, ?_, rfl, hp, ?_⟩
    · simp [hp]
    · intro hf
      rw [hp] at hf
      simp at hf
    · obtain ⟨w, hw⟩ : ∃ w, map_find pg.objects_pulling oid = some w := by
        unfold map_count at hp
        exact Option.isSome_iff_exists.1 hp
      show map_find pg.objects_pulling oid = map_find pg.missing.missing oid
      rw [hw, hcons w hw]
  · have hpf : map_count pg.objects_pulling oid = false := by simpa using hp
    rw [if_neg hp]
    have hs : (pull pg oid).isSome = true := (pull_some pg oid).1.2 ⟨hloc, hpf⟩
    cases hpull : pull pg oid with
    | none => rw [hpull] at hs; simp at hs
    | some pg2 =>
      have hpg2 := (pull_some pg oid).2 pg2 hpull
      have htouch : map_touch pg.missing.missing oid eversion_t.zero = pg.missing.missing := by
        unfold map_touch
        rw [if_pos hmm]
      have hsent : pg2.sent = pg.sent ++ [pull_message pg oid] := by rw [hpg2]
      have hnum : pg2.num_pulling = pg.num_pulling + 1 := by rw [hpg2]
      have hobj : pg2.objects_pulling =
          map_set pg.objects_pulling oid (map_get pg.missing.missing oid eversion_t.zero) := by
        rw [hpg2]
      have hmis : pg2.missing = pg.missing := by
        rw [hpg2]
        show ({ pg.missing with
                missing := map_touch pg.missing.missing oid eversion_t.zero } : Missing) =
          pg.missing
        rw [htouch]
      have hwait : pg2.waiting_for_missing_object = pg.waiting_for_missing_object := by
        rw [hpg2]
      simp only
      refine ⟨_, rfl, ?_, ?_, ?_, ?_, hmis, ?_, ?_⟩
      · show map_find (map_set pg2.waiting_for_missing_object oid
            (map_get pg2.waiting_for_missing_object oid [] ++ [op])) oid = _
        rw [hwait]
        exact map_find_set_same _ _ _
      · exact ⟨fun _ => hpf, fun _ => hsent⟩
      · intro hh
        rw [hpf] at hh
        simp at hh
      · intro _
        exact ⟨rfl, hnum, hobj⟩
      · show map_count pg2.objects_pulling oid = true
        rw [hobj]
        unfold map_count
        rw [map_find_set_same]
        rfl
      · show map_find pg2.objects_pulling oid = map_find pg2.missing.missing oid
        rw [hobj, hmis, map_find_set_same, hv]
        unfold map_get
        rw [hv]
        rfl

/-- C20 at the recovering primary that misses objects 12 and 13 and pulls object 12 only: an
op on object 13 is parked and a PULL for it goes out; an op on object 12 is parked and
nothing is sent. -/
theorem wait_for_missing_object_pulls_witness :
    is_missing_object recovering_pg_two { ino := 13, rev := 0 } = true ∧
    map_count recovering_pg_two.missing.loc { ino := 13, rev := 0 } = true ∧
    map_count recovering_pg_two.objects_pulling { ino := 13, rev := 0 } = false ∧
    (∃ pg1, wait_for_missing_object recovering_pg_two { ino := 13, rev := 0 } sample_op =
        some pg1 ∧
      map_find pg1.waiting_for_missing_object { ino := 13, rev := 0 } =
        some (map_get recovering_pg_two.waiting_for_missing_object { ino := 13, rev := 0 } [] ++
          [sample_op]) ∧
      (pg1.sent = recovering_pg_two.sent ++
          [pull_message recovering_pg_two { ino := 13, rev := 0 }] ↔
        map_count recovering_pg_two.objects_pulling { ino := 13, rev := 0 } = false) ∧
      (map_count recovering_pg_two.objects_pulling { ino := 13, rev := 0 } = true →
        pg1.sent = recovering_pg_two.sent ∧
        pg1.objects_pulling = recovering_pg_two.objects_pulling ∧
        pg1.num_pulling = recovering_pg_two.num_pulling) ∧
      (map_count recovering_pg_two.objects_pulling { ino := 13, rev := 0 } = false →
        (pull recovering_pg_two { ino := 13, rev := 0 }).isSome = true ∧
        pg1.num_pulling = recovering_pg_two.num_pulling + 1 ∧
        pg1.objects_pulling =
          map_set recovering_pg_two.objects_pulling { ino := 13, rev := 0 }
            (map_get recovering_pg_two.missing.missing { ino := 13, rev := 0 } eversion_t.zero)) ∧
      pg1.missing = recovering_pg_two.missing ∧
      map_count pg1.objects_pulling { ino := 13, rev := 0 } = true ∧
      map_find pg1.objects_pulling { ino := 13, rev := 0 } =
        map_find pg1.missing.missing { ino := 13, rev := 0 }) ∧
    (wait_for_missing_object recovering_pg_two { ino := 13, rev := 0 } sample_op).map
        (fun p => (p.num_pulling, map_find p.objects_pulling { ino := 13, rev := 0 })) =
      some (2, some { epoch := 1, version := 3 }) ∧
    (wait_for_missing_object recovering_pg_two { ino := 12, rev := 0 } sample_op).map
        (fun p => (p.sent, p.num_pulling, p.objects_pulling)) =
      some ([], 1, recovering_pg_two.objects_pulling) :=
  ⟨by decide, by decide, by decide,
   wait_for_missing_object_pulls recovering_pg_two { ino := 13, rev := 0 } sample_op
     (by decide) (by decide)
     (fun v h => by
       rw [show map_find recovering_pg_two.objects_pulling { ino := 13, rev := 0 } = none
         from by decide] at h
       simp at h),
   by decide, by decide⟩

/-- Reading a map after `m[k]` was touched: a key other than `k` reads as before. -/
theorem map_find_touch_ne {κ ν : Type} [DecidableEq κ] (m : List (κ × ν)) (k j : κ) (d : ν)
    (h : j ≠ k) : map_find (map_touch m k d) j = map_find m j := by
  unfold map_touch
  split
  · rfl
  · have hk : ¬ k = j := fun hh => h hh.symm
    unfold map_find
    simp only [List.find?_append, List.find?_cons, List.find?_nil, hk, decide_False]
    cases m.find? (fun p => decide (p.1 = j)) <;> rfl

/-- Reading `m[k]` itself: the stored value, or the default-constructed one. -/
theorem map_find_touch_same {κ ν : Type} [DecidableEq κ] (m : List (κ × ν)) (k : κ) (d : ν) :
    map_find (map_touch m k d) k = some (map_get m k d) := by
  unfold map_touch map_get
  by_cases hc : map_count m k = true
  · rw [if_pos hc]
    unfold map_count at hc
    obtain ⟨v, hv⟩ := Option.isSome_iff_exists.1 hc
    rw [hv]
    rfl
  · rw [if_neg hc]
    have hcf : map_count m k = false := by simpa using hc
    have hn : map_find m k = none := by
      unfold map_count at hcf
      cases hf : map_find m k with
      | none => rfl
      | some v => rw [hf] at hcf; simp at hcf
    rw [hn]
    unfold map_find at hn ⊢
    simp only [Option.map_eq_none'] at hn
    simp [List.find?_append, hn]

/-- The method `pull` keeps every recorded pull at the version `missing` holds. -/
theorem pull_consistent (pg pg1 : ReplicatedPG) (oid : object_t) (hinv : pulling_consistent pg)
    (h : pull pg oid = some pg1) : pulling_consistent pg1 := by
  rw [(pull_some pg oid).2 pg1 h]
  intro o v hv
  show map_find (map_touch pg.missing.missing oid eversion_t.zero) o = some v
  have hv2 : map_find (map_set pg.objects_pulling oid
      (map_get pg.missing.missing oid eversion_t.zero)) o = some v := hv
  by_cases ho : o = oid
  · subst ho
    rw [map_find_set_same] at hv2
    rw [map_find_touch_same]
    exact hv2
  · rw [map_find_set_ne _ _ _ _ ho] at hv2
    rw [map_find_touch_ne _ _ _ _ ho]
    exact hinv o v hv2

/-- The local part of `op_push` keeps every recorded pull at the version `missing` holds. -/
theorem op_push_local_consistent (pg : ReplicatedPG) (op : MOSDOp)
    (hinv : pulling_consistent pg) : pulling_consistent (op_push_local pg op) := by
  intro o v hv
  have hv2 : map_find (map_erase_if_present pg.objects_pulling op.oid) o = some v := hv
  show map_find (map_erase pg.missing.missing op.oid) o = some v
  by_cases ho : o = op.oid
  · subst ho
    have := map_count_erase_if_present pg.objects_pulling op.oid
    unfold map_count at this
    rw [hv2] at this
    simp at this
  · rw [map_find_erase_ne _ _ _ ho]
    apply hinv
    unfold map_erase_if_present at hv2
    split at hv2
    · rw [map_find_erase_ne _ _ _ ho] at hv2
      exact hv2
    · exact hv2

/-! ## Duplicate requests on every PG -/

/-- A WRNOOP is stamped with the unchanged `log.top`. -/
theorem assign_version_wrnoop (pg : ReplicatedPG) (op : MOSDOp) (h : op.op = OSD_OP_WRNOOP) :
    assign_version pg op = some ({ op with version := pg.log.top }, eversion_t.zero) := by
  unfold assign_version
  simp [h]

/-- The loop of `op_modify` that pushes the object to the peers missing it changes nothing
but the store, `last_tid`, the messages sent and `peer_missing`. -/
theorem push_before_update_frame (oid : object_t) (peers : List Int) (pg pg1 : ReplicatedPG)
    (h : push_before_update oid peers pg = some pg1) :
    pg1 = { pg with store := pg1.store, last_tid := pg1.last_tid, sent := pg1.sent,
                    peer_missing := pg1.peer_missing } := by
  induction peers generalizing pg with
  | nil =>
    simp only [push_before_update, Option.some.injEq] at h
    subst h
    rfl
  | cons peer rest ih =>
    unfold push_before_update at h
    split at h
    · exact ih pg h
    · split at h
      · split at h
        · simp at h
        · rename_i pg2 hp
          obtain ⟨m, -, -, hpg2, -⟩ := push_some _ _ _ _ hp
          have := ih pg2 h
          rw [this, hpg2]
      · exact ih pg h

/-- Forwarding the op to the rest of the acting set changes the messages sent only. -/
theorem issue_repop_rest_frame (pg : ReplicatedPG) (op : MOSDOp) :
    issue_repop_rest pg op = { pg with sent := (issue_repop_rest pg op).sent } := by
  unfold issue_repop_rest
  generalize pg.acting.tail = l
  have key : ∀ (l : List Int) (q : ReplicatedPG),
      l.foldl (fun p dest => issue_repop p op dest) q =
        { q with sent := (l.foldl (fun p dest => issue_repop p op dest) q).sent } := by
    intro l
    induction l with
    | nil => intro q; rfl
    | cons d l ih =>
      intro q
      simp only [List.foldl_cons]
      have := ih (issue_repop q op d)
      rw [this]
      simp [issue_repop, ReplicatedPG.send_message]
  exact key l pg

/-- The method `new_rep_gather` leaves the log and `info` alone. -/
theorem new_rep_gather_log_info (pg : ReplicatedPG) (op : MOSDOp) :
    (new_rep_gather pg op).1.log = pg.log ∧ (new_rep_gather pg op).1.info = pg.info := by
  simp only [new_rep_gather]
  split_ifs <;> simp [ReplicatedPG.take_waiters]

/-- The method `put_rep_gather` leaves the log and `info` alone. -/
theorem put_rep_gather_log_info (pg pg1 : ReplicatedPG) (g : RepGather)
    (h : put_rep_gather pg g = some pg1) : pg1.log = pg.log ∧ pg1.info = pg.info := by
  unfold put_rep_gather at h
  cases hr : put_rep_gather_reply pg g with
  | none => rw [hr] at h; simp at h
  | some r =>
    obtain ⟨pg2, g2⟩ := r
    rw [hr] at h
    simp only at h
    have h2 : pg2.log = pg.log ∧ pg2.info = pg.info := by
      unfold put_rep_gather_reply at hr
      split at hr
      · simp only [Option.some.injEq, Prod.mk.injEq] at hr
        obtain ⟨h1, -⟩ := hr
        subst h1
        exact ⟨rfl, rfl⟩
      · split at hr
        · unfold apply_repop at hr
          by_cases ha : g.applied = true
          · simp [ha] at hr
          · simp only [ha, Bool.false_eq_true, if_false, Option.some.injEq, Prod.mk.injEq] at hr
            obtain ⟨h1, -⟩ := hr
            subst h1
            exact ⟨rfl, rfl⟩
        · simp only [Option.some.injEq, Prod.mk.injEq] at hr
          obtain ⟨h1, -⟩ := hr
          subst h1
          exact ⟨rfl, rfl⟩
    have h3 : pg1.log = pg2.log ∧ pg1.info = pg2.info := by
      unfold put_rep_gather_done at h
      by_cases hd : g2.can_delete = true
      · simp only [hd, if_true] at h
        repeat' split at h
        all_goals first
          | (simp only [Option.some.injEq] at h; subst h; exact ⟨rfl, rfl⟩)
          | (exact absurd h (by simp))
      · have hdf : g2.can_delete = false := by simpa using hd
        simp only [hdf, Bool.false_eq_true, if_false, Option.some.injEq] at h
        subst h
        exact ⟨rfl, rfl⟩
    exact ⟨h3.1.trans h2.1, h3.2.trans h2.2⟩

/-- The logical local ack leaves the log and `info` alone. -/
theorem local_ack_log_info (pg pg1 : ReplicatedPG) (g : RepGather)
    (h : local_ack pg g = some pg1) : pg1.log = pg.log ∧ pg1.info = pg.info := by
  unfold local_ack at h
  by_cases hw : pg.whoami ∈ g.waitfor_ack
  · rw [if_pos hw] at h
    exact put_rep_gather_log_info _ _ _ h
  · rw [if_neg hw] at h
    simp at h

/-- On the acker `op_modify` takes a WRNOOP straight to the logical local ack. -/
theorem op_modify_acker_wrnoop (pg : ReplicatedPG) (repop : RepGather) (op : MOSDOp)
    (nv : eversion_t) (crev : Nat) (h : op.op = OSD_OP_WRNOOP) :
    op_modify_acker pg repop op nv crev = local_ack pg repop := by
  unfold op_modify_acker
  simp [h]

/-- A duplicate on the path of `op_modify` that opens a gather (primary-fanout mode, or a
PG with a single peer): whenever `op_modify` returns, it hands out no commit callback and
the log and `info` are as before. -/
theorem op_modify_dup_acker (acker : Int) (pg pg1 : ReplicatedPG) (op : MOSDOp)
    (cb : Option C_OSD_RepModifyCommit) (hdup : pg.log.is_dup op.reqid = true)
    (hpath : pg.osd_rep = OSD_REP_PRIMARY ∨ pg.acting.length = 1)
    (h : op_modify acker pg op = some (pg1, cb)) :
    cb = none ∧ pg1.log = pg.log ∧ pg1.info = pg.info := by
  unfold op_modify at h
  simp only [hdup, if_true] at h
  rw [assign_version_wrnoop pg _ rfl] at h
  simp only at h
  cases hpb : push_before_update op.oid pg.acting.tail pg with
  | none => rw [hpb] at h; simp at h
  | some pga =>
    rw [hpb] at h
    simp only at h
    have hfr := push_before_update_frame _ _ _ _ hpb
    have hlog : pga.log = pg.log := by rw [hfr]
    have hinfo : pga.info = pg.info := by rw [hfr]
    have hrep : pga.osd_rep = pg.osd_rep := by rw [hfr]
    have hact : pga.acting = pg.acting := by rw [hfr]
    have hc1 : ¬ (pga.osd_rep = OSD_REP_CHAIN ∧ decide (pga.acting.length = 1) = false) := by
      rw [hrep, hact]
      rcases hpath with hp | hp
      · rw [hp]; simp
      · simp [hp]
    have hc2 : ¬ (pga.osd_rep = OSD_REP_SPLAY ∧ decide (pga.acting.length = 1) = false) := by
      rw [hrep, hact]
      rcases hpath with hp | hp
      · rw [hp]; simp
      · simp [hp]
    rw [if_neg hc1, if_neg hc2] at h
    simp only [Option.map_eq_some', Prod.mk.injEq] at h
    obtain ⟨pgz, hmod, hz, hcb⟩ := h
    subst hz
    refine ⟨hcb.symm, ?_⟩
    rw [op_modify_acker_wrnoop _ _ _ _ _ rfl] at hmod
    obtain ⟨e1, e2⟩ := local_ack_log_info _ _ _ hmod
    rw [e1, e2]
    have hn := new_rep_gather_log_info { pga with last_tid := pga.last_tid + 1 }
      { ({ ({ op with op := OSD_OP_WRNOOP } : MOSDOp) with version := pg.log.top } : MOSDOp) with
        rep_tid := pga.last_tid + 1 }
    split_ifs
    · exact ⟨hn.1.trans hlog, hn.2.trans hinfo⟩
    · rw [issue_repop_rest_frame]
      exact ⟨hn.1.trans hlog, hn.2.trans hinfo⟩

/-- The branch of `op_modify` that applies at once calls `prepare_log_transaction` whatever
the opcode: for a WRNOOP stamped with `log.top` it returns only when a clone is implied, and
the log has then grown. -/
theorem op_modify_apply_wrnoop (acker : Int) (pg pg1 : ReplicatedPG) (op : MOSDOp)
    (nv : eversion_t) (crev : Nat) (cb : C_OSD_RepModifyCommit)
    (h : op_modify_apply acker pg op nv crev = some (pg1, cb)) (hop : op.op = OSD_OP_WRNOOP)
    (hnv : nv = pg.log.top) :
    will_clone crev op.rev = true ∧ pg1.log.log.length = pg.log.log.length + 2 := by
  subst hnv
  unfold op_modify_apply at h
  cases hl : prepare_log_transaction pg [] op pg.log.top crev op.rev pg.peers_complete_thru with
  | none => rw [hl] at h; simp at h
  | some r =>
    obtain ⟨pga, t1⟩ := r
    rw [hl] at h
    simp only at h
    obtain ⟨hpga, hcond⟩ := prepare_log_transaction_some _ _ _ _ _ _ _ _ _ hl
    have hc : will_clone crev op.rev = true := by
      by_cases hc : will_clone crev op.rev = true
      · exact hc
      · simp only [hc, Bool.false_eq_true, if_false] at hcond
        exact absurd hcond (lt_irrefl _)
    have hpo : prepare_op_transaction pga t1 op pg.log.top crev op.rev = some (pga, t1, op) := by
      unfold prepare_op_transaction
      simp [hop]
    rw [hpo] at h
    simp only at h
    split at h
    · simp at h
    · simp only [Option.some.injEq, Prod.mk.injEq] at h
      obtain ⟨h1, -⟩ := h
      refine ⟨hc, ?_⟩
      rw [← h1]
      show pga.log.log.length = _
      rw [hpga]
      simp [hc]

/-- A duplicate on the path of `op_modify` that applies at once (chain or splay mode, more
than one peer): `op_modify` returns only when the op implies a clone, and the log has then
grown by two entries; without a clone the assertion `version > log.top` fails. -/
theorem op_modify_dup_not_acker (acker : Int) (pg : ReplicatedPG) (op : MOSDOp)
    (hdup : pg.log.is_dup op.reqid = true)
    (hmode : pg.osd_rep = OSD_REP_CHAIN ∨ pg.osd_rep = OSD_REP_SPLAY)
    (hpeers : pg.acting.length ≠ 1) :
    (will_clone (pg.store.getattr_crev op.oid) op.rev = false → op_modify acker pg op = none) ∧
    ∀ pg1 cb, op_modify acker pg op = some (pg1, cb) →
      pg1.log.log.length = pg.log.log.length + 2 := by
  have key : ∀ pg1 cb, op_modify acker pg op = some (pg1, cb) →
      will_clone (pg.store.getattr_crev op.oid) op.rev = true ∧
      pg1.log.log.length = pg.log.log.length + 2 := by
    intro pg1 cb h
    unfold op_modify at h
    simp only [hdup, if_true] at h
    rw [assign_version_wrnoop pg _ rfl] at h
    simp only at h
    cases hpb : push_before_update op.oid pg.acting.tail pg with
    | none => rw [hpb] at h; simp at h
    | some pga =>
      rw [hpb] at h
      simp only at h
      have hfr := push_before_update_frame _ _ _ _ hpb
      have hlog : pga.log = pg.log := by rw [hfr]
      have hrep : pga.osd_rep = pg.osd_rep := by rw [hfr]
      have hact : pga.acting = pg.acting := by rw [hfr]
      have hal : decide (pga.acting.length = 1) = false := by
        rw [hact]; simpa using hpeers
      rcases hmode with hmd | hmd
      · have hc1 : pga.osd_rep = OSD_REP_CHAIN ∧ decide (pga.acting.length = 1) = false :=
          ⟨hrep.trans hmd, hal⟩
        rw [if_pos hc1] at h
        split at h
        · simp at h
        · simp only [Option.map_eq_some', Prod.mk.injEq] at h
          obtain ⟨r, hap, hr1, -⟩ := h
          obtain ⟨r1, r2⟩ := r
          have := op_modify_apply_wrnoop acker _ r1 _ pg.log.top _ r2 hap rfl
            (congrArg Log.top hlog).symm
          rw [← hr1]
          exact ⟨this.1, this.2.trans (by rw [← hlog]; rfl)⟩
      · have hc1 : ¬ (pga.osd_rep = OSD_REP_CHAIN ∧ decide (pga.acting.length = 1) = false) := by
          rw [hrep, hmd]; simp
        have hc2 : pga.osd_rep = OSD_REP_SPLAY ∧ decide (pga.acting.length = 1) = false :=
          ⟨hrep.trans hmd, hal⟩
        rw [if_neg hc1, if_pos hc2] at h
        simp only [Option.map_eq_some', Prod.mk.injEq] at h
        obtain ⟨r, hap, hr1, -⟩ := h
        have hl2 : ∀ (q : ReplicatedPG) (o : MOSDOp), (issue_repop_rest q o).log = q.log := by
          intro q o
          rw [issue_repop_rest_frame]
        obtain ⟨r1, r2⟩ := r
        have := op_modify_apply_wrnoop acker _ r1 _ pg.log.top _ r2 hap rfl
          (by rw [hl2]; exact (congrArg Log.top hlog).symm)
        rw [← hr1]
        exact ⟨this.1, this.2.trans (by rw [hl2, ← hlog])⟩
  constructor
  · intro hnc
    cases hres : op_modify acker pg op with
    | none => rfl
    | some r =>
      obtain ⟨r1, r2⟩ := r
      have := (key r1 r2 hres).1
      rw [hnc] at this
      simp at this
  · intro pg1 cb h
    exact (key pg1 cb h).2

/-! ## Log trim interlock -/

/-- No version is below the zero version. -/
theorem eversion_t.not_lt_zero (x : eversion_t) : ¬ x < eversion_t.zero := by
  rw [eversion_t.lt_iff]
  simp [eversion_t.zero]

/-- What `put_rep_gather` does to `peers_complete_thru`: it leaves it alone, or, deleting a
gather that recorded some `pg_complete_thru`, raises it to the minimum its loop computes. -/
theorem put_rep_gather_pct_cases (pg pg1 : ReplicatedPG) (g : RepGather)
    (h : put_rep_gather pg g = some pg1) :
    pg1.peers_complete_thru = pg.peers_complete_thru ∨
    (g.pg_complete_thru ≠ [] ∧
      pg.peers_complete_thru <
        min_pg_complete_thru g.pg_complete_thru pg.acting pg.info.last_complete ∧
      pg1.peers_complete_thru =
        min_pg_complete_thru g.pg_complete_thru pg.acting pg.info.last_complete) := by
  unfold put_rep_gather at h
  split at h
  · simp at h
  · rename_i pga ga hr
    obtain ⟨hact, hinfo, hpct, -, -, hgp, htid, -, -⟩ := put_rep_gather_reply_frame pg pga g ga hr
    unfold put_rep_gather_done at h
    by_cases hd : ga.can_delete = true
    · simp only [hd, if_true] at h
      rw [hgp, hact, hinfo, hpct, htid] at h
      by_cases he : g.pg_complete_thru = []
      · simp only [he, List.isEmpty_nil, Bool.not_true, Bool.false_eq_true, if_false] at h
        split at h
        · simp only [Option.some.injEq] at h
          subst h
          exact Or.inl hpct
        · simp at h
      · have hne : g.pg_complete_thru.isEmpty = false := by
          cases hg : g.pg_complete_thru with
          | nil => exact absurd hg he
          | cons _ _ => rfl
        simp only [hne, Bool.not_false, if_true] at h
        by_cases hgt : min_pg_complete_thru g.pg_complete_thru pg.acting pg.info.last_complete >
            pg.peers_complete_thru
        · simp only [hgt, if_true] at h
          split at h
          · simp only [Option.some.injEq] at h
            subst h
            exact Or.inr ⟨he, hgt, rfl⟩
          · simp at h
        · simp only [hgt, if_false] at h
          split at h
          · simp only [Option.some.injEq] at h
            subst h
            exact Or.inl hpct
          · simp at h
    · have hdf : ga.can_delete = false := by simpa using hd
      simp only [hdf, Bool.false_eq_true, if_false, Option.some.injEq] at h
      subst h
      exact Or.inl hpct

/-- The method `put_rep_gather` returns for a gather of the table that was not applied
before its ack was sent: neither the assertion of `apply_repop` nor that on the table
fails. -/
theorem put_rep_gather_isSome (pg : ReplicatedPG) (g : RepGather)
    (happ : g.sent_ack = false → g.applied = false)
    (htab : map_count pg.rep_gather g.rep_tid = true) :
    (put_rep_gather pg g).isSome = true := by
  unfold put_rep_gather
  cases hr : put_rep_gather_reply pg g with
  | none =>
    exfalso
    unfold put_rep_gather_reply at hr
    split at hr
    · simp at hr
    · split at hr
      · rename_i hack
        simp only [RepGather.can_send_ack, Bool.and_eq_true, List.isEmpty_iff,
          Bool.not_eq_true'] at hack
        unfold apply_repop at hr
        simp [happ hack.1.2] at hr
      · simp at hr
  | some r =>
    obtain ⟨pga, ga⟩ := r
    simp only
    obtain ⟨-, -, -, htb, -, -, htid, -, -⟩ := put_rep_gather_reply_frame pg pga g ga hr
    unfold put_rep_gather_done
    by_cases hd : ga.can_delete = true
    · simp only [hd, if_true]
      have hc : ∀ q : ReplicatedPG, q.rep_gather = pga.rep_gather →
          map_count q.rep_gather ga.rep_tid = true := by
        intro q hq
        rw [hq, htb, htid]
        exact htab
      split_ifs with h1 h2 h3 h4 h5
      all_goals first
        | rfl
        | (exfalso
           first
             | exact h3 (hc _ rfl)
             | exact h4 (hc _ rfl)
             | exact h5 (hc _ rfl))
    · have hdf : ga.can_delete = false := by simpa using hd
      simp [hdf]

/-- C26. Log trim interlock. Whenever `put_rep_gather` changes `peers_complete_thru` (the
value `issue_repop` later sends to the peers as `pg_trim_to`), every member of `acting` has
a `pg_complete_thru` recorded in the gather and the new value is at most each of them, and
at most the local `info.last_complete`. Consequently, if some member of `acting` has no
recorded `pg_complete_thru` in the gather, `peers_complete_thru` is left unchanged.
`put_rep_gather` returns for a gather of the table that was not applied before its ack was
sent. -/
theorem put_rep_gather_trim_interlock (pg : ReplicatedPG) (g : RepGather) :
    (∀ pg1, put_rep_gather pg g = some pg1 →
      (pg1.peers_complete_thru ≠ pg.peers_complete_thru →
        pg1.peers_complete_thru ≤ pg.info.last_complete ∧
        ∀ a ∈ pg.acting, ∃ v, map_find g.pg_complete_thru a = some v ∧
          pg1.peers_complete_thru ≤ v) ∧
      ((∃ a ∈ pg.acting, map_find g.pg_complete_thru a = none) →
        pg1.peers_complete_thru = pg.peers_complete_thru) ∧
      ∀ dest op, ((issue_repop pg1 op dest).sent.getLast?).map
          (fun m => match m.1 with
            | Message.op o => o.pg_trim_to
            | Message.reply _ => eversion_t.zero) =
        some pg1.peers_complete_thru) ∧
    ((g.sent_ack = false → g.applied = false) → map_count pg.rep_gather g.rep_tid = true →
      (put_rep_gather pg g).isSome = true) := by
  refine ⟨?_, put_rep_gather_isSome pg g⟩
  intro pg1 h
  have hms := min_pg_complete_thru_spec g.pg_complete_thru pg.acting pg.info.last_complete
  have key : pg1.peers_complete_thru ≠ pg.peers_complete_thru →
      pg1.peers_complete_thru ≤ pg.info.last_complete ∧
      ∀ a ∈ pg.acting, ∃ v, map_find g.pg_complete_thru a = some v ∧
        pg1.peers_complete_thru ≤ v := by
    intro hne
    rcases put_rep_gather_pct_cases pg pg1 g h with hc | ⟨-, hlt, heq⟩
    · exact absurd hc hne
    · rw [heq]
      refine ⟨hms.1, ?_⟩
      intro a ha
      have hle := hms.2.1 a ha
      cases hf : map_find g.pg_complete_thru a with
      | none =>
        exfalso
        unfold map_get at hle
        rw [hf] at hle
        exact eversion_t.not_lt_zero _ (lt_of_lt_of_le hlt hle)
      | some v =>
        unfold map_get at hle
        rw [hf] at hle
        exact ⟨v, rfl, hle⟩
  refine ⟨key, ?_, ?_⟩
  · rintro ⟨a, ha, hnone⟩
    by_contra hne
    obtain ⟨v, hv, -⟩ := (key hne).2 a ha
    rw [hnone] at hv
    simp at hv
  · intro dest op
    simp [issue_repop, ReplicatedPG.send_message]

/-- C26 at the sample PG with `acting = [0, 1]`, both members recorded at (5, 3), the local
`info.last_complete` at (5, 2): `peers_complete_thru` goes from (5, 1) to (5, 2). -/
theorem put_rep_gather_trim_interlock_witness :
    put_rep_gather trim_pg trim_gather = some trim_pg_after ∧
    trim_pg_after.peers_complete_thru ≠ trim_pg.peers_complete_thru ∧
    trim_pg_after.peers_complete_thru = { epoch := 5, version := 2 } ∧
    (trim_pg_after.peers_complete_thru ≤ trim_pg.info.last_complete ∧
      ∀ a ∈ trim_pg.acting, ∃ v, map_find trim_gather.pg_complete_thru a = some v ∧
        trim_pg_after.peers_complete_thru ≤ v) :=
  ⟨by decide, by decide, by decide,
   ((put_rep_gather_trim_interlock trim_pg trim_gather).1 trim_pg_after (by decide)).1
     (by decide)⟩

/-! ## Store errors -/

/-- The builder `prepare_op_transaction` changes nothing of the PG but `info`. -/
theorem prepare_op_transaction_frame (pg pg1 : ReplicatedPG) (t t1 : Transaction)
    (op op1 : MOSDOp) (nv : eversion_t) (crev rev : Nat)
    (h : prepare_op_transaction pg t op nv crev rev = some (pg1, t1, op1)) :
    pg1 = { pg with info := pg1.info } := by
  unfold prepare_op_transaction at h
  by_cases hop : op.op = OSD_OP_WRNOOP
  · simp only [hop, if_true, Option.some.injEq, Prod.mk.injEq] at h
    obtain ⟨h1, -, -⟩ := h
    subst h1
    rfl
  · simp only [hop, if_false] at h
    have hlu : (if pg.info.last_complete = pg.info.last_update then
        { pg.info with last_complete := nv } else pg.info).last_update = pg.info.last_update := by
      split <;> rfl
    rw [hlu] at h
    by_cases hv : nv > pg.info.last_update
    · rw [if_pos hv] at h
      split at h
      · simp at h
      · simp only [Option.some.injEq, Prod.mk.injEq] at h
        obtain ⟨h1, -, -⟩ := h
        subst h1
        rfl
    · rw [if_neg hv] at h
      simp at h

/-- The two builders leave the store alone. -/
theorem prepare_transaction_store (pg pg1 : ReplicatedPG) (t t1 : Transaction)
    (op op1 : MOSDOp) (nv : eversion_t) (crev rev : Nat) (trim_to : eversion_t)
    (h : prepare_transaction pg t op nv crev rev trim_to = some (pg1, t1, op1)) :
    pg1.store = pg.store := by
  unfold prepare_transaction at h
  cases hl : prepare_log_transaction pg t op nv crev rev trim_to with
  | none => rw [hl] at h; simp at h
  | some r =>
    obtain ⟨pga, ta⟩ := r
    rw [hl] at h
    simp only at h
    have h1 := (prepare_log_transaction_some _ _ _ _ _ _ _ _ _ hl).1
    have h2 := prepare_op_transaction_frame _ _ _ _ _ _ _ _ _ h
    rw [h2, h1]

/-- On the acker every result of the store is tolerated: `apply_repop` reads the result of
`apply_transaction` only to print it, and returns for a gather not applied yet whatever the
store is going to return. -/
theorem apply_repop_any_result (pg : ReplicatedPG) (g : RepGather) (h : g.applied = false) :
    ∃ pg1 g1, apply_repop pg g = some (pg1, g1) ∧ g1.applied = true ∧
      pg1.store.applied = pg.store.applied ++ [g.t] ∧
      pg1.store.results = pg.store.results.tail := by
  unfold apply_repop
  simp only [h, Bool.false_eq_true, if_false, ObjectStore.apply_transaction]
  exact ⟨_, _, rfl, rfl, rfl, rfl⟩

/-- On the non-acker path of `op_modify` the result of the store is tolerated if and only if
it is 0 or 2: once the builders returned, `op_modify` returns exactly then. -/
theorem op_modify_apply_result (acker : Int) (pg : ReplicatedPG) (op : MOSDOp)
    (nv : eversion_t) (crev : Nat)
    (hprep : (prepare_transaction pg [] op nv crev op.rev pg.peers_complete_thru).isSome = true) :
    (op_modify_apply acker pg op nv crev).isSome = true ↔
      (pg.store.results.headD 0 = 0 ∨ pg.store.results.headD 0 = 2) := by
  cases hp : prepare_transaction pg [] op nv crev op.rev pg.peers_complete_thru with
  | none => rw [hp] at hprep; simp at hprep
  | some r =>
    obtain ⟨pg2, t2, op1⟩ := r
    have hst := prepare_transaction_store _ _ _ _ _ _ _ _ _ _ hp
    unfold prepare_transaction at hp
    unfold op_modify_apply
    cases hl : prepare_log_transaction pg [] op nv crev op.rev pg.peers_complete_thru with
    | none => rw [hl] at hp; simp at hp
    | some r1 =>
      obtain ⟨pga, ta⟩ := r1
      rw [hl] at hp
      simp only at hp ⊢
      rw [hp]
      simp only [ObjectStore.apply_transaction, hst]
      generalize pg.store.results.headD 0 = r
      by_cases h0 : r = 0 <;> by_cases h2 : r = 2 <;> simp [h0, h2]

/-- On the non-acker path of `op_rep_modify` the result of the store is tolerated if and
only if it is 0 or 2. -/
theorem op_rep_modify_apply_result (ackerosd : Int) (pg : ReplicatedPG) (op : MOSDOp)
    (nv : eversion_t) (crev : Nat)
    (hprep : op.op ≠ OSD_OP_WRNOOP →
      (prepare_transaction pg [] op nv crev op.rev op.pg_trim_to).isSome = true) :
    (op_rep_modify_apply ackerosd pg op nv crev).isSome = true ↔
      (pg.store.results.headD 0 = 0 ∨ pg.store.results.headD 0 = 2) := by
  unfold op_rep_modify_apply
  by_cases hop : op.op = OSD_OP_WRNOOP
  · simp only [hop, ne_eq, not_true_eq_false, if_false, ObjectStore.apply_transaction]
    generalize pg.store.results.headD 0 = r
    by_cases h0 : r = 0 <;> by_cases h2 : r = 2 <;> simp [h0, h2]
  · have hprep2 := hprep hop
    cases hp : prepare_transaction pg [] op nv crev op.rev op.pg_trim_to with
    | none => rw [hp] at hprep2; simp at hprep2
    | some r =>
      obtain ⟨pg2, t2, op1⟩ := r
      have hst := prepare_transaction_store _ _ _ _ _ _ _ _ _ _ hp
      unfold prepare_transaction at hp
      simp only [hop, ne_eq, not_false_eq_true, if_true]
      cases hl : prepare_log_transaction pg [] op nv crev op.rev op.pg_trim_to with
      | none => rw [hl] at hp; simp at hp
      | some r1 =>
        obtain ⟨pga, ta⟩ := r1
        rw [hl] at hp
        simp only at hp ⊢
        rw [hp]
        simp only [ObjectStore.apply_transaction, hst]
        generalize pg.store.results.headD 0 = r
        by_cases h0 : r = 0 <;> by_cases h2 : r = 2 <;> simp [h0, h2]

/-- C23. Store errors. On the non-acker paths a result of `apply_transaction` other than 0
and 2 is fatal: with the store returning 5 (or 1) `op_modify` in chain and splay mode and
`op_rep_modify` on a replica fail their assertion, with 0 or 2 they return. On the acker the
result is not checked: `apply_repop` prints it and goes on; with the store returning 5 the
write on a single-peer PG is marked applied and the client is sent the ack. -/
theorem store_result_tolerated :
    (op_modify 1 (with_store_result 0 chain_primary_pg) sample_op).isSome = true ∧
    (op_modify 1 (with_store_result 2 chain_primary_pg) sample_op).isSome = true ∧
    op_modify 1 (with_store_result 5 chain_primary_pg) sample_op = none ∧
    op_modify 1 (with_store_result 1 splay_primary_pg) sample_op = none ∧
    (op_rep_modify 0 false (with_store_result 0 replica_pg) rep_write).isSome = true ∧
    (op_rep_modify 0 false (with_store_result 2 replica_pg) rep_write).isSome = true ∧
    op_rep_modify 0 false (with_store_result 5 replica_pg) rep_write = none ∧
    (apply_repop (with_store_result 5 sample_pg) sample_gather).map
        (fun r => (r.2.applied, r.1.store.applied)) = some (true, [sample_gather.t]) ∧
    (op_modify 0 (with_store_result 5 single_peer_pg) sample_op).map
        (fun r => (client_replies r.1.sent, r.1.store.applied.length,
          r.1.rep_gather.map (fun g => g.2.applied))) = some ([false], 1, [true]) := by
  refine ⟨by decide, by decide, by decide, by decide, by decide, by decide, by decide,
    by decide, by decide⟩

/-! ## Chain mode: who acks to the tail -/

/-- C22. Chain mode on `acting = [0, 1, 2]`. The primary osd 0 sends the op to `acting[2]`;
osd 2, at the last rank, wraps and forwards it to `acting[1]`, so osd 1 is where the chain
ends and osd 2 is the peer that forwards the op to it. On osd 1 `new_rep_gather` awaits the
ack of `acting[myrank - 1]`, which is osd 0: `waitfor_ack` is `[1, 0]`. The ack inferred from
the source of the message erases osd 2, which is not there; after `op_rep_modify` and its
local ack osd 0 is still awaited, nothing has been applied and the client has no ack. Were
the last rank the acker, osd 2 would get the op from osd 0 and await osd 1, with the same
effect. On `acting = [0, 1]` the forwarder is osd 0 and is the one awaited: the ack goes
out. -/
theorem chain_predecessor_ack :
    forwarded (op_modify 1 (chain3_pg 0) sample_op) = some (chain3_hop1, 2) ∧
    forwarded (op_rep_modify 1 false (chain3_pg 2) chain3_hop1) = some (chain3_hop2, 1) ∧
    (new_rep_gather (chain3_pg 1) chain3_hop2).2.waitfor_ack = [1, 0] ∧
    gather_waits (op_rep_modify 1 true (chain3_pg 1) chain3_hop2) =
      some ([0], [0, 1, 2], false) ∧
    (op_rep_modify 1 true (chain3_pg 1) chain3_hop2).map (fun r => client_replies r.1.sent) =
      some [] ∧
    (new_rep_gather (chain3_pg 2) chain3_hop1).2.waitfor_ack = [2, 1] ∧
    gather_waits (op_rep_modify 2 true (chain3_pg 2) chain3_hop1) =
      some ([1], [0, 1, 2], false) ∧
    (forwarded (op_modify 1 (chain2_pg 0) sample_op)).map (fun m => (m.1.source, m.2)) =
      some (0, 1) ∧
    (new_rep_gather (chain2_pg 1) chain3_hop1).2.waitfor_ack = [1, 0] ∧
    gather_waits (op_rep_modify 1 true (chain2_pg 1) chain3_hop1) = some ([], [0, 1], true) ∧
    (op_rep_modify 1 true (chain2_pg 1) chain3_hop1).map (fun r => client_replies r.1.sent) =
      some [false] := by
  refine ⟨by decide, by decide, by decide, by decide, by decide, by decide, by decide,
    by decide, by decide, by decide, by decide⟩

/-- Chain mode on any acting set `a0 :: a1 :: rest`: on the node `a1`, at rank 1,
`new_rep_gather` awaits the acks of `a1` itself and of `a0`, the primary. -/
theorem new_rep_gather_chain_rank1 (pg : ReplicatedPG) (op : MOSDOp) (a0 a1 : Int)
    (rest : List Int) (hmode : pg.osd_rep = OSD_REP_CHAIN) (hact : pg.acting = a0 :: a1 :: rest)
    (hne : a0 ≠ a1) (hme : pg.whoami = a1) :
    (new_rep_gather pg op).2.waitfor_ack = [a1, a0] := by
  have hrank : calc_pg_rank a1 (a0 :: a1 :: rest) = 1 := by
    unfold calc_pg_rank
    have h1 : List.indexOf a1 (a0 :: a1 :: rest) = 1 := by
      rw [List.indexOf_cons_ne _ hne, List.indexOf_cons_eq _ rfl]
    simp [h1]
  have hwa : (pg.acting.foldl add_commit_osd
      (RepGather.new op op.rep_tid op.version pg.info.last_complete)).waitfor_ack = [] :=
    (new_rep_gather_commit_loop pg.acting
      (RepGather.new op op.rep_tid op.version pg.info.last_complete)).2
  rw [(new_rep_gather_pg pg op).2.2.2.1]
  unfold new_rep_gather_sets
  simp only [hmode, if_true, hme]
  generalize pg.acting.foldl add_commit_osd
    (RepGather.new op op.rep_tid op.version pg.info.last_complete) = r1 at hwa ⊢
  rw [hact, hrank]
  have hne2 : ¬ a0 = a1 := hne
  simp [add_chain_osd, set_insert, hwa, hne2]

/-- Chain mode on any acting set without repetition: a node at the last rank that forwards
the op sends it to `acting[1]`. -/
theorem chain_forward_last (pg : ReplicatedPG) (op : MOSDOp) (a0 a1 : Int) (rest : List Int)
    (hact : pg.acting = a0 :: a1 :: rest) (hnd : pg.acting.Nodup)
    (hme : some pg.whoami = pg.acting.getLast?) :
    chain_forward pg op = some (issue_repop pg op a1) := by
  have hlen : 0 < pg.acting.length := by rw [hact]; simp
  have hmem : pg.whoami ∈ pg.acting := by
    exact List.mem_of_getLast?_eq_some hme.symm
  have hidx : pg.acting.indexOf pg.whoami = pg.acting.length - 1 := by
    have hl : pg.acting.getLast? = some (pg.acting.get ⟨pg.acting.length - 1, by omega⟩) := by
      rw [List.getLast?_eq_getElem?]
      simp [List.getElem?_eq_getElem]
    rw [hl] at hme
    simp only [Option.some.injEq] at hme
    rw [hme]
    exact List.get_indexOf hnd ⟨pg.acting.length - 1, by omega⟩
  unfold chain_forward calc_pg_rank
  simp only [hmem, if_true, hidx]
  have hl3 : pg.acting.length = rest.length + 2 := by rw [hact]; simp
  have hc : ((pg.acting.length - 1 : Nat) : Int) + 1 = (pg.acting.length : Int) := by omega
  simp only [hc, if_true]
  rw [hact]
  simp

/-! ## The transaction of a gather is applied once -/

/-- The first half of `put_rep_gather` either leaves the store and the flags `applied` and
`sent_ack` alone, or, on a gather that waits for no ack, has sent none and is not applied,
hands the transaction and the commit callback to the store and sets both flags. -/
theorem put_rep_gather_reply_applied (pg pg1 : ReplicatedPG) (g g1 : RepGather)
    (h : put_rep_gather_reply pg g = some (pg1, g1)) :
    g1.t = g.t ∧
    ((g1.applied = g.applied ∧ g1.sent_ack = g.sent_ack ∧ pg1.store = pg.store) ∨
     (g.waitfor_ack = [] ∧ g.sent_ack = false ∧ g.applied = false ∧
      g1.applied = true ∧ g1.sent_ack = true ∧
      pg1.store.applied = pg.store.applied ++ [g.t] ∧
      pg1.store.oncommit = pg.store.oncommit ++
        [{ rep_tid := g.rep_tid, pg_last_complete := g.pg_local_last_complete }])) := by
  unfold put_rep_gather_reply at h
  by_cases hc : (g.can_send_commit && g.op.wants_commit) = true
  · rw [if_pos hc] at h
    simp only [Option.some.injEq, Prod.mk.injEq] at h
    obtain ⟨h1, h2⟩ := h
    subst h1 h2
    exact ⟨rfl, Or.inl ⟨rfl, rfl, rfl⟩⟩
  · rw [if_neg hc] at h
    by_cases ha : (g.can_send_ack && g.op.wants_ack) = true
    · rw [if_pos ha] at h
      simp only [RepGather.can_send_ack, Bool.and_eq_true, List.isEmpty_iff,
        Bool.not_eq_true'] at ha
      unfold apply_repop at h
      by_cases hap : g.applied = true
      · simp [hap] at h
      · have hapf : g.applied = false := by simpa using hap
        simp only [hapf, Bool.false_eq_true, if_false, Option.some.injEq, Prod.mk.injEq] at h
        obtain ⟨h1, h2⟩ := h
        subst h1 h2
        exact ⟨rfl, Or.inr ⟨ha.1.1, ha.1.2, hapf, rfl, rfl, rfl, rfl⟩⟩
    · rw [if_neg ha] at h
      simp only [Option.some.injEq, Prod.mk.injEq] at h
      obtain ⟨h1, h2⟩ := h
      subst h1 h2
      exact ⟨rfl, Or.inl ⟨rfl, rfl, rfl⟩⟩

/-- The method `put_rep_gather` on a well-formed gather: the store gets the transaction of
the gather if the gather was not applied and the ack branch is taken, and nothing otherwise;
the gather it leaves in the table is well-formed. -/
theorem put_rep_gather_wf (pg pg1 : ReplicatedPG) (rep_tid : Nat) (g : RepGather)
    (hwf : gather_wf pg rep_tid g) (h : put_rep_gather pg g = some pg1) :
    (pg1.store.applied = pg.store.applied ∨
      (g.applied = false ∧ pg1.store.applied = pg.store.applied ++ [g.t])) ∧
    ∀ g1, map_find pg1.rep_gather rep_tid = some g1 →
      gather_wf pg1 rep_tid g1 ∧ g1.t = g.t ∧
      g1.waitfor_ack = g.waitfor_ack ∧ g1.waitfor_commit = g.waitfor_commit ∧
      ((g1.applied = g.applied ∧ pg1.store.applied = pg.store.applied) ∨
        (g.applied = false ∧ g1.applied = true ∧
          pg1.store.applied = pg.store.applied ++ [g.t])) := by
  obtain ⟨w1, w2, w3, w4, w5⟩ := hwf
  unfold put_rep_gather at h
  cases hr : put_rep_gather_reply pg g with
  | none => rw [hr] at h; simp at h
  | some r =>
    obtain ⟨pga, ga⟩ := r
    rw [hr] at h
    simp only at h
    obtain ⟨-, -, -, htab, -, -, htid, hwa, hwc⟩ := put_rep_gather_reply_frame pg pga g ga hr
    obtain ⟨ht, hcase⟩ := put_rep_gather_reply_applied pg pga g ga hr
    obtain ⟨-, -, hst, -, hdone⟩ := put_rep_gather_done_cases pga pg1 ga h
    have hwfa : gather_wf pga rep_tid ga ∧
        ((ga.applied = g.applied ∧ pga.store.applied = pg.store.applied) ∨
          (g.applied = false ∧ ga.applied = true ∧
            pga.store.applied = pg.store.applied ++ [g.t])) := by
      rcases hcase with ⟨c1, c2, c3⟩ | ⟨c1, c2, c3, c4, c5, c6, c7⟩
      · refine ⟨⟨htid.trans w1, by rw [c1, c2]; exact w2, by rw [hwa, hwc]; exact w3,
          by rw [c1, hwa]; exact w4, by rw [c1, c3]; exact w5⟩, Or.inl ⟨c1, by rw [c3]⟩⟩
      · refine ⟨⟨htid.trans w1, by rw [c4, c5], by rw [hwa, hwc]; exact w3,
          fun _ => by rw [hwa]; exact c1, ?_⟩, Or.inr ⟨c3, c4, c6⟩⟩
        intro hn
        rw [c4] at hn
        simp at hn
    constructor
    · rw [hst]
      rcases hwfa.2 with ⟨-, c⟩ | ⟨c1, -, c3⟩
      · exact Or.inl c
      · exact Or.inr ⟨c1, c3⟩
    · intro g1 hg1
      have hga : g1 = ga := by
        rcases hdone with hd | hd
        · rw [hd, htid.trans w1, map_find_erase_same] at hg1
          simp at hg1
        · rw [hd, htid.trans w1, map_find_set_same] at hg1
          simp only [Option.some.injEq] at hg1
          exact hg1.symm
      subst hga
      obtain ⟨⟨v1, v2, v3, v4, v5⟩, hc2⟩ := hwfa
      refine ⟨⟨v1, v2, v3, v4, by rw [hst]; exact v5⟩, ht, hwa, hwc, ?_⟩
      rw [hst]
      exact hc2

/-- After `put_rep_gather` on a well-formed gather whose transaction is accounted for, the
PG satisfies `apply_inv`. -/
theorem put_rep_gather_apply_inv (pg0 pg pg1 : ReplicatedPG) (rep_tid : Nat) (g : RepGather)
    (h : put_rep_gather pg g = some pg1) (hwf : gather_wf pg rep_tid g)
    (hacc : pg.store.applied = pg0.store.applied ++ (if g.applied then [g.t] else [])) :
    apply_inv pg0 rep_tid pg1 := by
  obtain ⟨hst, hlive⟩ := put_rep_gather_wf pg pg1 rep_tid g hwf h
  constructor
  · rcases hst with hs | ⟨ha, hs⟩
    · rw [hs, hacc]
      refine ⟨_, ?_, rfl⟩
      split <;> simp
    · rw [hs, hacc, ha]
      exact ⟨[g.t], by simp, by simp⟩
  · intro g1 hg1
    obtain ⟨hw1, ht, -, -, hc⟩ := hlive g1 hg1
    refine ⟨hw1, ?_⟩
    rcases hc with ⟨c1, c2⟩ | ⟨c1, c2, c3⟩
    · rw [c2, hacc, c1, ht]
    · rw [c3, hacc, c1, c2, ht]
      simp

/-- One event on the gather keeps `apply_inv`. -/
theorem rep_step_apply_inv (pg0 pg pg1 : ReplicatedPG) (rep_tid : Nat) (e : RepEvent)
    (hinv : apply_inv pg0 rep_tid pg) (h : rep_step rep_tid pg e = some pg1) :
    apply_inv pg0 rep_tid pg1 := by
  obtain ⟨hcount, hlive⟩ := hinv
  cases e with
  | local_ack =>
    simp only [rep_step] at h
    cases hf : map_find pg.rep_gather rep_tid with
    | none => rw [hf] at h; simp at h
    | some g =>
      rw [hf] at h
      simp only [local_ack] at h
      obtain ⟨⟨w1, w2, w3, w4, w5⟩, hacc⟩ := hlive g hf
      split at h
      · refine put_rep_gather_apply_inv pg0 pg pg1 rep_tid _ h ?_ hacc
        refine ⟨w1, w2, ?_, ?_, w5⟩
        · intro x hx
          exact w3 x ((mem_set_erase _ _ _).1 hx).1
        · intro ha
          have := w4 ha
          simp only at this ⊢
          rw [this]
          rfl
      · simp at h
  | reply r =>
    simp only [rep_step, op_reply] at h
    cases hf : map_find pg.rep_gather rep_tid with
    | none =>
      rw [hf] at h
      simp only [Option.some.injEq] at h
      subst h
      refine ⟨hcount, ?_⟩
      intro g hg
      exact hlive g hg
    | some g =>
      rw [hf] at h
      simp only [repop_ack] at h
      obtain ⟨⟨w1, w2, w3, w4, w5⟩, hacc⟩ := hlive g hf
      split at h
      · simp at h
      · rename_i g1 hu
        unfold repop_ack_update at hu
        by_cases hc : r.commit = true
        · simp only [hc, if_true] at hu
          split at hu
          · simp only [Option.some.injEq] at hu
            subst hu
            refine put_rep_gather_apply_inv pg0 pg pg1 rep_tid _ h ?_ hacc
            refine ⟨w1, w2, ?_, ?_, w5⟩
            · intro x hx
              have hx2 := (mem_set_erase _ _ _).1 hx
              exact (mem_set_erase _ _ _).2 ⟨w3 x hx2.1, hx2.2⟩
            · intro ha
              have := w4 ha
              simp only at this ⊢
              rw [this]
              rfl
          · simp at hu
        · have hcf : r.commit = false := by simpa using hc
          simp only [hcf, Bool.false_eq_true, if_false, Option.some.injEq] at hu
          subst hu
          refine put_rep_gather_apply_inv pg0 pg pg1 rep_tid _ h ?_ hacc
          refine ⟨w1, w2, ?_, ?_, w5⟩
          · intro x hx
            exact w3 x ((mem_set_erase _ _ _).1 hx).1
          · intro ha
            have := w4 ha
            simp only at this ⊢
            rw [this]
            rfl
  | op_modify_commit lc =>
    simp only [rep_step, write_commit_finish] at h
    split at h
    · rename_i hcb
      simp only [op_modify_commit] at h
      cases hf : map_find pg.rep_gather rep_tid with
      | none =>
        rw [hf] at h
        simp only [Option.some.injEq] at h
        subst h
        refine ⟨hcount, ?_⟩
        intro g hg
        rw [hf] at hg
        simp at hg
      | some g =>
        rw [hf] at h
        simp only at h
        obtain ⟨⟨w1, w2, w3, w4, w5⟩, hacc⟩ := hlive g hf
        have happ : g.applied = true := by
          by_contra hn
          exact w5 (by simpa using hn) _ hcb rfl
        split at h
        · refine put_rep_gather_apply_inv pg0 _ pg1 rep_tid _ h ?_ hacc
          refine ⟨w1, w2, ?_, w4, ?_⟩
          · intro x hx
            have hx2 : x ∈ g.waitfor_ack := hx
            rw [w4 happ] at hx2
            simp at hx2
          · intro hn
            have hn2 : g.applied = false := hn
            rw [happ] at hn2
            simp at hn2
        · simp at h
    · simp at h

/-- A run of events on the gather keeps `apply_inv`. -/
theorem rep_run_apply_inv (pg0 : ReplicatedPG) (rep_tid : Nat) (evs : List RepEvent)
    (pg pg1 : ReplicatedPG) (hinv : apply_inv pg0 rep_tid pg)
    (h : rep_run rep_tid pg evs = some pg1) : apply_inv pg0 rep_tid pg1 := by
  induction evs generalizing pg with
  | nil =>
    simp only [rep_run, Option.some.injEq] at h
    subst h
    exact hinv
  | cons e es ih =>
    simp only [rep_run] at h
    split at h
    · rename_i pg2 hstep
      exact ih pg2 (rep_step_apply_inv pg0 pg pg2 rep_tid e hinv hstep) h
    · simp at h

/-! ## One apply per gather -/

/-- In every replication mode the gather `new_rep_gather` builds awaits for commit every osd
it awaits for ack. -/
theorem new_rep_gather_sets_subset (pg : ReplicatedPG) (r : RepGather)
    (hr : r.waitfor_ack = []) :
    ∀ x ∈ (new_rep_gather_sets pg r).waitfor_ack, x ∈ (new_rep_gather_sets pg r).waitfor_commit := by
  obtain ⟨hc1, hc2⟩ := new_rep_gather_commit_loop pg.acting r
  unfold new_rep_gather_sets
  by_cases hm : pg.osd_rep = OSD_REP_CHAIN
  · simp only [hm, if_true]
    split
    · intro x hx
      simp only [add_chain_osd, mem_set_insert, hc2, hr] at hx ⊢
      rcases hx with (hx | hx) | hx
      · simp at hx
      · exact Or.inl (Or.inr hx)
      · exact Or.inr hx
    · intro x hx
      simp only [add_chain_osd, mem_set_insert, hc2, hr] at hx ⊢
      rcases hx with hx | hx
      · simp at hx
      · exact Or.inr hx
  · simp only [hm, if_false]
    obtain ⟨ha1, ha2⟩ := new_rep_gather_ack_loop pg.acting (pg.acting.foldl add_commit_osd r)
    intro x hx
    rw [ha2]
    rw [ha1, hc2, hr] at hx
    rcases hx with hx | hx
    · simp at hx
    · exact (hc1 x).2 (Or.inr hx)

/-- A gather fresh from `new_rep_gather`, for a `rep_tid` the store holds no commit callback
of, satisfies `apply_inv`. -/
theorem new_rep_gather_apply_inv (pg : ReplicatedPG) (op : MOSDOp)
    (hfresh : ∀ cb ∈ pg.store.oncommit, cb.rep_tid ≠ op.rep_tid) :
    apply_inv pg op.rep_tid (new_rep_gather pg op).1 := by
  obtain ⟨-, -, hst, hg, hfind⟩ := new_rep_gather_pg pg op
  obtain ⟨f1, f2, f3, -, -, -, -⟩ := new_rep_gather_sets_facts pg
    (RepGather.new op op.rep_tid op.version pg.info.last_complete)
  have hsub := new_rep_gather_sets_subset pg
    (RepGather.new op op.rep_tid op.version pg.info.last_complete) rfl
  rw [← hg] at f1 f2 f3 hsub
  simp only [RepGather.new] at f1 f2 f3
  constructor
  · exact ⟨[], by simp, by rw [hst]; simp⟩
  · intro g hgf
    rw [hfind] at hgf
    simp only [Option.some.injEq] at hgf
    subst hgf
    refine ⟨⟨f1, by rw [f2, f3], hsub, ?_, ?_⟩, ?_⟩
    · intro hn
      rw [f2] at hn
      simp at hn
    · intro _
      rw [hst]
      exact hfresh
    · rw [hst, f2]
      simp

/-- C24. A gather is made by `new_rep_gather` under a `rep_tid` for which the store holds no
commit callback yet. Whatever events then happen to it, each followed by the
`put_rep_gather` re-evaluation (the local ack; replies of peers with ack or commit, an ack
being the update the source-inferred ack of `op_rep_modify` makes; the store's commit
callback), `apply_repop` is invoked at most once: at most one transaction has been handed to
the store, and it is the one of the gather exactly if the live gather is marked applied;
the gather is applied exactly if its ack was sent. So whenever a further re-evaluation of
the gather, whatever was changed in it but the flags `applied` and `sent_ack`, reaches the
ack branch (no commit to send, nobody awaited for ack, no ack sent, the op wants an ack),
the flag `applied` is false, the assertion of `apply_repop` holds, the call returns, and
after the call `applied` is true. -/
theorem apply_repop_at_most_once (pg : ReplicatedPG) (op : MOSDOp) (evs : List RepEvent)
    (pg1 : ReplicatedPG) (hfresh : ∀ cb ∈ pg.store.oncommit, cb.rep_tid ≠ op.rep_tid)
    (hrun : rep_run op.rep_tid (new_rep_gather pg op).1 evs = some pg1) :
    (∃ l, l.length ≤ 1 ∧ pg1.store.applied = pg.store.applied ++ l) ∧
    ∀ g, map_find pg1.rep_gather op.rep_tid = some g →
      g.applied = g.sent_ack ∧
      pg1.store.applied = pg.store.applied ++ (if g.applied then [g.t] else []) ∧
      ∀ g1 : RepGather, g1.applied = g.applied → g1.sent_ack = g.sent_ack →
        (g1.can_send_commit && g1.op.wants_commit) = false →
        (g1.can_send_ack && g1.op.wants_ack) = true →
          g1.applied = false ∧
          ∃ pg2 g2, apply_repop pg1 g1 = some (pg2, g2) ∧ g2.applied = true ∧
            pg2.store.applied = pg1.store.applied ++ [g1.t] := by
  have hinv := rep_run_apply_inv pg op.rep_tid evs _ pg1 (new_rep_gather_apply_inv pg op hfresh)
    hrun
  obtain ⟨hcount, hlive⟩ := hinv
  refine ⟨hcount, ?_⟩
  intro g hg
  obtain ⟨⟨-, w2, -, -, -⟩, hacc⟩ := hlive g hg
  refine ⟨w2, hacc, ?_⟩
  intro g1 ha hs _ hack
  simp only [RepGather.can_send_ack, Bool.and_eq_true, List.isEmpty_iff,
    Bool.not_eq_true'] at hack
  have happ : g1.applied = false := by rw [ha, w2, ← hs]; exact hack.1.2
  refine ⟨happ, ?_⟩
  obtain ⟨pg2, g2, h1, h2, h3, -⟩ := apply_repop_any_result pg1 g1 happ
  exact ⟨pg2, g2, h1, h2, h3⟩

/-- Witness for C24 on the sample write: after the local ack and the ack of osd 1 the gather
is live and applied, and one transaction went to the store. -/
theorem apply_repop_at_most_once_witness :
    (∀ cb ∈ sample_pg.store.oncommit, cb.rep_tid ≠ sample_op.rep_tid) ∧
    rep_run sample_op.rep_tid (new_rep_gather sample_pg sample_op).1
      [RepEvent.local_ack, RepEvent.reply (sample_reply false)] = some sample_pg_acked ∧
    (∃ g, map_find sample_pg_acked.rep_gather sample_op.rep_tid = some g ∧ g.applied = true) ∧
    ((∃ l, l.length ≤ 1 ∧ sample_pg_acked.store.applied = sample_pg.store.applied ++ l) ∧
    ∀ g, map_find sample_pg_acked.rep_gather sample_op.rep_tid = some g →
      g.applied = g.sent_ack ∧
      sample_pg_acked.store.applied =
        sample_pg.store.applied ++ (if g.applied then [g.t] else []) ∧
      ∀ g1 : RepGather, g1.applied = g.applied → g1.sent_ack = g.sent_ack →
        (g1.can_send_commit && g1.op.wants_commit) = false →
        (g1.can_send_ack && g1.op.wants_ack) = true →
          g1.applied = false ∧
          ∃ pg2 g2, apply_repop sample_pg_acked g1 = some (pg2, g2) ∧ g2.applied = true ∧
            pg2.store.applied = sample_pg_acked.store.applied ++ [g1.t]) :=
  ⟨by simp [sample_pg], by decide, ⟨_, rfl, rfl⟩,
   apply_repop_at_most_once sample_pg sample_op
     [RepEvent.local_ack, RepEvent.reply (sample_reply false)] sample_pg_acked
     (by simp [sample_pg]) (by decide)⟩

/-! ## Acks are awaited within commits -/

/-- A gather stays well-formed when its wait set for acks shrinks and its transaction or op
change, on a PG with the same pending commit callbacks. -/
theorem gather_wf_shrink (pg pg1 : ReplicatedPG) (rep_tid : Nat) (g g1 : RepGather)
    (hwf : gather_wf pg rep_tid g) (hst : pg1.store.oncommit = pg.store.oncommit)
    (h1 : g1.rep_tid = g.rep_tid) (h2 : g1.applied = g.applied) (h3 : g1.sent_ack = g.sent_ack)
    (h4 : g1.waitfor_commit = g.waitfor_commit)
    (h5 : ∀ x ∈ g1.waitfor_ack, x ∈ g.waitfor_ack) : gather_wf pg1 rep_tid g1 := by
  obtain ⟨w1, w2, w3, w4, w5⟩ := hwf
  refine ⟨h1.trans w1, by rw [h2, h3]; exact w2, ?_, ?_, ?_⟩
  · intro x hx
    rw [h4]
    exact w3 x (h5 x hx)
  · intro ha
    rw [h2] at ha
    have := w4 ha
    apply List.eq_nil_iff_forall_not_mem.2
    intro x hx
    have hx2 := h5 x hx
    rw [this] at hx2
    simp at hx2
  · intro ha
    rw [h2] at ha
    rw [hst]
    exact w5 ha

/-- The block of `op_rep_modify` that finds or makes the gather and infers the ack of the
sender keeps the gather of the table well-formed. -/
theorem op_rep_modify_gather_wf (pg pg1 : ReplicatedPG) (op : MOSDOp) (made : Bool)
    (h : op_rep_modify_gather pg op = some (pg1, made))
    (hwf : ∀ g, map_find pg.rep_gather op.rep_tid = some g → gather_wf pg op.rep_tid g)
    (hfresh : map_find pg.rep_gather op.rep_tid = none →
      ∀ cb ∈ pg.store.oncommit, cb.rep_tid ≠ op.rep_tid) :
    ∀ g1, map_find pg1.rep_gather op.rep_tid = some g1 → gather_wf pg1 op.rep_tid g1 := by
  unfold op_rep_modify_gather at h
  cases hf : map_find pg.rep_gather op.rep_tid with
  | some g =>
    rw [hf] at h
    simp only [Option.map_eq_some', Prod.mk.injEq] at h
    obtain ⟨p, hp, hp1, -⟩ := h
    subst hp1
    have hw := gather_wf_shrink pg pg op.rep_tid g
      { g with waitfor_ack := set_erase g.waitfor_ack op.source } (hwf g hf) rfl rfl rfl rfl rfl
      (fun x hx => ((mem_set_erase _ _ _).1 hx).1)
    intro g1 hg1
    exact ((put_rep_gather_wf pg p op.rep_tid _ hw hp).2 g1 hg1).1
  | none =>
    rw [hf] at h
    simp only [Option.map_eq_some', Prod.mk.injEq] at h
    obtain ⟨p, hp, hp1, -⟩ := h
    subst hp1
    obtain ⟨-, -, -, -, hfind⟩ := new_rep_gather_pg pg op
    have hw0 := ((new_rep_gather_apply_inv pg op (hfresh hf)).2 _ hfind).1
    have hw := gather_wf_shrink _ _ op.rep_tid _
      { (new_rep_gather pg op).2 with
        waitfor_ack := set_erase (new_rep_gather pg op).2.waitfor_ack op.source } hw0 rfl rfl
      rfl rfl rfl (fun x hx => ((mem_set_erase _ _ _).1 hx).1)
    intro g1 hg1
    exact ((put_rep_gather_wf _ p op.rep_tid _ hw hp).2 g1 hg1).1

/-- The acker's part of `op_rep_modify` from the transaction build to the local ack keeps the
gather of the table well-formed. -/
theorem op_rep_modify_acker_wf (pg pg1 : ReplicatedPG) (op : MOSDOp) (made : Bool)
    (nv : eversion_t) (crev : Nat)
    (h : op_rep_modify_acker pg op made nv crev = some pg1)
    (hwf : ∀ g, map_find pg.rep_gather op.rep_tid = some g → gather_wf pg op.rep_tid g) :
    ∀ g1, map_find pg1.rep_gather op.rep_tid = some g1 → gather_wf pg1 op.rep_tid g1 := by
  unfold op_rep_modify_acker at h
  cases hf : map_find pg.rep_gather op.rep_tid with
  | none => rw [hf] at h; simp at h
  | some g =>
    rw [hf] at h
    simp only at h
    by_cases hop : op.op = OSD_OP_WRNOOP
    · simp only [hop, ne_eq, not_true_eq_false, if_false, local_ack] at h
      split at h
      · have hw := gather_wf_shrink pg pg op.rep_tid g
          { g with waitfor_ack := set_erase g.waitfor_ack pg.whoami } (hwf g hf) rfl rfl rfl rfl
          rfl (fun x hx => ((mem_set_erase _ _ _).1 hx).1)
        intro g1 hg1
        exact ((put_rep_gather_wf pg pg1 op.rep_tid _ hw h).2 g1 hg1).1
      · simp at h
    · simp only [ne_eq, hop, not_false_eq_true, if_true] at h
      cases hl : prepare_log_transaction pg g.t op nv crev op.rev op.pg_trim_to with
      | none => rw [hl] at h; simp at h
      | some r =>
        obtain ⟨pga, ta⟩ := r
        rw [hl] at h
        simp only at h
        cases hp : prepare_op_transaction pga ta op nv crev op.rev with
        | none => rw [hp] at h; simp at h
        | some r2 =>
          obtain ⟨pgb, tb, opb⟩ := r2
          rw [hp] at h
          simp only [local_ack] at h
          have e1 := (prepare_log_transaction_some _ _ _ _ _ _ _ _ _ hl).1
          have e2 := prepare_op_transaction_frame _ _ _ _ _ _ _ _ _ hp
          have hst : pgb.store = pg.store := by rw [e2, e1]
          split at h
          · have hw := gather_wf_shrink pg pgb op.rep_tid g
              { g with t := tb, op := if made then opb else g.op,
                       waitfor_ack := set_erase g.waitfor_ack pgb.whoami }
              (hwf g hf) (by rw [hst]) rfl rfl rfl rfl
              (fun x hx => ((mem_set_erase _ _ _).1 hx).1)
            intro g1 hg1
            exact ((put_rep_gather_wf pgb pg1 op.rep_tid _ hw h).2 g1 hg1).1
          · simp at h

/-- On the acker in chain or splay mode `op_rep_modify` keeps the gather of the op's
`rep_tid` well-formed, whether it finds the gather or makes it. -/
theorem op_rep_modify_wf (acker : Int) (pg pg1 : ReplicatedPG) (op : MOSDOp)
    (cb : Option C_OSD_RepModifyCommit)
    (h : op_rep_modify acker true pg op = some (pg1, cb))
    (hmode : pg.osd_rep = OSD_REP_CHAIN ∨ pg.osd_rep = OSD_REP_SPLAY)
    (hwf : ∀ g, map_find pg.rep_gather op.rep_tid = some g → gather_wf pg op.rep_tid g)
    (hfresh : map_find pg.rep_gather op.rep_tid = none →
      ∀ cb ∈ pg.store.oncommit, cb.rep_tid ≠ op.rep_tid) :
    ∀ g1, map_find pg1.rep_gather op.rep_tid = some g1 → gather_wf pg1 op.rep_tid g1 := by
  unfold op_rep_modify at h
  simp only at h
  split at h
  · simp at h
  · split at h
    · simp at h
    · simp only [if_true] at h
      cases hg : op_rep_modify_gather pg op with
      | none => rw [hg] at h; simp at h
      | some r =>
        obtain ⟨pga, made⟩ := r
        rw [hg] at h
        simp only [Option.map_eq_some', Prod.mk.injEq] at h
        obtain ⟨p, hp, hp1, -⟩ := h
        subst hp1
        exact op_rep_modify_acker_wf pga p op made _ _ hp
          (op_rep_modify_gather_wf pg pga op made hg hwf hfresh)
/-- C25. A gather is made by `new_rep_gather` under a `rep_tid` for which the store holds no
commit callback yet. In every replication mode the new gather awaits for commit every osd it
awaits for ack, and so does the live gather after every sequence of events on it that
returns: the local ack, `repop_ack` with an ack or a commit, and `op_modify_commit` fired by
the store. When `op_modify_commit` returns, the gather it found was applied and the local
node had left `waitfor_ack`, and the inclusion holds afterwards. The source-inferred ack of
`op_rep_modify` on a live gather is the update an ack reply of the sender makes, and the
whole of `op_rep_modify` on the acker in chain or splay mode keeps the inclusion, on a live
gather as on one it makes itself. -/
theorem waitfor_ack_subset_waitfor_commit (pg : ReplicatedPG) (op : MOSDOp)
    (evs : List RepEvent) (pg1 : ReplicatedPG)
    (hfresh : ∀ cb ∈ pg.store.oncommit, cb.rep_tid ≠ op.rep_tid)
    (hrun : rep_run op.rep_tid (new_rep_gather pg op).1 evs = some pg1) :
    (∀ x ∈ (new_rep_gather pg op).2.waitfor_ack, x ∈ (new_rep_gather pg op).2.waitfor_commit) ∧
    (∀ g, map_find pg1.rep_gather op.rep_tid = some g →
      (∀ x ∈ g.waitfor_ack, x ∈ g.waitfor_commit) ∧
      (∀ lc pg2, rep_step op.rep_tid pg1 (RepEvent.op_modify_commit lc) = some pg2 →
        g.applied = true ∧ pg1.whoami ∉ g.waitfor_ack ∧
        ∀ g2, map_find pg2.rep_gather op.rep_tid = some g2 →
          ∀ x ∈ g2.waitfor_ack, x ∈ g2.waitfor_commit) ∧
      (∀ (r : MOSDOpReply) (rop : MOSDOp), rop.rep_tid = op.rep_tid → r.commit = false →
        r.source = rop.source →
        op_rep_modify_gather pg1 rop =
          (rep_step op.rep_tid pg1 (RepEvent.reply r)).map (fun p => (p, false))) ∧
      (∀ (acker : Int) (rop : MOSDOp) pg2 cb, rop.rep_tid = op.rep_tid →
        pg1.osd_rep = OSD_REP_CHAIN ∨ pg1.osd_rep = OSD_REP_SPLAY →
        op_rep_modify acker true pg1 rop = some (pg2, cb) →
        ∀ g2, map_find pg2.rep_gather op.rep_tid = some g2 →
          ∀ x ∈ g2.waitfor_ack, x ∈ g2.waitfor_commit)) ∧
    (∀ (acker : Int) pg2 cb, map_find pg.rep_gather op.rep_tid = none →
      pg.osd_rep = OSD_REP_CHAIN ∨ pg.osd_rep = OSD_REP_SPLAY →
      op_rep_modify acker true pg op = some (pg2, cb) →
      ∀ g2, map_find pg2.rep_gather op.rep_tid = some g2 →
        ∀ x ∈ g2.waitfor_ack, x ∈ g2.waitfor_commit) := by
  have hinit := new_rep_gather_apply_inv pg op hfresh
  have hinv := rep_run_apply_inv pg op.rep_tid evs _ pg1 hinit hrun
  refine ⟨?_, ?_, ?_⟩
  · exact ((hinit.2 _ (new_rep_gather_pg pg op).2.2.2.2).1).2.2.1
  · intro g hg
    obtain ⟨hwf, -⟩ := hinv.2 g hg
    obtain ⟨w1, w2, w3, w4, w5⟩ := hwf
    refine ⟨w3, ?_, ?_, ?_⟩
    · intro lc pg2 hstep
      have hinv2 := rep_step_apply_inv pg pg1 pg2 op.rep_tid _ hinv hstep
      have happ : g.applied = true := by
        cases ha : g.applied with
        | true => rfl
        | false =>
          exfalso
          simp only [rep_step, write_commit_finish] at hstep
          split at hstep
          · rename_i hmem
            exact w5 ha _ hmem rfl
          · simp at hstep
      refine ⟨happ, ?_, ?_⟩
      · rw [w4 happ]
        simp
      · intro g2 hg2
        exact ((hinv2.2 g2 hg2).1).2.2.1
    · intro r rop htid hc hs
      simp only [op_rep_modify_gather, rep_step, op_reply, htid, hg, repop_ack, repop_ack_update,
        hc, hs, Bool.false_eq_true, if_false, Option.isNone_some]
    · intro acker rop pg2 cb htid hmode h g2 hg2
      rw [← htid] at hg2 hg
      have := op_rep_modify_wf acker pg1 pg2 rop cb h hmode
        (fun g0 hg0 => by
          rw [hg] at hg0
          simp only [Option.some.injEq] at hg0
          subst hg0
          rw [htid]
          exact ⟨w1, w2, w3, w4, w5⟩)
        (fun hn => by rw [hg] at hn; simp at hn) g2 hg2
      exact this.2.2.1
  · intro acker pg2 cb hnone hmode h g2 hg2
    have := op_rep_modify_wf acker pg pg2 op cb h hmode
      (fun g0 hg0 => by rw [hnone] at hg0; simp at hg0) (fun _ => hfresh) g2 hg2
    exact this.2.2.1

/-- Witness for C25 on the sample write: after the local ack the live gather awaits osd 1 for
ack and osds 0 and 1 for commit. -/
theorem waitfor_ack_subset_waitfor_commit_witness :
    (∀ cb ∈ sample_pg.store.oncommit, cb.rep_tid ≠ sample_op.rep_tid) ∧
    rep_run sample_op.rep_tid (new_rep_gather sample_pg sample_op).1 [RepEvent.local_ack] =
      some sample_pg_local_acked ∧
    (∃ g, map_find sample_pg_local_acked.rep_gather sample_op.rep_tid = some g ∧
      g.waitfor_ack = [1] ∧ g.waitfor_commit = [0, 1]) ∧
    ((∀ x ∈ (new_rep_gather sample_pg sample_op).2.waitfor_ack,
        x ∈ (new_rep_gather sample_pg sample_op).2.waitfor_commit) ∧
    (∀ g, map_find sample_pg_local_acked.rep_gather sample_op.rep_tid = some g →
      (∀ x ∈ g.waitfor_ack, x ∈ g.waitfor_commit) ∧
      (∀ lc pg2,
        rep_step sample_op.rep_tid sample_pg_local_acked (RepEvent.op_modify_commit lc) =
          some pg2 →
        g.applied = true ∧ sample_pg_local_acked.whoami ∉ g.waitfor_ack ∧
        ∀ g2, map_find pg2.rep_gather sample_op.rep_tid = some g2 →
          ∀ x ∈ g2.waitfor_ack, x ∈ g2.waitfor_commit) ∧
      (∀ (r : MOSDOpReply) (rop : MOSDOp), rop.rep_tid = sample_op.rep_tid → r.commit = false →
        r.source = rop.source →
        op_rep_modify_gather sample_pg_local_acked rop =
          (rep_step sample_op.rep_tid sample_pg_local_acked (RepEvent.reply r)).map
            (fun p => (p, false))) ∧
      (∀ (acker : Int) (rop : MOSDOp) pg2 cb, rop.rep_tid = sample_op.rep_tid →
        sample_pg_local_acked.osd_rep = OSD_REP_CHAIN ∨
          sample_pg_local_acked.osd_rep = OSD_REP_SPLAY →
        op_rep_modify acker true sample_pg_local_acked rop = some (pg2, cb) →
        ∀ g2, map_find pg2.rep_gather sample_op.rep_tid = some g2 →
          ∀ x ∈ g2.waitfor_ack, x ∈ g2.waitfor_commit)) ∧
    (∀ (acker : Int) pg2 cb, map_find sample_pg.rep_gather sample_op.rep_tid = none →
      sample_pg.osd_rep = OSD_REP_CHAIN ∨ sample_pg.osd_rep = OSD_REP_SPLAY →
      op_rep_modify acker true sample_pg sample_op = some (pg2, cb) →
      ∀ g2, map_find pg2.rep_gather sample_op.rep_tid = some g2 →
        ∀ x ∈ g2.waitfor_ack, x ∈ g2.waitfor_commit)) :=
  ⟨by simp [sample_pg], by decide, ⟨_, rfl, rfl, rfl⟩,
   waitfor_ack_subset_waitfor_commit sample_pg sample_op [RepEvent.local_ack]
     sample_pg_local_acked (by simp [sample_pg]) (by decide)⟩

/-! ## Push before the replicated write -/

/-- What the push loop of `op_modify` does: it changes nothing but the store, `last_tid`,
the messages sent and `peer_missing`; it sends PUSH messages of the object only, to peers of
the list only that listed the object; a peer that does not list the object, or has no entry,
stays so; every peer of the list that listed the object no longer lists it and
has been sent a PUSH; and the store has answered one read for each push. -/
theorem push_before_update_spec (oid : object_t) (peers : List Int) (pg pg1 : ReplicatedPG)
    (h : push_before_update oid peers pg = some pg1) :
    ∃ more : List (Message × Dest),
      pg1 = { pg with store := pg1.store, last_tid := pg1.last_tid, sent := pg.sent ++ more,
                      peer_missing := pg1.peer_missing } ∧
      (∀ x ∈ more, ∃ m d pm, x = (Message.op m, Dest.osd d) ∧ m.op = OSD_OP_PUSH ∧
        m.oid = oid ∧ d ∈ peers ∧ map_find pg.peer_missing d = some pm ∧
        pm.is_missing oid = true) ∧
      (∀ p pm, map_find pg.peer_missing p = some pm → pm.is_missing oid = false →
        ∃ pm1, map_find pg1.peer_missing p = some pm1 ∧ pm1.is_missing oid = false) ∧
      (∀ p, map_find pg.peer_missing p = none → map_find pg1.peer_missing p = none) ∧
      (∀ p ∈ peers, ∀ pm, map_find pg.peer_missing p = some pm → pm.is_missing oid = true →
        (∃ pm1, map_find pg1.peer_missing p = some pm1 ∧ pm1.is_missing oid = false) ∧
        ∃ m, (Message.op m, Dest.osd p) ∈ more ∧ m.op = OSD_OP_PUSH ∧ m.oid = oid) ∧
      pg1.store.results = pg.store.results.drop more.length := by
  induction peers generalizing pg with
  | nil =>
    simp only [push_before_update, Option.some.injEq] at h
    subst h
    refine ⟨[], by simp, by simp, ?_, ?_, by simp, by simp⟩
    · intro p pm h1 h2
      exact ⟨pm, h1, h2⟩
    · intro p h1
      exact h1
  | cons peer rest ih =>
    unfold push_before_update at h
    split at h
    · rename_i hnone
      obtain ⟨more, hfr, hmore, hkeep, hno, hdone, hres⟩ := ih pg h
      refine ⟨more, hfr, ?_, hkeep, hno, ?_, hres⟩
      · intro x hx
        obtain ⟨m', d, pm, h1, h2, h3, h4, h5⟩ := hmore x hx
        exact ⟨m', d, pm, h1, h2, h3, List.mem_cons_of_mem _ h4, h5⟩
      · intro p hp pm h1 h2
        by_cases hpe : p = peer
        · subst hpe
          rw [hnone] at h1
          simp at h1
        · have hin : p ∈ rest := by
            rcases List.mem_cons.1 hp with hh | hh
            · exact absurd hh hpe
            · exact hh
          exact hdone p hin pm h1 h2
    · rename_i pm0 hpm0
      by_cases hmiss : pm0.is_missing oid = true
      · rw [if_pos hmiss] at h
        split at h
        · simp at h
        · rename_i pg2 hp
          obtain ⟨m, hm1, hm2, hpg2, hres2⟩ := push_some _ _ _ _ hp
          obtain ⟨more, hfr, hmore, hkeep, hno, hdone, hres⟩ := ih pg2 h
          have hpm2 : pg2.peer_missing = map_set pg.peer_missing peer (pm0.got oid) := by
            rw [hpg2]
          have hsent2 : pg2.sent = pg.sent ++ [(Message.op m, Dest.osd peer)] := by
            rw [hpg2]
          have hhead : ∃ pm1, map_find pg1.peer_missing peer = some pm1 ∧
              pm1.is_missing oid = false :=
            hkeep peer (pm0.got oid) (by rw [hpm2]; exact map_find_set_same _ _ _)
              (got_not_missing _ _)
          refine ⟨(Message.op m, Dest.osd peer) :: more, ?_, ?_, ?_, ?_, ?_, ?_⟩
          · rw [hfr, hpg2]
            simp
          · intro x hx
            rcases List.mem_cons.1 hx with hx | hx
            · exact ⟨m, peer, pm0, hx, hm1, hm2, List.mem_cons_self _ _, hpm0, hmiss⟩
            · obtain ⟨m', d, pm, h1, h2, h3, h4, h5, h6⟩ := hmore x hx
              have hd : d ≠ peer := by
                intro hd
                subst hd
                rw [hpm2, map_find_set_same] at h5
                simp only [Option.some.injEq] at h5
                subst h5
                rw [got_not_missing] at h6
                simp at h6
              rw [hpm2, map_find_set_ne _ _ _ _ hd] at h5
              exact ⟨m', d, pm, h1, h2, h3, List.mem_cons_of_mem _ h4, h5, h6⟩
          · intro p pm h1 h2
            by_cases hp : p = peer
            · subst hp
              exact hhead
            · exact hkeep p pm (by rw [hpm2, map_find_set_ne _ _ _ _ hp]; exact h1) h2
          · intro p h1
            by_cases hp : p = peer
            · subst hp
              rw [hpm0] at h1
              simp at h1
            · exact hno p (by rw [hpm2, map_find_set_ne _ _ _ _ hp]; exact h1)
          · intro p hp pm h1 h2
            by_cases hpe : p = peer
            · subst hpe
              exact ⟨hhead, m, List.mem_cons_self _ _, hm1, hm2⟩
            · have hin : p ∈ rest := by
                rcases List.mem_cons.1 hp with hh | hh
                · exact absurd hh hpe
                · exact hh
              obtain ⟨ha, m', hb, hc, hd⟩ :=
                hdone p hin pm (by rw [hpm2, map_find_set_ne _ _ _ _ hpe]; exact h1) h2
              exact ⟨ha, m', List.mem_cons_of_mem _ hb, hc, hd⟩
          · rw [hres, hres2]
            simp [List.drop_drop, List.tail_drop]
      · rw [if_neg hmiss] at h
        have hmf : pm0.is_missing oid = false := by simpa using hmiss
        obtain ⟨more, hfr, hmore, hkeep, hno, hdone, hres⟩ := ih pg h
        refine ⟨more, hfr, ?_, hkeep, hno, ?_, hres⟩
        · intro x hx
          obtain ⟨m', d, pm, h1, h2, h3, h4, h5⟩ := hmore x hx
          exact ⟨m', d, pm, h1, h2, h3, List.mem_cons_of_mem _ h4, h5⟩
        · intro p hp pm h1 h2
          by_cases hpe : p = peer
          · subst hpe
            rw [hpm0] at h1
            simp only [Option.some.injEq] at h1
            subst h1
            rw [hmf] at h2
            simp at h2
          · have hin : p ∈ rest := by
              rcases List.mem_cons.1 hp with hh | hh
              · exact absurd hh hpe
              · exact hh
            exact hdone p hin pm h1 h2

/-- The push loop of `op_modify` returns when the store reports success on every read. -/
theorem push_before_update_isSome (oid : object_t) (peers : List Int) (pg : ReplicatedPG)
    (hst : ∀ r ∈ pg.store.results, r = 0) :
    (push_before_update oid peers pg).isSome = true := by
  induction peers generalizing pg with
  | nil => rfl
  | cons peer rest ih =>
    unfold push_before_update
    split
    · exact ih pg hst
    · rename_i pm0 hpm0
      split
      · have hp := push_isSome { pg with peer_missing := map_set pg.peer_missing peer (pm0.got oid) }
          oid peer hst
        cases hq : push { pg with peer_missing := map_set pg.peer_missing peer (pm0.got oid) }
            oid peer with
        | none => rw [hq] at hp; simp at hp
        | some pg2 =>
          simp only
          apply ih
          obtain ⟨-, -, -, -, hres⟩ := push_some _ _ _ _ hq
          intro r hr
          rw [hres] at hr
          exact hst r (List.mem_of_mem_tail hr)
      · exact ih pg hst

/-- The method `issue_repop` sends one message, the op forwarded to `dest` with the opcode,
object, request id and `rep_tid` of the op, and changes nothing else. -/
theorem issue_repop_sent (pg : ReplicatedPG) (op : MOSDOp) (dest : Int) :
    ∃ m : MOSDOp, issue_repop pg op dest =
        { pg with sent := pg.sent ++ [(Message.op m, Dest.osd dest)] } ∧
      m.op = op.op ∧ m.oid = op.oid ∧ m.reqid = op.reqid ∧ m.rep_tid = op.rep_tid :=
  ⟨_, rfl, rfl, rfl, rfl, rfl⟩

/-- The messages of `issue_repop` in a loop over destinations: the PG changes in the messages
sent only, and each new message is the op forwarded to a destination of the list, with the
opcode, object, request id and `rep_tid` of the op. -/
theorem issue_repop_loop_sent (op : MOSDOp) (l : List Int) (pg : ReplicatedPG) :
    ∃ more : List (Message × Dest),
      l.foldl (fun p dest => issue_repop p op dest) pg = { pg with sent := pg.sent ++ more } ∧
      ∀ x ∈ more, ∃ m d, x = (Message.op m, Dest.osd d) ∧ m.op = op.op ∧ m.oid = op.oid ∧
        m.reqid = op.reqid ∧ m.rep_tid = op.rep_tid ∧ d ∈ l := by
  induction l generalizing pg with
  | nil => exact ⟨[], by simp, by simp⟩
  | cons a rest ih =>
    obtain ⟨m0, hm0, e1, e2, e3, e4⟩ := issue_repop_sent pg op a
    obtain ⟨more, h1, h2⟩ := ih (issue_repop pg op a)
    refine ⟨(Message.op m0, Dest.osd a) :: more, ?_, ?_⟩
    · rw [List.foldl_cons, h1, hm0]
      simp
    · intro x hx
      rcases List.mem_cons.1 hx with hx | hx
      · exact ⟨m0, a, hx, e1, e2, e3, e4, List.mem_cons_self _ _⟩
      · obtain ⟨m, d, e1, e2, e3, e4, e5, e6⟩ := h2 x hx
        exact ⟨m, d, e1, e2, e3, e4, e5, List.mem_cons_of_mem _ e6⟩
/-- The method `apply_repop` changes the store only. -/
theorem apply_repop_pg (pg pg1 : ReplicatedPG) (g g1 : RepGather)
    (h : apply_repop pg g = some (pg1, g1)) : pg1 = { pg with store := pg1.store } := by
  unfold apply_repop at h
  split at h
  · simp at h
  · simp only [Option.some.injEq, Prod.mk.injEq] at h
    rw [← h.1]

/-- The method `put_rep_gather` sends replies to the client only and leaves `peer_missing`
alone. -/
theorem put_rep_gather_sent (pg pg1 : ReplicatedPG) (g : RepGather)
    (h : put_rep_gather pg g = some pg1) :
    pg1.peer_missing = pg.peer_missing ∧
    ∃ more : List (Message × Dest), pg1.sent = pg.sent ++ more ∧
      ∀ x ∈ more, ∃ r c, x = (Message.reply r, Dest.client c) := by
  unfold put_rep_gather at h
  cases hr : put_rep_gather_reply pg g with
  | none => rw [hr] at h; simp at h
  | some r =>
    obtain ⟨pga, ga⟩ := r
    rw [hr] at h
    simp only at h
    have hpm1 : pga.peer_missing = pg.peer_missing := by
      unfold put_rep_gather_reply at hr
      split at hr
      · simp only [Option.some.injEq, Prod.mk.injEq] at hr
        rw [← hr.1]
        rfl
      · split at hr
        · cases ha : apply_repop pg g with
          | none => rw [ha] at hr; simp at hr
          | some q =>
            obtain ⟨pgq, gq⟩ := q
            rw [ha] at hr
            simp only [Option.some.injEq, Prod.mk.injEq] at hr
            rw [← hr.1, apply_repop_pg _ _ _ _ ha]
            rfl
        · simp only [Option.some.injEq, Prod.mk.injEq] at hr
          rw [← hr.1]
    have hpm2 : pg1.peer_missing = pga.peer_missing := by
      unfold put_rep_gather_done at h
      by_cases hd : ga.can_delete = true
      · simp only [hd, if_true] at h
        repeat' split at h
        all_goals first
          | (simp only [Option.some.injEq] at h; subst h; rfl)
          | (exact absurd h (by simp))
      · have hdf : ga.can_delete = false := by simpa using hd
        simp only [hdf, Bool.false_eq_true, if_false, Option.some.injEq] at h
        subst h
        rfl
    obtain ⟨hs2, -, -, -, -⟩ := put_rep_gather_done_cases _ _ _ h
    refine ⟨hpm2.trans hpm1, ?_⟩
    rcases put_rep_gather_reply_cases _ _ _ _ hr with hc | hc | hc
    · obtain ⟨-, -, -, -, r, c, -, hs⟩ := hc
      exact ⟨[(Message.reply r, Dest.client c)], by rw [hs2, hs], by simp⟩
    · obtain ⟨-, -, -, -, -, r, c, -, hs⟩ := hc
      exact ⟨[(Message.reply r, Dest.client c)], by rw [hs2, hs], by simp⟩
    · exact ⟨[], by rw [hs2, hc.2]; simp, by simp⟩

/-- The acker's branch of `op_modify` sends replies to the client only and leaves
`peer_missing` alone. -/
theorem op_modify_acker_sent (pg pg1 : ReplicatedPG) (g : RepGather) (op : MOSDOp)
    (nv : eversion_t) (crev : Nat) (h : op_modify_acker pg g op nv crev = some pg1) :
    pg1.peer_missing = pg.peer_missing ∧
    ∃ more : List (Message × Dest), pg1.sent = pg.sent ++ more ∧
      ∀ x ∈ more, ∃ r c, x = (Message.reply r, Dest.client c) := by
  unfold op_modify_acker at h
  by_cases hop : op.op = OSD_OP_WRNOOP
  · simp only [hop, ne_eq, not_true_eq_false, if_false, local_ack] at h
    split at h
    · exact put_rep_gather_sent _ _ _ h
    · simp at h
  · simp only [ne_eq, hop, not_false_eq_true, if_true] at h
    cases hl : prepare_log_transaction pg g.t op nv crev op.rev pg.peers_complete_thru with
    | none => rw [hl] at h; simp at h
    | some r =>
      obtain ⟨pga, ta⟩ := r
      rw [hl] at h
      simp only at h
      cases hp : prepare_op_transaction pga ta op nv crev op.rev with
      | none => rw [hp] at h; simp at h
      | some r2 =>
        obtain ⟨pgb, tb, opb⟩ := r2
        rw [hp] at h
        simp only [local_ack] at h
        have e1 := (prepare_log_transaction_some _ _ _ _ _ _ _ _ _ hl).1
        have e2 := prepare_op_transaction_frame _ _ _ _ _ _ _ _ _ hp
        have hs : pgb.sent = pg.sent := by rw [e2, e1]
        have hm : pgb.peer_missing = pg.peer_missing := by rw [e2, e1]
        split at h
        · have := put_rep_gather_sent _ _ _ h
          rw [hs, hm] at this
          exact this
        · simp at h

/-- The branch of `op_modify` that applies the transaction at once sends nothing and leaves
`peer_missing` alone. -/
theorem op_modify_apply_sent (acker : Int) (pg pg1 : ReplicatedPG) (op : MOSDOp)
    (nv : eversion_t) (crev : Nat) (cb : C_OSD_RepModifyCommit)
    (h : op_modify_apply acker pg op nv crev = some (pg1, cb)) :
    pg1.peer_missing = pg.peer_missing ∧ pg1.sent = pg.sent := by
  unfold op_modify_apply at h
  cases hl : prepare_log_transaction pg [] op nv crev op.rev pg.peers_complete_thru with
  | none => rw [hl] at h; simp at h
  | some r =>
    obtain ⟨pga, ta⟩ := r
    rw [hl] at h
    simp only at h
    cases hp : prepare_op_transaction pga ta op nv crev op.rev with
    | none => rw [hp] at h; simp at h
    | some r2 =>
      obtain ⟨pgb, tb, opb⟩ := r2
      rw [hp] at h
      simp only at h
      have e1 := (prepare_log_transaction_some _ _ _ _ _ _ _ _ _ hl).1
      have e2 := prepare_op_transaction_frame _ _ _ _ _ _ _ _ _ hp
      have hs : pgb.sent = pg.sent := by rw [e2, e1]
      have hm : pgb.peer_missing = pg.peer_missing := by rw [e2, e1]
      split at h
      · simp at h
      · simp only [Option.some.injEq, Prod.mk.injEq] at h
        rw [← h.1]
        exact ⟨hm, hs⟩
/-- The method `assign_version` changes the version of the op only. -/
theorem assign_version_fields (pg : ReplicatedPG) (op op1 : MOSDOp) (cv : eversion_t)
    (h : assign_version pg op = some (op1, cv)) : op1 = { op with version := op1.version } := by
  by_cases hop : op.op = OSD_OP_WRNOOP
  · rw [assign_version_wrnoop pg op hop] at h
    simp only [Option.some.injEq, Prod.mk.injEq] at h
    rw [← h.1]
  · exact (assign_version_some pg op op1 cv hop h).2.2.1

/-- In chain mode the first hop of a write, rank 2 if there is one and rank 1 otherwise, is
a member of `acting[1..]`. -/
theorem chain_next_mem (l : List Int) (next1 : Int) (h : l[1]? = some next1) :
    (if l.length > 2 then l.getD 2 next1 else next1) ∈ l.tail := by
  match l, h with
  | [_, b], h =>
    simp only [List.getElem?_cons_succ, List.getElem?_cons_zero, Option.some.injEq] at h
    subst h
    simp
  | _ :: b :: c :: rest, h =>
    simp

/-- Whenever `op_modify` returns, the messages it sent are first the pushes of the object, one
to each peer of `acting[1..]` that listed it as missing and to no one else, and then the
replicated ops of this mutation and replies to the client; the pushed peers no longer list
the object. -/
theorem op_modify_pushes_first (acker : Int) (pg pg1 : ReplicatedPG) (op : MOSDOp)
    (cb : Option C_OSD_RepModifyCommit) (h : op_modify acker pg op = some (pg1, cb)) :
    ∃ pushes rest : List (Message × Dest),
      pg1.sent = pg.sent ++ pushes ++ rest ∧
      (∀ x ∈ pushes, ∃ m d pm, x = (Message.op m, Dest.osd d) ∧ m.op = OSD_OP_PUSH ∧
        m.oid = op.oid ∧ d ∈ pg.acting.tail ∧ map_find pg.peer_missing d = some pm ∧
        pm.is_missing op.oid = true) ∧
      (∀ p ∈ pg.acting.tail, ∀ pm, map_find pg.peer_missing p = some pm →
        pm.is_missing op.oid = true →
        (∃ pm1, map_find pg1.peer_missing p = some pm1 ∧ pm1.is_missing op.oid = false) ∧
        ∃ m, (Message.op m, Dest.osd p) ∈ pushes ∧ m.op = OSD_OP_PUSH ∧ m.oid = op.oid) ∧
      (∀ x ∈ rest, (∃ r c, x = (Message.reply r, Dest.client c)) ∨
        ∃ m d, x = (Message.op m, Dest.osd d) ∧ d ∈ pg.acting.tail ∧ m.oid = op.oid ∧
          m.reqid = op.reqid ∧
          m.op = (if pg.log.is_dup op.reqid then OSD_OP_WRNOOP else op.op)) := by
  unfold op_modify at h
  simp only at h
  generalize hop1 : (if pg.log.is_dup op.reqid = true then
    ({ op with op := OSD_OP_WRNOOP } : MOSDOp) else op) = op1 at h
  have f1 : op1.oid = op.oid ∧ op1.reqid = op.reqid ∧
      op1.op = (if pg.log.is_dup op.reqid then OSD_OP_WRNOOP else op.op) := by
    rw [← hop1]
    split <;> exact ⟨rfl, rfl, rfl⟩
  cases ha : assign_version pg op1 with
  | none => rw [ha] at h; simp at h
  | some r =>
    obtain ⟨op2, cv⟩ := r
    rw [ha] at h
    simp only at h
    have f2 := assign_version_fields _ _ _ _ ha
    cases hpb : push_before_update op.oid pg.acting.tail pg with
    | none => rw [hpb] at h; simp at h
    | some pgp =>
      rw [hpb] at h
      simp only at h
      obtain ⟨pushes, hfr, hmore, hkeep, hno, hdone, hres⟩ := push_before_update_spec _ _ _ _ hpb
      have hsent : pgp.sent = pg.sent ++ pushes := by rw [hfr]
      have hact : pgp.acting = pg.acting := by rw [hfr]
      generalize hop3 : ({ op2 with rep_tid := pgp.last_tid + 1 } : MOSDOp) = op3 at h
      have f3 : op3.oid = op.oid ∧ op3.reqid = op.reqid ∧
          op3.op = (if pg.log.is_dup op.reqid then OSD_OP_WRNOOP else op.op) := by
        rw [← hop3, f2]
        exact f1
      generalize hpg2 : ({ pgp with last_tid := pgp.last_tid + 1 } : ReplicatedPG) = pg2 at h
      have g1 : pg2.sent = pg.sent ++ pushes := by rw [← hpg2]; exact hsent
      have g2 : pg2.acting = pg.acting := by rw [← hpg2]; exact hact
      have g3 : pg2.peer_missing = pgp.peer_missing := by rw [← hpg2]
      have key : ∀ reps replies : List (Message × Dest),
          pg1.sent = pg2.sent ++ reps ++ replies → pg1.peer_missing = pg2.peer_missing →
          (∀ x ∈ reps, ∃ m d, x = (Message.op m, Dest.osd d) ∧ m.op = op3.op ∧
            m.oid = op3.oid ∧ m.reqid = op3.reqid ∧ d ∈ pg.acting.tail) →
          (∀ x ∈ replies, ∃ r c, x = (Message.reply r, Dest.client c)) →
          ∃ pushes rest : List (Message × Dest),
            pg1.sent = pg.sent ++ pushes ++ rest ∧
            (∀ x ∈ pushes, ∃ m d pm, x = (Message.op m, Dest.osd d) ∧ m.op = OSD_OP_PUSH ∧
              m.oid = op.oid ∧ d ∈ pg.acting.tail ∧ map_find pg.peer_missing d = some pm ∧
              pm.is_missing op.oid = true) ∧
            (∀ p ∈ pg.acting.tail, ∀ pm, map_find pg.peer_missing p = some pm →
              pm.is_missing op.oid = true →
              (∃ pm1, map_find pg1.peer_missing p = some pm1 ∧ pm1.is_missing op.oid = false) ∧
              ∃ m, (Message.op m, Dest.osd p) ∈ pushes ∧ m.op = OSD_OP_PUSH ∧ m.oid = op.oid) ∧
            (∀ x ∈ rest, (∃ r c, x = (Message.reply r, Dest.client c)) ∨
              ∃ m d, x = (Message.op m, Dest.osd d) ∧ d ∈ pg.acting.tail ∧ m.oid = op.oid ∧
                m.reqid = op.reqid ∧
                m.op = (if pg.log.is_dup op.reqid then OSD_OP_WRNOOP else op.op)) := by
        intro reps replies hs hpm hreps hreplies
        refine ⟨pushes, reps ++ replies, ?_, hmore, ?_, ?_⟩
        · rw [hs, g1]
          simp
        · intro p hp pm h1 h2
          rw [hpm, g3]
          exact hdone p hp pm h1 h2
        · intro x hx
          rcases List.mem_append.1 hx with hx | hx
          · obtain ⟨m, d, e1, e2, e3, e4, e5⟩ := hreps x hx
            exact Or.inr ⟨m, d, e1, e5, e3.trans f3.1, e4.trans f3.2.1, e2.trans f3.2.2⟩
          · exact Or.inl (hreplies x hx)
      rw [hact] at h
      by_cases hc1 : pg.osd_rep = OSD_REP_CHAIN ∧ decide (pg.acting.length = 1) = false
      · have hc1p : pgp.osd_rep = OSD_REP_CHAIN ∧ decide (pg.acting.length = 1) = false := by
          rw [hfr]
          exact hc1
        rw [if_pos hc1p] at h
        cases hn : pg.acting[1]? with
        | none => rw [hn] at h; simp at h
        | some next1 =>
          rw [hn] at h
          simp only [Option.map_eq_some', Prod.mk.injEq] at h
          obtain ⟨r, hr, hr1, -⟩ := h
          obtain ⟨m0, hm0, e1, e2, e3, -⟩ := issue_repop_sent pg2 op3
            (if pg.acting.length > 2 then pg.acting.getD 2 next1 else next1)
          obtain ⟨a1, a2⟩ := op_modify_apply_sent _ _ _ _ _ _ _ hr
          rw [hr1] at a1 a2
          refine key [(Message.op m0,
            Dest.osd (if pg.acting.length > 2 then pg.acting.getD 2 next1 else next1))] [] ?_ ?_
            ?_ (by simp)
          · rw [a2, hm0]
            simp
          · rw [a1, hm0]
          · intro x hx
            simp only [List.mem_singleton] at hx
            exact ⟨m0, _, hx, e1, e2, e3, chain_next_mem _ _ hn⟩
      · have hc1p : ¬ (pgp.osd_rep = OSD_REP_CHAIN ∧ decide (pg.acting.length = 1) = false) := by
          rw [hfr]
          exact hc1
        rw [if_neg hc1p] at h
        by_cases hc2 : pg.osd_rep = OSD_REP_SPLAY ∧ decide (pg.acting.length = 1) = false
        · have hc2p : pgp.osd_rep = OSD_REP_SPLAY ∧ decide (pg.acting.length = 1) = false := by
            rw [hfr]
            exact hc2
          rw [if_pos hc2p] at h
          simp only [Option.map_eq_some', Prod.mk.injEq] at h
          obtain ⟨r, hr, hr1, -⟩ := h
          obtain ⟨a1, a2⟩ := op_modify_apply_sent _ _ _ _ _ _ _ hr
          rw [hr1] at a1 a2
          obtain ⟨reps, hreps1, hreps2⟩ := issue_repop_loop_sent op3 pg.acting.tail pg2
          have hrest : issue_repop_rest pg2 op3 = { pg2 with sent := pg2.sent ++ reps } := by
            unfold issue_repop_rest
            have hcopy := hreps1
            rw [← g2] at hcopy
            exact hcopy
          refine key reps [] ?_ ?_ ?_ (by simp)
          · rw [a2, hrest]
            simp
          · rw [a1, hrest]
          · intro x hx
            obtain ⟨m, d, e1, e2, e3, e4, -, e6⟩ := hreps2 x hx
            exact ⟨m, d, e1, e2, e3, e4, e6⟩
        · have hc2p : ¬ (pgp.osd_rep = OSD_REP_SPLAY ∧ decide (pg.acting.length = 1) = false) := by
            rw [hfr]
            exact hc2
          rw [if_neg hc2p] at h
          simp only [Option.map_eq_some', Prod.mk.injEq] at h
          obtain ⟨r, hr, hr1, -⟩ := h
          subst hr1
          obtain ⟨a1, replies, a2, a3⟩ := op_modify_acker_sent _ _ _ _ _ _ hr
          have n1 : (new_rep_gather pg2 op3).1.sent = pg2.sent := (new_rep_gather_pg pg2 op3).2.1
          have n2 : (new_rep_gather pg2 op3).1.acting = pg2.acting := by
            simp only [new_rep_gather]
            split_ifs <;> simp [ReplicatedPG.take_waiters]
          have n3 : (new_rep_gather pg2 op3).1.peer_missing = pg2.peer_missing := by
            simp only [new_rep_gather]
            split_ifs <;> simp [ReplicatedPG.take_waiters]
          obtain ⟨reps, hreps1, hreps2⟩ :=
            issue_repop_loop_sent op3 pg.acting.tail (new_rep_gather pg2 op3).1
          have hrest : issue_repop_rest (new_rep_gather pg2 op3).1 op3 =
              { (new_rep_gather pg2 op3).1 with sent := (new_rep_gather pg2 op3).1.sent ++ reps } := by
            unfold issue_repop_rest
            have hcopy := hreps1
            rw [← g2, ← n2] at hcopy
            exact hcopy
          by_cases hal : decide (pg.acting.length = 1) = true
          · rw [if_pos hal] at a1 a2
            refine key [] replies ?_ ?_ (by simp) a3
            · rw [a2, n1]
              simp
            · rw [a1, n3]
          · rw [if_neg hal] at a1 a2
            refine key reps replies ?_ ?_ ?_ a3
            · rw [a2, hrest]
              simp only
              rw [n1]
            · rw [a1, hrest]
              exact n3
            · intro x hx
              obtain ⟨m, d, e1, e2, e3, e4, -, e6⟩ := hreps2 x hx
              exact ⟨m, d, e1, e2, e3, e4, e6⟩

/-- The two builders in a row return for an op of one of the five mutating opcodes (a WRITE
with data as long as its length) and a version above `log.top` and `info.last_update` whose
predecessor is below it; the PG changes in the log and `info` only. -/
theorem prepare_steps_isSome (pg : ReplicatedPG) (t : Transaction) (op : MOSDOp)
    (nv : eversion_t) (crev : Nat) (trim_to : eversion_t)
    (hcode : op.op ∈ [OSD_OP_WRLOCK, OSD_OP_WRUNLOCK, OSD_OP_WRITE, OSD_OP_TRUNCATE,
      OSD_OP_DELETE])
    (hdata : op.op = OSD_OP_WRITE → op.data.length = op.length)
    (hlog : pg.log.top < nv) (hdec : nv.dec < nv) (hlu : pg.info.last_update < nv) :
    ∃ pga ta pgb tb opb,
      prepare_log_transaction pg t op nv crev op.rev trim_to = some (pga, ta) ∧
      prepare_op_transaction pga ta op nv crev op.rev = some (pgb, tb, opb) ∧
      pgb = { pg with log := pgb.log, info := pgb.info } := by
  have hne : op.op ≠ OSD_OP_WRNOOP := by
    intro hn
    rw [hn] at hcode
    simp at hcode
  have hmut : (spec_mutation op).isSome = true := by
    simp only [List.mem_cons, List.mem_singleton, List.mem_nil_iff, or_false] at hcode
    unfold spec_mutation
    rcases hcode with hc | hc | hc | hc | hc <;> rw [hc] <;> rfl
  have h1 := prepare_log_transaction_isSome pg t op nv crev op.rev trim_to
    (by split <;> assumption)
  cases hl : prepare_log_transaction pg t op nv crev op.rev trim_to with
  | none => rw [hl] at h1; simp at h1
  | some r =>
    obtain ⟨pga, ta⟩ := r
    have e1 := (prepare_log_transaction_some _ _ _ _ _ _ _ _ _ hl).1
    have hinfo : pga.info = pg.info := by rw [e1]
    have h2 := (prepare_op_transaction_isSome_iff pga ta op nv crev op.rev hne).2
      ⟨by rw [hinfo]; exact hlu, hmut, hdata⟩
    cases hp : prepare_op_transaction pga ta op nv crev op.rev with
    | none => rw [hp] at h2; simp at h2
    | some r2 =>
      obtain ⟨pgb, tb, opb⟩ := r2
      have e2 := prepare_op_transaction_frame _ _ _ _ _ _ _ _ _ hp
      refine ⟨pga, ta, pgb, tb, opb, rfl, hp, ?_⟩
      rw [e2, e1]

/-- The branch of `op_modify` that applies at once returns when the builders do and the
store reports success. -/
theorem op_modify_apply_isSome (acker : Int) (pg : ReplicatedPG) (op : MOSDOp)
    (nv : eversion_t) (crev : Nat)
    (hcode : op.op ∈ [OSD_OP_WRLOCK, OSD_OP_WRUNLOCK, OSD_OP_WRITE, OSD_OP_TRUNCATE,
      OSD_OP_DELETE])
    (hdata : op.op = OSD_OP_WRITE → op.data.length = op.length)
    (hlog : pg.log.top < nv) (hdec : nv.dec < nv) (hlu : pg.info.last_update < nv)
    (hres : ∀ r ∈ pg.store.results, r = 0) :
    (op_modify_apply acker pg op nv crev).isSome = true := by
  obtain ⟨pga, ta, pgb, tb, opb, hl, hp, hfr⟩ :=
    prepare_steps_isSome pg [] op nv crev pg.peers_complete_thru hcode hdata hlog hdec hlu
  have hst : pgb.store = pg.store := by rw [hfr]
  have h0 : pg.store.results.headD 0 = 0 := by
    cases hr : pg.store.results with
    | nil => rfl
    | cons a l => rw [hr] at hres; exact hres a (List.mem_cons_self _ _)
  unfold op_modify_apply
  rw [hl]
  simp only
  rw [hp]
  simp only [ObjectStore.apply_transaction, hst]
  generalize pg.store.results.headD 0 = r at h0
  subst h0
  simp

/-- The acker's branch of `op_modify` returns when the builders do, the local node is awaited
for ack, and the gather is in the table and not applied. -/
theorem op_modify_acker_isSome (pg : ReplicatedPG) (g : RepGather) (op : MOSDOp)
    (nv : eversion_t) (crev : Nat)
    (hcode : op.op ∈ [OSD_OP_WRLOCK, OSD_OP_WRUNLOCK, OSD_OP_WRITE, OSD_OP_TRUNCATE,
      OSD_OP_DELETE])
    (hdata : op.op = OSD_OP_WRITE → op.data.length = op.length)
    (hlog : pg.log.top < nv) (hdec : nv.dec < nv) (hlu : pg.info.last_update < nv)
    (hme : pg.whoami ∈ g.waitfor_ack) (happ : g.applied = false)
    (htab : map_count pg.rep_gather g.rep_tid = true) :
    (op_modify_acker pg g op nv crev).isSome = true := by
  obtain ⟨pga, ta, pgb, tb, opb, hl, hp, hfr⟩ :=
    prepare_steps_isSome pg g.t op nv crev pg.peers_complete_thru hcode hdata hlog hdec hlu
  have hne : op.op ≠ OSD_OP_WRNOOP := by
    intro hn
    rw [hn] at hcode
    simp at hcode
  have hw : pgb.whoami = pg.whoami := by rw [hfr]
  have hrg : pgb.rep_gather = pg.rep_gather := by rw [hfr]
  unfold op_modify_acker
  rw [if_pos hne, hl]
  simp only
  rw [hp]
  simp only [local_ack, hw]
  rw [if_pos hme]
  exact put_rep_gather_isSome pgb _ (fun _ => happ) (by rw [hrg]; exact htab)
/-- A node of the acting set awaits its own ack in the gather `new_rep_gather` builds, in
every replication mode. -/
theorem new_rep_gather_sets_whoami (pg : ReplicatedPG) (r : RepGather)
    (hme : pg.whoami ∈ pg.acting) : pg.whoami ∈ (new_rep_gather_sets pg r).waitfor_ack := by
  by_cases hm : pg.osd_rep = OSD_REP_CHAIN
  · unfold new_rep_gather_sets
    simp only [hm, if_true]
    split <;> simp [add_chain_osd, mem_set_insert]
  · exact (new_rep_gather_sets_facts pg r).2.2.2.2.2.2 hm _ hme

/-- The versions `assign_version` stamps on an op that is not a WRNOOP pass the assertions of
the two builders, when the version counter has room for two increments. -/
theorem assign_version_above (pg : ReplicatedPG) (op op1 : MOSDOp) (cv : eversion_t)
    (hop : op.op ≠ OSD_OP_WRNOOP) (hroom : pg.log.top.version + 2 < 2 ^ 64)
    (h : assign_version pg op = some (op1, cv)) :
    pg.log.top < op1.version ∧ op1.version.dec < op1.version ∧
    pg.info.last_update < op1.version := by
  obtain ⟨h1, h2, -, h4, h5⟩ := assign_version_some_room pg op op1 cv hop
    (by split <;> omega) h
  rw [eversion_t.lt_iff] at h1
  simp only at h1
  refine ⟨?_, ?_, ?_⟩
  · rw [eversion_t.lt_iff]
    omega
  · rw [eversion_t.lt_iff]
    right
    refine ⟨rfl, ?_⟩
    show op1.version.version - 1 < op1.version.version
    omega
  · rw [eversion_t.lt_iff]
    omega
/-- A sufficient condition for `op_modify` to return, in every replication mode: the request
is not a duplicate, the op has one of the five mutating opcodes (a WRITE with data as long
as its length), the version counter has room for two increments, `assign_version` passes its
assertions, the store reports success, and the node is a member of its acting set. -/
theorem op_modify_isSome (acker : Int) (pg : ReplicatedPG) (op : MOSDOp)
    (hdup : pg.log.is_dup op.reqid = false)
    (hcode : op.op ∈ [OSD_OP_WRLOCK, OSD_OP_WRUNLOCK, OSD_OP_WRITE, OSD_OP_TRUNCATE,
      OSD_OP_DELETE])
    (hdata : op.op = OSD_OP_WRITE → op.data.length = op.length)
    (hroom : pg.log.top.version + 2 < 2 ^ 64)
    (hlu : pg.info.last_update < { epoch := pg.epoch, version := pg.log.top.version + 1 })
    (hep : pg.log.top.epoch ≤ pg.epoch)
    (hres : ∀ r ∈ pg.store.results, r = 0)
    (hme : pg.whoami ∈ pg.acting) :
    (op_modify acker pg op).isSome = true := by
  have hne : op.op ≠ OSD_OP_WRNOOP := by
    intro hn
    rw [hn] at hcode
    simp at hcode
  have hmap : ∀ {α β : Type} (x : Option α) (f : α → β), x.isSome = true →
      (x.map f).isSome = true := by
    intro α β x f hx
    cases x with
    | none => simp at hx
    | some a => rfl
  have ha := assign_version_isSome pg op hne (by omega) hlu hep
  cases hav : assign_version pg op with
  | none => rw [hav] at ha; simp at ha
  | some r =>
    obtain ⟨op2, cv⟩ := r
    obtain ⟨v1, v2, v3⟩ := assign_version_above pg op op2 cv hne hroom hav
    have f2 := assign_version_fields _ _ _ _ hav
    have hp := push_before_update_isSome op.oid pg.acting.tail pg hres
    cases hpb : push_before_update op.oid pg.acting.tail pg with
    | none => rw [hpb] at hp; simp at hp
    | some pgp =>
      obtain ⟨pushes, hfr, -, -, -, -, hres2⟩ := push_before_update_spec _ _ _ _ hpb
      have hresp : ∀ r ∈ pgp.store.results, r = 0 := by
        intro r hr
        rw [hres2] at hr
        exact hres r (List.mem_of_mem_drop hr)
      unfold op_modify
      simp only [hdup, Bool.false_eq_true, if_false]
      rw [hav]
      simp only
      rw [hpb]
      simp only
      generalize hop3 : ({ op2 with rep_tid := pgp.last_tid + 1 } : MOSDOp) = op3
      have c3 : op3.op ∈ [OSD_OP_WRLOCK, OSD_OP_WRUNLOCK, OSD_OP_WRITE, OSD_OP_TRUNCATE,
          OSD_OP_DELETE] := by
        rw [← hop3, f2]
        exact hcode
      have d3 : op3.op = OSD_OP_WRITE → op3.data.length = op3.length := by
        rw [← hop3, f2]
        exact hdata
      generalize hpg2 : ({ pgp with last_tid := pgp.last_tid + 1 } : ReplicatedPG) = pg2
      have g1 : pg2.log = pg.log := by rw [← hpg2, hfr]
      have g2 : pg2.info = pg.info := by rw [← hpg2, hfr]
      have g3 : pg2.store = pgp.store := by rw [← hpg2]
      have g4 : pg2.acting = pg.acting := by rw [← hpg2, hfr]
      have g5 : pg2.whoami = pg.whoami := by rw [← hpg2, hfr]
      have g6 : pgp.acting = pg.acting := by rw [hfr]
      rw [g6]
      by_cases hc1 : pgp.osd_rep = OSD_REP_CHAIN ∧ decide (pg.acting.length = 1) = false
      · rw [if_pos hc1]
        have hlen : 1 < pg.acting.length := by
          have h1 := hc1.2
          simp only [decide_eq_false_iff_not] at h1
          have h2 := List.length_pos_of_mem hme
          omega
        rw [List.getElem?_eq_getElem hlen]
        simp only
        apply hmap
        refine op_modify_apply_isSome _ _ _ _ _ c3 d3 ?_ v2 ?_ ?_
        · show pg2.log.top < op2.version
          rw [g1]
          exact v1
        · show pg2.info.last_update < op2.version
          rw [g2]
          exact v3
        · show ∀ r ∈ pg2.store.results, r = 0
          rw [g3]
          exact hresp
      · rw [if_neg hc1]
        have hrest : ∀ p : ReplicatedPG, (issue_repop_rest p op3).log = p.log ∧
            (issue_repop_rest p op3).info = p.info ∧
            (issue_repop_rest p op3).store = p.store ∧
            (issue_repop_rest p op3).whoami = p.whoami ∧
            (issue_repop_rest p op3).rep_gather = p.rep_gather := by
          intro p
          rw [issue_repop_rest_frame]
          exact ⟨rfl, rfl, rfl, rfl, rfl⟩
        by_cases hc2 : pgp.osd_rep = OSD_REP_SPLAY ∧ decide (pg.acting.length = 1) = false
        · rw [if_pos hc2]
          apply hmap
          obtain ⟨r1, r2, r3, -, -⟩ := hrest pg2
          refine op_modify_apply_isSome _ _ _ _ _ c3 d3 ?_ v2 ?_ ?_
          · rw [r1, g1]
            exact v1
          · rw [r2, g2]
            exact v3
          · rw [r3, g3]
            exact hresp
        · rw [if_neg hc2]
          apply hmap
          obtain ⟨n1, -, n3, n4, n5⟩ := new_rep_gather_pg pg2 op3
          obtain ⟨n6, n7⟩ := new_rep_gather_log_info pg2 op3
          obtain ⟨t1, t2, -, -, -, -, -⟩ := new_rep_gather_sets_facts pg2
            (RepGather.new op3 op3.rep_tid op3.version pg2.info.last_complete)
          rw [← n4] at t1 t2
          have hwho : pg2.whoami ∈ (new_rep_gather pg2 op3).2.waitfor_ack := by
            rw [n4]
            exact new_rep_gather_sets_whoami pg2 _ (by rw [g4, g5]; exact hme)
          have htab : map_count (new_rep_gather pg2 op3).1.rep_gather
              (new_rep_gather pg2 op3).2.rep_tid = true := by
            rw [t1]
            simp only [RepGather.new, map_count, n5, Option.isSome_some]
          by_cases hal : decide (pg.acting.length = 1) = true
          · rw [if_pos hal]
            refine op_modify_acker_isSome _ _ _ _ _ c3 d3 ?_ v2 ?_ ?_ t2 htab
            · rw [n6, g1]
              exact v1
            · rw [n7, g2]
              exact v3
            · rw [n1]
              exact hwho
          · rw [if_neg hal]
            obtain ⟨r1, r2, -, r4, r5⟩ := hrest (new_rep_gather pg2 op3).1
            refine op_modify_acker_isSome _ _ _ _ _ c3 d3 ?_ v2 ?_ ?_ t2 ?_
            · rw [r1, n6, g1]
              exact v1
            · rw [r2, n7, g2]
              exact v3
            · rw [r4, n1]
              exact hwho
            · rw [r5]
              exact htab

/-- C21. Push before the replicated write. Whenever `op_modify` returns, the messages it
sent are a block of pushes followed by the rest. Every push carries the op's object to a
peer of `acting[1..]` whose `peer_missing` listed the object, so a peer not missing it gets
no push; every peer of `acting[1..]` whose `peer_missing` listed the object has a push in
that block and no longer lists the object. The rest holds only replies to the client and the
replicated ops of this mutation (`issue_repop`: the op's object and request id, the op's
opcode or WRNOOP for a duplicate, sent to peers of `acting[1..]`), none of which is a PUSH
for a client modify. `op_modify` returns, in every replication mode, when the request is not
a duplicate, the op has one of the five mutating opcodes (a WRITE with data as long as its
length), the 64-bit version counter has room for two increments, `assign_version` passes its
assertions, the store reports success, and the node is in its acting set. -/
theorem op_modify_push_before_repop (acker : Int) (pg : ReplicatedPG) (op : MOSDOp) :
    (∀ pg1 cb, op_modify acker pg op = some (pg1, cb) →
      ∃ pushes rest : List (Message × Dest),
        pg1.sent = pg.sent ++ pushes ++ rest ∧
        (∀ x ∈ pushes, ∃ m d pm, x = (Message.op m, Dest.osd d) ∧ m.op = OSD_OP_PUSH ∧
          m.oid = op.oid ∧ d ∈ pg.acting.tail ∧ map_find pg.peer_missing d = some pm ∧
          pm.is_missing op.oid = true) ∧
        (∀ p ∈ pg.acting.tail, ∀ pm, map_find pg.peer_missing p = some pm →
          pm.is_missing op.oid = true →
          (∃ pm1, map_find pg1.peer_missing p = some pm1 ∧ pm1.is_missing op.oid = false) ∧
          ∃ m, (Message.op m, Dest.osd p) ∈ pushes ∧ m.op = OSD_OP_PUSH ∧ m.oid = op.oid) ∧
        (∀ x ∈ rest, (∃ r c, x = (Message.reply r, Dest.client c)) ∨
          ∃ m d, x = (Message.op m, Dest.osd d) ∧ d ∈ pg.acting.tail ∧ m.oid = op.oid ∧
            m.reqid = op.reqid ∧
            m.op = (if pg.log.is_dup op.reqid then OSD_OP_WRNOOP else op.op)) ∧
        (op.op ≠ OSD_OP_PUSH →
          ∀ m d, (Message.op m, Dest.osd d) ∈ rest → m.op ≠ OSD_OP_PUSH)) ∧
    (pg.log.is_dup op.reqid = false →
      op.op ∈ [OSD_OP_WRLOCK, OSD_OP_WRUNLOCK, OSD_OP_WRITE, OSD_OP_TRUNCATE, OSD_OP_DELETE] →
      (op.op = OSD_OP_WRITE → op.data.length = op.length) →
      pg.log.top.version + 2 < 2 ^ 64 →
      pg.info.last_update < { epoch := pg.epoch, version := pg.log.top.version + 1 } →
      pg.log.top.epoch ≤ pg.epoch →
      (∀ r ∈ pg.store.results, r = 0) →
      pg.whoami ∈ pg.acting →
      (op_modify acker pg op).isSome = true) := by
  refine ⟨?_, op_modify_isSome acker pg op⟩
  intro pg1 cb h
  obtain ⟨pushes, rest, h1, h2, h3, h4⟩ := op_modify_pushes_first acker pg pg1 op cb h
  refine ⟨pushes, rest, h1, h2, h3, h4, ?_⟩
  intro hop m d hmem
  rcases h4 _ hmem with ⟨r, c, hx⟩ | ⟨m1, d1, hx, -, -, -, hm⟩
  · simp at hx
  · simp only [Prod.mk.injEq, Message.op.injEq, Dest.osd.injEq] at hx
    rw [hx.1, hm]
    split
    · decide
    · exact hop

/-- C21 at the sample PG with osd 1 missing object 10: `op_modify` of the sample write
returns, having sent the PUSH of object 10 to osd 1 and then the replicated write, and
osd 1 no longer misses the object. -/
theorem op_modify_push_before_repop_witness :
    op_modify 0 missing_peer_pg sample_op = some (missing_peer_pg_after, none) ∧
    missing_peer_pg_after.sent =
      missing_peer_pg.sent ++ [(Message.op missing_peer_push, Dest.osd 1)] ++
        [(Message.op { missing_peer_write with source := 0 }, Dest.osd 1)] ∧
    (∃ pushes rest : List (Message × Dest),
      missing_peer_pg_after.sent = missing_peer_pg.sent ++ pushes ++ rest ∧
      (∀ x ∈ pushes, ∃ m d pm, x = (Message.op m, Dest.osd d) ∧ m.op = OSD_OP_PUSH ∧
        m.oid = sample_op.oid ∧ d ∈ missing_peer_pg.acting.tail ∧
        map_find missing_peer_pg.peer_missing d = some pm ∧
        pm.is_missing sample_op.oid = true) ∧
      (∀ p ∈ missing_peer_pg.acting.tail, ∀ pm,
        map_find missing_peer_pg.peer_missing p = some pm →
        pm.is_missing sample_op.oid = true →
        (∃ pm1, map_find missing_peer_pg_after.peer_missing p = some pm1 ∧
          pm1.is_missing sample_op.oid = false) ∧
        ∃ m, (Message.op m, Dest.osd p) ∈ pushes ∧ m.op = OSD_OP_PUSH ∧
          m.oid = sample_op.oid) ∧
      (∀ x ∈ rest, (∃ r c, x = (Message.reply r, Dest.client c)) ∨
        ∃ m d, x = (Message.op m, Dest.osd d) ∧ d ∈ missing_peer_pg.acting.tail ∧
          m.oid = sample_op.oid ∧ m.reqid = sample_op.reqid ∧
          m.op = (if missing_peer_pg.log.is_dup sample_op.reqid then OSD_OP_WRNOOP
            else sample_op.op)) ∧
      (sample_op.op ≠ OSD_OP_PUSH →
        ∀ m d, (Message.op m, Dest.osd d) ∈ rest → m.op ≠ OSD_OP_PUSH)) ∧
    (op_modify 0 missing_peer_pg sample_op).isSome = true :=
  ⟨by decide, by decide,
   (op_modify_push_before_repop 0 missing_peer_pg sample_op).1 missing_peer_pg_after none
     (by decide),
   (op_modify_push_before_repop 0 missing_peer_pg sample_op).2 (by decide) (by decide)
     (by decide) (by decide) (by decide) (by decide) (by simp [missing_peer_pg, sample_pg])
     (by decide)⟩

/-! ## The floor sent for log trimming -/

/-- Over a non-empty list the minimum of the recorded values exists, is below the value of
every member, and is the value of one of them. -/
theorem spec_min_complete_thru_spec (pct : List (Int × eversion_t)) (l : List Int)
    (hne : l ≠ []) :
    ∃ m, spec_min_complete_thru pct l = some m ∧
      (∀ a ∈ l, m ≤ map_get pct a eversion_t.zero) ∧
      ∃ a ∈ l, m = map_get pct a eversion_t.zero := by
  induction l with
  | nil => exact absurd rfl hne
  | cons a rest ih =>
    by_cases hr : rest = []
    · subst hr
      refine ⟨map_get pct a eversion_t.zero, rfl, ?_, a, List.mem_singleton.2 rfl, rfl⟩
      intro b hb
      rw [List.mem_singleton.1 hb]
    · obtain ⟨m, hm, hle, b, hb, hbe⟩ := ih hr
      refine ⟨min (map_get pct a eversion_t.zero) m, ?_, ?_, ?_⟩
      · simp only [spec_min_complete_thru, hm]
      · intro c hc
        rcases List.mem_cons.1 hc with hc | hc
        · subst hc
          exact min_le_left _ _
        · exact le_trans (min_le_right _ _) (hle c hc)
      · rcases min_choice (map_get pct a eversion_t.zero) m with hmin | hmin
        · exact ⟨a, List.mem_cons_self _ _, hmin⟩
        · exact ⟨b, List.mem_cons_of_mem _ hb, hmin.trans hbe⟩

/-- When `put_rep_gather` deletes a gather on a node of the acting set whose recorded value
for the local node is at most `info.last_complete`, `peers_complete_thru` becomes the larger
of its old value and the minimum over `acting` of the recorded values. -/
theorem put_rep_gather_pct_formula (pg pg1 : ReplicatedPG) (g : RepGather)
    (h : put_rep_gather pg g = some pg1) (hme : pg.whoami ∈ pg.acting)
    (hloc : map_get g.pg_complete_thru pg.whoami eversion_t.zero ≤ pg.info.last_complete)
    (hdel : map_find pg1.rep_gather g.rep_tid = none) :
    ∃ m, spec_min_complete_thru g.pg_complete_thru pg.acting = some m ∧
      pg1.peers_complete_thru = max pg.peers_complete_thru m := by
  obtain ⟨m, hm, hle, a0, ha0, hma0⟩ :=
    spec_min_complete_thru_spec g.pg_complete_thru pg.acting (List.ne_nil_of_mem hme)
  refine ⟨m, hm, ?_⟩
  obtain ⟨-, -, hgone⟩ := put_rep_gather_pct_min pg pg1 g h
  obtain ⟨hempty, hsome⟩ := hgone hdel
  by_cases he : g.pg_complete_thru = []
  · rw [hempty he]
    have hz : m = eversion_t.zero := by
      rw [hma0, he]
      rfl
    rw [hz]
    refine (max_eq_left ?_).symm
    rw [eversion_t.le_iff]
    simp only [eversion_t.zero]
    omega
  · obtain ⟨m', ⟨hlc, hall⟩, hach, hnew⟩ := hsome he
    have hmm : m' = m := by
      apply le_antisymm
      · rw [hma0]
        exact hall a0 ha0
      · rcases hach with hach | ⟨a, ha, hach⟩
        · rw [hach]
          exact le_trans (hle _ hme) hloc
        · rw [hach]
          exact hle a ha
    rw [hnew, hmm]

/-- Re-evaluating a gather whose snapshot and recorded local value are at most
`info.last_complete`, on a PG whose commit callbacks for the gather are so too, leads to a
state that satisfies `local_bound_inv`. -/
theorem put_rep_gather_local_bound (pg0 pg pg1 : ReplicatedPG) (rep_tid : Nat) (g : RepGather)
    (h : put_rep_gather pg g = some pg1)
    (hw : pg.whoami = pg0.whoami) (ha : pg.acting = pg0.acting) (hi : pg.info = pg0.info)
    (hcb : ∀ cb ∈ pg.store.oncommit, cb.rep_tid = rep_tid →
      cb.pg_last_complete ≤ pg0.info.last_complete)
    (htid : g.rep_tid = rep_tid)
    (hsnap : g.pg_local_last_complete ≤ pg0.info.last_complete)
    (hloc : map_get g.pg_complete_thru pg0.whoami eversion_t.zero ≤ pg0.info.last_complete) :
    local_bound_inv pg0 rep_tid pg1 := by
  obtain ⟨-, hinfo⟩ := put_rep_gather_log_info pg pg1 g h
  unfold put_rep_gather at h
  cases hr : put_rep_gather_reply pg g with
  | none => rw [hr] at h; simp at h
  | some r =>
    obtain ⟨pga, ga⟩ := r
    rw [hr] at h
    simp only at h
    obtain ⟨hact1, -, -, -, hwho1, hpct1, htid1, -, -⟩ := put_rep_gather_reply_frame pg pga g ga hr
    obtain ⟨-, hwho2, hstore2, hact2, htab⟩ := put_rep_gather_done_cases pga pg1 ga h
    have hmid : ga.pg_local_last_complete = g.pg_local_last_complete ∧
        ∀ cb ∈ pga.store.oncommit, cb.rep_tid = rep_tid →
          cb.pg_last_complete ≤ pg0.info.last_complete := by
      rcases put_rep_gather_reply_cases pg pga g ga hr with
        ⟨-, -, hg1, hst, -⟩ | ⟨-, -, -, hg1, hon, -⟩ | ⟨hg1, hp1⟩
      · rw [hg1, hst]
        exact ⟨rfl, hcb⟩
      · rw [hg1, hon]
        refine ⟨rfl, ?_⟩
        intro cb hmem hc
        rcases List.mem_append.1 hmem with hmem | hmem
        · exact hcb cb hmem hc
        · simp only [List.mem_singleton] at hmem
          rw [hmem]
          exact hsnap
      · rw [hg1, hp1]
        exact ⟨rfl, hcb⟩
    refine ⟨hwho2.trans (hwho1.trans hw), hact2.trans (hact1.trans ha), hinfo.trans hi, ?_, ?_⟩
    · rw [hstore2]
      exact hmid.2
    · intro g1 hg1
      rcases htab with htab | htab
      · rw [htab, htid1, htid, map_find_erase_same] at hg1
        simp at hg1
      · rw [htab, htid1, htid, map_find_set_same] at hg1
        simp only [Option.some.injEq] at hg1
        subst hg1
        refine ⟨htid1.trans htid, ?_, ?_⟩
        · rw [hmid.1]
          exact hsnap
        · rw [hpct1]
          exact hloc

/-- A gather fresh from `new_rep_gather`, for a `rep_tid` the store holds no commit callback
of, satisfies `local_bound_inv`. -/
theorem new_rep_gather_local_bound (pg : ReplicatedPG) (op : MOSDOp)
    (hfresh : ∀ cb ∈ pg.store.oncommit, cb.rep_tid ≠ op.rep_tid) :
    local_bound_inv pg op.rep_tid (new_rep_gather pg op).1 := by
  obtain ⟨hw, -, hst, hg, hfind⟩ := new_rep_gather_pg pg op
  obtain ⟨-, hinfo⟩ := new_rep_gather_log_info pg op
  have hact : (new_rep_gather pg op).1.acting = pg.acting := by
    simp only [new_rep_gather]
    split_ifs <;> simp [ReplicatedPG.take_waiters]
  have hsets : ∀ r : RepGather,
      (new_rep_gather_sets pg r).pg_local_last_complete = r.pg_local_last_complete ∧
      (new_rep_gather_sets pg r).pg_complete_thru = r.pg_complete_thru := by
    intro r
    have hc : ∀ (l : List Int) (x : RepGather),
        (l.foldl add_commit_osd x).pg_local_last_complete = x.pg_local_last_complete ∧
        (l.foldl add_commit_osd x).pg_complete_thru = x.pg_complete_thru := by
      intro l
      induction l with
      | nil => intro x; exact ⟨rfl, rfl⟩
      | cons a rest ih => intro x; exact ih (add_commit_osd x a)
    have hk : ∀ (l : List Int) (x : RepGather),
        (l.foldl add_ack_osd x).pg_local_last_complete = x.pg_local_last_complete ∧
        (l.foldl add_ack_osd x).pg_complete_thru = x.pg_complete_thru := by
      intro l
      induction l with
      | nil => intro x; exact ⟨rfl, rfl⟩
      | cons a rest ih => intro x; exact ih (add_ack_osd x a)
    unfold new_rep_gather_sets
    simp only
    split
    · split
      · exact hc pg.acting r
      · exact hc pg.acting r
    · exact ⟨(hk _ _).1.trans (hc _ _).1, (hk _ _).2.trans (hc _ _).2⟩
  refine ⟨hw, hact, hinfo, ?_, ?_⟩
  · intro cb hmem hc
    rw [hst] at hmem
    exact absurd hc (hfresh cb hmem)
  · intro g hgf
    rw [hfind] at hgf
    simp only [Option.some.injEq] at hgf
    subst hgf
    rw [hg]
    refine ⟨(new_rep_gather_sets_facts pg _).1, ?_, ?_⟩
    · rw [(hsets _).1]
      exact le_refl _
    · rw [(hsets _).2]
      simp only [RepGather.new, map_get, map_find, List.find?_nil, Option.map_none',
        Option.getD_none]
      rw [eversion_t.le_iff]
      simp only [eversion_t.zero]
      omega
/-- One event from a peer or from the local node keeps `local_bound_inv`. -/
theorem rep_step_local_bound (pg0 pg pg1 : ReplicatedPG) (rep_tid : Nat) (e : RepEvent)
    (hinv : local_bound_inv pg0 rep_tid pg)
    (hpeer : ∀ r, e = RepEvent.reply r → r.source ≠ pg0.whoami)
    (h : rep_step rep_tid pg e = some pg1) : local_bound_inv pg0 rep_tid pg1 := by
  obtain ⟨hw, ha, hi, hcb, hlive⟩ := hinv
  cases e with
  | local_ack =>
    simp only [rep_step] at h
    cases hf : map_find pg.rep_gather rep_tid with
    | none => rw [hf] at h; simp at h
    | some g =>
      rw [hf] at h
      simp only [local_ack] at h
      obtain ⟨g1, g2, g3⟩ := hlive g hf
      split at h
      · exact put_rep_gather_local_bound pg0 pg pg1 rep_tid _ h hw ha hi hcb g1 g2 g3
      · simp at h
  | reply r =>
    simp only [rep_step, op_reply] at h
    cases hf : map_find pg.rep_gather rep_tid with
    | none =>
      rw [hf] at h
      simp only [Option.some.injEq] at h
      subst h
      exact ⟨hw, ha, hi, hcb, hlive⟩
    | some g =>
      rw [hf] at h
      simp only [repop_ack] at h
      obtain ⟨g1, g2, g3⟩ := hlive g hf
      split at h
      · simp at h
      · rename_i gu hu
        unfold repop_ack_update at hu
        by_cases hc : r.commit = true
        · simp only [hc, if_true] at hu
          split at hu
          · simp only [Option.some.injEq] at hu
            subst hu
            refine put_rep_gather_local_bound pg0 pg pg1 rep_tid _ h hw ha hi hcb g1 g2 ?_
            simp only [map_get]
            rw [map_find_set_ne _ _ _ _ (fun hh => hpeer r rfl hh.symm)]
            exact g3
          · simp at hu
        · have hcf : r.commit = false := by simpa using hc
          simp only [hcf, Bool.false_eq_true, if_false, Option.some.injEq] at hu
          subst hu
          exact put_rep_gather_local_bound pg0 pg pg1 rep_tid _ h hw ha hi hcb g1 g2 g3
  | op_modify_commit lc =>
    simp only [rep_step, write_commit_finish] at h
    split at h
    · rename_i hmem
      have hlc : lc ≤ pg0.info.last_complete := hcb _ hmem rfl
      simp only [op_modify_commit] at h
      cases hf : map_find pg.rep_gather rep_tid with
      | none =>
        rw [hf] at h
        simp only [Option.some.injEq] at h
        subst h
        refine ⟨hw, ha, hi, ?_, ?_⟩
        · intro cb hm hc
          exact hcb cb (List.mem_of_mem_erase hm) hc
        · intro g hg
          exact hlive g hg
      | some g =>
        rw [hf] at h
        simp only at h
        obtain ⟨g1, g2, g3⟩ := hlive g hf
        split at h
        · refine put_rep_gather_local_bound pg0 _ pg1 rep_tid _ h hw ha hi ?_ g1 g2 ?_
          · intro cb hm hc
            exact hcb cb (List.mem_of_mem_erase hm) hc
          · simp only [map_get]
            rw [hw, map_find_set_same]
            exact hlc
        · simp at h
    · simp at h

/-- A run of events from peers and from the local node keeps `local_bound_inv`. -/
theorem rep_run_local_bound (pg0 : ReplicatedPG) (rep_tid : Nat) (evs : List RepEvent)
    (pg pg1 : ReplicatedPG) (hinv : local_bound_inv pg0 rep_tid pg)
    (hpeer : from_peers pg0.whoami evs)
    (h : rep_run rep_tid pg evs = some pg1) : local_bound_inv pg0 rep_tid pg1 := by
  induction evs generalizing pg with
  | nil =>
    simp only [rep_run, Option.some.injEq] at h
    subst h
    exact hinv
  | cons e es ih =>
    simp only [rep_run] at h
    split at h
    · rename_i pg2 hstep
      refine ih pg2 (rep_step_local_bound pg0 pg pg2 rep_tid e hinv ?_ hstep) ?_ h
      · intro r hr
        exact hpeer r (by rw [hr]; exact List.mem_cons_self _ _)
      · intro r hr
        exact hpeer r (List.mem_cons_of_mem _ hr)
    · simp at h
/-- An event on a live gather hands `put_rep_gather` the gather with the values
`recorded_after` the event, on a PG that differs from the one before in the pending commit
callbacks at most; the commit event is the firing of a callback the store holds. -/
theorem rep_step_handoff (pg pg1 : ReplicatedPG) (rep_tid : Nat) (e : RepEvent) (g : RepGather)
    (hg : map_find pg.rep_gather rep_tid = some g) (h : rep_step rep_tid pg e = some pg1) :
    ∃ pga ga, put_rep_gather pga ga = some pg1 ∧
      pga.whoami = pg.whoami ∧ pga.acting = pg.acting ∧ pga.info = pg.info ∧
      pga.peers_complete_thru = pg.peers_complete_thru ∧
      ga.rep_tid = g.rep_tid ∧
      ga.pg_complete_thru = recorded_after pg.whoami g.pg_complete_thru e ∧
      (∀ lc, e = RepEvent.op_modify_commit lc →
        ({ rep_tid := rep_tid, pg_last_complete := lc } : C_OSD_WriteCommit) ∈
          pg.store.oncommit) := by
  cases e with
  | local_ack =>
    simp only [rep_step, hg, local_ack] at h
    split at h
    · exact ⟨pg, _, h, rfl, rfl, rfl, rfl, rfl, rfl, fun lc hh => by cases hh⟩
    · simp at h
  | reply r =>
    simp only [rep_step, op_reply, hg, repop_ack] at h
    split at h
    · simp at h
    · rename_i gu hu
      unfold repop_ack_update at hu
      by_cases hc : r.commit = true
      · simp only [hc, if_true] at hu
        split at hu
        · simp only [Option.some.injEq] at hu
          subst hu
          refine ⟨pg, _, h, rfl, rfl, rfl, rfl, rfl, ?_, fun lc hh => by cases hh⟩
          simp only [recorded_after, hc, if_true]
        · simp at hu
      · have hcf : r.commit = false := by simpa using hc
        simp only [hcf, Bool.false_eq_true, if_false, Option.some.injEq] at hu
        subst hu
        refine ⟨pg, _, h, rfl, rfl, rfl, rfl, rfl, ?_, fun lc hh => by cases hh⟩
        simp only [recorded_after, hcf, Bool.false_eq_true, if_false]
  | op_modify_commit lc =>
    simp only [rep_step, write_commit_finish] at h
    split at h
    · rename_i hmem
      simp only [op_modify_commit, hg] at h
      split at h
      · refine ⟨_, _, h, rfl, rfl, rfl, rfl, rfl, rfl, ?_⟩
        intro lc1 hh
        simp only [RepEvent.op_modify_commit.injEq] at hh
        rw [← hh]
        exact hmem
      · simp at h
    · simp at h

/-- C10. When `put_rep_gather` deletes a gather, `peers_complete_thru` becomes
`max old m`, where `m` is the minimum over the members of `acting` of the gather's recorded
`pg_complete_thru` (a member with no recorded value counting as zero), and
`peers_complete_thru` never decreases. The loop starts from the local `info.last_complete`,
which does not show in the result as long as the value recorded for the local node is at
most `info.last_complete` and the local node is in `acting` (first part, for every call of
`put_rep_gather`). That holds at every call on every run of a gather made by
`new_rep_gather`: the value for the local node is the snapshot of `info.last_complete` the
gather took when it was made, handed to the store by `apply_repop` and back by the commit
callback (second part, for every sequence of events from peers and the local node followed
by one more event). -/
theorem put_rep_gather_peers_complete_thru :
    (∀ (pg pg1 : ReplicatedPG) (g : RepGather), put_rep_gather pg g = some pg1 →
      pg.peers_complete_thru ≤ pg1.peers_complete_thru ∧
      (map_find pg1.rep_gather g.rep_tid ≠ none →
        pg1.peers_complete_thru = pg.peers_complete_thru) ∧
      (map_find pg1.rep_gather g.rep_tid = none → pg.whoami ∈ pg.acting →
        map_get g.pg_complete_thru pg.whoami eversion_t.zero ≤ pg.info.last_complete →
        ∃ m, spec_min_complete_thru g.pg_complete_thru pg.acting = some m ∧
          pg1.peers_complete_thru = max pg.peers_complete_thru m)) ∧
    (∀ (pg : ReplicatedPG) (op : MOSDOp) (evs : List RepEvent) (e : RepEvent)
        (pga pgb : ReplicatedPG) (g : RepGather),
      pg.whoami ∈ pg.acting →
      (∀ cb ∈ pg.store.oncommit, cb.rep_tid ≠ op.rep_tid) →
      from_peers pg.whoami (evs ++ [e]) →
      rep_run op.rep_tid (new_rep_gather pg op).1 evs = some pga →
      map_find pga.rep_gather op.rep_tid = some g →
      rep_step op.rep_tid pga e = some pgb →
      map_get (recorded_after pga.whoami g.pg_complete_thru e) pga.whoami eversion_t.zero ≤
        pga.info.last_complete ∧
      pga.peers_complete_thru ≤ pgb.peers_complete_thru ∧
      (map_find pgb.rep_gather op.rep_tid ≠ none →
        pgb.peers_complete_thru = pga.peers_complete_thru) ∧
      (map_find pgb.rep_gather op.rep_tid = none →
        ∃ m, spec_min_complete_thru (recorded_after pga.whoami g.pg_complete_thru e)
            pga.acting = some m ∧
          pgb.peers_complete_thru = max pga.peers_complete_thru m)) := by
  constructor
  · intro pg pg1 g h
    obtain ⟨h1, h2, -⟩ := put_rep_gather_pct_min pg pg1 g h
    exact ⟨h1, h2, fun hdel hme hloc => put_rep_gather_pct_formula pg pg1 g h hme hloc hdel⟩
  · intro pg op evs e pga pgb g hme hfresh hpeer hrun hg hstep
    have hinv := rep_run_local_bound pg op.rep_tid evs _ pga
      (new_rep_gather_local_bound pg op hfresh)
      (fun r hr => hpeer r (List.mem_append_left _ hr)) hrun
    obtain ⟨hw, ha, hi, hcb, hlive⟩ := hinv
    obtain ⟨g1, -, g3⟩ := hlive g hg
    obtain ⟨pgx, gx, hput, x1, x2, x3, x4, x5, x6, x7⟩ :=
      rep_step_handoff pga pgb op.rep_tid e g hg hstep
    have hloc : map_get (recorded_after pga.whoami g.pg_complete_thru e) pga.whoami
        eversion_t.zero ≤ pga.info.last_complete := by
      rw [hi]
      cases e with
      | local_ack =>
        simp only [recorded_after]
        rw [hw]
        exact g3
      | reply r =>
        have hsrc : r.source ≠ pg.whoami :=
          hpeer r (List.mem_append_right _ (List.mem_singleton.2 rfl))
        simp only [recorded_after]
        split
        · simp only [map_get]
          rw [hw, map_find_set_ne _ _ _ _ (fun hh => hsrc hh.symm)]
          exact g3
        · rw [hw]
          exact g3
      | op_modify_commit lc =>
        simp only [recorded_after, map_get]
        rw [map_find_set_same]
        exact hcb _ (x7 lc rfl) rfl
    have htid : gx.rep_tid = op.rep_tid := x5.trans g1
    obtain ⟨h1, h2, -⟩ := put_rep_gather_pct_min pgx pgb gx hput
    rw [x4] at h1 h2
    rw [htid] at h2
    refine ⟨hloc, h1, h2, ?_⟩
    intro hdel
    have hf := put_rep_gather_pct_formula pgx pgb gx hput
      (by rw [x1, x2, hw, ha]; exact hme)
      (by rw [x6, x1, x3]; exact hloc)
      (by rw [htid]; exact hdel)
    rw [x6, x2, x4] at hf
    exact hf

/-- C10 on the sample write: after the local ack and the ack and commit of osd 1, the commit
callback of the local store deletes the gather; both members of `acting = [0, 1]` are
recorded at (5, 1), and `peers_complete_thru` goes from zero to (5, 1). -/
theorem put_rep_gather_peers_complete_thru_witness :
    sample_pg.whoami ∈ sample_pg.acting ∧
    (∀ cb ∈ sample_pg.store.oncommit, cb.rep_tid ≠ sample_op.rep_tid) ∧
    from_peers sample_pg.whoami sample_events ∧
    rep_run sample_op.rep_tid (new_rep_gather sample_pg sample_op).1
      [RepEvent.local_ack, RepEvent.reply (sample_reply false),
       RepEvent.reply (sample_reply true)] = some sample_pg_peer_committed ∧
    rep_step sample_op.rep_tid sample_pg_peer_committed
      (RepEvent.op_modify_commit { epoch := 5, version := 1 }) = some sample_pg_replied ∧
    map_find sample_pg_replied.rep_gather sample_op.rep_tid = none ∧
    spec_min_complete_thru
      [(0, { epoch := 5, version := 1 }), (1, { epoch := 5, version := 1 })]
      sample_pg_peer_committed.acting = some { epoch := 5, version := 1 } ∧
    sample_pg_replied.peers_complete_thru = { epoch := 5, version := 1 } ∧
    (sample_pg_peer_committed.peers_complete_thru ≤ sample_pg_replied.peers_complete_thru ∧
      ∃ m, spec_min_complete_thru
          (recorded_after sample_pg_peer_committed.whoami
            [(1, { epoch := 5, version := 1 })]
            (RepEvent.op_modify_commit { epoch := 5, version := 1 }))
          sample_pg_peer_committed.acting = some m ∧
        sample_pg_replied.peers_complete_thru =
          max sample_pg_peer_committed.peers_complete_thru m) :=
  have h := put_rep_gather_peers_complete_thru.2 sample_pg sample_op
    [RepEvent.local_ack, RepEvent.reply (sample_reply false), RepEvent.reply (sample_reply true)]
    (RepEvent.op_modify_commit { epoch := 5, version := 1 })
    sample_pg_peer_committed sample_pg_replied
    { RepGather.new sample_op 1 eversion_t.zero { epoch := 5, version := 1 } with
      op := { sample_op with data := [] }, applied := true, sent_ack := true,
      waitfor_commit := [0], osds := [0, 1],
      pg_complete_thru := [(1, { epoch := 5, version := 1 })] }
    (by decide) (by simp [sample_pg]) sample_events_from_peers (by decide) (by decide)
    (by decide)
  ⟨by decide, by simp [sample_pg], sample_events_from_peers, by decide, by decide, by decide,
   by decide, by decide, h.2.1, h.2.2.2 (by decide)⟩

end Ceph
